import Mathlib

/-!
# Polynomial engine and worker of the phase-diagram program

Shallow embedding of `src/polynomial.cpp` (class `Polynomial`),
`src/twovarspolynomial.cpp` (class `TwoVarsPolynomial`) and `src/worker.cpp`
(class `Worker`: `getPhases`, the stability tests and `calculate`).

Modelling conventions
* `double` is an arbitrary linearly ordered field `K` (exact arithmetic); every
  definition is computable and can be run at `K := ℚ`.  General theorems are
  stated for every such `K`, in particular `ℝ`; runs on concrete inputs are
  carried out at `ℚ`.
* `int d = r.degree() - p2.degree()` is the integer difference of the degrees
  (degrees stay far below `2^31`).
* `std::vector<double> coeffs` is a `List K` (index = power of the variable),
  `std::size_t deg` is a `Nat`; the decrement `--deg` wraps at zero as a
  64-bit unsigned decrement does.
* The private member `sturmSystem` is only a scratch buffer of `roots()`; it
  is passed explicitly instead of being stored in the object.
* Functions of `<cmath>` that are not field operations (`sqrt`, `cbrt`,
  `acos`, `cos`, `pow` with a fractional exponent, `M_PI`) are parameters,
  bundled in `Libm`.  `pow(x, 2)` and `pow(x, 3)` are `x ^ 2` and `x ^ 3`.
* Loops whose termination is not structural take a fuel argument and return
  `Option`; `none` means that the fuel ran out.
* The grid `data` of the worker is a list of columns; `calculate()` returns a
  `Run`, which records the integer division by zero of the progress expression
  `100 * i / (data.size() - 1)` on a grid of width 1, and the list of the
  progress values it emits.  The Qt signals carry no other state.
-/

set_option linter.unusedSectionVars false

namespace PhaseDiagram

variable {K : Type} [LinearOrderedField K]

/-- Threshold `zeroEps = 1e-10`: a coefficient of smaller magnitude counts as zero. -/
def zeroEps : K := 1 / 10 ^ 10

/-- Tolerance `rootEps = 1e-5` of the numerical root search. -/
def rootEps : K := 1 / 10 ^ 5

/-- The functions of `<cmath>` used by the solver that are not field operations. -/
structure Libm (K : Type) where
  sqrt : K → K
  cbrt : K → K
  acos : K → K
  cos : K → K
  pow : K → K → K
  pi : K

/-- Data members of class `Polynomial`: the coefficient vector and the cached degree. -/
structure Polynomial (K : Type) where
  coeffs : List K
  deg : Nat
deriving DecidableEq

/-- The decrement `--deg` on `std::size_t` (64 bit): zero wraps around. -/
def decSize (n : Nat) : Nat := if n = 0 then 2 ^ 64 - 1 else n - 1

/-- A vector of `n` value-initialised doubles. -/
def zeros (n : Nat) : List K := List.replicate n 0

/-- Writing the sequence `src` over the beginning of the buffer `dst`
(`std::copy`, unary `std::transform`).  The source never exceeds the buffer
for objects with `deg + 1 = coeffs.size()`. -/
def overwrite (src dst : List K) : List K := src ++ dst.drop src.length

/-- Binary `std::transform(src.begin, src.end, dst.begin, dst.begin, plus)`:
`dst[i] = src[i] + dst[i]` for every index of `src`; the rest of `dst` stays. -/
def transformPlus : List K → List K → List K
  | [], d => d
  | _ :: _, [] => []
  | s :: ss, d :: ds => (s + d) :: transformPlus ss ds

/-- `coeffs.resize(n)`: truncate, or pad with zeros. -/
def resize (c : List K) (n : Nat) : List K := c.take n ++ zeros (n - c.length)

namespace Polynomial

/-- Constructor `Polynomial(const std::initializer_list<double>&)`. -/
def ofList (l : List K) : Polynomial K :=
  let c := if l.isEmpty then zeros 1 else l
  ⟨c, c.length - 1⟩

/-- Constructor `Polynomial(const size_t degree)`. -/
def ofDegree (degree : Nat) : Polynomial K := ⟨zeros (degree + 1), degree⟩

/-- Default constructor `Polynomial()`. -/
def empty : Polynomial K := ⟨zeros 1, 0⟩

/-- Accessor `degree()`. -/
def degree (p : Polynomial K) : Nat := p.deg

/-- Read access `operator[]`. -/
def coeff (p : Polynomial K) (i : Nat) : K := p.coeffs.getD i 0

/-- Write access through `operator[]`: `p[i] = v`. -/
def setCoeff (p : Polynomial K) (i : Nat) (v : K) : Polynomial K := ⟨p.coeffs.set i v, p.deg⟩

/-- The loop of `correctDegree` on the reversed coefficient vector (head = `coeffs.back()`):
while more than one coefficient is left and the last one is below `zeroEps`,
pop it and decrement the degree. -/
def stripBack : List K → Nat → List K × Nat
  | a :: b :: rest, d =>
    if |a| < zeroEps then stripBack (b :: rest) (decSize d) else (a :: b :: rest, d)
  | l, d => (l, d)

/-- `Polynomial::correctDegree`. -/
def correctDegree (p : Polynomial K) : Polynomial K :=
  let r := stripBack p.coeffs.reverse p.deg
  ⟨r.1.reverse, r.2⟩

/-- The loop `for i = 1 .. size-1: coeffs[i-1] = i * coeffs[i]` followed by `pop_back`,
given the index `i` of the head of the remaining vector. -/
def shiftDown : Nat → List K → List K
  | _, [] => []
  | i, a :: rest => (i : K) * a :: shiftDown (i + 1) rest

/-- `Polynomial::differentiate`. -/
def differentiate (p : Polynomial K) : Polynomial K :=
  if p.deg ≠ 0 then
    correctDegree ⟨shiftDown 1 p.coeffs.tail, decSize p.deg⟩
  else
    ⟨p.coeffs.set 0 0, p.deg⟩

/-- `Polynomial::operator()`: Horner evaluation from the last coefficient down. -/
def eval (p : Polynomial K) (x : K) : K :=
  match p.coeffs.reverse with
  | [] => 0
  | top :: rest => rest.foldl (fun res c => res * x + c) top

/-- Unary `operator-` up to, and without, its final `correctDegree()` call. -/
def negRaw (p : Polynomial K) : Polynomial K :=
  let q : Polynomial K := ofDegree p.deg
  ⟨overwrite (p.coeffs.map fun c => -c) q.coeffs, q.deg⟩

/-- Unary `operator-`. -/
def neg (p : Polynomial K) : Polynomial K := correctDegree (negRaw p)

/-- `operator+(p1, p2)`. -/
def add (p1 p2 : Polynomial K) : Polynomial K :=
  let p : Polynomial K := ofDegree (max p1.coeffs.length p2.coeffs.length - 1)
  let c := overwrite p1.coeffs p.coeffs
  correctDegree ⟨transformPlus p2.coeffs c, p.deg⟩

/-- `operator-(p1, p2)`, which is `(-p2) + p1`. -/
def sub (p1 p2 : Polynomial K) : Polynomial K := add (neg p2) p1

/-- The double loop of `operator*`: `p[i + j] += p1[i] * p2[j]`. -/
def mulLoop (a b acc : List K) : List K :=
  (List.range a.length).foldl (fun acc i =>
    (List.range b.length).foldl (fun acc j =>
      acc.set (i + j) (acc.getD (i + j) 0 + a.getD i 0 * b.getD j 0)) acc) acc

/-- `operator*(p1, p2)` up to, and without, its final `correctDegree()` call. -/
def mulRaw (p1 p2 : Polynomial K) : Polynomial K :=
  let p : Polynomial K := ofDegree (p1.coeffs.length + p2.coeffs.length - 2)
  ⟨mulLoop p1.coeffs p2.coeffs p.coeffs, p.deg⟩

/-- `operator*(p1, p2)`. -/
def mul (p1 p2 : Polynomial K) : Polynomial K := correctDegree (mulRaw p1 p2)

/-- `operator*(polynomial, value)`. -/
def smul (p : Polynomial K) (value : K) : Polynomial K :=
  let q : Polynomial K := ofDegree p.deg
  correctDegree ⟨overwrite (p.coeffs.map fun c => c * value) q.coeffs, q.deg⟩

/-- `operator*(value, polynomial)`. -/
def smulLeft (value : K) (p : Polynomial K) : Polynomial K := smul p value

/-- `operator+=` up to, and without, its final `correctDegree()` call: the vector is
resized, the degree field is not touched. -/
def addAssignRaw (p q : Polynomial K) : Polynomial K :=
  let c := resize p.coeffs (max p.coeffs.length q.coeffs.length)
  ⟨transformPlus q.coeffs c, p.deg⟩

/-- `operator+=`. -/
def addAssign (p q : Polynomial K) : Polynomial K := correctDegree (addAssignRaw p q)

/-- `operator-=`, which is `*this += (-polynomial)`. -/
def subAssign (p q : Polynomial K) : Polynomial K := addAssign p (neg q)

/-- `operator%(p1, p2)`: the loop `while ((d = r.degree() - p2.degree()) >= 0)`.
The fuel bounds the number of iterations. -/
def modLoop : Nat → Polynomial K → Polynomial K → Option (Polynomial K)
  | fuel, r, p2 =>
    let d : Int := (r.deg : Int) - (p2.deg : Int)
    if 0 ≤ d then
      match fuel with
      | 0 => none
      | fuel + 1 =>
        let t : Polynomial K :=
          (ofDegree d.toNat).setCoeff d.toNat (r.coeff r.deg / p2.coeff p2.deg)
        modLoop fuel (subAssign r (mul p2 t)) p2
    else some r

/-- The call `correctDegree()` on `p` discards no nonzero coefficient: every
coefficient it pops is exactly zero. -/
def discardsOnlyZeros (p : Polynomial K) : Bool :=
  (p.coeffs.drop (correctDegree p).coeffs.length).all fun c => decide (c = 0)

/-- No nonzero coefficient is discarded by a degree normalisation during the run of
`operator%` on `r` and `p2`: the condition is imposed on each of the three
`correctDegree()` calls of every iteration (in `p2 * t`, in the unary minus of
`-=`, and in `+=`). -/
def modExact : Nat → Polynomial K → Polynomial K → Bool
  | fuel, r, p2 =>
    let d : Int := (r.deg : Int) - (p2.deg : Int)
    if 0 ≤ d then
      match fuel with
      | 0 => true
      | fuel + 1 =>
        let t : Polynomial K :=
          (ofDegree d.toNat).setCoeff d.toNat (r.coeff r.deg / p2.coeff p2.deg)
        discardsOnlyZeros (mulRaw p2 t) && discardsOnlyZeros (negRaw (mul p2 t)) &&
          discardsOnlyZeros (addAssignRaw r (neg (mul p2 t))) &&
          modExact fuel (subAssign r (mul p2 t)) p2
    else true

/-- `getLinearEquationSolution`. -/
def getLinearEquationSolution (p : Polynomial K) : List K :=
  [-p.coeff 0 / p.coeff 1]

/-- `getQuadraticEquationSolution`. -/
def getQuadraticEquationSolution (M : Libm K) (p : Polynomial K) : List K :=
  let a := p.coeff 2
  let b := p.coeff 1
  let c := p.coeff 0
  let d := b ^ 2 - 4 * a * c
  if |d| < zeroEps then
    [-(1 / 2) * b / a]
  else if 0 < d then
    [1 / 2 * (M.sqrt d - b) / a, -(1 / 2) * (M.sqrt d + b) / a]
  else []

/-- `getCubicEquationSolution` (Cardano). -/
def getCubicEquationSolution (M : Libm K) (p : Polynomial K) : List K :=
  let a := p.coeff 3
  let b := p.coeff 2
  let c := p.coeff 1
  let d := p.coeff 0
  let t0 := b / (3 * a)
  let pp := t0 ^ 2 - c / (3 * a)
  let t1 := pp ^ 3
  let q := t0 ^ 3 - (b * c / (3 * a) - d) / (2 * a)
  let dd := t1 - q ^ 2
  if 0 < dd then
    let f := M.acos (-q / M.sqrt t1)
    (List.range 3).map fun (i : ℕ) => 2 * M.sqrt pp * M.cos ((f + 2 * M.pi * (i : K)) / 3) - t0
  else
    [M.cbrt (M.sqrt (-dd) - q) - M.cbrt (q + M.sqrt (-dd)) - t0]

/-- `getQuarticEquationSolution` (Ferrari). -/
def getQuarticEquationSolution (M : Libm K) (p : Polynomial K) : List K :=
  let b := p.coeff 3 / p.coeff 4
  let c := p.coeff 2 / p.coeff 4
  let d := p.coeff 1 / p.coeff 4
  let e := p.coeff 0 / p.coeff 4
  let resolvent : Polynomial K :=
    ofList [e * (4 * c - b ^ 2) - d ^ 2, b * d - 4 * e, -c, 1]
  let temp := getCubicEquationSolution M resolvent
  let y := temp.getD 0 0
  let t0 := (b / 2) ^ 2 - c + y
  let quadratic : Polynomial K := (ofDegree 2).setCoeff 2 1
  if |t0| < zeroEps then
    let q1 := (quadratic.setCoeff 1 (b / 2)).setCoeff 0 (y / 2 - M.sqrt ((y / 2) ^ 2 - e))
    let q2 := q1.setCoeff 0 (y / 2 + M.sqrt ((y / 2) ^ 2 - e))
    getQuadraticEquationSolution M q1 ++ getQuadraticEquationSolution M q2
  else if 0 < t0 then
    let s := M.sqrt t0
    let t1 := b * y / 2 - d
    let q1 := (quadratic.setCoeff 1 (b / 2 - s)).setCoeff 0 (1 / 2 * (y - t1 / s))
    let q2 := (q1.setCoeff 1 (b / 2 + s)).setCoeff 0 (1 / 2 * (y + t1 / s))
    getQuadraticEquationSolution M q1 ++ getQuadraticEquationSolution M q2
  else []

/-- Value of `*std::min_element(begin, end)`. -/
def minElement : List K → K
  | [] => 0
  | a :: l => l.foldl min a

/-- `getHighRootsLimit`: `0` if the sign-normalised polynomial has no negative
coefficient, else `1 + pow(-min / p[deg], 1.0 / index)`, where `index` is the
distance of the last negative coefficient from the end of the vector. -/
def getHighRootsLimit (M : Libm K) (p0 : Polynomial K) : K :=
  let p := if p0.coeff p0.deg < 0 then neg p0 else p0
  match p.coeffs.reverse.findIdx? (fun v => decide (v < 0)) with
  | none => 0
  | some index => 1 + M.pow (-(minElement p.coeffs) / p.coeff p.deg) (1 / (index : K))

/-- The loop `for i = 0 .. deg: if (i % 2) coeffs[i] *= -1` of `getLowRootsLimit`. -/
def flipOdd (p : Polynomial K) : Polynomial K :=
  ⟨p.coeffs.mapIdx fun i c => if i ≤ p.deg ∧ i % 2 = 1 then c * -1 else c, p.deg⟩

/-- `getLowRootsLimit`: the negated upper limit of `P(-x)`. -/
def getLowRootsLimit (M : Libm K) (p : Polynomial K) : K :=
  -1 * getHighRootsLimit M (flipOdd p)

/-- The `do ... while (r.degree())` loop of `createSturmSystem`. -/
def sturmLoop : Nat → List (Polynomial K) → Option (List (Polynomial K))
  | 0, _ => none
  | fuel + 1, s =>
    match modLoop (fuel + 1) (s.getD (s.length - 2) empty) (s.getLastD empty) with
    | none => none
    | some r =>
      let s1 := s ++ [neg r]
      if r.deg ≠ 0 then sturmLoop fuel s1 else some s1

/-- `createSturmSystem`: the polynomial, its derivative, then negated remainders. -/
def createSturmSystem (fuel : Nat) (p : Polynomial K) : Option (List (Polynomial K)) :=
  sturmLoop fuel [p, differentiate p]

/-- Number of indices `i >= 1` with `v[i-1] * v[i] < 0`. -/
def signChanges : List K → Nat
  | a :: b :: rest => (if a * b < 0 then 1 else 0) + signChanges (b :: rest)
  | _ => 0

/-- `findRootBisection`. The fuel bounds the number of halvings. -/
def bisectLoop (p : Polynomial K) : Nat → K → K → K → K → Option K
  | fuel, lX, lY, rX, rY =>
    if rootEps < |rX - lX| then
      if |lY| < zeroEps then some lX
      else if |rY| < zeroEps then some rX
      else
        match fuel with
        | 0 => none
        | fuel + 1 =>
          let mX := (lX + rX) / 2
          let mY := p.eval mX
          if lY * mY ≤ 0 then bisectLoop p fuel lX lY mX mY
          else bisectLoop p fuel mX mY rX rY
    else some lX

/-- `findRootBisection(lX, rX)`. -/
def findRootBisection (p : Polynomial K) (fuel : Nat) (lX rX : K) : Option K :=
  bisectLoop p fuel lX (p.eval lX) rX (p.eval rX)

/-- `findRootNewton(l, r, x, maxN, dP)`: `some x` is the return value `true`
with the refined `x`, `none` is the return value `false`. -/
def findRootNewton (p : Polynomial K) (l r : K) (dP : Polynomial K) : Nat → K → Option K
  | maxN, x =>
    let val := dP.eval x
    if |val| < zeroEps ∨ x < l ∨ r < x then none
    else
      match maxN with
      | 0 => none
      | maxN + 1 =>
        let f := p.eval x / val
        if rootEps < |f| then findRootNewton p l r dP maxN (x - f) else some (x - f)

/-- `searchRoots(l, r, vec)`: the values appended to `vec`.  The fuel bounds the
recursion depth and the bisection fallback. -/
def searchRoots (p : Polynomial K) (sturmSystem : List (Polynomial K)) :
    Nat → K → K → Option (List K)
  | fuel, l, r =>
    let m := (l + r) / 2
    if r - l < rootEps then some [m]
    else
      let leftChangesCount := signChanges (sturmSystem.map fun s => s.eval l)
      let rightChangesCount := signChanges (sturmSystem.map fun s => s.eval r)
      let rootsCount : Int := (leftChangesCount : Int) - (rightChangesCount : Int)
      if 1 < rootsCount then
        match fuel with
        | 0 => none
        | fuel + 1 =>
          match searchRoots p sturmSystem fuel l m, searchRoots p sturmSystem fuel m r with
          | some a, some b => some (a ++ b)
          | _, _ => none
      else if rootsCount = 1 then
        let lVal := p.eval l
        let secondDerivative := differentiate (differentiate p)
        let x :=
          if 0 < secondDerivative.eval m then (if 0 < lVal then l else r)
          else (if lVal < 0 then l else r)
        match findRootNewton p l r (sturmSystem.getD 1 empty) 20 x with
        | some x1 => some [x1]
        | none => (findRootBisection p fuel l r).map fun x2 => [x2]
      else some []

/-- `Polynomial::roots`. -/
def roots (M : Libm K) (fuel : Nat) (p0 : Polynomial K) : Option (List K) :=
  let p := correctDegree p0
  match p.deg with
  | 0 => some [0]
  | 1 => some (getLinearEquationSolution p)
  | 2 => some (getQuadraticEquationSolution M p)
  | 3 => some (getCubicEquationSolution M p)
  | 4 => some (getQuarticEquationSolution M p)
  | _ =>
    let minX := getLowRootsLimit M p
    let maxX := getHighRootsLimit M p
    match createSturmSystem fuel p with
    | none => none
    | some s => searchRoots p s fuel minX maxX

/-- Number of values that `searchRoots` appends on `[l, r]`, following its
recursion without refining any root. -/
def searchCount (sturmSystem : List (Polynomial K)) : Nat → K → K → Nat
  | fuel, l, r =>
    let m := (l + r) / 2
    if r - l < rootEps then 1
    else
      let leftChangesCount := signChanges (sturmSystem.map fun s => s.eval l)
      let rightChangesCount := signChanges (sturmSystem.map fun s => s.eval r)
      let rootsCount : Int := (leftChangesCount : Int) - (rightChangesCount : Int)
      if 1 < rootsCount then
        match fuel with
        | 0 => 0
        | fuel + 1 => searchCount sturmSystem fuel l m + searchCount sturmSystem fuel m r
      else if rootsCount = 1 then 1
      else 0

/-- Class invariant established by every constructor: the degree field is the
number of stored coefficients minus one. -/
def WF (p : Polynomial K) : Prop := p.coeffs.length = p.deg + 1

/-- A polynomial is normalized when the class invariant holds and the leading
coefficient is not negligible, unless the degree is zero. -/
def Normalized (p : Polynomial K) : Prop :=
  p.coeffs.length = p.deg + 1 ∧ (p.deg = 0 ∨ zeroEps ≤ |p.coeff p.deg|)

/-- Every stored coefficient is exactly zero or at least `1e-10` in absolute value,
so that a degree normalisation can only pop exact zeros. -/
def Clean (p : Polynomial K) : Prop := ∀ a ∈ p.coeffs, a = 0 ∨ zeroEps ≤ |a|

instance decidableWF (p : Polynomial K) : Decidable p.WF :=
  inferInstanceAs (Decidable (p.coeffs.length = p.deg + 1))

instance decidableClean (p : Polynomial K) : Decidable p.Clean :=
  inferInstanceAs (Decidable (∀ a ∈ p.coeffs, a = 0 ∨ zeroEps ≤ |a|))

/-- The value `sum of c[i] * x ^ i` of a coefficient list. -/
def sumForm (c : List K) (x : K) : K :=
  ∑ i in Finset.range c.length, c.getD i 0 * x ^ i

/-- Every member from the third on is the negated remainder (`operator%`) of its two
predecessors and has a smaller degree than its predecessor. -/
def IsSturmChain (s : List (Polynomial K)) : Prop :=
  ∀ k, 2 ≤ k → k < s.length →
    ∃ r, (∃ N, ∀ fuel, N ≤ fuel →
        modLoop fuel (s.getD (k - 2) empty) (s.getD (k - 1) empty) = some r) ∧
      s.getD k empty = neg r ∧ (s.getD k empty).deg < (s.getD (k - 1) empty).deg

/-- Exactness of the `<cmath>` functions, as far as the closed-form solvers and
the root bound rely on it (real arithmetic without rounding). -/
structure Exact (M : Libm K) : Prop where
  sqrt_nonneg : ∀ x, 0 ≤ M.sqrt x
  sqrt_sq : ∀ x, 0 ≤ x → M.sqrt x ^ 2 = x
  cbrt_cube : ∀ x, M.cbrt x ^ 3 = x
  cos_acos : ∀ x, -1 ≤ x → x ≤ 1 → M.cos (M.acos x) = x
  cos_three : ∀ t, M.cos (3 * t) = 4 * M.cos t ^ 3 - 3 * M.cos t
  cos_period : ∀ t, M.cos (t + 2 * M.pi) = M.cos t
  pow_root : ∀ x (k : ℕ), 0 ≤ x → 0 < k → 0 ≤ M.pow x (1 / (k : K)) ∧ M.pow x (1 / (k : K)) ^ k = x

end Polynomial

/-! # Two-variable polynomials (`src/twovarspolynomial.cpp`) -/

/-- Data members of class `TwoVarsPolynomial`: a polynomial in the outer variable
`y` whose coefficients (slots) are polynomials in the inner variable `x`. -/
structure TwoVarsPolynomial (K : Type) where
  deg : Nat
  coeffs : List (Polynomial K)
deriving DecidableEq

namespace TwoVarsPolynomial

/-- Constructor `TwoVarsPolynomial(std::size_t degree)`: `degree + 1`
default-constructed slots. -/
def ofDegree (degree : Nat) : TwoVarsPolynomial K :=
  ⟨degree, List.replicate (degree + 1) Polynomial.empty⟩

/-- Read access `operator[]`. -/
def slot (t : TwoVarsPolynomial K) (i : Nat) : Polynomial K := t.coeffs.getD i Polynomial.empty

/-- Write access through `operator[]`: `t[i] = p`. -/
def setSlot (t : TwoVarsPolynomial K) (i : Nat) (p : Polynomial K) : TwoVarsPolynomial K :=
  ⟨t.deg, t.coeffs.set i p⟩

/-- The loop `for i = 1 .. size-1: coeffs[i-1] = i * coeffs[i]` followed by `pop_back`,
given the index `i` of the head of the remaining vector; the product is
`operator*(const double&, const Polynomial&)`. -/
def shiftDown : Nat → List (Polynomial K) → List (Polynomial K)
  | _, [] => []
  | i, a :: rest => Polynomial.smulLeft (i : K) a :: shiftDown (i + 1) rest

/-- The loop `while (y--)` of `differentiate`. -/
def diffYLoop : Nat → TwoVarsPolynomial K → TwoVarsPolynomial K
  | 0, t => t
  | y + 1, t => diffYLoop y ⟨decSize t.deg, shiftDown 1 t.coeffs.tail⟩

/-- The loop `while (x--) for (auto &item : coeffs) item.differentiate()`. -/
def diffXLoop : Nat → List (Polynomial K) → List (Polynomial K)
  | 0, c => c
  | x + 1, c => diffXLoop x (c.map Polynomial.differentiate)

/-- `TwoVarsPolynomial::differentiate(x, y)`. -/
def differentiate (t : TwoVarsPolynomial K) (x y : Nat) : TwoVarsPolynomial K :=
  let c := diffXLoop x t.coeffs
  if y ≠ 0 then
    if t.deg ≠ 0 then diffYLoop y ⟨t.deg, c⟩
    else ⟨t.deg, c.set 0 (Polynomial.ofList [0])⟩
  else ⟨t.deg, c⟩

/-- `TwoVarsPolynomial::operator()`: the slots are evaluated at `x` into a
polynomial of degree `coeffs.size() - 1`, which is evaluated at `y`. -/
def eval (t : TwoVarsPolynomial K) (x y : K) : K :=
  let p0 : Polynomial K := Polynomial.ofDegree (decSize t.coeffs.length)
  let p := (List.range t.coeffs.length).foldl
    (fun (p : Polynomial K) (i : ℕ) => p.setCoeff i ((t.slot i).eval x)) p0
  p.eval y

/-- The value at `(x, y)` of the mixed partial derivative `(d/dx)^tx (d/dy)^ty` of
the two-variable polynomial `sum over i, k of c(i,k) * x^k * y^i` with
`c(i,k)` the coefficient `k` of slot `i`: every monomial is differentiated
termwise, `(d/dx)^tx x^k = k (k-1) .. (k-tx+1) x^(k-tx)`. -/
def mixedPartial (t : TwoVarsPolynomial K) (tx ty : ℕ) (x y : K) : K :=
  ∑ i in Finset.range t.coeffs.length,
    ∑ k in Finset.range (t.slot i).coeffs.length,
      (Nat.descFactorial k tx : K) * (Nat.descFactorial i ty : K) * (t.slot i).coeff k
        * x ^ (k - tx) * y ^ (i - ty)

/-- Class invariants of a `TwoVarsPolynomial`: `deg + 1` slots, each satisfying the
invariant of `Polynomial`. -/
def WF (t : TwoVarsPolynomial K) : Prop :=
  t.coeffs.length = t.deg + 1 ∧ ∀ p ∈ t.coeffs, Polynomial.WF p

/-- Every nonzero inner coefficient is at least `1e-10` in absolute value. -/
def Clean (t : TwoVarsPolynomial K) : Prop := ∀ p ∈ t.coeffs, Polynomial.Clean p

instance decidableWF (t : TwoVarsPolynomial K) : Decidable t.WF :=
  inferInstanceAs (Decidable (t.coeffs.length = t.deg + 1 ∧ ∀ p ∈ t.coeffs, Polynomial.WF p))

instance decidableClean (t : TwoVarsPolynomial K) : Decidable t.Clean :=
  inferInstanceAs (Decidable (∀ p ∈ t.coeffs, Polynomial.Clean p))

end TwoVarsPolynomial

/-! # The worker (`src/worker.cpp`) -/

/-- `struct Coefficients`: `a[0..3]`, `b[0..1]`, `d[0..2]`. -/
structure Coefficients (K : Type) where
  a0 : K
  a1 : K
  a2 : K
  a3 : K
  b0 : K
  b1 : K
  d0 : K
  d1 : K
  d2 : K
deriving DecidableEq

/-- Every nonzero model coefficient is at least `1e-10` in absolute value. -/
def Coefficients.NonNegligible (c : Coefficients K) : Prop :=
  ∀ a ∈ [c.a0, c.a1, c.a2, c.a3, c.b0, c.b1, c.d0, c.d1, c.d2], a = 0 ∨ zeroEps ≤ |a|

instance Coefficients.decidableNonNegligible (c : Coefficients K) : Decidable c.NonNegligible :=
  inferInstanceAs (Decidable (∀ a ∈ [c.a0, c.a1, c.a2, c.a3, c.b0, c.b1, c.d0, c.d1, c.d2],
    a = 0 ∨ zeroEps ≤ |a|))

/-- `struct PhaseInfo`: type, potential and the order parameter `n[0]`, `n[1]`. -/
structure PhaseInfo (K : Type) where
  type : Nat
  phi : K
  n0 : K
  n1 : K
deriving DecidableEq

/-- `struct DiagramPoint`. -/
structure DiagramPoint (K : Type) where
  x : K
  y : K
  transition : Bool
  stablest : Int
  phases : List (PhaseInfo K)
deriving DecidableEq

/-- Data members of class `Worker`. -/
structure Worker (K : Type) where
  dX : K
  dY : K
  coeffs : Coefficients K
  data : List (List (DiagramPoint K))
deriving DecidableEq

/-- Outcome of a run of `calculate()`. -/
inductive Run (α : Type) where
  | done : α → Run α
  | outOfFuel : Run α
  | divisionByZero : Run α
deriving DecidableEq

namespace Worker

/-- A value-initialised `DiagramPoint`, as `std::vector::resize` creates it. -/
def blankPoint : DiagramPoint K := ⟨0, 0, false, 0, []⟩

/-- Constructor `Worker(QSize size)`: a grid of `width` columns of `height` points.
The other members are left as given. -/
def ofSize (dX dY : K) (coeffs : Coefficients K) (width height : Nat) : Worker K :=
  ⟨dX, dY, coeffs, List.replicate width (List.replicate height blankPoint)⟩

/-- `setParameters`. -/
def setParameters (w : Worker K) (coefficients : Coefficients K) (stepX stepY : K) : Worker K :=
  ⟨stepX, stepY, coefficients, w.data⟩

/-- `getCoefficients`. -/
def getCoefficients (w : Worker K) : Coefficients K := w.coeffs

/-- The element `data[i][j]`. -/
def cell (data : List (List (DiagramPoint K))) (i j : Nat) : DiagramPoint K :=
  (data.getD i []).getD j blankPoint

/-- Assignment to the element `data[i][j]`. -/
def setCell (data : List (List (DiagramPoint K))) (i j : Nat) (dp : DiagramPoint K) :
    List (List (DiagramPoint K)) :=
  data.set i ((data.getD i []).set j dp)

/-- The polynomial `potentialN` of `isPhaseStableN`: the potential as a function of
the components `N[0]` (inner variable) and `N[1]` (outer variable). -/
def potentialN (c : Coefficients K) : TwoVarsPolynomial K :=
  (((((TwoVarsPolynomial.ofDegree 8).setSlot 8 (Polynomial.ofList [c.a3])).setSlot 6
    (Polynomial.ofList [c.a2, -3 * c.d1, 9 * c.d2 + 4 * c.a3])).setSlot 4
    (Polynomial.ofList [c.a1, -3 * c.d0, 3 * (c.a2 + 3 * c.b1), -5 * c.d1,
      3 * (2 * c.a3 + c.d2)])).setSlot 2
    (Polynomial.ofList [c.a0, -3 * c.b0, 2 * c.a1, -2 * c.d0, 3 * (c.a2 - 2 * c.b1), -c.d1,
      4 * c.a3 - 5 * c.d2])).setSlot 0
    (Polynomial.ofList [0, 0, c.a0, c.b0, c.a1, c.d0, c.a2 + c.b1, c.d1, c.a3 + c.d2])

/-- The polynomial `potentialI` of `isPhaseStableI`: the potential as a function of
the invariants `I[0]` (inner variable) and `I[1]` (outer variable). -/
def potentialI (c : Coefficients K) : TwoVarsPolynomial K :=
  (((TwoVarsPolynomial.ofDegree 2).setSlot 2 (Polynomial.ofList [c.b1, c.d2])).setSlot 1
    (Polynomial.ofList [c.b0, c.d0, c.d1])).setSlot 0
    (Polynomial.ofList [0, c.a0, c.a1, c.a2, c.a3])

/-- The test shared by `isPhaseStableN` and `isPhaseStableI` on the potential `f`:
`some phi` is the return value `true` with the potential stored in `phi`, `none` is
the return value `false`. -/
def stableTest (f : TwoVarsPolynomial K) (u v : K) : Option K :=
  let diffX := f.differentiate 2 0
  let diffY := f.differentiate 0 2
  let diffXY := f.differentiate 1 1
  let first := diffX.eval u v
  if first ≤ 0 ∨ first * diffY.eval u v - diffXY.eval u v ^ 2 ≤ 0 then none
  else some (f.eval u v)

/-- `isPhaseStableN(N, phi)`. -/
def isPhaseStableN (c : Coefficients K) (n0 n1 : K) : Option K :=
  stableTest (potentialN c) n0 n1

/-- `isPhaseStableI(I, phi)`. -/
def isPhaseStableI (c : Coefficients K) (i0 i1 : K) : Option K :=
  stableTest (potentialI c) i0 i1

/-- The loop over the roots of `equation` for phases 2 and 3. -/
def phases23 (c : Coefficients K) : List K → List (PhaseInfo K)
  | [] => []
  | value :: rest =>
    match isPhaseStableN c value 0 with
    | some f => ⟨if value < 0 then 2 else 3, f, value, 0⟩ :: phases23 c rest
    | none => phases23 c rest

/-- The vector `inv` of candidate invariant pairs for phase 4. -/
def phase4Invariants (M : Libm K) (fuel : Nat) (c : Coefficients K) : Option (List (K × K)) :=
  let pB : Polynomial K := Polynomial.ofList [c.d0, 2 * c.d1]
  let pC : Polynomial K := Polynomial.ofList [c.a0, 2 * c.a1, 3 * c.a2, 4 * c.a3]
  if c.d2 = 0 then
    if c.b1 = 0 then
      let equation : Polynomial K := Polynomial.ofList [c.b0, c.d0, c.d1]
      (equation.roots M fuel).map fun solution =>
        solution.filterMap fun value =>
          if zeroEps < |pB.eval value| then some (value, -pC.eval value / pB.eval value)
          else none
    else
      let pE : Polynomial K := Polynomial.ofList [2 * c.b1]
      let pF : Polynomial K := Polynomial.ofList [c.b0, c.d0, c.d1]
      let equation := (pB.mul pF).sub (pC.mul pE)
      (equation.roots M fuel).map fun solution =>
        solution.map fun value => (value, -pF.eval value / pE.eval value)
  else
    let pA : Polynomial K := Polynomial.ofList [c.d2]
    let pD := (pB.mul pB).sub ((Polynomial.smulLeft 4 pA).mul pC)
    let pE : Polynomial K := Polynomial.ofList [2 * c.b1, 2 * c.d2]
    let pF : Polynomial K := Polynomial.ofList [c.b0, c.d0, c.d1]
    let pG := (pB.mul pE).sub ((Polynomial.smulLeft 2 pA).mul pF)
    let equation := ((pE.mul pE).mul pD).sub (pG.mul pG)
    (equation.roots M fuel).map fun solution =>
      solution.filterMap fun value =>
        if 0 ≤ pD.eval value then
          if 0 ≤ pE.eval value * pG.eval value then
            some (value, 1 / 2 * (-pB.eval value + M.sqrt (pD.eval value)) / pA.eval value)
          else
            some (value, 1 / 2 * (-pB.eval value - M.sqrt (pD.eval value)) / pA.eval value)
        else none

/-- The loop `for (auto item : inv)` that turns accepted invariant pairs into
records of type 4. -/
def phases4 (M : Libm K) (fuel : Nat) (c : Coefficients K) :
    List (K × K) → Option (List (PhaseInfo K))
  | [] => some []
  | item :: rest =>
    match phases4 M fuel c rest with
    | none => none
    | some tl =>
      if 0 < item.1 then
        match isPhaseStableI c item.1 item.2 with
        | some f =>
          let eq : Polynomial K := Polynomial.ofList [-1 * item.2, -3 * item.1, 0, 4]
          match eq.roots M fuel with
          | none => none
          | some r =>
            if r.isEmpty then some tl
            else
              let sq := item.1 - r.getD 0 0 ^ 2
              if zeroEps < sq then some (⟨4, f, r.getD 0 0, M.sqrt sq⟩ :: tl)
              else some tl
        | none => some tl
      else some tl

/-- `getPhases`, for the coefficients `c` held in the member `coeffs`. -/
def getPhases (M : Libm K) (fuel : Nat) (c : Coefficients K) : Option (List (PhaseInfo K)) :=
  let info1 : List (PhaseInfo K) := if 0 < c.a0 then [⟨1, 0, 0, 0⟩] else []
  let equation : Polynomial K := Polynomial.ofList [2 * c.a0, 3 * c.b0, 4 * c.a1, 5 * c.d0,
    6 * (c.a2 + c.b1), 7 * c.d1, 8 * (c.a3 + c.d2)]
  match equation.roots M fuel with
  | none => none
  | some solution =>
    match phase4Invariants M fuel c with
    | none => none
    | some inv =>
      match phases4 M fuel c inv with
      | none => none
      | some info4 => some (info1 ++ phases23 c solution ++ info4)

/-- The loop of `std::min_element` with the comparison `first.phi < second.phi`:
`idx` is the position of the head of the remaining range, `best` and `bestPhi`
describe the smallest element found so far. -/
def minElementLoop : List (PhaseInfo K) → Nat → Nat → K → Nat
  | [], _, best, _ => best
  | a :: rest, idx, best, bestPhi =>
    if a.phi < bestPhi then minElementLoop rest (idx + 1) idx a.phi
    else minElementLoop rest (idx + 1) best bestPhi

/-- The value stored in `dp.stablest`: `-1` for an empty vector, else the
position returned by `std::min_element`. -/
def stablestOf (phases : List (PhaseInfo K)) : Int :=
  match phases with
  | [] => -1
  | a :: rest => (minElementLoop rest 1 0 a.phi : Nat)

/-- A `std::bitset<4>` with the bit `type - 1` set for every record. -/
def typeBits (phases : List (PhaseInfo K)) : List Bool :=
  phases.foldl (fun bs item => bs.set (item.type - 1) true) [false, false, false, false]

/-- `std::bitset::count`. -/
def bitCount (bs : List Bool) : Nat := bs.count true

/-- The expression assigned to `data[i][j].transition`. -/
def transitionOf (data : List (List (DiagramPoint K))) (i j : Nat) : Bool :=
  let bs0 := typeBits (cell data i j).phases
  let bs1 := typeBits (cell data (i - 1) j).phases
  let bs2 := typeBits (cell data i (j - 1)).phases
  (decide (1 < bitCount bs0) && decide (1 < bitCount bs1) && decide (bs0 = bs1)
      && decide ((cell data i j).stablest ≠ (cell data (i - 1) j).stablest)) ||
    (decide (1 < bitCount bs0) && decide (1 < bitCount bs2) && decide (bs0 = bs2)
      && decide ((cell data i j).stablest ≠ (cell data i (j - 1)).stablest))

/-- The body of the inner loop of `calculate()` for the point `(i, j)`. -/
def cellStep (M : Libm K) (fuel : Nat) (startY dY : K) (i j : Nat)
    (coeffs : Coefficients K) (data : List (List (DiagramPoint K))) :
    Option (Coefficients K × List (List (DiagramPoint K))) :=
  let coeffs1 : Coefficients K :=
    { coeffs with a0 := startY + (((data.getD i []).length - 1 - j : ℕ) : K) * dY }
  match getPhases M fuel coeffs1 with
  | none => none
  | some phases =>
    let dp : DiagramPoint K :=
      { cell data i j with
        x := coeffs1.b0, y := coeffs1.a0, phases := phases, stablest := stablestOf phases }
    let data1 := setCell data i j dp
    if i ≠ 0 ∧ j ≠ 0 then
      some (coeffs1, setCell data1 i j { dp with transition := transitionOf data1 i j })
    else some (coeffs1, data1)

/-- The inner loop `for j` of `calculate()`, over the remaining row indices. -/
def columnLoop (M : Libm K) (fuel : Nat) (startY dY : K) (i : Nat) :
    List Nat → Coefficients K → List (List (DiagramPoint K)) →
      Option (Coefficients K × List (List (DiagramPoint K)))
  | [], coeffs, data => some (coeffs, data)
  | j :: js, coeffs, data =>
    match cellStep M fuel startY dY i j coeffs data with
    | none => none
    | some (coeffs1, data1) => columnLoop M fuel startY dY i js coeffs1 data1

/-- The outer loop `for i` of `calculate()`, over the remaining column indices; the
list of integers collects the arguments of the signal `processed`. -/
def gridLoop (M : Libm K) (fuel : Nat) (startX startY dX dY : K) :
    List Nat → Coefficients K → List (List (DiagramPoint K)) → List Nat →
      Run (Coefficients K × List (List (DiagramPoint K)) × List Nat)
  | [], coeffs, data, emitted => Run.done (coeffs, data, emitted)
  | i :: is, coeffs, data, emitted =>
    let coeffs1 : Coefficients K := { coeffs with b0 := startX + (i : K) * dX }
    match columnLoop M fuel startY dY i (List.range (data.getD i []).length) coeffs1 data with
    | none => Run.outOfFuel
    | some (coeffs2, data2) =>
      if data2.length - 1 = 0 then Run.divisionByZero
      else
        gridLoop M fuel startX startY dX dY is coeffs2 data2
          (emitted ++ [100 * i / (data2.length - 1)])

/-- `calculate()`: the worker after the run and the emitted progress values; the
signal `finished` follows the last of them. -/
def calculate (M : Libm K) (fuel : Nat) (w : Worker K) : Run (Worker K × List Nat) :=
  let startY := w.coeffs.a0
  let startX := w.coeffs.b0
  match gridLoop M fuel startX startY w.dX w.dY (List.range w.data.length) w.coeffs w.data [] with
  | Run.done (coeffs, data, emitted) =>
    Run.done (⟨w.dX, w.dY, { coeffs with a0 := startY, b0 := startX }, data⟩, emitted)
  | Run.outOfFuel => Run.outOfFuel
  | Run.divisionByZero => Run.divisionByZero

/-- `getStablestPhaseType(point)`. -/
def getStablestPhaseType (w : Worker K) (i j : Nat) : Nat :=
  let dp := cell w.data i j
  if dp.stablest = -1 then 0 else ((dp.phases.getD dp.stablest.toNat ⟨0, 0, 0, 0⟩).type)

/-- Truncation of a real number toward zero. -/
def truncZ [FloorRing K] (x : K) : Int := if 0 ≤ x then ⌊x⌋ else ⌈x⌉

/-- Conversion of a `double` to `int`: the value is truncated toward zero; when the
truncated value cannot be represented in a 32-bit `int` the behaviour is undefined,
which is the result `none`. -/
def castInt [FloorRing K] (x : K) : Option Int :=
  if -(2 : Int) ^ 31 ≤ truncZ x ∧ truncZ x < 2 ^ 31 then some (truncZ x) else none

/-- Number of binary digits of `n`; `fuel` bounds the recursion and `n` itself
suffices. -/
def binaryDigits : Nat → Nat → Nat
  | 0, _ => 0
  | fuel + 1, n => if n = 0 then 0 else binaryDigits fuel (n / 2) + 1

/-- The exponent `e` with `2^e <= x < 2^(e+1)` of a positive rational `x`. -/
def binaryExponent (x : ℚ) : Int :=
  let e0 : Int :=
    (binaryDigits x.num.natAbs x.num.natAbs : Int) - (binaryDigits x.den x.den : Int)
  if x < (2 : ℚ) ^ e0 then e0 - 1 else e0

/-- Rounding to the nearest integer, a tie going to the even neighbour. -/
def roundHalfEven (q : ℚ) : Int :=
  if q - ⌊q⌋ < 1 / 2 then ⌊q⌋
  else if 1 / 2 < q - ⌊q⌋ then ⌊q⌋ + 1
  else if ⌊q⌋ % 2 = 0 then ⌊q⌋ else ⌊q⌋ + 1

/-- The `double` nearest to the rational `x` (IEEE 754 binary64, round to nearest, ties
to even): the result of a `double` operation whose exact value is `x`, and of reading
the decimal `x`. The significand has 53 bits; the exponent is not bounded, so the
function is the format's rounding for `2^-1022 <= |x| < 2^1024`. -/
def roundDouble (x : ℚ) : ℚ :=
  if x = 0 then 0
  else
    (if x < 0 then -1 else 1) * (roundHalfEven (|x| / 2 ^ (binaryExponent |x| - 52)) : ℚ)
      * 2 ^ (binaryExponent |x| - 52)

/-- `getZeroIndexes()`: `int i = -coeffs.b[0] / dX` and
`int j = static_cast<int>(data[0].size()) - 1 + static_cast<int>(coeffs.a[0] / dY)`.
Each quotient is a `double`, the exact quotient rounded by `fl` (`roundDouble` for
binary64, the identity for arithmetic without rounding), and is then truncated by the
conversion to `int`.
The result is `none` where the behaviour is undefined: a quotient by a zero step is
an infinity or a NaN and has no `int` value, `data[0]` does not exist in an empty
grid, a conversion may leave the range of `int` and the signed sum may overflow.
The conversion of the size to `int` wraps modulo `2^32`. -/
def getZeroIndexes [FloorRing K] (fl : K → K) (w : Worker K) : Option (Int × Int) :=
  if w.dX = 0 ∨ w.dY = 0 ∨ w.data = [] then none
  else
    match castInt (fl (-w.coeffs.b0 / w.dX)), castInt (fl (w.coeffs.a0 / w.dY)) with
    | some i, some t =>
      let h : Int := ((((w.data.getD 0 []).length + 2 ^ 31) % 2 ^ 32 : ℕ) : Int) - 2 ^ 31
      if -(2 : Int) ^ 31 ≤ h - 1 ∧ -(2 : Int) ^ 31 ≤ h - 1 + t ∧ h - 1 + t < 2 ^ 31 then
        some (i, h - 1 + t)
      else none
    | _, _ => none

/-- The value of `coeffs.b[0] = startX + i * dX` in `calculate()`, which is stored as
`dp.x` in every point of column `i`, when the product and the sum are each rounded by
`fl`; the conversion of the index `i` to `double` is exact. -/
def columnCoordinate (fl : K → K) (startX dX : K) (i : Nat) : K :=
  fl (startX + fl ((i : K) * dX))

/-- The coefficient set in force while `calculate()` works on the point `(i, j)` of
the worker `w`: `b[0]` and `a[0]` are the coordinates of the point, the other seven
constants are those of `w`. -/
def cellCoeffs (w : Worker K) (i j : Nat) : Coefficients K :=
  { w.coeffs with
    b0 := w.coeffs.b0 + (i : K) * w.dX
    a0 := w.coeffs.a0 + (((w.data.getD i []).length - 1 - j : ℕ) : K) * w.dY }

/-- The set of stable phase types of a point. -/
def typeSet (dp : DiagramPoint K) : Finset Nat := (dp.phases.map PhaseInfo.type).toFinset

/-- The condition of a first-order transition between a point and one neighbour:
each has more than one distinct stable phase type, the sets of types are equal and
the indices of the stablest phase differ. -/
def transitionWith (dp nb : DiagramPoint K) : Prop :=
  1 < (typeSet dp).card ∧ 1 < (typeSet nb).card ∧ typeSet dp = typeSet nb ∧
    dp.stablest ≠ nb.stablest

instance decidableTransitionWith (dp nb : DiagramPoint K) : Decidable (transitionWith dp nb) :=
  inferInstanceAs (Decidable (1 < (typeSet dp).card ∧ 1 < (typeSet nb).card ∧
    typeSet dp = typeSet nb ∧ dp.stablest ≠ nb.stablest))

/-- The record `calculate()` leaves in the point `(i, j)` of `data`, for a run on the
worker `w` with results of `getPhases` obtained within `fuel`. -/
def CellFinal (M : Libm K) (fuel : Nat) (w : Worker K) (data : List (List (DiagramPoint K)))
    (i j : Nat) : Prop :=
  (cell data i j).x = (cellCoeffs w i j).b0 ∧
  (cell data i j).y = (cellCoeffs w i j).a0 ∧
  getPhases M fuel (cellCoeffs w i j) = some (cell data i j).phases ∧
  (cell data i j).stablest = stablestOf (cell data i j).phases ∧
  (cell data i j).transition =
    if i ≠ 0 ∧ j ≠ 0 then transitionOf data i j else (cell w.data i j).transition

/-- Loop invariant of `calculate()` before the point `(i, j)` is processed: the grid
has the shape it had in `w`, the points that precede `(i, j)` in the order of the
loops hold their final records, the other points are untouched. -/
def LoopInv (M : Libm K) (fuel : Nat) (w : Worker K) (data : List (List (DiagramPoint K)))
    (i j : Nat) : Prop :=
  data.length = w.data.length ∧
  (∀ k, (data.getD k []).length = (w.data.getD k []).length) ∧
  (∀ a b, a < i ∨ (a = i ∧ b < j) → a < w.data.length → b < (w.data.getD a []).length →
    CellFinal M fuel w data a b) ∧
  (∀ a b, ¬ (a < i ∨ (a = i ∧ b < j)) → cell data a b = cell w.data a b)

end Worker

/-! # The phase dialog (`src/phasesinfodialog.cpp`) -/

namespace PhasesInfoDialog

/-- `getDomens(n, phaseType)`: the order parameter `n` followed by the order
parameters of the symmetry-related domains. -/
def getDomens (M : Libm K) (n : K × K) (phaseType : Nat) : List (K × K) :=
  let res : List (K × K) := [n]
  if phaseType = 2 ∨ phaseType = 3 then
    res ++ [(-(1 / 2) * n.1, 1 / 2 * M.sqrt 3 * n.1), (-(1 / 2) * n.1, -(1 / 2) * M.sqrt 3 * n.1)]
  else if phaseType = 4 then
    let res3 := res ++ [(-(1 / 2) * (n.1 - M.sqrt 3 * n.2), 1 / 2 * (n.2 + M.sqrt 3 * n.1)),
      (-(1 / 2) * (n.1 + M.sqrt 3 * n.2), 1 / 2 * (n.2 - M.sqrt 3 * n.1))]
    res3 ++ (res3.take 3).map fun i => (i.1, -i.2)
  else res

end PhasesInfoDialog

/-! # A concrete `<cmath>` on the rationals -/

/-- The natural number whose `k`-th power is `n`, or `0` if there is none. -/
def natRoot (k n : Nat) : Nat := ((List.range (n + 1)).find? (fun r => r ^ k = n)).getD 0

/-- A square root on `ℚ`, exact on the squares of rationals. -/
def ratSqrt (q : ℚ) : ℚ := (natRoot 2 q.num.toNat : ℚ) / (natRoot 2 q.den : ℚ)

/-- A cube root on `ℚ`, exact on the cubes of rationals. -/
def ratCbrt (q : ℚ) : ℚ :=
  (if q < 0 then -1 else 1) * (natRoot 3 q.num.natAbs : ℚ) / (natRoot 3 q.den : ℚ)

/-- Functions standing for `<cmath>` on `ℚ`, to run the code on inputs whose square
and cube roots are rational. -/
def ratLibm : Libm ℚ := ⟨ratSqrt, ratCbrt, fun x => x, fun x => x, fun x _ => x, 3⟩

namespace Polynomial

/-! ## Degree normalisation -/

theorem zeroEps_pos : (0 : K) < zeroEps := by
  unfold zeroEps; positivity

theorem rootEps_pos : (0 : K) < rootEps := by
  unfold rootEps; positivity

theorem stripBack_length (l : List K) (d : Nat) (h : l.length = d + 1) :
    (stripBack l d).1.length = (stripBack l d).2 + 1 := by
  induction l generalizing d with
  | nil => simp at h
  | cons a t ih =>
    cases t with
    | nil => simpa [stripBack] using h
    | cons b rest =>
      rw [stripBack]
      split_ifs with ha
      · apply ih
        simp only [List.length_cons] at h ⊢
        have hd : d ≠ 0 := by omega
        simp only [decSize, hd, if_false]
        omega
      · exact h

theorem stripBack_head (l : List K) (d : Nat) :
    (stripBack l d).1.length ≤ 1 ∨ zeroEps ≤ |(stripBack l d).1.headD 0| := by
  induction l generalizing d with
  | nil => left; simp [stripBack]
  | cons a t ih =>
    cases t with
    | nil => left; simp [stripBack]
    | cons b rest =>
      rw [stripBack]
      split_ifs with ha
      · exact ih _
      · right; simpa using not_lt.mp ha

theorem stripBack_ne_nil (l : List K) (d : Nat) (h : l ≠ []) : (stripBack l d).1 ≠ [] := by
  induction l generalizing d with
  | nil => exact absurd rfl h
  | cons a t ih =>
    cases t with
    | nil => simp [stripBack]
    | cons b rest =>
      rw [stripBack]
      split_ifs with ha
      · exact ih _ (by simp)
      · simp

theorem getD_reverse_head (l : List K) :
    l.getD (l.length - 1) 0 = l.reverse.headD 0 := by
  induction l using List.reverseRecOn with
  | nil => simp
  | append_singleton t a _ => simp [List.getD_eq_getElem?_getD]

theorem correctDegree_normalized (p : Polynomial K) (h : WF p) : Normalized (correctDegree p) := by
  have hl : p.coeffs.reverse.length = p.deg + 1 := by simpa using h
  have h1 := stripBack_length p.coeffs.reverse p.deg hl
  have h2 := stripBack_head p.coeffs.reverse p.deg
  refine ⟨by simpa [correctDegree] using h1, ?_⟩
  rcases h2 with h2 | h2
  · left
    simp only [correctDegree]
    omega
  · right
    simp only [correctDegree, coeff]
    have h3 := getD_reverse_head (stripBack p.coeffs.reverse p.deg).1.reverse
    rw [List.length_reverse, List.reverse_reverse, h1, Nat.add_sub_cancel] at h3
    rw [h3]
    exact h2

theorem normalized_wf {p : Polynomial K} (h : Normalized p) : WF p := h.1

theorem transformPlus_length (src dst : List K) (h : src.length ≤ dst.length) :
    (transformPlus src dst).length = dst.length := by
  induction src generalizing dst with
  | nil => simp [transformPlus]
  | cons a t ih =>
    cases dst with
    | nil => simp at h
    | cons b u =>
      simp only [transformPlus, List.length_cons] at h ⊢
      rw [ih u (by omega)]

theorem foldl_length_invariant {α β : Type} (f : List β → α → List β)
    (hf : ∀ acc i, (f acc i).length = acc.length) (l : List α) (acc : List β) :
    (l.foldl f acc).length = acc.length := by
  induction l generalizing acc with
  | nil => rfl
  | cons a t ih => rw [List.foldl_cons, ih, hf]

theorem mulLoop_length (a b acc : List K) : (mulLoop a b acc).length = acc.length := by
  unfold mulLoop
  apply foldl_length_invariant
  intro acc i
  apply foldl_length_invariant
  intro acc j
  simp

theorem negRaw_coeffs (p : Polynomial K) (h : WF p) :
    negRaw p = ⟨p.coeffs.map fun c => -c, p.deg⟩ := by
  unfold WF at h
  simp [negRaw, ofDegree, overwrite, zeros, h]

theorem neg_normalized (p : Polynomial K) (h : WF p) : Normalized (neg p) := by
  apply correctDegree_normalized
  rw [negRaw_coeffs p h]
  unfold WF at h ⊢
  simp [h]

theorem smul_normalized (p : Polynomial K) (v : K) (h : WF p) : Normalized (smul p v) := by
  apply correctDegree_normalized
  unfold WF at h ⊢
  simp [ofDegree, overwrite, zeros, h]

theorem add_normalized (p q : Polynomial K) (hp : WF p) (hq : WF q) : Normalized (add p q) := by
  apply correctDegree_normalized
  unfold WF at hp hq ⊢
  simp only [ofDegree]
  rw [transformPlus_length]
  · simp only [overwrite, zeros, List.length_append, List.length_drop, List.length_replicate]
    omega
  · simp only [overwrite, zeros, List.length_append, List.length_drop, List.length_replicate]
    omega

theorem mulRaw_wf (p q : Polynomial K) : WF (mulRaw p q) := by
  unfold WF
  simp only [mulRaw, ofDegree, mulLoop_length, zeros, List.length_replicate]

theorem mul_normalized (p q : Polynomial K) : Normalized (mul p q) :=
  correctDegree_normalized _ (mulRaw_wf p q)

theorem stripBack_noop (l : List K) (d : Nat)
    (h : l.length ≤ 1 ∨ zeroEps ≤ |l.headD 0|) : stripBack l d = (l, d) := by
  rcases l with _ | ⟨a, _ | ⟨b, rest⟩⟩
  · simp [stripBack]
  · simp [stripBack]
  · rcases h with h | h
    · simp at h
    · rw [stripBack, if_neg (not_lt.mpr (by simpa using h))]

theorem stripBack_append (pre l : List K) (d : Nat) (hpre : ∀ a ∈ pre, |a| < zeroEps)
    (hl : l ≠ []) (hhead : l.length ≤ 1 ∨ zeroEps ≤ |l.headD 0|) (hd : pre.length ≤ d) :
    stripBack (pre ++ l) d = (l, d - pre.length) := by
  induction pre generalizing d with
  | nil => simpa using stripBack_noop l d hhead
  | cons x t ih =>
    obtain ⟨y, ys, hy⟩ : ∃ y ys, t ++ l = y :: ys := by
      rcases h : t ++ l with _ | ⟨y, ys⟩
      · simp [hl] at h
      · exact ⟨y, ys, rfl⟩
    have hx : |x| < zeroEps := hpre x (by simp)
    simp only [List.length_cons] at hd
    have hd0 : d ≠ 0 := by omega
    rw [List.cons_append, hy, stripBack, if_pos hx, ← hy,
      ih (decSize d) (fun a ha => hpre a (by simp [ha]))
        (by simp only [decSize, hd0, if_false]; omega)]
    simp only [decSize, hd0, if_false, List.length_cons]
    congr 1
    omega

/-- Effect of `correctDegree` on an object satisfying the class invariant: if every
coefficient above index `k` is negligible and the one at `k` is not (or `k = 0`),
exactly the first `k + 1` coefficients are kept. -/
theorem correctDegree_eq_take (p : Polynomial K) (hwf : WF p) (k : Nat)
    (hk : k < p.coeffs.length) (hsmall : ∀ i, k < i → |p.coeff i| < zeroEps)
    (hlead : k = 0 ∨ zeroEps ≤ |p.coeff k|) :
    correctDegree p = ⟨p.coeffs.take (k + 1), k⟩ := by
  unfold WF at hwf
  have hsplit : p.coeffs.reverse =
      (p.coeffs.drop (k + 1)).reverse ++ (p.coeffs.take (k + 1)).reverse := by
    rw [← List.reverse_append, List.take_append_drop]
  have htl : (p.coeffs.take (k + 1)).length = k + 1 := by
    rw [List.length_take]; omega
  have hne : (p.coeffs.take (k + 1)).reverse ≠ [] := by
    intro h
    have := congrArg List.length h
    simp only [List.length_reverse, htl, List.length_nil] at this
    omega
  have hpre : ∀ a ∈ (p.coeffs.drop (k + 1)).reverse, |a| < zeroEps := by
    intro a ha
    rw [List.mem_reverse, List.mem_iff_getElem] at ha
    obtain ⟨n, hn, rfl⟩ := ha
    have := hsmall (k + 1 + n) (by omega)
    rw [List.length_drop] at hn
    simpa [coeff, List.getD_eq_getElem?_getD, List.getElem?_eq_getElem (show k + 1 + n < p.coeffs.length by omega)] using this
  have hhead : (p.coeffs.take (k + 1)).reverse.length ≤ 1 ∨
      zeroEps ≤ |(p.coeffs.take (k + 1)).reverse.headD 0| := by
    rcases hlead with h0 | hl
    · left; rw [List.length_reverse, htl, h0]
    · right
      rw [← getD_reverse_head, htl, Nat.add_sub_cancel]
      simpa [coeff, List.getD_eq_getElem?_getD, List.getElem?_take] using hl
  have hres := stripBack_append _ _ p.deg hpre hne hhead
    (by rw [List.length_reverse, List.length_drop]; omega)
  unfold correctDegree
  rw [hsplit, hres]
  simp only [List.reverse_reverse, List.length_reverse, List.length_drop]
  congr 1
  omega

theorem coeff_take (c : List K) (d d1 : Nat) (n i : Nat) (h : i < n) :
    coeff ⟨c.take n, d⟩ i = coeff ⟨c, d1⟩ i := by
  simp [coeff, List.getD_eq_getElem?_getD, List.getElem?_take, h]

theorem shiftDown_length (i : Nat) (l : List K) : (shiftDown i l).length = l.length := by
  induction l generalizing i with
  | nil => rfl
  | cons a t ih => simp [shiftDown, ih]

theorem shiftDown_getD (i j : Nat) (l : List K) (hj : j < l.length) :
    (shiftDown i l).getD j 0 = ((i + j : Nat) : K) * l.getD j 0 := by
  induction l generalizing i j with
  | nil => simp at hj
  | cons a t ih =>
    cases j with
    | zero => simp [shiftDown]
    | succ j =>
      simp only [List.length_cons, Nat.succ_lt_succ_iff] at hj
      simp only [shiftDown, List.getD_cons_succ]
      rw [ih (i + 1) j hj]
      congr 2
      omega

/-! ## Evaluation -/

theorem sumForm_cons (a : K) (l : List K) (x : K) :
    sumForm (a :: l) x = a + x * sumForm l x := by
  unfold sumForm
  rw [List.length_cons, Finset.sum_range_succ', Finset.mul_sum]
  simp only [List.getD_cons_succ, List.getD_cons_zero, pow_zero, mul_one]
  rw [add_comm]
  congr 1
  apply Finset.sum_congr rfl
  intro i _
  ring

theorem eval_cons (a : K) (l : List K) (d d1 : Nat) (x : K) :
    eval ⟨a :: l, d⟩ x = a + x * eval ⟨l, d1⟩ x := by
  unfold eval
  simp only [List.reverse_cons]
  rcases hrev : l.reverse with _ | ⟨top, rest⟩
  · simp
  · simp only [List.cons_append, List.foldl_append, List.foldl_cons, List.foldl_nil]
    ring

theorem eval_eq_sumForm (c : List K) (d : Nat) (x : K) : eval ⟨c, d⟩ x = sumForm c x := by
  induction c generalizing d with
  | nil => simp [eval, sumForm]
  | cons a l ih => rw [eval_cons a l d d, ih, sumForm_cons]

theorem eval_is_power_sum_aux (p : Polynomial K) (x : K) :
    p.eval x = ∑ i in Finset.range p.coeffs.length, p.coeff i * x ^ i := by
  have h := eval_eq_sumForm p.coeffs p.deg x
  simpa [sumForm, coeff] using h

/-- C8: for every polynomial with coefficients `c0 .. cn` and every `x`, the value
computed by `operator()` (Horner scheme) is the sum over `i` of `ci * x ^ i`. -/
theorem eval_is_power_sum (p : Polynomial K) (x : K) :
    p.eval x = ∑ i in Finset.range p.coeffs.length, p.coeff i * x ^ i := by
  have h := eval_eq_sumForm p.coeffs p.deg x
  simpa [sumForm, coeff] using h

/-- C10: for polynomials `p`, `q` whose degree field is the coefficient count
minus one and every scalar `v`, each of `p + q`, `p - q`, `p * q`, `p * v`,
`v * p` and `-p` is normalized: its degree field is its coefficient count minus
one, and its degree is zero or its leading coefficient is at least `1e-10` in
absolute value. -/
theorem arithmetic_results_normalized (p q : Polynomial K) (v : K) (hp : WF p) (hq : WF q) :
    Normalized (add p q) ∧ Normalized (sub p q) ∧ Normalized (mul p q) ∧
      Normalized (smul p v) ∧ Normalized (smulLeft v p) ∧ Normalized (neg p) :=
  ⟨add_normalized p q hp hq,
    add_normalized (neg q) p (normalized_wf (neg_normalized q hq)) hp,
    mul_normalized p q, smul_normalized p v hp, smul_normalized p v hp,
    neg_normalized p hp⟩

theorem arithmetic_results_normalized_witness :
    WF (ofList [1, 2] : Polynomial ℚ) ∧ WF (ofList [3, 0, -2] : Polynomial ℚ) ∧
      (Normalized (add (ofList [1, 2] : Polynomial ℚ) (ofList [3, 0, -2])) ∧
        Normalized (sub (ofList [1, 2] : Polynomial ℚ) (ofList [3, 0, -2])) ∧
        Normalized (mul (ofList [1, 2] : Polynomial ℚ) (ofList [3, 0, -2])) ∧
        Normalized (smul (ofList [1, 2] : Polynomial ℚ) 5) ∧
        Normalized (smulLeft 5 (ofList [1, 2] : Polynomial ℚ)) ∧
        Normalized (neg (ofList [1, 2] : Polynomial ℚ))) :=
  ⟨rfl, rfl, arithmetic_results_normalized _ _ 5 rfl rfl⟩

/-! ## Differentiation -/

theorem tail_getD (c : List K) (i : Nat) : c.tail.getD i 0 = c.getD (i + 1) 0 := by
  cases c with
  | nil => simp
  | cons a t => simp

theorem differentiate_eq (p : Polynomial K) (hwf : WF p) (hd : 1 ≤ p.deg)
    (hlead : zeroEps ≤ |p.coeff p.deg|) :
    differentiate p = ⟨shiftDown 1 p.coeffs.tail, p.deg - 1⟩ := by
  unfold WF at hwf
  have hlen : (shiftDown 1 p.coeffs.tail).length = p.deg := by
    rw [shiftDown_length, List.length_tail, hwf, Nat.add_sub_cancel]
  have hdec : decSize p.deg = p.deg - 1 := by
    simp only [decSize, show p.deg ≠ 0 by omega, if_false]
  unfold differentiate
  rw [if_pos (by omega), hdec]
  rw [correctDegree_eq_take ⟨shiftDown 1 p.coeffs.tail, p.deg - 1⟩
    (by unfold WF; simp only [hlen]; omega) (p.deg - 1) (by simp only [hlen]; omega)]
  · simp only [Polynomial.mk.injEq, and_true]
    apply List.take_of_length_le
    rw [hlen]; omega
  · intro i hi
    have : (shiftDown 1 p.coeffs.tail).getD i 0 = 0 := by
      apply List.getD_eq_default
      rw [hlen]; omega
    simp only [coeff, this, abs_zero]
    exact zeroEps_pos
  · right
    simp only [coeff]
    rw [shiftDown_getD 1 (p.deg - 1) _ (by rw [List.length_tail, hwf]; omega), tail_getD]
    have h1 : 1 + (p.deg - 1) = p.deg := by omega
    have h2 : p.deg - 1 + 1 = p.deg := by omega
    rw [h1, h2, abs_mul]
    have h3 : (1 : K) ≤ |((p.deg : Nat) : K)| := by
      rw [abs_of_nonneg (Nat.cast_nonneg _)]
      exact_mod_cast hd
    calc zeroEps ≤ |p.coeffs.getD p.deg 0| := hlead
      _ = 1 * |p.coeffs.getD p.deg 0| := (one_mul _).symm
      _ ≤ |((p.deg : Nat) : K)| * |p.coeffs.getD p.deg 0| :=
        mul_le_mul_of_nonneg_right h3 (abs_nonneg _)

/-- C9: for a polynomial of degree `d >= 1` (degree field = coefficient count minus
one) whose leading coefficient is at least `1e-10` in absolute value,
`differentiate()` leaves a polynomial of degree exactly `d - 1` whose coefficient
`i` is `(i + 1) * c(i + 1)`, and whose value at every `x` is the analytic derivative
`sum of i * ci * x ^ (i - 1)`; for a degree-0 polynomial it leaves the zero
polynomial of degree 0. -/
theorem differentiate_is_derivative (p : Polynomial K) (hwf : WF p) :
    (1 ≤ p.deg → zeroEps ≤ |p.coeff p.deg| →
      (differentiate p).deg = p.deg - 1 ∧ (differentiate p).coeffs.length = p.deg ∧
      (∀ i, i < p.deg → (differentiate p).coeff i = ((i + 1 : ℕ) : K) * p.coeff (i + 1)) ∧
      ∀ x, (differentiate p).eval x =
        ∑ i in Finset.range (p.deg + 1), (i : K) * p.coeff i * x ^ (i - 1)) ∧
    (p.deg = 0 → differentiate p = ⟨[0], 0⟩) := by
  constructor
  · intro hd hlead
    have hlen : (shiftDown 1 p.coeffs.tail).length = p.deg := by
      rw [shiftDown_length, List.length_tail, hwf, Nat.add_sub_cancel]
    have hco : ∀ i, i < p.deg →
        (shiftDown 1 p.coeffs.tail).getD i 0 = ((i + 1 : ℕ) : K) * p.coeffs.getD (i + 1) 0 := by
      intro i hi
      rw [shiftDown_getD 1 i _ (by rw [List.length_tail, hwf]; omega), tail_getD, add_comm 1 i]
    rw [differentiate_eq p hwf hd hlead]
    refine ⟨rfl, hlen, fun i hi => hco i hi, fun x => ?_⟩
    rw [eval_eq_sumForm, Finset.sum_range_succ']
    simp only [Nat.cast_zero, zero_mul, add_zero, Nat.add_sub_cancel]
    unfold sumForm
    rw [hlen]
    apply Finset.sum_congr rfl
    intro i hi
    rw [hco i (Finset.mem_range.mp hi)]
    rfl
  · intro h0
    unfold WF at hwf
    rw [h0] at hwf
    obtain ⟨a, ha⟩ : ∃ a, p.coeffs = [a] := List.length_eq_one.mp hwf
    unfold differentiate
    rw [if_neg (by simp [h0]), ha, h0]
    rfl

theorem differentiate_is_derivative_witness :
    WF (ofList [1, 2, 3] : Polynomial ℚ) ∧ 1 ≤ (ofList [1, 2, 3] : Polynomial ℚ).deg ∧
      zeroEps ≤ |(ofList [1, 2, 3] : Polynomial ℚ).coeff (ofList [1, 2, 3] : Polynomial ℚ).deg| ∧
      (differentiate (ofList [1, 2, 3] : Polynomial ℚ)).deg = 1 ∧
      WF (ofList [7] : Polynomial ℚ) ∧ (ofList [7] : Polynomial ℚ).deg = 0 ∧
      differentiate (ofList [7] : Polynomial ℚ) = ⟨[0], 0⟩ :=
  ⟨rfl, by decide, by decide!,
    ((differentiate_is_derivative (ofList [1, 2, 3] : Polynomial ℚ) rfl).1
      (by decide) (by decide!)).1,
    rfl, rfl, (differentiate_is_derivative (ofList [7] : Polynomial ℚ) rfl).2 rfl⟩

/-! ## Closed-form solvers -/

/-- C6: for every polynomial (degree field = coefficient count minus one) whose
coefficients above index 0 are all below `1e-10` in absolute value, the zero
polynomial and every nonzero constant included, `roots()` returns exactly the
one-element list `[0]`. -/
theorem roots_degree_zero (M : Libm K) (fuel : Nat) (p : Polynomial K) (hwf : WF p)
    (hsmall : ∀ i, 0 < i → |p.coeff i| < zeroEps) :
    roots M fuel p = some [0] := by
  have hpos : 0 < p.coeffs.length := by
    have h := hwf
    unfold WF at h
    omega
  unfold roots
  rw [correctDegree_eq_take p hwf 0 hpos hsmall (Or.inl rfl)]
  rfl

theorem roots_degree_zero_witness :
    WF (ofList [5, 1 / 10 ^ 11] : Polynomial ℚ) ∧
      (∀ i, 0 < i → |(ofList [5, 1 / 10 ^ 11] : Polynomial ℚ).coeff i| < zeroEps) ∧
      roots ⟨id, id, id, id, fun x _ => x, 3⟩ 0 (ofList [5, 1 / 10 ^ 11] : Polynomial ℚ)
        = some [0] := by
  have hs : ∀ i, 0 < i → |(ofList [5, 1 / 10 ^ 11] : Polynomial ℚ).coeff i| < zeroEps := by
    intro i hi
    rcases i with _ | _ | i
    · omega
    · decide!
    · norm_num [coeff, ofList, zeroEps]
  exact ⟨rfl, hs, roots_degree_zero _ 0 _ rfl hs⟩

theorem roots_eq_quadratic (M : Libm K) (fuel : Nat) (p : Polynomial K) (hwf : WF p)
    (hhigh : ∀ i, 2 < i → |p.coeff i| < zeroEps) (ha : zeroEps ≤ |p.coeff 2|) :
    roots M fuel p = some (getQuadraticEquationSolution M ⟨p.coeffs.take 3, 2⟩) := by
  have hlen : 2 < p.coeffs.length := by
    by_contra h
    have : p.coeffs.getD 2 0 = 0 := List.getD_eq_default _ _ (by omega)
    simp only [coeff, this, abs_zero] at ha
    exact absurd zeroEps_pos (not_lt.mpr ha)
  unfold roots
  rw [correctDegree_eq_take p hwf 2 hlen hhigh (Or.inr ha)]
  rfl

/-- C4: for every polynomial (degree field = coefficient count minus one) whose
coefficients above index 2 are all below `1e-10` in absolute value and whose
`a = c2` has `|a| >= 1e-10`, with `b = c1`, `c = c0`, `d = b^2 - 4ac`: `roots()`
returns exactly the one value `-b/(2a)` when `|d| < 1e-10`; exactly the two values
`(sqrt d - b)/(2a)` and `-(sqrt d + b)/(2a)`, in that order and each a zero of
`a x^2 + b x + c`, when `d >= 1e-10` (with `sqrt d` squaring to `d`); and the empty
list when `d <= -1e-10`. -/
theorem roots_quadratic_cases (M : Libm K) (fuel : Nat) (p : Polynomial K) (hwf : WF p)
    (hhigh : ∀ i, 2 < i → |p.coeff i| < zeroEps) (ha : zeroEps ≤ |p.coeff 2|) :
    (|p.coeff 1 ^ 2 - 4 * p.coeff 2 * p.coeff 0| < zeroEps →
      roots M fuel p = some [-p.coeff 1 / (2 * p.coeff 2)]) ∧
    (zeroEps ≤ p.coeff 1 ^ 2 - 4 * p.coeff 2 * p.coeff 0 →
      M.sqrt (p.coeff 1 ^ 2 - 4 * p.coeff 2 * p.coeff 0) ^ 2
        = p.coeff 1 ^ 2 - 4 * p.coeff 2 * p.coeff 0 →
      roots M fuel p = some
        [(M.sqrt (p.coeff 1 ^ 2 - 4 * p.coeff 2 * p.coeff 0) - p.coeff 1) / (2 * p.coeff 2),
          -(M.sqrt (p.coeff 1 ^ 2 - 4 * p.coeff 2 * p.coeff 0) + p.coeff 1) / (2 * p.coeff 2)] ∧
      (∀ x ∈ [(M.sqrt (p.coeff 1 ^ 2 - 4 * p.coeff 2 * p.coeff 0) - p.coeff 1) / (2 * p.coeff 2),
          -(M.sqrt (p.coeff 1 ^ 2 - 4 * p.coeff 2 * p.coeff 0) + p.coeff 1) / (2 * p.coeff 2)],
        p.coeff 2 * x ^ 2 + p.coeff 1 * x + p.coeff 0 = 0)) ∧
    (p.coeff 1 ^ 2 - 4 * p.coeff 2 * p.coeff 0 ≤ -zeroEps → roots M fuel p = some []) := by
  have ha0 : p.coeff 2 ≠ 0 := by
    intro h
    rw [h, abs_zero] at ha
    exact absurd zeroEps_pos (not_lt.mpr ha)
  have hpos : (0 : K) < zeroEps := zeroEps_pos
  have h0 := coeff_take p.coeffs 2 p.deg 3 0 (by omega)
  have h1 := coeff_take p.coeffs 2 p.deg 3 1 (by omega)
  have h2 := coeff_take p.coeffs 2 p.deg 3 2 (by omega)
  rw [roots_eq_quadratic M fuel p hwf hhigh ha]
  simp only [getQuadraticEquationSolution, h0, h1, h2]
  refine ⟨fun hd => ?_, fun hd hs => ?_, fun hd => ?_⟩
  · rw [if_pos hd]
    congr 2
    field_simp
  · have hd0 : 0 < p.coeff 1 ^ 2 - 4 * p.coeff 2 * p.coeff 0 := lt_of_lt_of_le hpos hd
    rw [if_neg (not_lt.mpr (by rw [abs_of_pos hd0]; exact hd)), if_pos hd0]
    refine ⟨?_, ?_⟩
    · congr 2
      · field_simp
      · congr 1
        field_simp
    · intro x hx
      simp only [List.mem_cons, List.mem_singleton, List.mem_nil_iff, or_false] at hx
      have h4 : 4 * p.coeff 2 * (p.coeff 2 * x ^ 2 + p.coeff 1 * x + p.coeff 0) = 0 := by
        rcases hx with rfl | rfl
        · have hx : 2 * p.coeff 2 *
              ((M.sqrt (p.coeff 1 ^ 2 - 4 * p.coeff 2 * p.coeff 0) - p.coeff 1) / (2 * p.coeff 2))
              = M.sqrt (p.coeff 1 ^ 2 - 4 * p.coeff 2 * p.coeff 0) - p.coeff 1 := by
            field_simp
          linear_combination
            (2 * p.coeff 2 *
              ((M.sqrt (p.coeff 1 ^ 2 - 4 * p.coeff 2 * p.coeff 0) - p.coeff 1) / (2 * p.coeff 2))
              + M.sqrt (p.coeff 1 ^ 2 - 4 * p.coeff 2 * p.coeff 0) + p.coeff 1) * hx + hs
        · have hx : 2 * p.coeff 2 *
              (-(M.sqrt (p.coeff 1 ^ 2 - 4 * p.coeff 2 * p.coeff 0) + p.coeff 1) / (2 * p.coeff 2))
              = -(M.sqrt (p.coeff 1 ^ 2 - 4 * p.coeff 2 * p.coeff 0) + p.coeff 1) := by
            field_simp
          linear_combination
            (2 * p.coeff 2 *
              (-(M.sqrt (p.coeff 1 ^ 2 - 4 * p.coeff 2 * p.coeff 0) + p.coeff 1) / (2 * p.coeff 2))
              + p.coeff 1 - M.sqrt (p.coeff 1 ^ 2 - 4 * p.coeff 2 * p.coeff 0)) * hx + hs
      rcases mul_eq_zero.mp h4 with h | h
      · exact absurd h (mul_ne_zero (by norm_num) ha0)
      · exact h
  · have hd0 : p.coeff 1 ^ 2 - 4 * p.coeff 2 * p.coeff 0 < 0 := by linarith
    rw [if_neg (not_lt.mpr (by rw [abs_of_neg hd0]; linarith)), if_neg (not_lt.mpr hd0.le)]

/-- The real-number functions `sqrt`, `cbrt`, `arccos`, `cos`, `rpow` and `π` form an
exact `Libm`. -/
theorem exists_exact_libm : ∃ M : Libm ℝ, Exact M := by
  refine ⟨⟨Real.sqrt, fun x => if 0 ≤ x then x ^ (1 / 3 : ℝ) else -((-x) ^ (1 / 3 : ℝ)),
    Real.arccos, Real.cos, fun x y => x ^ y, Real.pi⟩, ?_⟩
  have hcube : ∀ y : ℝ, 0 ≤ y → (y ^ (1 / 3 : ℝ)) ^ 3 = y := by
    intro y hy
    rw [← Real.rpow_natCast, ← Real.rpow_mul hy]
    norm_num
  constructor
  · exact fun x => Real.sqrt_nonneg x
  · exact fun x hx => Real.sq_sqrt hx
  · intro x
    by_cases hx : 0 ≤ x
    · simp only [hx, if_true]
      exact hcube x hx
    · simp only [hx, if_false]
      have hy : 0 ≤ -x := by linarith
      have := hcube (-x) hy
      calc (-((-x) ^ (1 / 3 : ℝ))) ^ 3 = -(((-x) ^ (1 / 3 : ℝ)) ^ 3) := by ring
        _ = x := by rw [this]; ring
  · exact fun x h1 h2 => Real.cos_arccos h1 h2
  · exact fun t => Real.cos_three_mul t
  · exact fun t => Real.cos_add_two_pi t
  · intro x k hx hk
    refine ⟨Real.rpow_nonneg hx _, ?_⟩
    show (x ^ (1 / (k : ℝ))) ^ k = x
    rw [← Real.rpow_natCast, ← Real.rpow_mul hx]
    have hk0 : (k : ℝ) ≠ 0 := by exact_mod_cast hk.ne.symm
    rw [one_div, inv_mul_cancel₀ hk0, Real.rpow_one]

theorem roots_quadratic_cases_witness :
    ∃ M : Libm ℝ, Exact M ∧
      roots M 0 (ofList [0, 0, 1]) = some [-0 / (2 * 1)] ∧
      roots M 0 (ofList [-1, 0, 1]) = some [(M.sqrt 4 - 0) / (2 * 1), -(M.sqrt 4 + 0) / (2 * 1)] ∧
      roots M 0 (ofList [1, 0, 1]) = some [] := by
  obtain ⟨M, hM⟩ := exists_exact_libm
  have hhigh : ∀ (c : ℝ) (i : ℕ), 2 < i → |(ofList [c, 0, 1] : Polynomial ℝ).coeff i| < zeroEps := by
    intro c i hi
    have : (ofList [c, 0, 1] : Polynomial ℝ).coeff i = 0 :=
      List.getD_eq_default _ _ (by simpa [ofList] using hi)
    rw [this, abs_zero]
    exact zeroEps_pos
  have ha : ∀ c : ℝ, zeroEps ≤ |(ofList [c, 0, 1] : Polynomial ℝ).coeff 2| := by
    intro c
    norm_num [coeff, ofList, zeroEps]
  refine ⟨M, hM, ?_, ?_, ?_⟩
  · have h := (roots_quadratic_cases M 0 (ofList [0, 0, 1]) rfl (hhigh 0) (ha 0)).1
    simp only [coeff, ofList] at h
    norm_num [zeroEps] at h
    simpa using h
  · have h := (roots_quadratic_cases M 0 (ofList [-1, 0, 1]) rfl (hhigh (-1)) (ha (-1))).2.1
    simp only [coeff, ofList] at h
    norm_num [zeroEps] at h
    have h4 := hM.sqrt_sq 4 (by norm_num)
    simpa using (h h4).1
  · have h := (roots_quadratic_cases M 0 (ofList [1, 0, 1]) rfl (hhigh 1) (ha 1)).2.2
    simp only [coeff, ofList] at h
    norm_num [zeroEps] at h
    exact h

theorem cubic_depressed (a b c d y : K) (ha : a ≠ 0) :
    a * (y - b / (3 * a)) ^ 3 + b * (y - b / (3 * a)) ^ 2 + c * (y - b / (3 * a)) + d =
      a * (y ^ 3 - 3 * ((b / (3 * a)) ^ 2 - c / (3 * a)) * y
        + 2 * ((b / (3 * a)) ^ 3 - (b * c / (3 * a) - d) / (2 * a))) := by
  field_simp
  ring

theorem trig_root (M : Libm K) (hM : Exact M) (pp q θ : K) (hdd : 0 < pp ^ 3 - q ^ 2)
    (hθ : M.cos (3 * θ) = -q / M.sqrt (pp ^ 3)) :
    (2 * M.sqrt pp * M.cos θ) ^ 3 - 3 * pp * (2 * M.sqrt pp * M.cos θ) + 2 * q = 0 := by
  have hp3 : 0 < pp ^ 3 := lt_of_le_of_lt (sq_nonneg q) (by linarith)
  have hpp : 0 < pp := by
    by_contra h
    have h1 : pp ≤ 0 := not_lt.mp h
    have : pp ^ 3 ≤ 0 := by
      have h2 : 0 ≤ (-pp) ^ 3 := pow_nonneg (by linarith) 3
      have h3 : (-pp) ^ 3 = -(pp ^ 3) := by ring
      linarith
    linarith
  have hs := hM.sqrt_sq pp hpp.le
  have hS := hM.sqrt_sq (pp ^ 3) hp3.le
  have hs0 := hM.sqrt_nonneg pp
  have hS0 := hM.sqrt_nonneg (pp ^ 3)
  have hSs : M.sqrt (pp ^ 3) = M.sqrt pp ^ 3 := by
    apply (sq_eq_sq₀ hS0 (pow_nonneg hs0 3)).mp
    rw [hS]
    calc pp ^ 3 = (M.sqrt pp ^ 2) ^ 3 := by rw [hs]
      _ = (M.sqrt pp ^ 3) ^ 2 := by ring
  have hSne : M.sqrt (pp ^ 3) ≠ 0 := by
    intro h
    rw [h] at hS
    have : (0 : K) ^ 2 = 0 := by norm_num
    linarith
  have h3 := hM.cos_three θ
  rw [hθ] at h3
  have h4 : -q = M.sqrt (pp ^ 3) * (4 * M.cos θ ^ 3 - 3 * M.cos θ) := by
    rw [← h3, mul_div_cancel₀ _ hSne]
  have h5 : pp * M.sqrt pp = M.sqrt (pp ^ 3) := by
    rw [hSs]
    calc pp * M.sqrt pp = M.sqrt pp ^ 2 * M.sqrt pp := by rw [hs]
      _ = M.sqrt pp ^ 3 := by ring
  calc (2 * M.sqrt pp * M.cos θ) ^ 3 - 3 * pp * (2 * M.sqrt pp * M.cos θ) + 2 * q
      = 8 * M.sqrt pp ^ 3 * M.cos θ ^ 3 - 6 * (pp * M.sqrt pp) * M.cos θ - 2 * -q := by ring
    _ = 8 * M.sqrt (pp ^ 3) * M.cos θ ^ 3 - 6 * M.sqrt (pp ^ 3) * M.cos θ
          - 2 * (M.sqrt (pp ^ 3) * (4 * M.cos θ ^ 3 - 3 * M.cos θ)) := by
        rw [h5, ← hSs, ← h4]
    _ = 0 := by ring

theorem cardano_root (M : Libm K) (hM : Exact M) (pp q : K) (hdd : pp ^ 3 - q ^ 2 ≤ 0) :
    (M.cbrt (M.sqrt (-(pp ^ 3 - q ^ 2)) - q) - M.cbrt (q + M.sqrt (-(pp ^ 3 - q ^ 2)))) ^ 3
      - 3 * pp * (M.cbrt (M.sqrt (-(pp ^ 3 - q ^ 2)) - q)
          - M.cbrt (q + M.sqrt (-(pp ^ 3 - q ^ 2)))) + 2 * q = 0 := by
  have hs := hM.sqrt_sq (-(pp ^ 3 - q ^ 2)) (by linarith)
  have hu := hM.cbrt_cube (M.sqrt (-(pp ^ 3 - q ^ 2)) - q)
  have hv := hM.cbrt_cube (q + M.sqrt (-(pp ^ 3 - q ^ 2)))
  have huv : M.cbrt (M.sqrt (-(pp ^ 3 - q ^ 2)) - q) * M.cbrt (q + M.sqrt (-(pp ^ 3 - q ^ 2)))
      = -pp := by
    apply (Odd.strictMono_pow (R := K) (n := 3) (by decide)).injective
    show (M.cbrt (M.sqrt (-(pp ^ 3 - q ^ 2)) - q) * M.cbrt (q + M.sqrt (-(pp ^ 3 - q ^ 2)))) ^ 3
      = (-pp) ^ 3
    rw [mul_pow, hu, hv]
    linear_combination hs
  linear_combination hu - hv
    - 3 * (M.cbrt (M.sqrt (-(pp ^ 3 - q ^ 2)) - q)
      - M.cbrt (q + M.sqrt (-(pp ^ 3 - q ^ 2)))) * huv

theorem roots_eq_cubic (M : Libm K) (fuel : Nat) (p : Polynomial K) (hwf : WF p)
    (hhigh : ∀ i, 3 < i → |p.coeff i| < zeroEps) (ha : zeroEps ≤ |p.coeff 3|) :
    roots M fuel p = some (getCubicEquationSolution M ⟨p.coeffs.take 4, 3⟩) := by
  have hlen : 3 < p.coeffs.length := by
    by_contra h
    have : p.coeffs.getD 3 0 = 0 := List.getD_eq_default _ _ (by omega)
    simp only [coeff, this, abs_zero] at ha
    exact absurd zeroEps_pos (not_lt.mpr ha)
  unfold roots
  rw [correctDegree_eq_take p hwf 3 hlen hhigh (Or.inr ha)]
  rfl

theorem cos_acos_shift (M : Libm K) (hM : Exact M) (pp q : K) (hdd : 0 < pp ^ 3 - q ^ 2)
    (i : ℕ) (hi : i < 3) :
    M.cos (3 * ((M.acos (-q / M.sqrt (pp ^ 3)) + 2 * M.pi * (i : K)) / 3))
      = -q / M.sqrt (pp ^ 3) := by
  have hp3 : 0 < pp ^ 3 := lt_of_le_of_lt (sq_nonneg q) (by linarith)
  have hS := hM.sqrt_sq (pp ^ 3) hp3.le
  have hS0 := hM.sqrt_nonneg (pp ^ 3)
  have hlt : |q| < M.sqrt (pp ^ 3) := abs_lt_of_sq_lt_sq (by rw [hS]; linarith) hS0
  have hSpos : 0 < M.sqrt (pp ^ 3) := lt_of_le_of_lt (abs_nonneg q) hlt
  have hq := abs_lt.mp hlt
  have h1 : -1 ≤ -q / M.sqrt (pp ^ 3) := by
    rw [le_div_iff₀ hSpos]; linarith
  have h2 : -q / M.sqrt (pp ^ 3) ≤ 1 := by
    rw [div_le_iff₀ hSpos]; linarith
  have hc := hM.cos_acos _ h1 h2
  have h3 : ∀ t : K, 3 * (t / 3) = t := fun t => by ring
  rw [h3]
  interval_cases i
  · simpa using hc
  · rw [Nat.cast_one, mul_one, hM.cos_period]; exact hc
  · have : M.acos (-q / M.sqrt (pp ^ 3)) + 2 * M.pi * ((2 : ℕ) : K)
        = (M.acos (-q / M.sqrt (pp ^ 3)) + 2 * M.pi) + 2 * M.pi := by
      push_cast; ring
    rw [this, hM.cos_period, hM.cos_period]; exact hc

/-- C5: for every polynomial `a x^3 + b x^2 + c x + d` of normalized degree 3 (degree
field = coefficient count minus one, coefficients above index 3 negligible,
`|a| >= 1e-10`), with `p = (b/(3a))^2 - c/(3a)` and
`q = (b/(3a))^3 - (b c/(3a) - d)/(2a)`, `roots()` returns three values when
`p^3 - q^2 > 0` and exactly one value otherwise, and every returned value `x`
satisfies `a x^3 + b x^2 + c x + d = 0`, the `<cmath>` functions being exact. -/
theorem roots_cubic_cardano (M : Libm K) (hM : Exact M) (fuel : Nat) (p : Polynomial K)
    (hwf : WF p) (hhigh : ∀ i, 3 < i → |p.coeff i| < zeroEps) (ha : zeroEps ≤ |p.coeff 3|) :
    let a := p.coeff 3
    let b := p.coeff 2
    let c := p.coeff 1
    let d := p.coeff 0
    let pp := (b / (3 * a)) ^ 2 - c / (3 * a)
    let q := (b / (3 * a)) ^ 3 - (b * c / (3 * a) - d) / (2 * a)
    ∃ out, roots M fuel p = some out ∧
      (0 < pp ^ 3 - q ^ 2 → out.length = 3) ∧
      (¬ 0 < pp ^ 3 - q ^ 2 → out.length = 1) ∧
      ∀ x ∈ out, a * x ^ 3 + b * x ^ 2 + c * x + d = 0 := by
  intro a b c d pp q
  have ha0 : a ≠ 0 := by
    intro h
    have h' : p.coeff 3 = 0 := h
    rw [h', abs_zero] at ha
    exact absurd zeroEps_pos (not_lt.mpr ha)
  have h0 := coeff_take p.coeffs 3 p.deg 4 0 (by omega)
  have h1 := coeff_take p.coeffs 3 p.deg 4 1 (by omega)
  have h2 := coeff_take p.coeffs 3 p.deg 4 2 (by omega)
  have h3 := coeff_take p.coeffs 3 p.deg 4 3 (by omega)
  refine ⟨_, roots_eq_cubic M fuel p hwf hhigh ha, ?_⟩
  simp only [getCubicEquationSolution, h0, h1, h2, h3]
  by_cases hdd : 0 < pp ^ 3 - q ^ 2
  · rw [if_pos hdd]
    refine ⟨fun _ => by simp, fun h => absurd hdd h, ?_⟩
    intro x hx
    rw [List.mem_map] at hx
    obtain ⟨i, hi, rfl⟩ := hx
    rw [List.mem_range] at hi
    have hroot := trig_root M hM pp q _ hdd (cos_acos_shift M hM pp q hdd i hi)
    have hdep := cubic_depressed a b c d
      (2 * M.sqrt pp * M.cos ((M.acos (-q / M.sqrt (pp ^ 3)) + 2 * M.pi * (i : K)) / 3)) ha0
    rw [hdep]
    show a * ((2 * M.sqrt pp * M.cos ((M.acos (-q / M.sqrt (pp ^ 3)) + 2 * M.pi * (i : K)) / 3)) ^ 3
      - 3 * pp * (2 * M.sqrt pp * M.cos ((M.acos (-q / M.sqrt (pp ^ 3)) + 2 * M.pi * (i : K)) / 3))
      + 2 * q) = 0
    rw [hroot, mul_zero]
  · rw [if_neg hdd]
    refine ⟨fun h => absurd h hdd, fun _ => rfl, ?_⟩
    intro x hx
    rw [List.mem_singleton] at hx
    subst hx
    have hroot := cardano_root M hM pp q (not_lt.mp hdd)
    have hdep := cubic_depressed a b c d
      (M.cbrt (M.sqrt (-(pp ^ 3 - q ^ 2)) - q) - M.cbrt (q + M.sqrt (-(pp ^ 3 - q ^ 2)))) ha0
    rw [hdep]
    show a * ((M.cbrt (M.sqrt (-(pp ^ 3 - q ^ 2)) - q)
        - M.cbrt (q + M.sqrt (-(pp ^ 3 - q ^ 2)))) ^ 3
      - 3 * pp * (M.cbrt (M.sqrt (-(pp ^ 3 - q ^ 2)) - q)
        - M.cbrt (q + M.sqrt (-(pp ^ 3 - q ^ 2)))) + 2 * q) = 0
    rw [hroot, mul_zero]

theorem roots_cubic_cardano_witness :
    ∃ M : Libm ℝ, Exact M ∧ ∃ out, roots M 0 (ofList [0, -1, 0, 1]) = some out ∧
      out.length = 3 ∧ ∀ x ∈ out, 1 * x ^ 3 + 0 * x ^ 2 + -1 * x + 0 = 0 := by
  obtain ⟨M, hM⟩ := exists_exact_libm
  have hhigh : ∀ i, 3 < i → |(ofList [0, -1, 0, 1] : Polynomial ℝ).coeff i| < zeroEps := by
    intro i hi
    have : (ofList [0, -1, 0, 1] : Polynomial ℝ).coeff i = 0 :=
      List.getD_eq_default _ _ (by simpa [ofList] using hi)
    rw [this, abs_zero]
    exact zeroEps_pos
  have ha : zeroEps ≤ |(ofList [0, -1, 0, 1] : Polynomial ℝ).coeff 3| := by
    norm_num [coeff, ofList, zeroEps]
  obtain ⟨out, h1, h2, -, h4⟩ := roots_cubic_cardano M hM 0 (ofList [0, -1, 0, 1]) rfl hhigh ha
  refine ⟨M, hM, out, h1, h2 ?_, ?_⟩
  · norm_num [coeff, ofList]
  · simpa [coeff, ofList] using h4

/-! ## Remainder -/

theorem stripBack_suffix (l : List K) (d : Nat) : (stripBack l d).1 <:+ l := by
  induction l generalizing d with
  | nil => simp [stripBack]
  | cons a t ih =>
    cases t with
    | nil => simp [stripBack]
    | cons b rest =>
      rw [stripBack]
      split_ifs with ha
      · exact (ih _).trans (List.suffix_cons a _)
      · exact List.suffix_refl _

theorem correctDegree_keeps_front (p : Polynomial K) : (correctDegree p).coeffs <+: p.coeffs := by
  have h := stripBack_suffix p.coeffs.reverse p.deg
  rw [← List.reverse_prefix, List.reverse_reverse] at h
  exact h

theorem correctDegree_length_le (p : Polynomial K) :
    (correctDegree p).coeffs.length ≤ p.coeffs.length :=
  (correctDegree_keeps_front p).length_le

theorem correctDegree_coeff (p : Polynomial K) (i : Nat)
    (hi : i < (correctDegree p).coeffs.length) : (correctDegree p).coeff i = p.coeff i := by
  have h := List.prefix_iff_eq_take.mp (correctDegree_keeps_front p)
  unfold coeff
  rw [h, List.getD_eq_getElem?_getD, List.getD_eq_getElem?_getD, List.getElem?_take,
    if_pos hi]

theorem correctDegree_strips_top (p : Polynomial K) (hwf : WF p) (hlen : 2 ≤ p.coeffs.length)
    (htop : |p.coeff p.deg| < zeroEps) :
    (correctDegree p).coeffs.length < p.coeffs.length := by
  unfold WF at hwf
  have hhead := getD_reverse_head p.coeffs
  rw [hwf, Nat.add_sub_cancel] at hhead
  have hl : p.coeffs.reverse.length = p.coeffs.length := List.length_reverse _
  rcases hrev : p.coeffs.reverse with _ | ⟨a, _ | ⟨b, rest⟩⟩
  · rw [hrev] at hl; simp at hl; omega
  · rw [hrev] at hl; simp at hl; omega
  · rw [hrev] at hhead hl
    have ha : |a| < zeroEps := by
      unfold coeff at htop
      rw [hhead] at htop
      simpa using htop
    have hs := (stripBack_suffix (b :: rest) (decSize p.deg)).length_le
    simp only [correctDegree, hrev, List.length_reverse]
    rw [stripBack, if_pos ha]
    simp only [List.length_cons] at hl hs ⊢
    omega

theorem sumForm_eq_sum_range (c : List K) (x : K) (n : Nat) (h : c.length ≤ n) :
    sumForm c x = ∑ i in Finset.range n, c.getD i 0 * x ^ i := by
  unfold sumForm
  apply Finset.sum_subset (Finset.range_subset.mpr h)
  intro i _ hi
  rw [Finset.mem_range, not_lt] at hi
  rw [List.getD_eq_default _ _ hi, zero_mul]

theorem eval_congr_coeff (p q : Polynomial K) (x : K)
    (h : ∀ i, p.coeff i = q.coeff i) : eval p x = eval q x := by
  rw [show p = ⟨p.coeffs, p.deg⟩ from rfl, show q = ⟨q.coeffs, q.deg⟩ from rfl,
    eval_eq_sumForm, eval_eq_sumForm,
    sumForm_eq_sum_range p.coeffs x (max p.coeffs.length q.coeffs.length) (le_max_left _ _),
    sumForm_eq_sum_range q.coeffs x (max p.coeffs.length q.coeffs.length) (le_max_right _ _)]
  apply Finset.sum_congr rfl
  intro i _
  have := h i
  unfold coeff at this
  rw [this]

theorem discardsOnlyZeros_coeff (p : Polynomial K) (h : discardsOnlyZeros p = true) (i : ℕ)
    (hi : (correctDegree p).coeffs.length ≤ i) : p.coeff i = 0 := by
  unfold discardsOnlyZeros at h
  rw [List.all_eq_true] at h
  unfold coeff
  by_cases hlt : i < p.coeffs.length
  · have hmem : p.coeffs[i] ∈ p.coeffs.drop (correctDegree p).coeffs.length := by
      rw [List.mem_iff_getElem]
      refine ⟨i - (correctDegree p).coeffs.length, by rw [List.length_drop]; omega, ?_⟩
      rw [List.getElem_drop]
      congr 1
      omega
    have := h _ hmem
    rw [decide_eq_true_eq] at this
    rw [List.getD_eq_getElem?_getD, List.getElem?_eq_getElem hlt]
    exact this
  · exact List.getD_eq_default _ _ (not_lt.mp hlt)

theorem eval_correctDegree (p : Polynomial K) (x : K) (h : discardsOnlyZeros p = true) :
    eval (correctDegree p) x = eval p x := by
  apply eval_congr_coeff
  intro i
  by_cases hi : i < (correctDegree p).coeffs.length
  · exact correctDegree_coeff p i hi
  · rw [discardsOnlyZeros_coeff p h i (not_lt.mp hi)]
    exact List.getD_eq_default _ _ (not_lt.mp hi)

theorem transformPlus_getD (src dst : List K) (h : src.length ≤ dst.length) (i : Nat) :
    (transformPlus src dst).getD i 0 = src.getD i 0 + dst.getD i 0 := by
  induction src generalizing dst i with
  | nil => simp [transformPlus]
  | cons a t ih =>
    cases dst with
    | nil => simp at h
    | cons b u =>
      simp only [List.length_cons, Nat.succ_le_succ_iff] at h
      cases i with
      | zero => simp [transformPlus]
      | succ i => simpa [transformPlus] using ih u h i

theorem resize_getD (c : List K) (n : Nat) (h : c.length ≤ n) (i : Nat) :
    (resize c n).getD i 0 = c.getD i 0 := by
  unfold resize zeros
  rw [List.take_of_length_le h]
  by_cases hi : i < c.length
  · rw [List.getD_append _ _ _ _ hi]
  · rw [List.getD_append_right _ _ _ _ (not_lt.mp hi), List.getD_eq_default c _ (not_lt.mp hi)]
    simp only [List.getD_eq_getElem?_getD, List.getElem?_replicate]
    split_ifs <;> rfl

theorem resize_length (c : List K) (n : Nat) (h : c.length ≤ n) : (resize c n).length = n := by
  unfold resize zeros
  rw [List.take_of_length_le h, List.length_append, List.length_replicate]
  omega

theorem addAssignRaw_coeff (p q : Polynomial K) (i : Nat) :
    (addAssignRaw p q).coeff i = p.coeff i + q.coeff i := by
  unfold addAssignRaw coeff
  simp only
  rw [transformPlus_getD _ _ (by rw [resize_length _ _ (le_max_left _ _)]; exact le_max_right _ _),
    resize_getD _ _ (le_max_left _ _), add_comm]

theorem eval_add_of_coeff (p q r : Polynomial K) (x : K)
    (h : ∀ i, r.coeff i = p.coeff i + q.coeff i) : eval r x = eval p x + eval q x := by
  rw [show p = ⟨p.coeffs, p.deg⟩ from rfl, show q = ⟨q.coeffs, q.deg⟩ from rfl,
    show r = ⟨r.coeffs, r.deg⟩ from rfl, eval_eq_sumForm, eval_eq_sumForm, eval_eq_sumForm]
  have hn1 : p.coeffs.length ≤ p.coeffs.length + q.coeffs.length + r.coeffs.length := by omega
  have hn2 : q.coeffs.length ≤ p.coeffs.length + q.coeffs.length + r.coeffs.length := by omega
  have hn3 : r.coeffs.length ≤ p.coeffs.length + q.coeffs.length + r.coeffs.length := by omega
  rw [sumForm_eq_sum_range _ x _ hn1, sumForm_eq_sum_range _ x _ hn2,
    sumForm_eq_sum_range _ x _ hn3, ← Finset.sum_add_distrib]
  apply Finset.sum_congr rfl
  intro i _
  have := h i
  unfold coeff at this
  rw [this, add_mul]

theorem eval_addAssignRaw (p q : Polynomial K) (x : K) :
    eval (addAssignRaw p q) x = eval p x + eval q x :=
  eval_add_of_coeff p q _ x (addAssignRaw_coeff p q)

theorem eval_negRaw (p : Polynomial K) (hwf : WF p) (x : K) :
    eval (negRaw p) x = -eval p x := by
  rw [negRaw_coeffs p hwf, show p = ⟨p.coeffs, p.deg⟩ from rfl, eval_eq_sumForm,
    eval_eq_sumForm]
  unfold sumForm
  rw [List.length_map, ← Finset.sum_neg_distrib]
  apply Finset.sum_congr rfl
  intro i hi
  rw [Finset.mem_range] at hi
  simp [List.getD_eq_getElem?_getD, List.getElem?_map, List.getElem?_eq_getElem hi]

theorem getD_set_add (l : List K) (m k : Nat) (v : K) (hm : m < l.length) :
    (l.set m (l.getD m 0 + v)).getD k 0 = l.getD k 0 + if m = k then v else 0 := by
  simp only [List.getD_eq_getElem?_getD, List.getElem?_set]
  by_cases hmk : m = k
  · subst hmk
    simp [hm]
  · simp [hmk]

theorem innerLoop_length (g : ℕ → K) (i n : ℕ) (acc : List K) :
    ((List.range n).foldl (fun acc j => acc.set (i + j) (acc.getD (i + j) 0 + g j)) acc).length
      = acc.length :=
  foldl_length_invariant _ (fun _ _ => by simp) _ _

theorem innerLoop_getD (g : ℕ → K) (i n : ℕ) (acc : List K) (h : i + n ≤ acc.length) (k : ℕ) :
    ((List.range n).foldl (fun acc j => acc.set (i + j) (acc.getD (i + j) 0 + g j)) acc).getD k 0
      = acc.getD k 0 + ∑ j in Finset.range n, if i + j = k then g j else 0 := by
  induction n with
  | zero => simp
  | succ n ih =>
    rw [List.range_succ, List.foldl_append, List.foldl_cons, List.foldl_nil,
      getD_set_add _ _ _ _ (by rw [innerLoop_length]; omega), ih (by omega),
      Finset.sum_range_succ, add_assoc]

theorem outerLoop_getD (a b : List K) (m : ℕ) (acc : List K)
    (h : m + b.length ≤ acc.length + 1) (k : ℕ) :
    ((List.range m).foldl (fun acc i =>
      (List.range b.length).foldl (fun acc j =>
        acc.set (i + j) (acc.getD (i + j) 0 + a.getD i 0 * b.getD j 0)) acc) acc).getD k 0
      = acc.getD k 0 + ∑ i in Finset.range m, ∑ j in Finset.range b.length,
          if i + j = k then a.getD i 0 * b.getD j 0 else 0 := by
  induction m with
  | zero => simp
  | succ m ih =>
    rw [List.range_succ, List.foldl_append, List.foldl_cons, List.foldl_nil,
      innerLoop_getD (fun j => a.getD m 0 * b.getD j 0) m b.length _
        (by
          rw [foldl_length_invariant _ (fun acc i => innerLoop_length _ i b.length acc)]
          omega),
      ih (by omega), Finset.sum_range_succ, add_assoc]

theorem mulRaw_coeff (p q : Polynomial K) (k : ℕ) :
    (mulRaw p q).coeff k = ∑ i in Finset.range p.coeffs.length,
      ∑ j in Finset.range q.coeffs.length, if i + j = k then p.coeff i * q.coeff j else 0 := by
  unfold mulRaw coeff mulLoop
  simp only [ofDegree]
  rw [outerLoop_getD p.coeffs q.coeffs p.coeffs.length _
    (by simp only [zeros, List.length_replicate]; omega) k]
  have : (zeros (p.coeffs.length + q.coeffs.length - 2 + 1) : List K).getD k 0 = 0 := by
    simp only [zeros, List.getD_eq_getElem?_getD, List.getElem?_replicate]
    split_ifs <;> rfl
  rw [this, zero_add]

theorem mulRaw_length (p q : Polynomial K) :
    (mulRaw p q).coeffs.length = p.coeffs.length + q.coeffs.length - 2 + 1 := by
  simp only [mulRaw, ofDegree, mulLoop_length, zeros, List.length_replicate]

theorem eval_mulRaw (p q : Polynomial K) (x : K) :
    eval (mulRaw p q) x = eval p x * eval q x := by
  rw [show p = ⟨p.coeffs, p.deg⟩ from rfl, show q = ⟨q.coeffs, q.deg⟩ from rfl,
    show mulRaw ⟨p.coeffs, p.deg⟩ ⟨q.coeffs, q.deg⟩
      = ⟨(mulRaw p q).coeffs, (mulRaw p q).deg⟩ from rfl,
    eval_eq_sumForm, eval_eq_sumForm, eval_eq_sumForm]
  have hco := mulRaw_coeff p q
  unfold coeff at hco
  unfold sumForm
  rw [mulRaw_length, Finset.sum_mul_sum]
  simp only [hco, Finset.sum_mul]
  rw [Finset.sum_comm]
  apply Finset.sum_congr rfl
  intro i hi
  rw [Finset.sum_comm]
  apply Finset.sum_congr rfl
  intro j hj
  rw [Finset.mem_range] at hi hj
  rw [Finset.sum_eq_single (i + j)]
  · rw [if_pos rfl, pow_add]; ring
  · intro k _ hk
    rw [if_neg (Ne.symm hk), zero_mul]
  · intro h
    rw [Finset.mem_range] at h
    omega

theorem monomial_coeff (d : ℕ) (c : K) (j : ℕ) :
    ((ofDegree d : Polynomial K).setCoeff d c).coeff j = if j = d then c else 0 := by
  simp only [setCoeff, ofDegree, coeff, zeros, List.getD_eq_getElem?_getD, List.getElem?_set,
    List.length_replicate, List.getElem?_replicate]
  by_cases hj : j = d
  · subst hj; simp
  · have hj2 : ¬ d = j := fun h => hj h.symm
    simp only [hj, hj2, if_false]
    split_ifs <;> rfl

theorem monomial_length (d : ℕ) (c : K) :
    ((ofDegree d : Polynomial K).setCoeff d c).coeffs.length = d + 1 := by
  simp [setCoeff, ofDegree, zeros]

theorem mulRaw_monomial_top (p : Polynomial K) (hwf : WF p) (d : ℕ) (c : K) :
    (mulRaw p ((ofDegree d : Polynomial K).setCoeff d c)).coeff (p.deg + d)
      = p.coeff p.deg * c := by
  unfold WF at hwf
  rw [mulRaw_coeff, monomial_length, hwf]
  rw [Finset.sum_eq_single p.deg]
  · rw [Finset.sum_eq_single d]
    · rw [if_pos rfl, monomial_coeff, if_pos rfl]
    · intro j _ hj
      rw [if_neg (by omega)]
    · intro h
      rw [Finset.mem_range] at h
      omega
  · intro i hi hne
    rw [Finset.mem_range] at hi
    apply Finset.sum_eq_zero
    intro j hj
    rw [Finset.mem_range] at hj
    rw [if_neg (by omega)]
  · intro h
    rw [Finset.mem_range] at h
    omega

theorem correctDegree_noop (p : Polynomial K) (hwf : WF p)
    (hlead : p.deg = 0 ∨ zeroEps ≤ |p.coeff p.deg|) : correctDegree p = p := by
  have hwf2 := hwf
  unfold WF at hwf2
  rw [correctDegree_eq_take p hwf p.deg (by omega) _ hlead]
  · rw [List.take_of_length_le (by omega)]
  · intro i hi
    have : p.coeff i = 0 := List.getD_eq_default _ _ (by omega)
    rw [this, abs_zero]
    exact zeroEps_pos

theorem negRaw_length (p : Polynomial K) (hwf : WF p) :
    (negRaw p).coeffs.length = p.coeffs.length := by
  rw [negRaw_coeffs p hwf, List.length_map]

theorem negRaw_coeff (p : Polynomial K) (hwf : WF p) (i : ℕ) :
    (negRaw p).coeff i = -p.coeff i := by
  rw [negRaw_coeffs p hwf]
  unfold coeff
  by_cases hi : i < p.coeffs.length
  · simp [List.getD_eq_getElem?_getD, List.getElem?_map, List.getElem?_eq_getElem hi]
  · rw [List.getD_eq_default _ _ (by rw [List.length_map]; omega),
      List.getD_eq_default _ _ (by omega), neg_zero]

theorem addAssignRaw_length (p q : Polynomial K) :
    (addAssignRaw p q).coeffs.length = max p.coeffs.length q.coeffs.length := by
  unfold addAssignRaw
  simp only
  rw [transformPlus_length _ _
    (by rw [resize_length _ _ (le_max_left _ _)]; exact le_max_right _ _),
    resize_length _ _ (le_max_left _ _)]

/-- One iteration of the loop of `operator%` keeps the class invariant and lowers
the degree of the remainder. -/
theorem mod_step_decreases (r p2 : Polynomial K) (hr : WF r) (hp2 : WF p2) (hd : 1 ≤ p2.deg)
    (hlead : zeroEps ≤ |p2.coeff p2.deg|) (hle : p2.deg ≤ r.deg) :
    WF (subAssign r (mul p2 ((ofDegree (r.deg - p2.deg) : Polynomial K).setCoeff
        (r.deg - p2.deg) (r.coeff r.deg / p2.coeff p2.deg)))) ∧
      (subAssign r (mul p2 ((ofDegree (r.deg - p2.deg) : Polynomial K).setCoeff
        (r.deg - p2.deg) (r.coeff r.deg / p2.coeff p2.deg)))).deg < r.deg := by
  have hr2 := hr
  have hp22 := hp2
  unfold WF at hr2 hp22
  have hp0 : p2.coeff p2.deg ≠ 0 := by
    intro h
    rw [h, abs_zero] at hlead
    exact absurd zeroEps_pos (not_lt.mpr hlead)
  generalize ht : ((ofDegree (r.deg - p2.deg) : Polynomial K).setCoeff
    (r.deg - p2.deg) (r.coeff r.deg / p2.coeff p2.deg)) = t
  have htlen : t.coeffs.length = r.deg - p2.deg + 1 := by rw [← ht, monomial_length]
  have hRwf : WF (mulRaw p2 t) := mulRaw_wf p2 t
  have hRlen : (mulRaw p2 t).coeffs.length = r.coeffs.length := by
    rw [mulRaw_length, htlen, hp22, hr2]; omega
  have hRdeg : (mulRaw p2 t).deg = r.deg := by
    have := hRwf
    unfold WF at this
    omega
  have hRtop : (mulRaw p2 t).coeff r.deg = r.coeff r.deg := by
    have h := mulRaw_monomial_top p2 hp2 (r.deg - p2.deg) (r.coeff r.deg / p2.coeff p2.deg)
    rw [ht, show p2.deg + (r.deg - p2.deg) = r.deg by omega] at h
    rw [h, mul_div_cancel₀ _ hp0]
  have hMnorm : Normalized (mul p2 t) := mul_normalized p2 t
  have hXnorm : Normalized (neg (mul p2 t)) := neg_normalized _ hMnorm.1
  have hMlen : (mul p2 t).coeffs.length ≤ r.coeffs.length := by
    rw [← hRlen]; exact correctDegree_length_le _
  have hXlen : (neg (mul p2 t)).coeffs.length ≤ (mul p2 t).coeffs.length := by
    rw [← negRaw_length _ hMnorm.1]; exact correctDegree_length_le _
  have hSlen : (addAssignRaw r (neg (mul p2 t))).coeffs.length = r.coeffs.length := by
    rw [addAssignRaw_length]; exact max_eq_left (le_trans hXlen hMlen)
  have hSwf : WF (addAssignRaw r (neg (mul p2 t))) := by
    unfold WF
    rw [hSlen, hr2]
    rfl
  have hStop : |(addAssignRaw r (neg (mul p2 t))).coeff (addAssignRaw r (neg (mul p2 t))).deg|
      < zeroEps := by
    rw [show (addAssignRaw r (neg (mul p2 t))).deg = r.deg from rfl, addAssignRaw_coeff]
    by_cases hbig : zeroEps ≤ |r.coeff r.deg|
    · have hM : mul p2 t = mulRaw p2 t :=
        correctDegree_noop _ hRwf (Or.inr (by rw [hRdeg, hRtop]; exact hbig))
      have hX : neg (mul p2 t) = negRaw (mulRaw p2 t) := by
        rw [hM]
        apply correctDegree_noop _ (by
          unfold WF
          rw [negRaw_length _ hRwf, hRlen, hr2,
            show (negRaw (mulRaw p2 t)).deg = (mulRaw p2 t).deg from rfl, hRdeg])
        right
        rw [show (negRaw (mulRaw p2 t)).deg = (mulRaw p2 t).deg from rfl, negRaw_coeff _ hRwf,
          hRdeg, hRtop, abs_neg]
        exact hbig
      rw [hX, negRaw_coeff _ hRwf, hRtop, add_neg_cancel, abs_zero]
      exact zeroEps_pos
    · have hsmall : |r.coeff r.deg| < zeroEps := not_le.mp hbig
      have hMlt : (mul p2 t).coeffs.length < (mulRaw p2 t).coeffs.length :=
        correctDegree_strips_top _ hRwf (by rw [hRlen, hr2]; omega)
          (by rw [hRdeg, hRtop]; exact hsmall)
      have hX0 : (neg (mul p2 t)).coeff r.deg = 0 :=
        List.getD_eq_default _ _ (by omega)
      rw [hX0, add_zero]
      exact hsmall
  have hres : Normalized (subAssign r (mul p2 t)) := correctDegree_normalized _ hSwf
  have hlt : (subAssign r (mul p2 t)).coeffs.length < r.coeffs.length := by
    rw [← hSlen]
    exact correctDegree_strips_top _ hSwf (by rw [hSlen, hr2]; omega) hStop
  refine ⟨hres.1, ?_⟩
  have := hres.1
  omega

theorem modLoop_done (fuel : ℕ) (r p2 : Polynomial K) (h : r.deg < p2.deg) :
    modLoop fuel r p2 = some r := by
  unfold modLoop
  simp only
  rw [if_neg (by omega)]

theorem modLoop_zero (r p2 : Polynomial K) (h : p2.deg ≤ r.deg) : modLoop 0 r p2 = none := by
  unfold modLoop
  simp only
  rw [if_pos (by omega)]

theorem modLoop_step (fuel : ℕ) (r p2 : Polynomial K) (h : p2.deg ≤ r.deg) :
    modLoop (fuel + 1) r p2 = modLoop fuel (subAssign r (mul p2
      ((ofDegree (r.deg - p2.deg) : Polynomial K).setCoeff (r.deg - p2.deg)
        (r.coeff r.deg / p2.coeff p2.deg)))) p2 := by
  rw [modLoop]
  simp only
  rw [if_pos (by omega), show ((r.deg : ℤ) - (p2.deg : ℤ)).toNat = r.deg - p2.deg by omega]

theorem modExact_step (fuel : ℕ) (r p2 : Polynomial K) (h : p2.deg ≤ r.deg) :
    modExact (fuel + 1) r p2 =
      (discardsOnlyZeros (mulRaw p2 ((ofDegree (r.deg - p2.deg) : Polynomial K).setCoeff
          (r.deg - p2.deg) (r.coeff r.deg / p2.coeff p2.deg))) &&
        discardsOnlyZeros (negRaw (mul p2 ((ofDegree (r.deg - p2.deg) : Polynomial K).setCoeff
          (r.deg - p2.deg) (r.coeff r.deg / p2.coeff p2.deg)))) &&
        discardsOnlyZeros (addAssignRaw r (neg (mul p2
          ((ofDegree (r.deg - p2.deg) : Polynomial K).setCoeff
            (r.deg - p2.deg) (r.coeff r.deg / p2.coeff p2.deg))))) &&
        modExact fuel (subAssign r (mul p2
          ((ofDegree (r.deg - p2.deg) : Polynomial K).setCoeff (r.deg - p2.deg)
            (r.coeff r.deg / p2.coeff p2.deg)))) p2) := by
  rw [modExact]
  simp only
  rw [if_pos (by omega), show ((r.deg : ℤ) - (p2.deg : ℤ)).toNat = r.deg - p2.deg by omega]

theorem modLoop_terminates (p2 : Polynomial K) (hp2 : WF p2) (hd : 1 ≤ p2.deg)
    (hlead : zeroEps ≤ |p2.coeff p2.deg|) (n : ℕ) :
    ∀ r : Polynomial K, WF r → r.deg ≤ n →
      ∃ res, WF res ∧ res.deg < p2.deg ∧
        ∀ fuel, r.deg < fuel + p2.deg → modLoop fuel r p2 = some res := by
  induction n with
  | zero =>
    intro r hr hn
    exact ⟨r, hr, by omega, fun fuel _ => modLoop_done fuel r p2 (by omega)⟩
  | succ n ih =>
    intro r hr hn
    by_cases hle : p2.deg ≤ r.deg
    · obtain ⟨hwf, hlt⟩ := mod_step_decreases r p2 hr hp2 hd hlead hle
      obtain ⟨res, hres, hdeg, hrun⟩ := ih _ hwf (by omega)
      refine ⟨res, hres, hdeg, ?_⟩
      intro fuel hfuel
      rcases fuel with _ | fuel
      · omega
      · rw [modLoop_step fuel r p2 hle]
        exact hrun fuel (by omega)
    · exact ⟨r, hr, by omega, fun fuel _ => modLoop_done fuel r p2 (by omega)⟩

theorem modLoop_exact (p2 : Polynomial K) (fuel : ℕ) :
    ∀ r res : Polynomial K, modLoop fuel r p2 = some res → modExact fuel r p2 = true →
      ∃ q : Polynomial K, ∀ x, eval r x = eval q x * eval p2 x + eval res x := by
  induction fuel with
  | zero =>
    intro r res hrun _
    by_cases hle : p2.deg ≤ r.deg
    · rw [modLoop_zero r p2 hle] at hrun
      exact absurd hrun (by simp)
    · rw [modLoop_done 0 r p2 (by omega)] at hrun
      refine ⟨⟨[0], 0⟩, fun x => ?_⟩
      rw [Option.some.inj hrun]
      simp [eval]
  | succ fuel ih =>
    intro r res hrun hex
    by_cases hle : p2.deg ≤ r.deg
    · rw [modLoop_step fuel r p2 hle] at hrun
      rw [modExact_step fuel r p2 hle] at hex
      simp only [Bool.and_eq_true] at hex
      obtain ⟨⟨⟨h1, h2⟩, h3⟩, h4⟩ := hex
      obtain ⟨q, hq⟩ := ih _ res hrun h4
      generalize ((ofDegree (r.deg - p2.deg) : Polynomial K).setCoeff
        (r.deg - p2.deg) (r.coeff r.deg / p2.coeff p2.deg)) = t at h1 h2 h3 hq
      refine ⟨addAssignRaw q t, fun x => ?_⟩
      have e1 : eval (mul p2 t) x = eval p2 x * eval t x := by
        rw [show mul p2 t = correctDegree (mulRaw p2 t) from rfl, eval_correctDegree _ x h1,
          eval_mulRaw]
      have e2 : eval (neg (mul p2 t)) x = -(eval p2 x * eval t x) := by
        rw [show neg (mul p2 t) = correctDegree (negRaw (mul p2 t)) from rfl,
          eval_correctDegree _ x h2, eval_negRaw _ (mul_normalized p2 t).1, e1]
      have e3 : eval (subAssign r (mul p2 t)) x = eval r x - eval p2 x * eval t x := by
        rw [show subAssign r (mul p2 t) = correctDegree (addAssignRaw r (neg (mul p2 t)))
          from rfl, eval_correctDegree _ x h3, eval_addAssignRaw, e2]
        ring
      have e4 := hq x
      rw [e3] at e4
      rw [eval_addAssignRaw]
      linear_combination e4
    · rw [modLoop_done _ r p2 (by omega)] at hrun
      refine ⟨⟨[0], 0⟩, fun x => ?_⟩
      rw [Option.some.inj hrun]
      simp [eval]

/-- C7: for all polynomials `p1`, `p2` (degree field = coefficient count minus one)
where `p2` has degree at least 1 and a leading coefficient of absolute value at
least `1e-10`, `p1 % p2` terminates (every fuel from the coefficient count of `p1`
on gives the same result `r`) and `degree(r) < degree(p2)`; and whenever no nonzero
coefficient is discarded by a degree normalisation during the computation, `r` is
the Euclidean remainder: there is a polynomial `q` with `p1 = q * p2 + r` at every
point `x`. -/
theorem mod_is_remainder (p1 p2 : Polynomial K) (h1 : WF p1) (h2 : WF p2) (hd : 1 ≤ p2.deg)
    (hlead : zeroEps ≤ |p2.coeff p2.deg|) :
    ∃ r, (∀ fuel, p1.coeffs.length ≤ fuel → modLoop fuel p1 p2 = some r) ∧
      r.deg < p2.deg ∧
      (modExact p1.coeffs.length p1 p2 = true →
        ∃ q : Polynomial K, ∀ x, eval p1 x = eval q x * eval p2 x + eval r x) := by
  obtain ⟨r, -, hdeg, hrun⟩ := modLoop_terminates p2 h2 hd hlead p1.deg p1 h1 le_rfl
  have hwf := h1
  unfold WF at hwf
  refine ⟨r, fun fuel hfuel => hrun fuel (by omega), hdeg, fun hex => ?_⟩
  exact modLoop_exact p2 _ p1 r (hrun _ (by omega)) hex

theorem mod_is_remainder_witness :
    WF (ofList [1, 2, 3, 4] : Polynomial ℚ) ∧ WF (ofList [1, 2] : Polynomial ℚ) ∧
      modExact 4 (ofList [1, 2, 3, 4] : Polynomial ℚ) (ofList [1, 2]) = true ∧
      ∃ r, (∀ fuel, 4 ≤ fuel →
          modLoop fuel (ofList [1, 2, 3, 4] : Polynomial ℚ) (ofList [1, 2]) = some r) ∧
        r.deg < 1 ∧ ∃ q : Polynomial ℚ, ∀ x,
          eval (ofList [1, 2, 3, 4]) x = eval q x * eval (ofList [1, 2]) x + eval r x := by
  obtain ⟨r, hr1, hr2, hr3⟩ := mod_is_remainder (ofList [1, 2, 3, 4] : Polynomial ℚ)
    (ofList [1, 2]) rfl rfl (by decide) (by decide!)
  exact ⟨rfl, rfl, by decide!, r, hr1, hr2, hr3 (by decide!)⟩

/-! ## Numerical search -/

theorem bisectLoop_isSome (p : Polynomial K) (fuel : ℕ) :
    ∀ lX lY rX rY : K, |rX - lX| ≤ rootEps * 2 ^ fuel →
      ∃ x, bisectLoop p fuel lX lY rX rY = some x := by
  induction fuel with
  | zero =>
    intro lX lY rX rY h
    rw [pow_zero, mul_one] at h
    unfold bisectLoop
    rw [if_neg (not_lt.mpr h)]
    exact ⟨_, rfl⟩
  | succ fuel ih =>
    intro lX lY rX rY h
    have hm1 : |(lX + rX) / 2 - lX| ≤ rootEps * 2 ^ fuel := by
      have : (lX + rX) / 2 - lX = (rX - lX) / 2 := by ring
      rw [this, abs_div, abs_of_pos (show (0 : K) < 2 by norm_num), div_le_iff₀ (by norm_num)]
      calc |rX - lX| ≤ rootEps * 2 ^ (fuel + 1) := h
        _ = rootEps * 2 ^ fuel * 2 := by ring
    have hm2 : |rX - (lX + rX) / 2| ≤ rootEps * 2 ^ fuel := by
      have : rX - (lX + rX) / 2 = (rX - lX) / 2 := by ring
      rw [this, abs_div, abs_of_pos (show (0 : K) < 2 by norm_num), div_le_iff₀ (by norm_num)]
      calc |rX - lX| ≤ rootEps * 2 ^ (fuel + 1) := h
        _ = rootEps * 2 ^ fuel * 2 := by ring
    unfold bisectLoop
    simp only
    split_ifs with h1 h2 h3 h4
    · exact ⟨_, rfl⟩
    · exact ⟨_, rfl⟩
    · exact ih _ _ _ _ hm1
    · exact ih _ _ _ _ hm2
    · exact ⟨_, rfl⟩

/-- With fuel for the interval width, `searchRoots` returns, and the number of values
it returns is `searchCount`. -/
theorem searchRoots_length (p : Polynomial K) (s : List (Polynomial K)) (fuel : ℕ) :
    ∀ l r : K, r - l < rootEps * 2 ^ fuel →
      ∃ out, searchRoots p s fuel l r = some out ∧ out.length = searchCount s fuel l r := by
  induction fuel with
  | zero =>
    intro l r h
    rw [pow_zero, mul_one] at h
    unfold searchRoots searchCount
    simp only [if_pos h]
    exact ⟨_, rfl, rfl⟩
  | succ fuel ih =>
    intro l r h
    unfold searchRoots searchCount
    simp only
    by_cases h1 : r - l < rootEps
    · rw [if_pos h1, if_pos h1]
      exact ⟨_, rfl, rfl⟩
    rw [if_neg h1, if_neg h1]
    by_cases h2 : (1 : ℤ) < (signChanges (s.map fun q => q.eval l) : ℤ)
        - (signChanges (s.map fun q => q.eval r) : ℤ)
    · rw [if_pos h2, if_pos h2]
      have hl : (l + r) / 2 - l < rootEps * 2 ^ fuel := by
        have : (l + r) / 2 - l = (r - l) / 2 := by ring
        rw [this, div_lt_iff₀ (by norm_num)]
        calc r - l < rootEps * 2 ^ (fuel + 1) := h
          _ = rootEps * 2 ^ fuel * 2 := by ring
      have hr : r - (l + r) / 2 < rootEps * 2 ^ fuel := by
        have : r - (l + r) / 2 = (r - l) / 2 := by ring
        rw [this, div_lt_iff₀ (by norm_num)]
        calc r - l < rootEps * 2 ^ (fuel + 1) := h
          _ = rootEps * 2 ^ fuel * 2 := by ring
      obtain ⟨a, ha, hla⟩ := ih l ((l + r) / 2) hl
      obtain ⟨b, hb, hlb⟩ := ih ((l + r) / 2) r hr
      refine ⟨a ++ b, ?_, ?_⟩
      · simp only [ha, hb]
      · rw [List.length_append, hla, hlb]
    rw [if_neg h2, if_neg h2]
    by_cases h3 : (signChanges (s.map fun q => q.eval l) : ℤ)
        - (signChanges (s.map fun q => q.eval r) : ℤ) = 1
    · rw [if_pos h3, if_pos h3]
      generalize (if 0 < (differentiate (differentiate p)).eval ((l + r) / 2) then
          (if 0 < p.eval l then l else r) else (if p.eval l < 0 then l else r)) = x0
      rcases hN : findRootNewton p l r (s.getD 1 empty) 20 x0 with _ | x1
      · have hpos : |r - l| ≤ rootEps * 2 ^ (fuel + 1) := by
          rw [abs_of_nonneg (by linarith [not_lt.mp h1, (rootEps_pos : (0 : K) < rootEps)])]
          exact h.le
        obtain ⟨x2, hx2⟩ := bisectLoop_isSome p (fuel + 1) l (p.eval l) r (p.eval r) hpos
        refine ⟨[x2], ?_, rfl⟩
        simp only [findRootBisection, hx2, Option.map_some']
      · exact ⟨[x1], rfl, rfl⟩
    · rw [if_neg h3, if_neg h3]
      exact ⟨[], rfl, rfl⟩

theorem sturmLoop_succ (fuel : ℕ) (s : List (Polynomial K)) (r : Polynomial K)
    (h : modLoop (fuel + 1) (s.getD (s.length - 2) empty) (s.getLastD empty) = some r) :
    sturmLoop (fuel + 1) s =
      if r.deg ≠ 0 then sturmLoop fuel (s ++ [neg r]) else some (s ++ [neg r]) := by
  rw [sturmLoop]
  simp only [h]

theorem cbrt_cube_eq (M : Libm K) (hM : Exact M) (y : K) : M.cbrt (y ^ 3) = y := by
  apply (Odd.strictMono_pow (R := K) (n := 3) (by decide)).injective
  exact hM.cbrt_cube _

theorem sqrt_zero_eq (M : Libm K) (hM : Exact M) : M.sqrt 0 = 0 :=
  (pow_eq_zero_iff (by norm_num)).mp (hM.sqrt_sq 0 le_rfl)

theorem modLoop_succ (fuel : ℕ) (r p2 : Polynomial K) :
    modLoop (fuel + 1) r p2 =
      if p2.deg ≤ r.deg then
        modLoop fuel (subAssign r (mul p2
          ((ofDegree (r.deg - p2.deg) : Polynomial K).setCoeff (r.deg - p2.deg)
            (r.coeff r.deg / p2.coeff p2.deg)))) p2
      else some r := by
  by_cases h : p2.deg ≤ r.deg
  · rw [if_pos h, modLoop_step fuel r p2 h]
  · rw [if_neg h, modLoop_done _ r p2 (by omega)]

/-- More fuel does not change a result of `operator%`. -/
theorem modLoop_mono (p2 : Polynomial K) (fuel : ℕ) :
    ∀ r res : Polynomial K, modLoop fuel r p2 = some res →
      modLoop (fuel + 1) r p2 = some res := by
  induction fuel with
  | zero =>
    intro r res h
    by_cases hle : p2.deg ≤ r.deg
    · rw [modLoop_zero r p2 hle] at h
      exact absurd h (by simp)
    · rw [modLoop_done _ r p2 (by omega)] at h ⊢
      exact h
  | succ fuel ih =>
    intro r res h
    rw [modLoop_succ] at h ⊢
    split_ifs at h ⊢ with hle
    · exact ih _ _ h
    · exact h

/-- More fuel does not change a result of `createSturmSystem`. -/
theorem sturmLoop_mono (fuel : ℕ) :
    ∀ s res : List (Polynomial K), sturmLoop fuel s = some res →
      sturmLoop (fuel + 1) s = some res := by
  induction fuel with
  | zero =>
    intro s res h
    rw [sturmLoop] at h
    exact absurd h (by simp)
  | succ fuel ih =>
    intro s res h
    rw [sturmLoop] at h
    rcases hm : modLoop (fuel + 1) (s.getD (s.length - 2) empty) (s.getLastD empty) with _ | r
    · simp only [hm] at h
      exact absurd h (by simp)
    · simp only [hm] at h
      rw [sturmLoop_succ (fuel + 1) s r (modLoop_mono _ _ _ _ hm)]
      split_ifs at h ⊢ with hr
      · exact ih _ _ h
      · exact h

theorem createSturmSystem_mono (p : Polynomial K) (res : List (Polynomial K)) (n fuel : ℕ)
    (hn : n ≤ fuel) (h : createSturmSystem n p = some res) :
    createSturmSystem fuel p = some res := by
  induction fuel, hn using Nat.le_induction with
  | base => exact h
  | succ m _ ih => exact sturmLoop_mono m _ _ ih

/-- Once the fuel covers the interval width, `searchCount` no longer depends on it. -/
theorem searchCount_succ (s : List (Polynomial K)) (fuel : ℕ) :
    ∀ l r : K, r - l < rootEps * 2 ^ fuel →
      searchCount s (fuel + 1) l r = searchCount s fuel l r := by
  induction fuel with
  | zero =>
    intro l r h
    rw [pow_zero, mul_one] at h
    unfold searchCount
    simp only [if_pos h]
  | succ fuel ih =>
    intro l r h
    have hl : (l + r) / 2 - l < rootEps * 2 ^ fuel := by
      have : (l + r) / 2 - l = (r - l) / 2 := by ring
      rw [this, div_lt_iff₀ (by norm_num)]
      calc r - l < rootEps * 2 ^ (fuel + 1) := h
        _ = rootEps * 2 ^ fuel * 2 := by ring
    have hr : r - (l + r) / 2 < rootEps * 2 ^ fuel := by
      have : r - (l + r) / 2 = (r - l) / 2 := by ring
      rw [this, div_lt_iff₀ (by norm_num)]
      calc r - l < rootEps * 2 ^ (fuel + 1) := h
        _ = rootEps * 2 ^ fuel * 2 := by ring
    rw [searchCount.eq_def s (fuel + 1 + 1) l r, searchCount.eq_def s (fuel + 1) l r]
    simp only
    rw [ih _ _ hl, ih _ _ hr]

theorem searchCount_stable (s : List (Polynomial K)) (l r : K) (n fuel : ℕ) (hn : n ≤ fuel)
    (h : r - l < rootEps * 2 ^ n) : searchCount s fuel l r = searchCount s n l r := by
  induction fuel, hn using Nat.le_induction with
  | base => rfl
  | succ m hm ih =>
    rw [searchCount_succ s m l r, ih]
    calc r - l < rootEps * 2 ^ n := h
      _ ≤ rootEps * 2 ^ m :=
        mul_le_mul_of_nonneg_left (pow_le_pow_right₀ (by norm_num) hm) rootEps_pos.le

/-! ## Inputs on which `roots()` departs from its contract -/

/-- C1, failing input: `x (x-1) (x-2) (x-3) (x-4) = x^5 - 10x^4 + 35x^3 - 50x^2 + 24x`
has the five distinct real roots 0, 1, 2, 3, 4, but `roots()` returns four values:
the lower limit of the search interval is 0, the root 0 sits on the left end of
`[0, 51]` and the sign-change count of `searchRoots` sees only the four roots
inside `(0, 51]` (`pow(50, 1.0)` being `50`; any fuel from 23 on lets the run
finish). -/
theorem roots_quintic_misses_root_at_limit (M : Libm ℚ) (hpow : M.pow 50 1 = 50)
    (fuel : ℕ) (hfuel : 23 ≤ fuel) :
    (∀ x ∈ [(0 : ℚ), 1, 2, 3, 4], eval (ofList [0, 24, -50, 35, -10, 1]) x = 0) ∧
      ∃ out, roots M fuel (ofList [0, 24, -50, 35, -10, 1]) = some out ∧ out.length = 4 := by
  refine ⟨by decide!, ?_⟩
  have h1 : correctDegree (ofList [0, 24, -50, 35, -10, 1] : Polynomial ℚ)
      = ⟨[0, 24, -50, 35, -10, 1], 5⟩ := by decide!
  have hlow : getLowRootsLimit M ⟨[0, 24, -50, 35, -10, 1], 5⟩ = -1 * 0 := by
    have hf : flipOdd (⟨[0, 24, -50, 35, -10, 1], 5⟩ : Polynomial ℚ)
        = ⟨[0, -24, -50, -35, -10, -1], 5⟩ := by decide!
    have hp : (if (⟨[0, -24, -50, -35, -10, -1], 5⟩ : Polynomial ℚ).coeff 5 < 0
        then neg ⟨[0, -24, -50, -35, -10, -1], 5⟩ else ⟨[0, -24, -50, -35, -10, -1], 5⟩)
        = (⟨[0, 24, 50, 35, 10, 1], 5⟩ : Polynomial ℚ) := by decide!
    unfold getLowRootsLimit
    rw [hf]
    unfold getHighRootsLimit
    simp only [hp]
    rfl
  have hhigh : getHighRootsLimit M ⟨[0, 24, -50, 35, -10, 1], 5⟩ = 51 := by
    have hp : (if (⟨[0, 24, -50, 35, -10, 1], 5⟩ : Polynomial ℚ).coeff 5 < 0
        then neg ⟨[0, 24, -50, 35, -10, 1], 5⟩ else ⟨[0, 24, -50, 35, -10, 1], 5⟩)
        = (⟨[0, 24, -50, 35, -10, 1], 5⟩ : Polynomial ℚ) := by decide!
    have hfi : ([0, 24, -50, 35, -10, 1] : List ℚ).reverse.findIdx? (fun v => decide (v < 0))
        = some 1 := by decide!
    have e1 : -(minElement ([0, 24, -50, 35, -10, 1] : List ℚ))
        / (⟨[0, 24, -50, 35, -10, 1], 5⟩ : Polynomial ℚ).coeff 5 = 50 := by decide!
    have e2 : (1 : ℚ) / ((1 : ℕ) : ℚ) = 1 := by norm_num
    unfold getHighRootsLimit
    simp only [hp, hfi, e1, e2, hpow]
    norm_num
  have hsturm : createSturmSystem fuel (⟨[0, 24, -50, 35, -10, 1], 5⟩ : Polynomial ℚ)
      = some [⟨[0, 24, -50, 35, -10, 1], 5⟩, ⟨[24, -100, 105, -40, 5], 4⟩,
          ⟨[-48 / 5, 104 / 5, -12, 2], 3⟩, ⟨[24, -28, 7], 2⟩, ⟨[-144 / 35, 72 / 35], 1⟩,
          ⟨[4], 0⟩] :=
    createSturmSystem_mono _ _ 23 fuel hfuel (by decide!)
  have hwidth : (51 : ℚ) - -1 * 0 < rootEps * 2 ^ 23 := by decide!
  have hwidth2 : (51 : ℚ) - -1 * 0 < rootEps * 2 ^ fuel :=
    lt_of_lt_of_le hwidth
      (mul_le_mul_of_nonneg_left (pow_le_pow_right₀ (by norm_num) hfuel) rootEps_pos.le)
  obtain ⟨out, hout, hlen⟩ := searchRoots_length (⟨[0, 24, -50, 35, -10, 1], 5⟩ : Polynomial ℚ)
    [⟨[0, 24, -50, 35, -10, 1], 5⟩, ⟨[24, -100, 105, -40, 5], 4⟩,
      ⟨[-48 / 5, 104 / 5, -12, 2], 3⟩, ⟨[24, -28, 7], 2⟩, ⟨[-144 / 35, 72 / 35], 1⟩,
      ⟨[4], 0⟩] fuel (-1 * 0) 51 hwidth2
  refine ⟨out, ?_, ?_⟩
  · unfold roots
    simp only [h1, hlow, hhigh, hsturm]
    exact hout
  · rw [hlen, searchCount_stable _ _ _ 23 fuel hfuel hwidth]
    decide!

theorem roots_quintic_misses_root_at_limit_witness :
    (⟨id, id, id, id, fun x _ => x, 3⟩ : Libm ℚ).pow 50 1 = 50 ∧ 23 ≤ 40 ∧
      ∃ out, roots (⟨id, id, id, id, fun x _ => x, 3⟩ : Libm ℚ) 40
        (ofList [0, 24, -50, 35, -10, 1]) = some out ∧ out.length = 4 :=
  ⟨rfl, by decide,
    (roots_quintic_misses_root_at_limit ⟨id, id, id, id, fun x _ => x, 3⟩ rfl 40
      (by decide)).2⟩

theorem sextic_plus_one_pos (x : K) :
    0 < eval (ofList [1, 0, 0, 0, 0, 0, 1] : Polynomial K) x := by
  have h : eval (ofList [1, 0, 0, 0, 0, 0, 1] : Polynomial K) x = 1 + (x ^ 3) ^ 2 := by
    simp only [eval, ofList]
    norm_num
    ring
  rw [h]
  positivity

/-- C2, failing input: `x^6 + 1` has degree 6 and no real root (its value is
positive everywhere), yet `roots()` returns the one value `0`: both root limits
are 0, the search interval `[0, 0]` is narrower than `1e-5` and `searchRoots`
accepts its midpoint before counting any sign change. -/
theorem roots_sextic_returns_nonroot (M : Libm ℚ) (fuel : ℕ) :
    roots M (fuel + 1) (ofList [1, 0, 0, 0, 0, 0, 1]) = some [0] ∧
      ∀ x : ℚ, 0 < eval (ofList [1, 0, 0, 0, 0, 0, 1]) x := by
  refine ⟨?_, sextic_plus_one_pos⟩
  have h1 : correctDegree (ofList [1, 0, 0, 0, 0, 0, 1] : Polynomial ℚ)
      = ⟨[1, 0, 0, 0, 0, 0, 1], 6⟩ := by decide!
  have h2 : getHighRootsLimit M ⟨[1, 0, 0, 0, 0, 0, 1], 6⟩ = 0 := by rfl
  have h3 : getLowRootsLimit M ⟨[1, 0, 0, 0, 0, 0, 1], 6⟩ = -1 * 0 := by
    have hf : flipOdd (⟨[1, 0, 0, 0, 0, 0, 1], 6⟩ : Polynomial ℚ)
        = ⟨[1, 0, 0, 0, 0, 0, 1], 6⟩ := by decide!
    unfold getLowRootsLimit
    rw [hf, h2]
  have h4 : createSturmSystem (fuel + 1) (⟨[1, 0, 0, 0, 0, 0, 1], 6⟩ : Polynomial ℚ)
      = some [⟨[1, 0, 0, 0, 0, 0, 1], 6⟩, ⟨[0, 0, 0, 0, 0, 6], 5⟩, ⟨[-1], 0⟩] := by
    have hd : differentiate (⟨[1, 0, 0, 0, 0, 0, 1], 6⟩ : Polynomial ℚ)
        = ⟨[0, 0, 0, 0, 0, 6], 5⟩ := by decide!
    have hm : modLoop (fuel + 1) (⟨[1, 0, 0, 0, 0, 0, 1], 6⟩ : Polynomial ℚ)
        ⟨[0, 0, 0, 0, 0, 6], 5⟩ = some ⟨[1], 0⟩ := by
      rw [modLoop_step _ _ _ (by decide), modLoop_done _ _ _ (by decide!)]
      decide!
    unfold createSturmSystem
    rw [hd, sturmLoop_succ fuel [⟨[1, 0, 0, 0, 0, 0, 1], 6⟩, ⟨[0, 0, 0, 0, 0, 6], 5⟩]
      ⟨[1], 0⟩ hm, if_neg (by decide)]
    decide!
  unfold roots
  simp only [h1, h2, h3, h4]
  unfold searchRoots
  simp [rootEps]

/-- C3, failing input: `x^3 - 3x + 2 = (x - 1)^2 (x + 2)` has normalized degree 3
and the real roots 1 and -2, but `roots()` returns only `[-2]`: here
`p^3 - q^2 = 0`, the branch for one real root is taken, and the root 1 is three
units away from the only returned value. -/
theorem roots_cubic_misses_double_root (M : Libm K) (hM : Exact M) (fuel : ℕ) :
    eval (ofList [2, -3, 0, 1] : Polynomial K) 1 = 0 ∧
      roots M fuel (ofList [2, -3, 0, 1]) = some [-2] := by
  constructor
  · norm_num [eval, ofList]
  · have hhigh : ∀ i, 3 < i → |(ofList [2, -3, 0, 1] : Polynomial K).coeff i| < zeroEps := by
      intro i hi
      have : (ofList [2, -3, 0, 1] : Polynomial K).coeff i = 0 :=
        List.getD_eq_default _ _ (by simpa [ofList] using hi)
      rw [this, abs_zero]
      exact zeroEps_pos
    have ha : zeroEps ≤ |(ofList [2, -3, 0, 1] : Polynomial K).coeff 3| := by
      norm_num [coeff, ofList, zeroEps]
    rw [roots_eq_cubic M fuel (ofList [2, -3, 0, 1]) rfl hhigh ha]
    have h1 := cbrt_cube_eq M hM 1
    have h2 := cbrt_cube_eq M hM (-1)
    norm_num at h1 h2
    simp only [getCubicEquationSolution, coeff, ofList]
    norm_num [sqrt_zero_eq M hM, h1, h2]

theorem roots_cubic_misses_double_root_witness :
    ∃ M : Libm ℝ, Exact M ∧ eval (ofList [2, -3, 0, 1] : Polynomial ℝ) 1 = 0 ∧
      roots M 0 (ofList [2, -3, 0, 1]) = some [-2] := by
  obtain ⟨M, hM⟩ := exists_exact_libm
  exact ⟨M, hM, roots_cubic_misses_double_root M hM 0⟩

/-- C11, failing input: for `p = Polynomial{1}` and `q = Polynomial{0, 1}` the
compound assignments `p += q` and `p -= q` leave the same coefficients as `p + q`
and `p - q` (`[1, 1]` and `[1, -1]`), but the degree field 0 instead of 1:
`operator+=` resizes the vector without updating `deg`, so `degree()` is no longer
the number of stored coefficients minus one. -/
theorem addAssign_leaves_stale_degree :
    addAssign (ofList [1] : Polynomial ℚ) (ofList [0, 1]) = ⟨[1, 1], 0⟩ ∧
      add (ofList [1] : Polynomial ℚ) (ofList [0, 1]) = ⟨[1, 1], 1⟩ ∧
      subAssign (ofList [1] : Polynomial ℚ) (ofList [0, 1]) = ⟨[1, -1], 0⟩ ∧
      sub (ofList [1] : Polynomial ℚ) (ofList [0, 1]) = ⟨[1, -1], 1⟩ := by
  decide!

end Polynomial


namespace Polynomial

/-! ## Degree normalisation on coefficients that are zero or not negligible -/

theorem stripBack_dropped_small (l : List K) (d : Nat) :
    ∃ pre, l = pre ++ (stripBack l d).1 ∧ ∀ a ∈ pre, |a| < zeroEps := by
  induction l generalizing d with
  | nil => exact ⟨[], by simp [stripBack], by simp⟩
  | cons a t ih =>
    cases t with
    | nil => exact ⟨[], by simp [stripBack], by simp⟩
    | cons b rest =>
      rw [stripBack]
      split_ifs with ha
      · obtain ⟨pre, h1, h2⟩ := ih (decSize d)
        refine ⟨a :: pre, ?_, ?_⟩
        · rw [List.cons_append, ← h1]
        · intro x hx
          rcases List.mem_cons.mp hx with rfl | hx
          · exact ha
          · exact h2 x hx
      · exact ⟨[], by simp, by simp⟩

theorem correctDegree_dropped_small (p : Polynomial K) (i : ℕ)
    (hi : (correctDegree p).coeffs.length ≤ i) : |p.coeff i| < zeroEps := by
  obtain ⟨pre, h1, h2⟩ := stripBack_dropped_small p.coeffs.reverse p.deg
  have h3 : p.coeffs = (correctDegree p).coeffs ++ pre.reverse := by
    have := congrArg List.reverse h1
    rw [List.reverse_reverse, List.reverse_append] at this
    exact this
  unfold coeff
  rw [h3, List.getD_append_right _ _ _ _ hi]
  by_cases hlt : i - (correctDegree p).coeffs.length < pre.reverse.length
  · rw [List.getD_eq_getElem _ _ hlt]
    exact h2 _ (List.mem_reverse.mp (List.getElem_mem _))
  · rw [List.getD_eq_default _ _ (not_lt.mp hlt), abs_zero]
    exact zeroEps_pos

theorem coeff_mem_or_zero (p : Polynomial K) (i : ℕ) : p.coeff i ∈ p.coeffs ∨ p.coeff i = 0 := by
  unfold coeff
  by_cases hi : i < p.coeffs.length
  · left
    rw [List.getD_eq_getElem _ _ hi]
    exact List.getElem_mem _
  · right
    exact List.getD_eq_default _ _ (not_lt.mp hi)

theorem correctDegree_coeff_clean (p : Polynomial K) (hc : Clean p) (k : ℕ) :
    (correctDegree p).coeff k = p.coeff k := by
  by_cases hk : k < (correctDegree p).coeffs.length
  · exact correctDegree_coeff p k hk
  · have hsmall := correctDegree_dropped_small p k (not_lt.mp hk)
    have h0 : p.coeff k = 0 := by
      rcases coeff_mem_or_zero p k with hm | hz
      · rcases hc _ hm with h | h
        · exact h
        · exact absurd hsmall (not_lt.mpr h)
      · exact hz
    rw [h0]
    exact List.getD_eq_default _ _ (not_lt.mp hk)

theorem correctDegree_clean (p : Polynomial K) (hc : Clean p) : Clean (correctDegree p) :=
  fun a ha => hc a ((correctDegree_keeps_front p).subset ha)

theorem clean_of_coeff (p : Polynomial K) (h : ∀ k, p.coeff k = 0 ∨ zeroEps ≤ |p.coeff k|) :
    Clean p := by
  intro a ha
  obtain ⟨n, hn, rfl⟩ := List.mem_iff_getElem.mp ha
  have := h n
  unfold coeff at this
  rw [List.getD_eq_getElem _ _ hn] at this
  exact this

theorem clean_coeff (p : Polynomial K) (hc : Clean p) (k : ℕ) :
    p.coeff k = 0 ∨ zeroEps ≤ |p.coeff k| := by
  rcases coeff_mem_or_zero p k with hm | hz
  · exact hc _ hm
  · exact Or.inl hz

theorem nat_mul_clean (n : ℕ) (hn : 1 ≤ n) (a : K) (ha : a = 0 ∨ zeroEps ≤ |a|) :
    (n : K) * a = 0 ∨ zeroEps ≤ |(n : K) * a| := by
  rcases ha with h | h
  · left; rw [h, mul_zero]
  · right
    rw [abs_mul, abs_of_nonneg (Nat.cast_nonneg n)]
    have h1 : (1 : K) ≤ (n : K) := by exact_mod_cast hn
    calc zeroEps ≤ |a| := h
      _ = 1 * |a| := (one_mul _).symm
      _ ≤ (n : K) * |a| := mul_le_mul_of_nonneg_right h1 (abs_nonneg _)

/-- On an object whose coefficients are zero or not negligible, `differentiate()`
computes the derivative coefficient by coefficient. -/
theorem differentiate_coeff (p : Polynomial K) (hwf : WF p) (hc : Clean p) (k : ℕ) :
    (differentiate p).coeff k = ((k + 1 : ℕ) : K) * p.coeff (k + 1) ∧
      WF (differentiate p) ∧ Clean (differentiate p) := by
  have hwf2 := hwf
  unfold WF at hwf2
  by_cases hd : p.deg = 0
  · rw [hd] at hwf2
    obtain ⟨a, ha⟩ : ∃ a, p.coeffs = [a] := List.length_eq_one.mp hwf2
    have hres : differentiate p = ⟨[0], 0⟩ := by
      unfold differentiate
      rw [if_neg (by simp [hd]), ha, hd]
      rfl
    rw [hres]
    refine ⟨?_, rfl, ?_⟩
    · have h1 : p.coeff (k + 1) = 0 :=
        List.getD_eq_default _ _ (by rw [ha]; simp)
      rw [h1, mul_zero]
      unfold coeff
      rcases k with _ | k <;> simp
    · intro a ha
      left
      simpa using ha
  · have hq : ∀ j, (⟨shiftDown 1 p.coeffs.tail, decSize p.deg⟩ : Polynomial K).coeff j
        = ((j + 1 : ℕ) : K) * p.coeff (j + 1) := by
      intro j
      unfold coeff
      by_cases hj : j < p.coeffs.tail.length
      · rw [shiftDown_getD 1 j _ hj, tail_getD, add_comm 1 j]
      · rw [List.getD_eq_default _ _ (by rw [shiftDown_length]; omega),
          List.getD_eq_default _ _ (by rw [List.length_tail] at hj; omega), mul_zero]
    have hqc : Clean (⟨shiftDown 1 p.coeffs.tail, decSize p.deg⟩ : Polynomial K) := by
      apply clean_of_coeff
      intro j
      rw [hq j]
      exact nat_mul_clean (j + 1) (by omega) _ (clean_coeff p hc (j + 1))
    have hqwf : WF (⟨shiftDown 1 p.coeffs.tail, decSize p.deg⟩ : Polynomial K) := by
      unfold WF
      simp only [shiftDown_length, List.length_tail, decSize, hd, if_false]
      omega
    have hres : differentiate p = correctDegree ⟨shiftDown 1 p.coeffs.tail, decSize p.deg⟩ := by
      unfold differentiate
      rw [if_pos hd]
    rw [hres]
    exact ⟨by rw [correctDegree_coeff_clean _ hqc, hq],
      (correctDegree_normalized _ hqwf).1, correctDegree_clean _ hqc⟩

/-- On an object whose coefficients are zero or not negligible, the product with a
positive integer is computed coefficient by coefficient. -/
theorem smulLeft_nat_coeff (p : Polynomial K) (hwf : WF p) (hc : Clean p) (n : ℕ) (hn : 1 ≤ n)
    (k : ℕ) :
    (smulLeft (n : K) p).coeff k = (n : K) * p.coeff k ∧
      WF (smulLeft (n : K) p) ∧ Clean (smulLeft (n : K) p) := by
  have hraw : (⟨overwrite (p.coeffs.map fun c => c * (n : K))
      (ofDegree p.deg : Polynomial K).coeffs, (ofDegree p.deg : Polynomial K).deg⟩ : Polynomial K)
      = ⟨p.coeffs.map fun c => c * (n : K), p.deg⟩ := by
    unfold WF at hwf
    simp [ofDegree, overwrite, zeros, hwf]
  have hq : ∀ j, (⟨p.coeffs.map fun c => c * (n : K), p.deg⟩ : Polynomial K).coeff j
      = (n : K) * p.coeff j := by
    intro j
    unfold coeff
    by_cases hj : j < p.coeffs.length
    · simp [List.getD_eq_getElem?_getD, List.getElem?_map, List.getElem?_eq_getElem hj, mul_comm]
    · rw [List.getD_eq_default _ _ (by rw [List.length_map]; omega),
        List.getD_eq_default _ _ (by omega), mul_zero]
  have hqc : Clean (⟨p.coeffs.map fun c => c * (n : K), p.deg⟩ : Polynomial K) := by
    apply clean_of_coeff
    intro j
    rw [hq j]
    exact nat_mul_clean n hn _ (clean_coeff p hc j)
  have hqwf : WF (⟨p.coeffs.map fun c => c * (n : K), p.deg⟩ : Polynomial K) := by
    unfold WF at hwf ⊢
    simp [hwf]
  have hres : smulLeft (n : K) p = correctDegree ⟨p.coeffs.map fun c => c * (n : K), p.deg⟩ := by
    unfold smulLeft smul
    simp only
    rw [hraw]
  rw [hres]
  exact ⟨by rw [correctDegree_coeff_clean _ hqc, hq],
    (correctDegree_normalized _ hqwf).1, correctDegree_clean _ hqc⟩

end Polynomial

namespace TwoVarsPolynomial

/-! ## Evaluation of a two-variable polynomial -/

theorem evalLoop_length (f : ℕ → K) (n : ℕ) (p : Polynomial K) :
    ((List.range n).foldl (fun (p : Polynomial K) (i : ℕ) => p.setCoeff i (f i)) p).coeffs.length
      = p.coeffs.length := by
  induction n with
  | zero => rfl
  | succ n ih =>
    rw [List.range_succ, List.foldl_append, List.foldl_cons, List.foldl_nil]
    simp only [Polynomial.setCoeff, List.length_set]
    exact ih

theorem setCoeff_coeff (q : Polynomial K) (i k : ℕ) (v : K) (hi : i < q.coeffs.length) :
    (q.setCoeff i v).coeff k = if i = k then v else q.coeff k := by
  simp only [Polynomial.setCoeff, Polynomial.coeff, List.getD_eq_getElem?_getD,
    List.getElem?_set]
  by_cases hk : i = k
  · subst hk
    rw [if_pos rfl, if_pos hi, if_pos rfl]
    rfl
  · rw [if_neg hk, if_neg hk]

theorem evalLoop_coeff (f : ℕ → K) (n : ℕ) (p : Polynomial K) (hn : n ≤ p.coeffs.length)
    (k : ℕ) :
    ((List.range n).foldl (fun (p : Polynomial K) (i : ℕ) => p.setCoeff i (f i)) p).coeff k
      = if k < n then f k else p.coeff k := by
  induction n with
  | zero => simp
  | succ n ih =>
    rw [List.range_succ, List.foldl_append, List.foldl_cons, List.foldl_nil]
    have hlen := evalLoop_length f n p
    have ih2 := ih (by omega)
    generalize (List.range n).foldl (fun (p : Polynomial K) (i : ℕ) => p.setCoeff i (f i)) p
      = q at hlen ih2 ⊢
    rw [setCoeff_coeff q n k (f n) (by omega), ih2]
    by_cases hk : n = k
    · subst hk
      rw [if_pos rfl, if_pos (by omega)]
    · rw [if_neg hk]
      by_cases hk2 : k < n
      · rw [if_pos hk2, if_pos (by omega)]
      · rw [if_neg hk2, if_neg (by omega)]

theorem eval_eq_slot_sum (t : TwoVarsPolynomial K) (hne : t.coeffs ≠ []) (x y : K) :
    t.eval x y = ∑ i in Finset.range t.coeffs.length, (t.slot i).eval x * y ^ i := by
  have hpos : 0 < t.coeffs.length := List.length_pos.mpr hne
  have hdec : decSize t.coeffs.length + 1 = t.coeffs.length := by
    simp only [decSize, show t.coeffs.length ≠ 0 by omega, if_false]
    omega
  have hlen0 : (Polynomial.ofDegree (decSize t.coeffs.length) : Polynomial K).coeffs.length
      = t.coeffs.length := by
    simp only [Polynomial.ofDegree, zeros, List.length_replicate, hdec]
  unfold eval
  simp only
  rw [Polynomial.eval_is_power_sum_aux, evalLoop_length, hlen0]
  apply Finset.sum_congr rfl
  intro i hi
  rw [Finset.mem_range] at hi
  rw [evalLoop_coeff _ _ _ (by rw [hlen0]), if_pos hi]

/-- C12: for every `TwoVarsPolynomial` with slots `P0 .. Pn` and all `x`, `y`, the
value computed by `operator()` is the sum over `i` of `Pi(x) * y ^ i`. -/
theorem eval_is_slot_sum (t : TwoVarsPolynomial K) (hne : t.coeffs ≠ []) (x y : K) :
    t.eval x y = ∑ i in Finset.range t.coeffs.length, (t.slot i).eval x * y ^ i :=
  eval_eq_slot_sum t hne x y

theorem eval_is_slot_sum_witness :
    (⟨1, [Polynomial.ofList [1, 2], Polynomial.ofList [3]]⟩ : TwoVarsPolynomial ℚ).coeffs ≠ [] ∧
      (⟨1, [Polynomial.ofList [1, 2], Polynomial.ofList [3]]⟩ : TwoVarsPolynomial ℚ).eval 5 7
        = ∑ i in Finset.range 2,
            ((⟨1, [Polynomial.ofList [1, 2], Polynomial.ofList [3]]⟩ :
              TwoVarsPolynomial ℚ).slot i).eval 5 * 7 ^ i :=
  ⟨by simp, eval_is_slot_sum _ (by simp) 5 7⟩

end TwoVarsPolynomial

namespace TwoVarsPolynomial

/-! ## Differentiation of a two-variable polynomial -/

theorem empty_wf : Polynomial.WF (Polynomial.empty : Polynomial K) := rfl

theorem empty_clean : Polynomial.Clean (Polynomial.empty : Polynomial K) := by
  intro a ha
  left
  simpa [Polynomial.empty, zeros] using ha

theorem empty_coeff (k : ℕ) : (Polynomial.empty : Polynomial K).coeff k = 0 := by
  unfold Polynomial.coeff Polynomial.empty zeros
  rcases k with _ | k <;> simp

theorem getD_wf (c : List (Polynomial K)) (h : ∀ p ∈ c, Polynomial.WF p) (i : ℕ) :
    Polynomial.WF (c.getD i Polynomial.empty) := by
  by_cases hi : i < c.length
  · rw [List.getD_eq_getElem _ _ hi]
    exact h _ (List.getElem_mem _)
  · rw [List.getD_eq_default _ _ (not_lt.mp hi)]
    exact empty_wf

theorem getD_clean (c : List (Polynomial K)) (h : ∀ p ∈ c, Polynomial.Clean p) (i : ℕ) :
    Polynomial.Clean (c.getD i Polynomial.empty) := by
  by_cases hi : i < c.length
  · rw [List.getD_eq_getElem _ _ hi]
    exact h _ (List.getElem_mem _)
  · rw [List.getD_eq_default _ _ (not_lt.mp hi)]
    exact empty_clean

theorem differentiate_empty :
    Polynomial.differentiate (Polynomial.empty : Polynomial K) = Polynomial.empty := by
  simp [Polynomial.differentiate, Polynomial.empty, zeros]

theorem getD_map_differentiate (c : List (Polynomial K)) (i : ℕ) :
    (c.map Polynomial.differentiate).getD i Polynomial.empty
      = Polynomial.differentiate (c.getD i Polynomial.empty) := by
  by_cases hi : i < c.length
  · rw [List.getD_eq_getElem _ _ (by rw [List.length_map]; exact hi), List.getD_eq_getElem _ _ hi,
      List.getElem_map]
  · rw [List.getD_eq_default _ _ (by rw [List.length_map]; omega),
      List.getD_eq_default _ _ (by omega), differentiate_empty]

/-- Effect of the `x` loop of `differentiate`: slot by slot, coefficient `k` becomes
`(k+x)(k+x-1)..(k+1)` times the coefficient `k + x`. -/
theorem diffXLoop_spec (x : ℕ) :
    ∀ c : List (Polynomial K), (∀ p ∈ c, Polynomial.WF p) → (∀ p ∈ c, Polynomial.Clean p) →
      (diffXLoop x c).length = c.length ∧ (∀ p ∈ diffXLoop x c, Polynomial.WF p) ∧
      (∀ p ∈ diffXLoop x c, Polynomial.Clean p) ∧
      ∀ i k, ((diffXLoop x c).getD i Polynomial.empty).coeff k
        = (Nat.descFactorial (k + x) x : K) * (c.getD i Polynomial.empty).coeff (k + x) := by
  induction x with
  | zero =>
    intro c hwf hc
    refine ⟨rfl, hwf, hc, fun i k => ?_⟩
    simp [diffXLoop]
  | succ x ih =>
    intro c hwf hc
    have hwf1 : ∀ p ∈ c.map Polynomial.differentiate, Polynomial.WF p := by
      intro p hp
      obtain ⟨q, hq, rfl⟩ := List.mem_map.mp hp
      exact (Polynomial.differentiate_coeff q (hwf q hq) (hc q hq) 0).2.1
    have hc1 : ∀ p ∈ c.map Polynomial.differentiate, Polynomial.Clean p := by
      intro p hp
      obtain ⟨q, hq, rfl⟩ := List.mem_map.mp hp
      exact (Polynomial.differentiate_coeff q (hwf q hq) (hc q hq) 0).2.2
    obtain ⟨h1, h2, h3, h4⟩ := ih (c.map Polynomial.differentiate) hwf1 hc1
    refine ⟨by rw [diffXLoop, h1, List.length_map], by rw [diffXLoop]; exact h2,
      by rw [diffXLoop]; exact h3, fun i k => ?_⟩
    rw [diffXLoop, h4 i k, getD_map_differentiate,
      (Polynomial.differentiate_coeff _ (getD_wf c hwf i) (getD_clean c hc i) (k + x)).1,
      show k + (x + 1) = k + x + 1 from rfl, Nat.succ_descFactorial_succ]
    push_cast
    ring

theorem slots_shiftDown_length (i : ℕ) (l : List (Polynomial K)) :
    (shiftDown i l).length = l.length := by
  induction l generalizing i with
  | nil => rfl
  | cons a t ih => simp [shiftDown, ih]

theorem slots_shiftDown_getD (i j : ℕ) (l : List (Polynomial K)) (hj : j < l.length) :
    (shiftDown i l).getD j Polynomial.empty
      = Polynomial.smulLeft ((i + j : ℕ) : K) (l.getD j Polynomial.empty) := by
  induction l generalizing i j with
  | nil => simp at hj
  | cons a t ih =>
    cases j with
    | zero => simp [shiftDown]
    | succ j =>
      simp only [List.length_cons, Nat.succ_lt_succ_iff] at hj
      simp only [shiftDown, List.getD_cons_succ]
      rw [ih (i + 1) j hj]
      congr 2
      omega

theorem shiftDown_mem (i : ℕ) (hi : 1 ≤ i) (l : List (Polynomial K)) (p : Polynomial K)
    (hp : p ∈ shiftDown i l) :
    ∃ n q, 1 ≤ n ∧ q ∈ l ∧ p = Polynomial.smulLeft ((n : ℕ) : K) q := by
  induction l generalizing i with
  | nil => simp [shiftDown] at hp
  | cons a t ih =>
    rw [shiftDown] at hp
    rcases List.mem_cons.mp hp with rfl | hp
    · exact ⟨i, a, hi, by simp, rfl⟩
    · obtain ⟨n, q, hn, hq, rfl⟩ := ih (i + 1) (by omega) hp
      exact ⟨n, q, hn, by simp [hq], rfl⟩

theorem tail_getD_poly (c : List (Polynomial K)) (i : ℕ) :
    c.tail.getD i Polynomial.empty = c.getD (i + 1) Polynomial.empty := by
  cases c with
  | nil => simp
  | cons a t => simp

/-- Effect of the `y` loop of `differentiate`, as long as a slot is left: slot `i`
becomes `(i+y)(i+y-1)..(i+1)` times slot `i + y`. -/
theorem diffYLoop_spec (y : ℕ) :
    ∀ t : TwoVarsPolynomial K, (∀ p ∈ t.coeffs, Polynomial.WF p) →
      (∀ p ∈ t.coeffs, Polynomial.Clean p) → y + 1 ≤ t.coeffs.length →
      (diffYLoop y t).coeffs.length = t.coeffs.length - y ∧
      ∀ i k, ((diffYLoop y t).slot i).coeff k
        = (Nat.descFactorial (i + y) y : K) * (t.slot (i + y)).coeff k := by
  induction y with
  | zero =>
    intro t _ _ _
    refine ⟨rfl, fun i k => ?_⟩
    simp [diffYLoop]
  | succ y ih =>
    intro t hwf hc hlen
    have hmem : ∀ p ∈ shiftDown 1 t.coeffs.tail,
        Polynomial.WF p ∧ Polynomial.Clean p := by
      intro p hp
      obtain ⟨n, q, hn, hq, rfl⟩ := shiftDown_mem 1 le_rfl _ p hp
      have hq2 : q ∈ t.coeffs := List.mem_of_mem_tail hq
      exact (Polynomial.smulLeft_nat_coeff q (hwf q hq2) (hc q hq2) n hn 0).2
    have hstep : ∀ i k, ((shiftDown 1 t.coeffs.tail).getD i Polynomial.empty).coeff k
        = ((i + 1 : ℕ) : K) * (t.coeffs.getD (i + 1) Polynomial.empty).coeff k := by
      intro i k
      by_cases hi : i < t.coeffs.tail.length
      · rw [slots_shiftDown_getD 1 i _ hi, tail_getD_poly, add_comm 1 i]
        exact (Polynomial.smulLeft_nat_coeff _ (getD_wf _ hwf _) (getD_clean _ hc _) (i + 1)
          (by omega) k).1
      · rw [List.getD_eq_default _ _ (by rw [slots_shiftDown_length]; omega),
          List.getD_eq_default _ _ (by rw [List.length_tail] at hi; omega), empty_coeff, mul_zero]
    obtain ⟨h1, h2⟩ := ih ⟨decSize t.deg, shiftDown 1 t.coeffs.tail⟩
      (fun p hp => (hmem p hp).1) (fun p hp => (hmem p hp).2)
      (by simp only [slots_shiftDown_length, List.length_tail]; omega)
    refine ⟨?_, fun i k => ?_⟩
    · rw [diffYLoop, h1]
      simp only [slots_shiftDown_length, List.length_tail]
      omega
    · rw [diffYLoop, h2 i k]
      unfold slot
      simp only
      rw [hstep (i + y) k, show i + (y + 1) = i + y + 1 from rfl, Nat.succ_descFactorial_succ]
      push_cast
      ring

end TwoVarsPolynomial

namespace TwoVarsPolynomial

theorem slot_length_bound (t : TwoVarsPolynomial K) :
    ∃ b, ∀ i, (t.slot i).coeffs.length ≤ b := by
  refine ⟨(t.coeffs.map fun p => p.coeffs.length).sum + 1, fun i => ?_⟩
  unfold slot
  by_cases hi : i < t.coeffs.length
  · rw [List.getD_eq_getElem _ _ hi]
    have hmem : t.coeffs[i].coeffs.length ∈ t.coeffs.map fun p => p.coeffs.length :=
      List.mem_map.mpr ⟨_, List.getElem_mem _, rfl⟩
    have := List.single_le_sum (fun _ _ => Nat.zero_le _) _ hmem
    omega
  · rw [List.getD_eq_default _ _ (not_lt.mp hi)]
    simp [Polynomial.empty, zeros]

theorem slot_coeff_of_le (t : TwoVarsPolynomial K) (i k : ℕ) (hi : t.coeffs.length ≤ i) :
    (t.slot i).coeff k = 0 := by
  unfold slot
  rw [List.getD_eq_default _ _ hi, empty_coeff]

theorem coeff_of_le (p : Polynomial K) (k : ℕ) (hk : p.coeffs.length ≤ k) : p.coeff k = 0 :=
  List.getD_eq_default _ _ hk

/-- The value of `operator()` as a double sum over any index ranges that cover the
slots and their coefficients. -/
theorem eval_eq_double_sum (t : TwoVarsPolynomial K) (hne : t.coeffs ≠ []) (x y : K)
    (n b : ℕ) (hn : t.coeffs.length ≤ n) (hb : ∀ i, (t.slot i).coeffs.length ≤ b) :
    t.eval x y = ∑ i in Finset.range n, ∑ k in Finset.range b,
      (t.slot i).coeff k * x ^ k * y ^ i := by
  rw [eval_eq_slot_sum t hne]
  have hslot : ∀ i, (t.slot i).eval x = ∑ k in Finset.range b, (t.slot i).coeff k * x ^ k := by
    intro i
    rw [Polynomial.eval_is_power_sum_aux]
    apply Finset.sum_subset (Finset.range_subset.mpr (hb i))
    intro k _ hk
    rw [Finset.mem_range, not_lt] at hk
    rw [coeff_of_le _ _ hk, zero_mul]
  have hext : ∑ i in Finset.range t.coeffs.length, (t.slot i).eval x * y ^ i
      = ∑ i in Finset.range n, (t.slot i).eval x * y ^ i := by
    apply Finset.sum_subset (Finset.range_subset.mpr hn)
    intro i _ hi
    rw [Finset.mem_range, not_lt] at hi
    rw [hslot i]
    rw [Finset.sum_eq_zero (fun k _ => by rw [slot_coeff_of_le t i k hi, zero_mul]), zero_mul]
  rw [hext]
  apply Finset.sum_congr rfl
  intro i _
  rw [hslot i, Finset.sum_mul]

/-- The termwise derivative as a double sum over any covering index ranges. -/
theorem mixedPartial_eq_double_sum (t : TwoVarsPolynomial K) (tx ty : ℕ) (x y : K)
    (n b : ℕ) (hn : t.coeffs.length ≤ n) (hb : ∀ i, (t.slot i).coeffs.length ≤ b) :
    t.mixedPartial tx ty x y = ∑ i in Finset.range n, ∑ k in Finset.range b,
      (Nat.descFactorial k tx : K) * (Nat.descFactorial i ty : K) * (t.slot i).coeff k
        * x ^ (k - tx) * y ^ (i - ty) := by
  unfold mixedPartial
  have hin : ∀ i, ∑ k in Finset.range (t.slot i).coeffs.length,
      (Nat.descFactorial k tx : K) * (Nat.descFactorial i ty : K) * (t.slot i).coeff k
        * x ^ (k - tx) * y ^ (i - ty)
      = ∑ k in Finset.range b,
      (Nat.descFactorial k tx : K) * (Nat.descFactorial i ty : K) * (t.slot i).coeff k
        * x ^ (k - tx) * y ^ (i - ty) := by
    intro i
    apply Finset.sum_subset (Finset.range_subset.mpr (hb i))
    intro k _ hk
    rw [Finset.mem_range, not_lt] at hk
    rw [coeff_of_le _ _ hk]
    ring
  simp only [hin]
  apply Finset.sum_subset (Finset.range_subset.mpr hn)
  intro i _ hi
  rw [Finset.mem_range, not_lt] at hi
  apply Finset.sum_eq_zero
  intro k _
  rw [slot_coeff_of_le t i k hi]
  ring

/-- Coefficients of the polynomial left by `differentiate(tx, ty)`. -/
theorem differentiate_slot_coeff (t : TwoVarsPolynomial K) (hwf : t.WF) (hc : t.Clean) (tx ty : ℕ)
    (hty : ty ≤ t.deg ∨ t.deg = 0) :
    (t.differentiate tx ty).coeffs ≠ [] ∧
      ∀ i k, ((t.differentiate tx ty).slot i).coeff k
        = (Nat.descFactorial (k + tx) tx : K) * (Nat.descFactorial (i + ty) ty : K)
          * (t.slot (i + ty)).coeff (k + tx) := by
  obtain ⟨hlen, hslots⟩ := hwf
  obtain ⟨hx1, hx2, hx3, hx4⟩ := diffXLoop_spec tx t.coeffs hslots hc
  have hne_of_len : ∀ l : List (Polynomial K), 0 < l.length → l ≠ [] :=
    fun l h => List.length_pos.mp h
  unfold differentiate
  simp only
  by_cases hy : ty = 0
  · subst hy
    rw [if_neg (by simp)]
    refine ⟨hne_of_len _ (by rw [hx1, hlen]; omega), fun i k => ?_⟩
    unfold slot
    simp only
    rw [hx4 i k]
    simp
  · rw [if_pos hy]
    by_cases hd : t.deg = 0
    · rw [if_neg (by simp [hd])]
      refine ⟨hne_of_len _ (by simp only [List.length_set, hx1, hlen]; omega), fun i k => ?_⟩
      have hr : (t.slot (i + ty)).coeff (k + tx) = 0 :=
        slot_coeff_of_le t _ _ (by rw [hlen, hd]; omega)
      rw [hr, mul_zero]
      unfold slot
      simp only
      have hl1 : (diffXLoop tx t.coeffs).length = 1 := by rw [hx1, hlen, hd]
      obtain ⟨a, ha⟩ := List.length_eq_one.mp hl1
      rw [ha]
      rcases i with _ | i
      · rcases k with _ | k <;> simp [Polynomial.ofList, Polynomial.coeff]
      · simp only [List.set_cons_zero, List.getD_cons_succ, List.getD_nil]
        exact empty_coeff k
    · rw [if_pos hd]
      have hty2 : ty ≤ t.deg := by
        rcases hty with h | h
        · exact h
        · exact absurd h hd
      obtain ⟨hy1, hy2⟩ := diffYLoop_spec ty ⟨t.deg, diffXLoop tx t.coeffs⟩ hx2 hx3
        (by simp only [hx1, hlen]; omega)
      refine ⟨hne_of_len _ (by rw [hy1]; simp only [hx1, hlen]; omega), fun i k => ?_⟩
      rw [hy2 i k]
      unfold slot
      simp only
      rw [hx4 (i + ty) k]
      ring

/-- The value of the polynomial left by `differentiate(tx, ty)`. -/
theorem differentiate_eval (t : TwoVarsPolynomial K) (hwf : t.WF) (hc : t.Clean)
    (tx ty : ℕ) (hty : ty ≤ t.deg ∨ t.deg = 0) (x y : K) :
    (t.differentiate tx ty).eval x y = t.mixedPartial tx ty x y ∧
      (t.deg = 0 → 1 ≤ ty → (t.differentiate tx ty).eval x y = 0) := by
  obtain ⟨hne, hco⟩ := differentiate_slot_coeff t hwf hc tx ty hty
  obtain ⟨b1, hb1⟩ := slot_length_bound t
  obtain ⟨b2, hb2⟩ := slot_length_bound (t.differentiate tx ty)
  obtain ⟨n, hn1, hn2⟩ : ∃ n, (t.differentiate tx ty).coeffs.length ≤ n ∧ t.coeffs.length ≤ n :=
    ⟨(t.differentiate tx ty).coeffs.length + t.coeffs.length, by omega, by omega⟩
  obtain ⟨b, hb3, hb4⟩ : ∃ b, b2 ≤ b ∧ b1 ≤ b := ⟨b2 + b1, by omega, by omega⟩
  have hev := eval_eq_double_sum (t.differentiate tx ty) hne x y n b hn1
    (fun i => le_trans (hb2 i) hb3)
  constructor
  · rw [hev, mixedPartial_eq_double_sum t tx ty x y (ty + n) (tx + b)
      (by omega) (fun i => le_trans (hb1 i) (by omega)), Finset.sum_range_add]
    have hz1 : ∑ i in Finset.range ty, ∑ k in Finset.range (tx + b),
        (Nat.descFactorial k tx : K) * (Nat.descFactorial i ty : K) * (t.slot i).coeff k
          * x ^ (k - tx) * y ^ (i - ty) = 0 := by
      apply Finset.sum_eq_zero
      intro i hi
      rw [Finset.mem_range] at hi
      apply Finset.sum_eq_zero
      intro k _
      rw [Nat.descFactorial_eq_zero_iff_lt.mpr hi]
      simp
    rw [hz1, zero_add]
    apply Finset.sum_congr rfl
    intro i _
    rw [Finset.sum_range_add]
    have hz2 : ∑ k in Finset.range tx,
        (Nat.descFactorial k tx : K) * (Nat.descFactorial (ty + i) ty : K)
          * (t.slot (ty + i)).coeff k * x ^ (k - tx) * y ^ (ty + i - ty) = 0 := by
      apply Finset.sum_eq_zero
      intro k hk
      rw [Finset.mem_range] at hk
      rw [Nat.descFactorial_eq_zero_iff_lt.mpr hk]
      simp
    rw [hz2, zero_add]
    apply Finset.sum_congr rfl
    intro k _
    rw [hco i k, add_comm ty i, add_comm tx k, Nat.add_sub_cancel, Nat.add_sub_cancel]
  · intro hd hy
    rw [hev]
    apply Finset.sum_eq_zero
    intro i _
    apply Finset.sum_eq_zero
    intro k _
    rw [hco i k, slot_coeff_of_le t (i + ty) (k + tx) (by rw [hwf.1, hd]; omega)]
    ring

/-- Without differentiation `mixedPartial` is the two-variable polynomial itself. -/
theorem mixedPartial_zero_zero (t : TwoVarsPolynomial K) (x y : K) :
    t.mixedPartial 0 0 x y = ∑ i in Finset.range t.coeffs.length,
      ∑ k in Finset.range (t.slot i).coeffs.length, (t.slot i).coeff k * x ^ k * y ^ i := by
  unfold mixedPartial
  apply Finset.sum_congr rfl
  intro i _
  apply Finset.sum_congr rfl
  intro k _
  simp

/-- Over the reals `mixedPartial` with one more derivative in `x` is the derivative
in `x`. -/
theorem mixedPartial_hasDerivAt_x (t : TwoVarsPolynomial ℝ) (tx ty : ℕ) (x y : ℝ) :
    HasDerivAt (fun x => t.mixedPartial tx ty x y) (t.mixedPartial (tx + 1) ty x y) x := by
  unfold mixedPartial
  apply HasDerivAt.sum
  intro i _
  apply HasDerivAt.sum
  intro k _
  have h := ((hasDerivAt_pow (k - tx) x).const_mul
    ((Nat.descFactorial k tx : ℝ) * (Nat.descFactorial i ty : ℝ) * (t.slot i).coeff k)).mul_const
    (y ^ (i - ty))
  have hk : ((Nat.descFactorial k (tx + 1) : ℕ) : ℝ)
      = ((k - tx : ℕ) : ℝ) * (Nat.descFactorial k tx : ℝ) := by
    rw [Nat.descFactorial_succ, Nat.cast_mul]
  rw [hk, ← Nat.sub_sub]
  convert h using 1
  ring

/-- Over the reals `mixedPartial` with one more derivative in `y` is the derivative
in `y`. -/
theorem mixedPartial_hasDerivAt_y (t : TwoVarsPolynomial ℝ) (tx ty : ℕ) (x y : ℝ) :
    HasDerivAt (fun y => t.mixedPartial tx ty x y) (t.mixedPartial tx (ty + 1) x y) y := by
  unfold mixedPartial
  apply HasDerivAt.sum
  intro i _
  apply HasDerivAt.sum
  intro k _
  have h := (hasDerivAt_pow (i - ty) y).const_mul
    ((Nat.descFactorial k tx : ℝ) * (Nat.descFactorial i ty : ℝ) * (t.slot i).coeff k
      * x ^ (k - tx))
  have hi : ((Nat.descFactorial i (ty + 1) : ℕ) : ℝ)
      = ((i - ty : ℕ) : ℝ) * (Nat.descFactorial i ty : ℝ) := by
    rw [Nat.descFactorial_succ, Nat.cast_mul]
  rw [hi, ← Nat.sub_sub]
  convert h using 1
  ring

/-- C13: for every `TwoVarsPolynomial` of outer degree `n` (`n + 1` slots, each with
degree field = coefficient count minus one) whose nonzero inner coefficients all
have absolute value at least `1e-10`, and all `tx` and `ty` with `ty <= n` or
`n = 0`, the polynomial left by `differentiate(tx, ty)` evaluates at every
`(x, y)` to the mixed partial derivative `(d/dx)^tx (d/dy)^ty` of the original
two-variable polynomial; for `n = 0` and `ty >= 1` the result is identically
zero. -/
theorem differentiate_is_mixed_derivative (t : TwoVarsPolynomial K) (hwf : t.WF) (hc : t.Clean)
    (tx ty : ℕ) (hty : ty ≤ t.deg ∨ t.deg = 0) (x y : K) :
    (t.differentiate tx ty).eval x y = t.mixedPartial tx ty x y ∧
      (t.deg = 0 → 1 ≤ ty → (t.differentiate tx ty).eval x y = 0) :=
  differentiate_eval t hwf hc tx ty hty x y

theorem differentiate_is_mixed_derivative_witness :
    (⟨1, [Polynomial.ofList [1, 2, 3], Polynomial.ofList [0, 5]]⟩ : TwoVarsPolynomial ℚ).WF ∧
    (⟨1, [Polynomial.ofList [1, 2, 3], Polynomial.ofList [0, 5]]⟩ : TwoVarsPolynomial ℚ).Clean ∧
    ((⟨1, [Polynomial.ofList [1, 2, 3], Polynomial.ofList [0, 5]]⟩ :
        TwoVarsPolynomial ℚ).differentiate 1 1).eval 7 11
      = (⟨1, [Polynomial.ofList [1, 2, 3], Polynomial.ofList [0, 5]]⟩ :
        TwoVarsPolynomial ℚ).mixedPartial 1 1 7 11 ∧
    (⟨1, [Polynomial.ofList [1, 2, 3], Polynomial.ofList [0, 5]]⟩ :
        TwoVarsPolynomial ℚ).mixedPartial 1 1 7 11 = 5 := by
  have hwf : (⟨1, [Polynomial.ofList [1, 2, 3], Polynomial.ofList [0, 5]]⟩ :
      TwoVarsPolynomial ℚ).WF := by decide!
  have hc : (⟨1, [Polynomial.ofList [1, 2, 3], Polynomial.ofList [0, 5]]⟩ :
      TwoVarsPolynomial ℚ).Clean := by decide!
  exact ⟨hwf, hc, (differentiate_is_mixed_derivative _ hwf hc 1 1 (Or.inl (le_refl _)) 7 11).1,
    by decide!⟩

end TwoVarsPolynomial

namespace Worker

/-! ## The stability tests -/

theorem potentialN_wf (c : Coefficients K) : (potentialN c).WF := by
  refine ⟨rfl, ?_⟩
  intro p hp
  simp only [potentialN, TwoVarsPolynomial.setSlot, TwoVarsPolynomial.ofDegree,
    List.replicate, List.set_cons_succ, List.set_cons_zero, List.mem_cons, List.mem_singleton,
    List.not_mem_nil, or_false] at hp
  rcases hp with rfl | rfl | rfl | rfl | rfl | rfl | rfl | rfl | rfl <;> rfl

theorem potentialI_wf (c : Coefficients K) : (potentialI c).WF := by
  refine ⟨rfl, ?_⟩
  intro p hp
  simp only [potentialI, TwoVarsPolynomial.setSlot, TwoVarsPolynomial.ofDegree,
    List.replicate, List.set_cons_succ, List.set_cons_zero, List.mem_cons, List.mem_singleton,
    List.not_mem_nil, or_false] at hp
  rcases hp with rfl | rfl | rfl <;> rfl

/-- The slots of `potentialI` hold model coefficients only. -/
theorem potentialI_clean (c : Coefficients K) (h : c.NonNegligible) : (potentialI c).Clean := by
  intro p hp
  simp only [potentialI, TwoVarsPolynomial.setSlot, TwoVarsPolynomial.ofDegree,
    List.replicate, List.set_cons_succ, List.set_cons_zero, List.mem_cons, List.mem_singleton,
    List.not_mem_nil, or_false] at hp
  have h0 : ∀ a, a = c.a0 ∨ a = c.a1 ∨ a = c.a2 ∨ a = c.a3 ∨ a = c.b0 ∨ a = c.b1 ∨ a = c.d0
      ∨ a = c.d1 ∨ a = c.d2 → a = 0 ∨ zeroEps ≤ |a| := by
    intro a ha
    apply h a
    simp only [List.mem_cons, List.mem_singleton, List.not_mem_nil, or_false]
    exact ha
  rcases hp with rfl | rfl | rfl <;> intro a ha <;>
    simp only [Polynomial.ofList, List.isEmpty_cons, Bool.false_eq_true, if_false,
      List.mem_cons, List.mem_singleton, List.not_mem_nil, or_false] at ha
  · rcases ha with rfl | rfl | rfl | rfl | rfl
    · exact Or.inl rfl
    all_goals exact h0 _ (by simp)
  · rcases ha with rfl | rfl | rfl <;> exact h0 _ (by simp)
  · rcases ha with rfl | rfl <;> exact h0 _ (by simp)

/-- On a potential whose stored coefficients are zero or not negligible the test
computes the three second derivatives and the value exactly. -/
theorem stableTest_spec (f : TwoVarsPolynomial K) (hwf : f.WF) (hc : f.Clean) (h2 : 2 ≤ f.deg)
    (u v : K) :
    stableTest f u v =
      if f.mixedPartial 2 0 u v ≤ 0 ∨
          f.mixedPartial 2 0 u v * f.mixedPartial 0 2 u v - f.mixedPartial 1 1 u v ^ 2 ≤ 0
      then none else some (f.mixedPartial 0 0 u v) := by
  have h00 := (TwoVarsPolynomial.differentiate_eval f hwf hc 0 0 (Or.inl (Nat.zero_le _)) u v).1
  have hid : f.differentiate 0 0 = f := by
    simp [TwoVarsPolynomial.differentiate, TwoVarsPolynomial.diffXLoop]
  rw [hid] at h00
  unfold stableTest
  simp only
  rw [(TwoVarsPolynomial.differentiate_eval f hwf hc 2 0 (Or.inl (Nat.zero_le _)) u v).1,
    (TwoVarsPolynomial.differentiate_eval f hwf hc 0 2 (Or.inl h2) u v).1,
    (TwoVarsPolynomial.differentiate_eval f hwf hc 1 1 (Or.inl (by omega)) u v).1, h00]

theorem stableTest_iff (f : TwoVarsPolynomial K) (hwf : f.WF) (hc : f.Clean) (h2 : 2 ≤ f.deg)
    (u v : K) :
    ((∃ phi, stableTest f u v = some phi) ↔
        0 < f.mixedPartial 2 0 u v ∧
        0 < f.mixedPartial 2 0 u v * f.mixedPartial 0 2 u v - f.mixedPartial 1 1 u v ^ 2) ∧
      ∀ phi, stableTest f u v = some phi → phi = f.mixedPartial 0 0 u v := by
  rw [stableTest_spec f hwf hc h2 u v]
  by_cases h : f.mixedPartial 2 0 u v ≤ 0 ∨
      f.mixedPartial 2 0 u v * f.mixedPartial 0 2 u v - f.mixedPartial 1 1 u v ^ 2 ≤ 0
  · rw [if_pos h]
    refine ⟨⟨fun ⟨_, hphi⟩ => by simp at hphi, fun ⟨h1, h2⟩ => ?_⟩, fun phi hphi => by simp at hphi⟩
    rcases h with h | h
    · exact absurd h1 (not_lt.mpr h)
    · exact absurd h2 (not_lt.mpr h)
  · rw [if_neg h]
    rw [not_or, not_le, not_le] at h
    exact ⟨⟨fun _ => h, fun _ => ⟨_, rfl⟩⟩, fun phi hphi => (Option.some.inj hphi).symm⟩

/-- C14, as stated, fails for `isPhaseStableN`: with `a[2] = 1`,
`b[1] = -1 + 1e-11` and the other coefficients zero every nonzero model coefficient
is at least `1e-10`, yet the slot entry `a[2] + b[1] = 1e-11` of `potentialN` is
dropped by the degree normalisation inside `differentiate`. At the candidate
`(1, 0)` both `Fxx = 3e-10` and the Hessian determinant are positive and
`isPhaseStableN` returns `false`. -/
theorem stable_test_drops_small_slot_entry :
    (⟨0, 0, 1, 0, 0, -1 + 1 / 10 ^ 11, 0, 0, 0⟩ : Coefficients ℚ).NonNegligible ∧
    isPhaseStableN (⟨0, 0, 1, 0, 0, -1 + 1 / 10 ^ 11, 0, 0, 0⟩ : Coefficients ℚ) 1 0 = none ∧
    (potentialN (⟨0, 0, 1, 0, 0, -1 + 1 / 10 ^ 11, 0, 0, 0⟩ : Coefficients ℚ)).mixedPartial
      2 0 1 0 = 3 / 10 ^ 10 ∧
    0 < (potentialN (⟨0, 0, 1, 0, 0, -1 + 1 / 10 ^ 11, 0, 0, 0⟩ : Coefficients ℚ)).mixedPartial
          2 0 1 0
        * (potentialN (⟨0, 0, 1, 0, 0, -1 + 1 / 10 ^ 11, 0, 0, 0⟩ : Coefficients ℚ)).mixedPartial
          0 2 1 0
        - (potentialN (⟨0, 0, 1, 0, 0, -1 + 1 / 10 ^ 11, 0, 0, 0⟩ : Coefficients ℚ)).mixedPartial
          1 1 1 0 ^ 2 ∧
    ((potentialN (⟨0, 0, 1, 0, 0, -1 + 1 / 10 ^ 11, 0, 0, 0⟩ :
      Coefficients ℚ)).differentiate 2 0).eval 1 0 = 0 := by
  decide!

/-- C14 (amended): for every coefficient set and every candidate `(u, v)`:
if every nonzero entry stored in the slots of `potentialN` (a model coefficient or
one of the combinations the code forms from them) has absolute value at least
`1e-10`, then `isPhaseStableN` returns `true` if and only if `Fxx(u,v) > 0` and
`Fxx(u,v) * Fyy(u,v) - Fxy(u,v)^2 > 0`, and on acceptance `phi = F(u, v)`, with
`F = potentialN`; if every nonzero model coefficient has absolute value at least
`1e-10`, the same holds for `isPhaseStableI` with `F = potentialI`. -/
theorem stable_tests_are_hessian_tests (c : Coefficients K) (u v : K) :
    ((potentialN c).Clean →
      ((∃ phi, isPhaseStableN c u v = some phi) ↔
        0 < (potentialN c).mixedPartial 2 0 u v ∧
        0 < (potentialN c).mixedPartial 2 0 u v * (potentialN c).mixedPartial 0 2 u v
          - (potentialN c).mixedPartial 1 1 u v ^ 2) ∧
      ∀ phi, isPhaseStableN c u v = some phi → phi = (potentialN c).mixedPartial 0 0 u v) ∧
    (c.NonNegligible →
      ((∃ phi, isPhaseStableI c u v = some phi) ↔
        0 < (potentialI c).mixedPartial 2 0 u v ∧
        0 < (potentialI c).mixedPartial 2 0 u v * (potentialI c).mixedPartial 0 2 u v
          - (potentialI c).mixedPartial 1 1 u v ^ 2) ∧
      ∀ phi, isPhaseStableI c u v = some phi → phi = (potentialI c).mixedPartial 0 0 u v) :=
  ⟨fun hN => stableTest_iff (potentialN c) (potentialN_wf c) hN
      (show 2 ≤ 8 by decide) u v,
    fun hI => stableTest_iff (potentialI c) (potentialI_wf c) (potentialI_clean c hI)
      (le_refl 2) u v⟩

theorem stable_tests_are_hessian_tests_witness :
    (potentialN (⟨1, 2, 3, 4, 5, 6, 7, 8, 9⟩ : Coefficients ℚ)).Clean ∧
    (⟨1, 2, 3, 4, 5, 6, 7, 8, 9⟩ : Coefficients ℚ).NonNegligible ∧
    (((∃ phi, isPhaseStableN (⟨1, 2, 3, 4, 5, 6, 7, 8, 9⟩ : Coefficients ℚ) 1 2 = some phi) ↔
        0 < (potentialN (⟨1, 2, 3, 4, 5, 6, 7, 8, 9⟩ : Coefficients ℚ)).mixedPartial 2 0 1 2 ∧
        0 < (potentialN (⟨1, 2, 3, 4, 5, 6, 7, 8, 9⟩ : Coefficients ℚ)).mixedPartial 2 0 1 2
            * (potentialN (⟨1, 2, 3, 4, 5, 6, 7, 8, 9⟩ : Coefficients ℚ)).mixedPartial 0 2 1 2
          - (potentialN (⟨1, 2, 3, 4, 5, 6, 7, 8, 9⟩ : Coefficients ℚ)).mixedPartial 1 1 1 2
            ^ 2) ∧
      ∀ phi, isPhaseStableN (⟨1, 2, 3, 4, 5, 6, 7, 8, 9⟩ : Coefficients ℚ) 1 2 = some phi →
        phi = (potentialN (⟨1, 2, 3, 4, 5, 6, 7, 8, 9⟩ : Coefficients ℚ)).mixedPartial 0 0 1 2) ∧
    (((∃ phi, isPhaseStableI (⟨1, 2, 3, 4, 5, 6, 7, 8, 9⟩ : Coefficients ℚ) 1 2 = some phi) ↔
        0 < (potentialI (⟨1, 2, 3, 4, 5, 6, 7, 8, 9⟩ : Coefficients ℚ)).mixedPartial 2 0 1 2 ∧
        0 < (potentialI (⟨1, 2, 3, 4, 5, 6, 7, 8, 9⟩ : Coefficients ℚ)).mixedPartial 2 0 1 2
            * (potentialI (⟨1, 2, 3, 4, 5, 6, 7, 8, 9⟩ : Coefficients ℚ)).mixedPartial 0 2 1 2
          - (potentialI (⟨1, 2, 3, 4, 5, 6, 7, 8, 9⟩ : Coefficients ℚ)).mixedPartial 1 1 1 2
            ^ 2) ∧
      ∀ phi, isPhaseStableI (⟨1, 2, 3, 4, 5, 6, 7, 8, 9⟩ : Coefficients ℚ) 1 2 = some phi →
        phi = (potentialI (⟨1, 2, 3, 4, 5, 6, 7, 8, 9⟩ : Coefficients ℚ)).mixedPartial 0 0 1 2) :=
  ⟨by decide!, by decide!,
    (stable_tests_are_hessian_tests (⟨1, 2, 3, 4, 5, 6, 7, 8, 9⟩ : Coefficients ℚ) 1 2).1
      (by decide!),
    (stable_tests_are_hessian_tests (⟨1, 2, 3, 4, 5, 6, 7, 8, 9⟩ : Coefficients ℚ) 1 2).2
      (by decide!)⟩

end Worker

namespace Worker

/-! ## The list of stable phases -/

theorem phases23_spec (c : Coefficients K) (sol : List K) :
    ∀ r ∈ phases23 c sol, (r.type = 2 ∨ r.type = 3) ∧ (r.type = 2 ↔ r.n0 < 0) ∧ r.n1 = 0 := by
  induction sol with
  | nil => intro r hr; simp [phases23] at hr
  | cons value rest ih =>
    intro r hr
    unfold phases23 at hr
    rcases hs : isPhaseStableN c value 0 with _ | f
    · rw [hs] at hr
      exact ih r hr
    · rw [hs] at hr
      simp only [List.mem_cons] at hr
      rcases hr with rfl | hr
      · by_cases hv : value < 0
        · simp [hv]
        · simp [hv]
      · exact ih r hr

theorem phases4_spec (M : Libm K) (fuel : ℕ) (c : Coefficients K) :
    ∀ inv out, phases4 M fuel c inv = some out → ∀ r ∈ out, r.type = 4 := by
  intro inv
  induction inv with
  | nil =>
    intro out h r hr
    simp only [phases4, Option.some.injEq] at h
    subst h
    simp at hr
  | cons item rest ih =>
    intro out h
    unfold phases4 at h
    rcases hrest : phases4 M fuel c rest with _ | tl
    · rw [hrest] at h
      simp at h
    · rw [hrest] at h
      have htl := ih tl hrest
      simp only at h
      split_ifs at h with h1
      · rcases hs : isPhaseStableI c item.1 item.2 with _ | f
        · rw [hs] at h
          simp only [Option.some.injEq] at h
          subst h
          exact htl
        · rw [hs] at h
          simp only at h
          rcases hr : (Polynomial.ofList [-1 * item.2, -3 * item.1, 0, 4]).roots M fuel with _ | r
          · rw [hr] at h
            simp at h
          · rw [hr] at h
            simp only at h
            split_ifs at h with h2 h3
            · simp only [Option.some.injEq] at h
              subst h
              exact htl
            · simp only [Option.some.injEq] at h
              subst h
              intro x hx
              simp only [List.mem_cons] at hx
              rcases hx with rfl | hx
              · rfl
              · exact htl x hx
            · simp only [Option.some.injEq] at h
              subst h
              exact htl
      · simp only [Option.some.injEq] at h
        subst h
        exact htl

/-- Shape of the list returned by `getPhases`: the record of type 1 if `a[0] > 0`,
then records of types 2 and 3, then records of type 4. -/
theorem getPhases_spec (M : Libm K) (fuel : ℕ) (c : Coefficients K) (out : List (PhaseInfo K))
    (h : getPhases M fuel c = some out) :
    ∃ l23 l4, out = (if 0 < c.a0 then [⟨1, 0, 0, 0⟩] else []) ++ l23 ++ l4 ∧
      (∀ r ∈ l23, (r.type = 2 ∨ r.type = 3) ∧ (r.type = 2 ↔ r.n0 < 0) ∧ r.n1 = 0) ∧
      ∀ r ∈ l4, r.type = 4 := by
  unfold getPhases at h
  simp only at h
  rcases hsol : (Polynomial.ofList [2 * c.a0, 3 * c.b0, 4 * c.a1, 5 * c.d0,
    6 * (c.a2 + c.b1), 7 * c.d1, 8 * (c.a3 + c.d2)]).roots M fuel with _ | solution
  · rw [hsol] at h
    simp at h
  · rw [hsol] at h
    simp only at h
    rcases hinv : phase4Invariants M fuel c with _ | inv
    · rw [hinv] at h
      simp at h
    · rw [hinv] at h
      simp only at h
      rcases h4 : phases4 M fuel c inv with _ | info4
      · rw [h4] at h
        simp at h
      · rw [h4] at h
        simp only [Option.some.injEq] at h
        exact ⟨phases23 c solution, info4, h.symm, phases23_spec c solution,
          phases4_spec M fuel c inv info4 h4⟩

theorem getPhases_types (M : Libm K) (fuel : ℕ) (c : Coefficients K) (out : List (PhaseInfo K))
    (h : getPhases M fuel c = some out) : ∀ r ∈ out, 1 ≤ r.type ∧ r.type ≤ 4 := by
  obtain ⟨l23, l4, rfl, h23, h4⟩ := getPhases_spec M fuel c out h
  intro r hr
  simp only [List.mem_append] at hr
  rcases hr with (hr | hr) | hr
  · split_ifs at hr
    · simp only [List.mem_singleton] at hr
      subst hr
      exact ⟨le_refl _, by norm_num⟩
    · simp at hr
  · rcases (h23 r hr).1 with h | h <;> omega
  · have := h4 r hr
    omega

end Worker
namespace Worker

theorem roots_of_degree_zero (M : Libm K) (fuel : ℕ) (p : Polynomial K)
    (h : (Polynomial.correctDegree p).deg = 0) : Polynomial.roots M fuel p = some [0] := by
  unfold Polynomial.roots
  simp only [h]

/-- C16, failing input: `a[0] = 1` and all other coefficients zero. The state
equation `2 a[0] + ... = 0` is the constant `2` and has no root, `roots()` returns
`[0]` for a polynomial of degree zero, the candidate `N = (0, 0)` passes
`isPhaseStableN`, and `N[0] < 0 ? 2 : 3` files it as a record of type 3 whose first
order-parameter component is `0`, not strictly positive. -/
theorem getPhases_zero_order_parameter_as_type3 (M : Libm ℚ) (fuel : ℕ) :
    getPhases M fuel ⟨1, 0, 0, 0, 0, 0, 0, 0, 0⟩ = some [⟨1, 0, 0, 0⟩, ⟨3, 0, 0, 0⟩] ∧
    ∀ x : ℚ, Polynomial.eval (Polynomial.ofList [2 * 1, 3 * 0, 4 * 0, 5 * 0, 6 * (0 + 0), 7 * 0,
      8 * (0 + 0)]) x = 2 := by
  constructor
  · have h1 : Polynomial.roots M fuel (Polynomial.ofList [2 * (1 : ℚ), 3 * 0, 4 * 0, 5 * 0,
        6 * (0 + 0), 7 * 0, 8 * (0 + 0)]) = some [0] :=
      roots_of_degree_zero M fuel _ (by decide!)
    have h2 : Polynomial.roots M fuel (Polynomial.ofList [(0 : ℚ), 0, 0]) = some [0] :=
      roots_of_degree_zero M fuel _ (by decide!)
    have h3 : phase4Invariants M fuel (⟨1, 0, 0, 0, 0, 0, 0, 0, 0⟩ : Coefficients ℚ)
        = some [] := by
      unfold phase4Invariants
      simp only [if_true, h2]
      decide!
    unfold getPhases
    simp only [h1, h3, phases4]
    decide!
  · intro x
    simp [Polynomial.eval, Polynomial.ofList]

end Worker


namespace Polynomial

/-! ## Termination of `roots()` -/

theorem normalized_of_wf_correctDegree (p : Polynomial K) (h : WF (correctDegree p)) :
    Normalized (correctDegree p) := by
  refine ⟨h, ?_⟩
  unfold WF at h
  rcases stripBack_head p.coeffs.reverse p.deg with h2 | h2
  · left
    simp only [correctDegree, List.length_reverse] at h ⊢
    omega
  · right
    have h3 := getD_reverse_head (correctDegree p).coeffs
    rw [h, Nat.add_sub_cancel] at h3
    unfold coeff
    rw [h3]
    simpa [correctDegree] using h2

theorem neg_of_normalized (p : Polynomial K) (h : Normalized p) : neg p = negRaw p := by
  unfold neg
  apply correctDegree_noop
  · unfold WF
    rw [negRaw_length p h.1]
    exact h.1
  · rcases h.2 with h0 | h0
    · left; exact h0
    · right
      rw [show (negRaw p).deg = p.deg from rfl, negRaw_coeff p h.1, abs_neg]
      exact h0

theorem neg_deg_of_normalized (p : Polynomial K) (h : Normalized p) : (neg p).deg = p.deg := by
  rw [neg_of_normalized p h]
  rfl

theorem neg_lead_of_normalized (p : Polynomial K) (h : Normalized p) (hd : 1 ≤ p.deg) :
    zeroEps ≤ |(neg p).coeff (neg p).deg| := by
  rcases (neg_normalized p h.1).2 with h0 | h0
  · rw [neg_deg_of_normalized p h] at h0
    omega
  · exact h0

theorem modLoop_normalized (p2 : Polynomial K) (hp2 : WF p2) (hd : 1 ≤ p2.deg)
    (hlead : zeroEps ≤ |p2.coeff p2.deg|) (fuel : ℕ) :
    ∀ r res : Polynomial K, Normalized r → modLoop fuel r p2 = some res → Normalized res := by
  induction fuel with
  | zero =>
    intro r res hr h
    by_cases hle : p2.deg ≤ r.deg
    · rw [modLoop_zero r p2 hle] at h
      exact absurd h (by simp)
    · rw [modLoop_done _ r p2 (by omega)] at h
      rw [← Option.some.inj h]
      exact hr
  | succ fuel ih =>
    intro r res hr h
    rw [modLoop_succ] at h
    split_ifs at h with hle
    · refine ih _ _ ?_ h
      exact normalized_of_wf_correctDegree _ (mod_step_decreases r p2 hr.1 hp2 hd hlead hle).1
    · rw [← Option.some.inj h]
      exact hr

theorem getD_append_two (pre : List (Polynomial K)) (a b : Polynomial K) :
    (pre ++ [a, b]).getD ((pre ++ [a, b]).length - 2) empty = a ∧
      (pre ++ [a, b]).getLastD empty = b := by
  constructor
  · rw [List.length_append]
    simp only [List.length_cons, List.length_nil, Nat.add_sub_cancel]
    rw [List.getD_eq_getElem?_getD, List.getElem?_append_right (le_refl _)]
    simp
  · simp [List.getLastD_eq_getLast?]

/-- The loop of `createSturmSystem` ends: the degree of the last member falls in
every iteration. -/
theorem sturmLoop_terminates (n : ℕ) :
    ∀ (pre : List (Polynomial K)) (a b : Polynomial K), Normalized a → Normalized b →
      1 ≤ b.deg → b.deg ≤ n →
      ∃ N, ∀ fuel, N ≤ fuel → ∃ res, sturmLoop fuel (pre ++ [a, b]) = some res := by
  induction n with
  | zero => intro pre a b _ _ h1 h2; omega
  | succ n ih =>
    intro pre a b ha hb h1 h2
    have hblead : zeroEps ≤ |b.coeff b.deg| := by
      rcases hb.2 with h | h
      · omega
      · exact h
    obtain ⟨r, hrwf, hrdeg, hrun⟩ := modLoop_terminates b hb.1 h1 hblead a.deg a ha.1 (le_refl _)
    have hrnorm : Normalized r :=
      modLoop_normalized b hb.1 h1 hblead (a.deg + 1) a r ha (hrun _ (by omega))
    obtain ⟨hg1, hg2⟩ := getD_append_two pre a b
    by_cases hr0 : r.deg = 0
    · refine ⟨a.deg + 1, fun fuel hfuel => ?_⟩
      obtain ⟨f, rfl⟩ : ∃ f, fuel = f + 1 := ⟨fuel - 1, by omega⟩
      rw [sturmLoop_succ f (pre ++ [a, b]) r (by rw [hg1, hg2]; exact hrun _ (by omega)),
        if_neg (by simp [hr0])]
      exact ⟨_, rfl⟩
    · obtain ⟨N, hN⟩ := ih (pre ++ [a]) b (neg r) hb (neg_normalized r hrwf)
        (by rw [neg_deg_of_normalized r hrnorm]; omega)
        (by rw [neg_deg_of_normalized r hrnorm]; omega)
      refine ⟨max (a.deg + 1) (N + 1), fun fuel hfuel => ?_⟩
      obtain ⟨f, rfl⟩ : ∃ f, fuel = f + 1 := ⟨fuel - 1, by omega⟩
      rw [sturmLoop_succ f (pre ++ [a, b]) r (by rw [hg1, hg2]; exact hrun _ (by omega)),
        if_pos hr0]
      have := hN f (by omega)
      simpa using this

theorem differentiate_normalized (p : Polynomial K) (h : Normalized p) (hd : 1 ≤ p.deg) :
    Normalized (differentiate p) ∧ (differentiate p).deg = p.deg - 1 := by
  have hlead : zeroEps ≤ |p.coeff p.deg| := by
    rcases h.2 with h0 | h0
    · omega
    · exact h0
  have hwf := h.1
  unfold WF at hwf
  rw [differentiate_eq p h.1 hd hlead]
  have hlen : (shiftDown 1 p.coeffs.tail).length = p.deg := by
    rw [shiftDown_length, List.length_tail, hwf, Nat.add_sub_cancel]
  refine ⟨⟨by simp only [hlen]; omega, ?_⟩, rfl⟩
  by_cases hd1 : p.deg - 1 = 0
  · left; exact hd1
  · right
    simp only [coeff]
    rw [shiftDown_getD 1 (p.deg - 1) _ (by rw [List.length_tail, hwf]; omega), tail_getD,
      show p.deg - 1 + 1 = p.deg by omega, abs_mul]
    have hc : (1 : K) ≤ |((1 + (p.deg - 1) : ℕ) : K)| := by
      rw [Nat.abs_cast]
      exact_mod_cast (by omega : 1 ≤ 1 + (p.deg - 1))
    calc zeroEps = 1 * zeroEps := (one_mul _).symm
      _ ≤ |((1 + (p.deg - 1) : ℕ) : K)| * |p.coeffs.getD p.deg 0| :=
        mul_le_mul hc hlead (le_of_lt zeroEps_pos) (abs_nonneg _)

theorem createSturmSystem_terminates (p : Polynomial K) (h : Normalized p) (hd : 2 ≤ p.deg) :
    ∃ N, ∀ fuel, N ≤ fuel → ∃ res, createSturmSystem fuel p = some res := by
  obtain ⟨hn, hdeg⟩ := differentiate_normalized p h (by omega)
  unfold createSturmSystem
  exact sturmLoop_terminates (differentiate p).deg [] p (differentiate p) h hn (by omega)
    (le_refl _)

theorem searchRoots_terminates [Archimedean K] (p : Polynomial K) (s : List (Polynomial K))
    (l r : K) : ∃ N, ∀ fuel, N ≤ fuel → ∃ out, searchRoots p s fuel l r = some out := by
  obtain ⟨N, hN⟩ := pow_unbounded_of_one_lt ((r - l) / rootEps) (one_lt_two (α := K))
  refine ⟨N, fun fuel hfuel => ?_⟩
  have h2 : (2 : K) ^ N ≤ 2 ^ fuel := pow_le_pow_right₀ (by norm_num) hfuel
  have h3 : r - l < rootEps * 2 ^ fuel := by
    rw [div_lt_iff₀ rootEps_pos] at hN
    calc r - l < 2 ^ N * rootEps := hN
      _ ≤ 2 ^ fuel * rootEps := mul_le_mul_of_nonneg_right h2 (le_of_lt rootEps_pos)
      _ = rootEps * 2 ^ fuel := mul_comm _ _
  obtain ⟨out, hout, _⟩ := searchRoots_length p s fuel l r h3
  exact ⟨out, hout⟩

/-- With enough fuel `roots()` returns. -/
theorem roots_terminates [Archimedean K] (M : Libm K) (p0 : Polynomial K) (hwf : WF p0) :
    ∃ N, ∀ fuel, N ≤ fuel → ∃ out, roots M fuel p0 = some out := by
  have hn := correctDegree_normalized p0 hwf
  by_cases hd : (correctDegree p0).deg ≤ 4
  · refine ⟨0, fun fuel _ => ?_⟩
    unfold roots
    simp only
    generalize correctDegree p0 = p at hd ⊢
    rcases p with ⟨c, d⟩
    simp only at hd
    interval_cases d <;> exact ⟨_, rfl⟩
  · obtain ⟨N1, hN1⟩ := createSturmSystem_terminates _ hn (by omega)
    obtain ⟨s, hs⟩ := hN1 N1 (le_refl _)
    obtain ⟨N2, hN2⟩ := searchRoots_terminates (correctDegree p0) s
      (getLowRootsLimit M (correctDegree p0)) (getHighRootsLimit M (correctDegree p0))
    refine ⟨max N1 N2, fun fuel hfuel => ?_⟩
    obtain ⟨out, hout⟩ := hN2 fuel (by omega)
    refine ⟨out, ?_⟩
    unfold roots
    simp only
    have hs2 := createSturmSystem_mono _ s N1 fuel (by omega) hs
    generalize correctDegree p0 = p at hd hs2 hout ⊢
    rcases p with ⟨c, d⟩
    simp only at hd
    obtain ⟨d5, rfl⟩ : ∃ d5, d = d5 + 5 := ⟨d - 5, by omega⟩
    simp only [hs2]
    exact hout

end Polynomial
namespace Worker

theorem ofList_wf (l : List K) : Polynomial.WF (Polynomial.ofList l) := by
  unfold Polynomial.WF Polynomial.ofList
  simp only
  rcases l with _ | ⟨a, t⟩
  · simp [zeros]
  · simp

theorem sub_wf (p q : Polynomial K) (hp : Polynomial.WF p) (hq : Polynomial.WF q) :
    Polynomial.WF (Polynomial.sub p q) :=
  (Polynomial.add_normalized (Polynomial.neg q) p (Polynomial.neg_normalized q hq).1 hp).1

theorem mul_wf (p q : Polynomial K) : Polynomial.WF (Polynomial.mul p q) :=
  (Polynomial.mul_normalized p q).1

theorem roots_of_short (M : Libm K) (fuel : ℕ) (p0 : Polynomial K) (hwf : Polynomial.WF p0)
    (hlen : p0.coeffs.length ≤ 5) : ∃ out, Polynomial.roots M fuel p0 = some out := by
  have hn := (Polynomial.correctDegree_normalized p0 hwf).1
  have hle := Polynomial.correctDegree_length_le p0
  have hd : (Polynomial.correctDegree p0).deg ≤ 4 := by omega
  unfold Polynomial.roots
  simp only
  generalize Polynomial.correctDegree p0 = p at hd ⊢
  rcases p with ⟨c, d⟩
  simp only at hd
  interval_cases d <;> exact ⟨_, rfl⟩

theorem phases4_terminates (M : Libm K) (fuel : ℕ) (c : Coefficients K) (inv : List (K × K)) :
    ∃ out, phases4 M fuel c inv = some out := by
  induction inv with
  | nil => exact ⟨[], rfl⟩
  | cons item rest ih =>
    obtain ⟨tl, htl⟩ := ih
    obtain ⟨r, hr⟩ := roots_of_short M fuel
      (Polynomial.ofList [-1 * item.2, -3 * item.1, 0, 4]) (ofList_wf _) (by simp [Polynomial.ofList])
    unfold phases4
    rw [htl]
    simp only [hr]
    rcases isPhaseStableI c item.1 item.2 with _ | f <;> simp only <;> split_ifs <;>
      exact ⟨_, rfl⟩

theorem phase4Invariants_terminates [Archimedean K] (M : Libm K) (c : Coefficients K) :
    ∃ N, ∀ fuel, N ≤ fuel → ∃ inv, phase4Invariants M fuel c = some inv := by
  unfold phase4Invariants
  simp only
  split_ifs with h1 h2
  · obtain ⟨N, hN⟩ := Polynomial.roots_terminates M (Polynomial.ofList [c.b0, c.d0, c.d1])
      (ofList_wf _)
    refine ⟨N, fun fuel hfuel => ?_⟩
    obtain ⟨out, hout⟩ := hN fuel hfuel
    rw [hout]
    exact ⟨_, rfl⟩
  · obtain ⟨N, hN⟩ := Polynomial.roots_terminates M
      (((Polynomial.ofList [c.d0, 2 * c.d1]).mul (Polynomial.ofList [c.b0, c.d0, c.d1])).sub
        ((Polynomial.ofList [c.a0, 2 * c.a1, 3 * c.a2, 4 * c.a3]).mul
          (Polynomial.ofList [2 * c.b1])))
      (sub_wf _ _ (mul_wf _ _) (mul_wf _ _))
    refine ⟨N, fun fuel hfuel => ?_⟩
    obtain ⟨out, hout⟩ := hN fuel hfuel
    rw [hout]
    exact ⟨_, rfl⟩
  · obtain ⟨N, hN⟩ := Polynomial.roots_terminates M
      ((((Polynomial.ofList [2 * c.b1, 2 * c.d2]).mul
          (Polynomial.ofList [2 * c.b1, 2 * c.d2])).mul
        (((Polynomial.ofList [c.d0, 2 * c.d1]).mul (Polynomial.ofList [c.d0, 2 * c.d1])).sub
          ((Polynomial.smulLeft 4 (Polynomial.ofList [c.d2])).mul
            (Polynomial.ofList [c.a0, 2 * c.a1, 3 * c.a2, 4 * c.a3])))).sub
        ((((Polynomial.ofList [c.d0, 2 * c.d1]).mul (Polynomial.ofList [2 * c.b1, 2 * c.d2])).sub
          ((Polynomial.smulLeft 2 (Polynomial.ofList [c.d2])).mul
            (Polynomial.ofList [c.b0, c.d0, c.d1]))).mul
          (((Polynomial.ofList [c.d0, 2 * c.d1]).mul (Polynomial.ofList [2 * c.b1, 2 * c.d2])).sub
            ((Polynomial.smulLeft 2 (Polynomial.ofList [c.d2])).mul
              (Polynomial.ofList [c.b0, c.d0, c.d1])))))
      (sub_wf _ _ (mul_wf _ _) (mul_wf _ _))
    refine ⟨N, fun fuel hfuel => ?_⟩
    obtain ⟨out, hout⟩ := hN fuel hfuel
    rw [hout]
    exact ⟨_, rfl⟩

/-- With enough fuel `getPhases` returns. -/
theorem getPhases_terminates [Archimedean K] (M : Libm K) (c : Coefficients K) :
    ∃ N, ∀ fuel, N ≤ fuel → ∃ out, getPhases M fuel c = some out := by
  obtain ⟨N1, hN1⟩ := Polynomial.roots_terminates M (Polynomial.ofList [2 * c.a0, 3 * c.b0,
    4 * c.a1, 5 * c.d0, 6 * (c.a2 + c.b1), 7 * c.d1, 8 * (c.a3 + c.d2)]) (ofList_wf _)
  obtain ⟨N2, hN2⟩ := phase4Invariants_terminates M c
  refine ⟨max N1 N2, fun fuel hfuel => ?_⟩
  obtain ⟨sol, hsol⟩ := hN1 fuel (by omega)
  obtain ⟨inv, hinv⟩ := hN2 fuel (by omega)
  obtain ⟨out4, hout4⟩ := phases4_terminates M fuel c inv
  unfold getPhases
  simp only [hsol, hinv, hout4]
  exact ⟨_, rfl⟩

end Worker
namespace Worker

/-! ## The grid -/

theorem getD_set_eq {α : Type} (l : List α) (i k : ℕ) (v d : α) :
    (l.set i v).getD k d = if k = i ∧ i < l.length then v else l.getD k d := by
  simp only [List.getD_eq_getElem?_getD, List.getElem?_set]
  by_cases hki : i = k
  · subst hki
    by_cases hi : i < l.length
    · simp [hi]
    · simp [hi, List.getElem?_eq_none (not_lt.mp hi)]
  · have : ¬ k = i := fun h => hki h.symm
    simp [hki, this]

theorem setCell_length (data : List (List (DiagramPoint K))) (i j : ℕ) (dp : DiagramPoint K) :
    (setCell data i j dp).length = data.length := by
  simp [setCell]

theorem setCell_col_length (data : List (List (DiagramPoint K))) (i j k : ℕ)
    (dp : DiagramPoint K) :
    ((setCell data i j dp).getD k []).length = (data.getD k []).length := by
  unfold setCell
  rw [getD_set_eq]
  split_ifs with h
  · rw [h.1, List.length_set]
  · rfl

theorem cell_setCell_same (data : List (List (DiagramPoint K))) (i j : ℕ) (dp : DiagramPoint K)
    (hi : i < data.length) (hj : j < (data.getD i []).length) :
    cell (setCell data i j dp) i j = dp := by
  unfold cell setCell
  rw [getD_set_eq, if_pos ⟨rfl, hi⟩, getD_set_eq, if_pos ⟨rfl, hj⟩]

theorem cell_setCell_ne (data : List (List (DiagramPoint K))) (i j a b : ℕ)
    (dp : DiagramPoint K) (h : a ≠ i ∨ b ≠ j) :
    cell (setCell data i j dp) a b = cell data a b := by
  unfold cell setCell
  rw [getD_set_eq]
  split_ifs with h1
  · rw [getD_set_eq, if_neg, h1.1]
    rintro ⟨hb, _⟩
    rcases h with h | h
    · exact h h1.1
    · exact h hb
  · rfl

theorem transitionOf_congr (d1 d2 : List (List (DiagramPoint K))) (i j : ℕ)
    (h0 : (cell d1 i j).phases = (cell d2 i j).phases ∧
      (cell d1 i j).stablest = (cell d2 i j).stablest)
    (h1 : cell d1 (i - 1) j = cell d2 (i - 1) j)
    (h2 : cell d1 i (j - 1) = cell d2 i (j - 1)) :
    transitionOf d1 i j = transitionOf d2 i j := by
  unfold transitionOf
  simp only [h0.1, h0.2, h1, h2]

/-- The result of the loop body for the point `(i, j)`. -/
theorem cellStep_spec (M : Libm K) (fuel : ℕ) (startY dY : K) (i j : ℕ)
    (coeffs : Coefficients K) (data : List (List (DiagramPoint K)))
    (hi : i < data.length) (hj : j < (data.getD i []).length)
    (phases : List (PhaseInfo K))
    (hph : getPhases M fuel
      { coeffs with a0 := startY + (((data.getD i []).length - 1 - j : ℕ) : K) * dY }
        = some phases) :
    ∃ data1, cellStep M fuel startY dY i j coeffs data
        = some ({ coeffs with a0 := startY + (((data.getD i []).length - 1 - j : ℕ) : K) * dY },
            data1) ∧
      data1.length = data.length ∧
      (∀ k, (data1.getD k []).length = (data.getD k []).length) ∧
      (∀ a b, a ≠ i ∨ b ≠ j → cell data1 a b = cell data a b) ∧
      (cell data1 i j).x = coeffs.b0 ∧
      (cell data1 i j).y = startY + (((data.getD i []).length - 1 - j : ℕ) : K) * dY ∧
      (cell data1 i j).phases = phases ∧
      (cell data1 i j).stablest = stablestOf phases ∧
      (cell data1 i j).transition =
        if i ≠ 0 ∧ j ≠ 0 then transitionOf data1 i j else (cell data i j).transition := by
  unfold cellStep
  simp only [hph]
  by_cases hg : i ≠ 0 ∧ j ≠ 0
  · rw [if_pos hg]
    refine ⟨_, rfl, ?_, ?_, ?_, ?_⟩
    · rw [setCell_length, setCell_length]
    · intro k
      rw [setCell_col_length, setCell_col_length]
    · intro a b hab
      rw [cell_setCell_ne _ _ _ _ _ _ hab, cell_setCell_ne _ _ _ _ _ _ hab]
    · have hi1 : i < (setCell data i j
          { cell data i j with
            x := coeffs.b0
            y := startY + (((data.getD i []).length - 1 - j : ℕ) : K) * dY
            phases := phases
            stablest := stablestOf phases }).length := by
        rw [setCell_length]; exact hi
      have hj1 : j < ((setCell data i j
          { cell data i j with
            x := coeffs.b0
            y := startY + (((data.getD i []).length - 1 - j : ℕ) : K) * dY
            phases := phases
            stablest := stablestOf phases }).getD i []).length := by
        rw [setCell_col_length]; exact hj
      rw [cell_setCell_same _ _ _ _ hi1 hj1]
      refine ⟨rfl, rfl, rfl, rfl, ?_⟩
      rw [if_pos hg]
      simp only
      apply transitionOf_congr
      · rw [cell_setCell_same _ _ _ _ hi1 hj1, cell_setCell_same _ _ _ _ hi hj]
        exact ⟨rfl, rfl⟩
      · have hne : i - 1 ≠ i ∨ j ≠ j := Or.inl (by omega)
        rw [cell_setCell_ne _ _ _ _ _ _ hne, cell_setCell_ne _ _ _ _ _ _ hne,
          cell_setCell_ne _ _ _ _ _ _ hne]
      · have hne : i ≠ i ∨ j - 1 ≠ j := Or.inr (by omega)
        rw [cell_setCell_ne _ _ _ _ _ _ hne, cell_setCell_ne _ _ _ _ _ _ hne,
          cell_setCell_ne _ _ _ _ _ _ hne]
  · rw [if_neg hg]
    refine ⟨_, rfl, ?_, ?_, ?_, ?_⟩
    · rw [setCell_length]
    · intro k
      rw [setCell_col_length]
    · intro a b hab
      rw [cell_setCell_ne _ _ _ _ _ _ hab]
    · rw [cell_setCell_same _ _ _ _ hi hj]
      refine ⟨rfl, rfl, rfl, rfl, ?_⟩
      rw [if_neg hg]

theorem cellStep_some (M : Libm K) (fuel : ℕ) (startY dY : K) (i j : ℕ)
    (coeffs : Coefficients K) (data : List (List (DiagramPoint K)))
    (res : Coefficients K × List (List (DiagramPoint K)))
    (h : cellStep M fuel startY dY i j coeffs data = some res) :
    ∃ phases, getPhases M fuel
      { coeffs with a0 := startY + (((data.getD i []).length - 1 - j : ℕ) : K) * dY }
        = some phases := by
  unfold cellStep at h
  simp only at h
  rcases hph : getPhases M fuel
      { coeffs with a0 := startY + (((data.getD i []).length - 1 - j : ℕ) : K) * dY }
    with _ | phases
  · rw [hph] at h
    simp at h
  · exact ⟨phases, rfl⟩

end Worker
namespace Worker

/-! ## The loops of `calculate()` -/

theorem cellFinal_congr (M : Libm K) (fuel : ℕ) (w : Worker K)
    (d1 d2 : List (List (DiagramPoint K))) (a b : ℕ)
    (h0 : cell d2 a b = cell d1 a b)
    (h1 : a ≠ 0 ∧ b ≠ 0 → cell d2 (a - 1) b = cell d1 (a - 1) b ∧
      cell d2 a (b - 1) = cell d1 a (b - 1))
    (h : CellFinal M fuel w d1 a b) : CellFinal M fuel w d2 a b := by
  unfold CellFinal at h ⊢
  rw [h0]
  refine ⟨h.1, h.2.1, h.2.2.1, h.2.2.2.1, ?_⟩
  rw [h.2.2.2.2]
  by_cases hg : a ≠ 0 ∧ b ≠ 0
  · rw [if_pos hg, if_pos hg]
    exact transitionOf_congr d1 d2 a b (by rw [h0]; exact ⟨rfl, rfl⟩) (h1 hg).1.symm
      (h1 hg).2.symm
  · rw [if_neg hg, if_neg hg]

theorem loopInv_step (M : Libm K) (fuel : ℕ) (w : Worker K)
    (data data1 : List (List (DiagramPoint K))) (i j : ℕ) (phases : List (PhaseInfo K))
    (hinv : LoopInv M fuel w data i j)
    (hph : getPhases M fuel (cellCoeffs w i j) = some phases)
    (hlen : data1.length = data.length)
    (hcol : ∀ k, (data1.getD k []).length = (data.getD k []).length)
    (hne : ∀ a b, a ≠ i ∨ b ≠ j → cell data1 a b = cell data a b)
    (hx : (cell data1 i j).x = (cellCoeffs w i j).b0)
    (hy : (cell data1 i j).y = (cellCoeffs w i j).a0)
    (hp : (cell data1 i j).phases = phases)
    (hs : (cell data1 i j).stablest = stablestOf phases)
    (ht : (cell data1 i j).transition =
      if i ≠ 0 ∧ j ≠ 0 then transitionOf data1 i j else (cell data i j).transition) :
    LoopInv M fuel w data1 i (j + 1) := by
  obtain ⟨h1, h2, h3, h4⟩ := hinv
  refine ⟨by rw [hlen, h1], fun k => by rw [hcol, h2], ?_, ?_⟩
  · intro a b hab ha hb
    by_cases hcur : a = i ∧ b = j
    · obtain ⟨rfl, rfl⟩ := hcur
      refine ⟨hx, hy, by rw [hp]; exact hph, by rw [hs, hp], ?_⟩
      rw [ht]
      by_cases hg : a ≠ 0 ∧ b ≠ 0
      · rw [if_pos hg, if_pos hg]
      · rw [if_neg hg, if_neg hg, h4 a b (by omega)]
    · have hbefore : a < i ∨ (a = i ∧ b < j) := by omega
      apply cellFinal_congr M fuel w data data1 a b (hne a b (by omega)) _ (h3 a b hbefore ha hb)
      intro hg
      exact ⟨hne _ _ (by omega), hne _ _ (by omega)⟩
  · intro a b hab
    rw [hne a b (by omega)]
    exact h4 a b (by omega)

theorem columnLoop_cons (M : Libm K) (fuel : ℕ) (startY dY : K) (i j : ℕ) (js : List ℕ)
    (coeffs coeffs1 : Coefficients K) (data data1 : List (List (DiagramPoint K)))
    (h : cellStep M fuel startY dY i j coeffs data = some (coeffs1, data1)) :
    columnLoop M fuel startY dY i (j :: js) coeffs data
      = columnLoop M fuel startY dY i js coeffs1 data1 := by
  rw [columnLoop]
  simp only [h]

theorem columnLoop_cons_none (M : Libm K) (fuel : ℕ) (startY dY : K) (i j : ℕ) (js : List ℕ)
    (coeffs : Coefficients K) (data : List (List (DiagramPoint K)))
    (h : cellStep M fuel startY dY i j coeffs data = none) :
    columnLoop M fuel startY dY i (j :: js) coeffs data = none := by
  rw [columnLoop]
  simp only [h]

/-- The inner loop of `calculate()` over the rows `j .. j + n - 1` of column `i`. -/
theorem columnLoop_spec (M : Libm K) (fuel : ℕ) (w : Worker K) (i : ℕ)
    (hi : i < w.data.length) (n : ℕ) :
    ∀ (j : ℕ) (a : K) (data : List (List (DiagramPoint K))),
      j + n = (w.data.getD i []).length → LoopInv M fuel w data i j →
      (∀ res, columnLoop M fuel w.coeffs.a0 w.dY i (List.range' j n)
          { w.coeffs with b0 := w.coeffs.b0 + (i : K) * w.dX, a0 := a } data = some res →
        LoopInv M fuel w res.2 i (j + n) ∧
          ∃ a1, res.1 = { w.coeffs with b0 := w.coeffs.b0 + (i : K) * w.dX, a0 := a1 }) ∧
      ((∀ b, j ≤ b → b < j + n → ∃ ph, getPhases M fuel (cellCoeffs w i b) = some ph) →
        ∃ res, columnLoop M fuel w.coeffs.a0 w.dY i (List.range' j n)
          { w.coeffs with b0 := w.coeffs.b0 + (i : K) * w.dX, a0 := a } data = some res) := by
  induction n with
  | zero =>
    intro j a data _ hinv
    simp only [List.range'_zero, columnLoop, Option.some.injEq, Nat.add_zero]
    refine ⟨?_, fun _ => ⟨_, rfl⟩⟩
    rintro res rfl
    exact ⟨hinv, a, rfl⟩
  | succ n ih =>
    intro j a data hjn hinv
    have hi2 : i < data.length := by rw [hinv.1]; exact hi
    have hcl : (data.getD i []).length = (w.data.getD i []).length := hinv.2.1 i
    have hj2 : j < (data.getD i []).length := by omega
    have hcoef : ({ ({ w.coeffs with b0 := w.coeffs.b0 + (i : K) * w.dX, a0 := a } :
          Coefficients K) with
        a0 := w.coeffs.a0 + (((data.getD i []).length - 1 - j : ℕ) : K) * w.dY } : Coefficients K)
        = cellCoeffs w i j := by
      unfold cellCoeffs
      rw [hcl]
    have key : ∀ phases, getPhases M fuel (cellCoeffs w i j) = some phases →
        ∃ data1, cellStep M fuel w.coeffs.a0 w.dY i j
            { w.coeffs with b0 := w.coeffs.b0 + (i : K) * w.dX, a0 := a } data
            = some (cellCoeffs w i j, data1) ∧ LoopInv M fuel w data1 i (j + 1) := by
      intro phases hph
      obtain ⟨data1, hstep, hl, hc, hne, hx, hy, hp, hs, ht⟩ :=
        cellStep_spec M fuel w.coeffs.a0 w.dY i j
          { w.coeffs with b0 := w.coeffs.b0 + (i : K) * w.dX, a0 := a } data hi2 hj2 phases
          (by rw [hcoef]; exact hph)
      rw [hcoef] at hstep
      refine ⟨data1, hstep, loopInv_step M fuel w data data1 i j phases hinv hph hl hc hne
        hx ?_ hp hs ht⟩
      rw [hy, hcl]
      rfl
    have hcc : cellCoeffs w i j =
        { w.coeffs with b0 := w.coeffs.b0 + (i : K) * w.dX, a0 := (cellCoeffs w i j).a0 } := rfl
    rw [List.range'_succ]
    constructor
    · intro res hres
      rcases hcs : cellStep M fuel w.coeffs.a0 w.dY i j
          { w.coeffs with b0 := w.coeffs.b0 + (i : K) * w.dX, a0 := a } data with _ | r1
      · rw [columnLoop_cons_none _ _ _ _ _ _ _ _ _ hcs] at hres
        exact absurd hres (by simp)
      · obtain ⟨phases, hph⟩ := cellStep_some M fuel _ _ _ _ _ _ _ hcs
        rw [hcoef] at hph
        obtain ⟨data1, hstep, hinv1⟩ := key phases hph
        rw [columnLoop_cons _ _ _ _ _ _ _ _ _ _ _ hstep, hcc] at hres
        have := (ih (j + 1) _ data1 (by omega) hinv1).1 res hres
        rw [show j + 1 + n = j + (n + 1) by omega] at this
        exact this
    · intro hterm
      obtain ⟨phases, hph⟩ := hterm j (le_refl _) (by omega)
      obtain ⟨data1, hstep, hinv1⟩ := key phases hph
      rw [columnLoop_cons _ _ _ _ _ _ _ _ _ _ _ hstep, hcc]
      exact (ih (j + 1) _ data1 (by omega) hinv1).2 (fun b hb1 hb2 => hterm b (by omega) (by omega))

end Worker
namespace Worker

theorem loopInv_next_column (M : Libm K) (fuel : ℕ) (w : Worker K)
    (data : List (List (DiagramPoint K))) (i : ℕ)
    (h : LoopInv M fuel w data i (w.data.getD i []).length) : LoopInv M fuel w data (i + 1) 0 := by
  obtain ⟨h1, h2, h3, h4⟩ := h
  refine ⟨h1, h2, ?_, ?_⟩
  · intro a b hab ha hb
    apply h3 a b _ ha hb
    by_cases hai : a = i
    · subst hai
      exact Or.inr ⟨rfl, hb⟩
    · left; omega
  · intro a b hab
    apply h4 a b
    omega

theorem gridLoop_cons (M : Libm K) (fuel : ℕ) (startX startY dX dY : K) (i : ℕ) (is : List ℕ)
    (coeffs coeffs2 : Coefficients K) (data data2 : List (List (DiagramPoint K)))
    (emitted : List ℕ)
    (h : columnLoop M fuel startY dY i (List.range' 0 (data.getD i []).length)
      { coeffs with b0 := startX + (i : K) * dX } data = some (coeffs2, data2))
    (hlen : data2.length - 1 ≠ 0) :
    gridLoop M fuel startX startY dX dY (i :: is) coeffs data emitted
      = gridLoop M fuel startX startY dX dY is coeffs2 data2
          (emitted ++ [100 * i / (data2.length - 1)]) := by
  rw [gridLoop]
  simp only [List.range_eq_range', h, if_neg hlen]

theorem gridLoop_cons_done (M : Libm K) (fuel : ℕ) (startX startY dX dY : K) (i : ℕ)
    (is : List ℕ) (coeffs : Coefficients K) (data : List (List (DiagramPoint K)))
    (emitted : List ℕ) (res : Coefficients K × List (List (DiagramPoint K)) × List ℕ)
    (h : gridLoop M fuel startX startY dX dY (i :: is) coeffs data emitted = Run.done res) :
    ∃ coeffs2 data2, columnLoop M fuel startY dY i (List.range' 0 (data.getD i []).length)
      { coeffs with b0 := startX + (i : K) * dX } data = some (coeffs2, data2) ∧
      data2.length - 1 ≠ 0 := by
  rw [gridLoop] at h
  simp only [List.range_eq_range'] at h
  rcases hc : columnLoop M fuel startY dY i (List.range' 0 (data.getD i []).length)
      { coeffs with b0 := startX + (i : K) * dX } data with _ | ⟨coeffs2, data2⟩
  · rw [hc] at h
    simp at h
  · rw [hc] at h
    simp only at h
    refine ⟨coeffs2, data2, rfl, ?_⟩
    intro h0
    rw [if_pos h0] at h
    simp at h

/-- The outer loop of `calculate()` over the columns `i .. i + n - 1`. -/
theorem gridLoop_spec (M : Libm K) (fuel : ℕ) (w : Worker K) (n : ℕ) :
    ∀ (i : ℕ) (a b : K) (data : List (List (DiagramPoint K))) (emitted : List ℕ),
      i + n = w.data.length → LoopInv M fuel w data i 0 →
      (∀ res, gridLoop M fuel w.coeffs.b0 w.coeffs.a0 w.dX w.dY (List.range' i n)
          { w.coeffs with a0 := a, b0 := b } data emitted = Run.done res →
        LoopInv M fuel w res.2.1 w.data.length 0 ∧
          (∃ a1 b1, res.1 = { w.coeffs with a0 := a1, b0 := b1 }) ∧
          res.2.2 = emitted ++ (List.range' i n).map fun k => 100 * k / (w.data.length - 1)) ∧
      (w.data.length ≠ 1 →
        (∀ k l, i ≤ k → k < w.data.length → l < (w.data.getD k []).length →
          ∃ ph, getPhases M fuel (cellCoeffs w k l) = some ph) →
        ∃ res, gridLoop M fuel w.coeffs.b0 w.coeffs.a0 w.dX w.dY (List.range' i n)
          { w.coeffs with a0 := a, b0 := b } data emitted = Run.done res) := by
  induction n with
  | zero =>
    intro i a b data emitted hin hinv
    simp only [List.range'_zero, gridLoop, List.map_nil, List.append_nil]
    rw [Nat.add_zero] at hin
    subst hin
    refine ⟨?_, fun _ _ => ⟨_, rfl⟩⟩
    intro res hres
    cases hres
    exact ⟨hinv, ⟨a, b, rfl⟩, rfl⟩
  | succ n ih =>
    intro i a b data emitted hin hinv
    have hi : i < w.data.length := by omega
    have hcl : (data.getD i []).length = (w.data.getD i []).length := hinv.2.1 i
    obtain ⟨hA, hB⟩ := columnLoop_spec M fuel w i hi (w.data.getD i []).length 0 a data
      (Nat.zero_add _) hinv
    rw [List.range'_succ]
    constructor
    · intro res hres
      obtain ⟨coeffs2, data2, hcol, hlen⟩ := gridLoop_cons_done _ _ _ _ _ _ _ _ _ _ _ _ hres
      rw [gridLoop_cons _ _ _ _ _ _ _ _ _ _ _ _ _ hcol hlen] at hres
      rw [hcl] at hcol
      obtain ⟨hinv2, a1, ha1⟩ := hA _ hcol
      simp only at hinv2 ha1
      rw [Nat.zero_add] at hinv2
      subst ha1
      have hl2 : data2.length = w.data.length := hinv2.1
      obtain ⟨h1, h2, h3⟩ := (ih (i + 1) _ _ data2 _ (by omega)
        (loopInv_next_column M fuel w data2 i hinv2)).1 res hres
      refine ⟨h1, h2, ?_⟩
      rw [h3, hl2]
      simp
    · intro hw hterm
      obtain ⟨⟨coeffs2, data2⟩, hcol⟩ := hB (fun l _ hl => hterm i l (le_refl _) hi (by omega))
      obtain ⟨hinv2, a1, ha1⟩ := hA _ hcol
      simp only at hinv2 ha1
      rw [Nat.zero_add] at hinv2
      subst ha1
      have hl2 : data2.length = w.data.length := hinv2.1
      rw [← hcl] at hcol
      rw [gridLoop_cons _ _ _ _ _ _ _ _ _ _ _ _ _ hcol (by omega)]
      exact (ih (i + 1) _ _ data2 _ (by omega)
        (loopInv_next_column M fuel w data2 i hinv2)).2 hw
          (fun k l hk1 hk2 hl => hterm k l (by omega) hk2 hl)

theorem loopInv_init (M : Libm K) (fuel : ℕ) (w : Worker K) : LoopInv M fuel w w.data 0 0 :=
  ⟨rfl, fun _ => rfl, fun a b hab => by omega, fun _ _ _ => rfl⟩

/-- The state `calculate()` leaves behind when it completes. -/
theorem calculate_spec (M : Libm K) (fuel : ℕ) (w w1 : Worker K) (emitted : List ℕ)
    (h : calculate M fuel w = Run.done (w1, emitted)) :
    w1.dX = w.dX ∧ w1.dY = w.dY ∧ w1.coeffs = w.coeffs ∧
    w1.data.length = w.data.length ∧
    (∀ k, (w1.data.getD k []).length = (w.data.getD k []).length) ∧
    (∀ i j, i < w.data.length → j < (w.data.getD i []).length →
      CellFinal M fuel w w1.data i j) ∧
    emitted = (List.range w.data.length).map fun k => 100 * k / (w.data.length - 1) := by
  unfold calculate at h
  simp only [List.range_eq_range'] at h
  rcases hg : gridLoop M fuel w.coeffs.b0 w.coeffs.a0 w.dX w.dY (List.range' 0 w.data.length)
      w.coeffs w.data [] with ⟨c1, d1, e1⟩ | _ | _
  · rw [hg] at h
    simp only [Run.done.injEq, Prod.mk.injEq] at h
    obtain ⟨rfl, rfl⟩ := h
    obtain ⟨hinv, ⟨a1, b1, hc⟩, he⟩ := (gridLoop_spec M fuel w w.data.length 0 w.coeffs.a0
      w.coeffs.b0 w.data [] (Nat.zero_add _) (loopInv_init M fuel w)).1 _ hg
    simp only at hinv hc he
    subst hc
    refine ⟨rfl, rfl, rfl, hinv.1, hinv.2.1, ?_, ?_⟩
    · intro i j hi hj
      exact hinv.2.2.1 i j (Or.inl hi) hi hj
    · rw [he, List.range_eq_range']
      simp
  · rw [hg] at h
    simp at h
  · rw [hg] at h
    simp at h

theorem uniform_bound (P : ℕ → ℕ → Prop) (n : ℕ)
    (h : ∀ k, k < n → ∃ N, ∀ fuel, N ≤ fuel → P k fuel) :
    ∃ N, ∀ k, k < n → ∀ fuel, N ≤ fuel → P k fuel := by
  induction n with
  | zero => exact ⟨0, fun k hk => by omega⟩
  | succ n ih =>
    obtain ⟨N1, hN1⟩ := ih (fun k hk => h k (by omega))
    obtain ⟨N2, hN2⟩ := h n (by omega)
    refine ⟨max N1 N2, fun k hk fuel hfuel => ?_⟩
    by_cases hkn : k = n
    · subst hkn
      exact hN2 fuel (by omega)
    · exact hN1 k (by omega) fuel (by omega)

/-- With enough fuel `calculate()` completes on every grid whose width is not 1. -/
theorem calculate_terminates [Archimedean K] (M : Libm K) (w : Worker K)
    (hw : w.data.length ≠ 1) :
    ∃ N, ∀ fuel, N ≤ fuel → ∃ res, calculate M fuel w = Run.done res := by
  have hcols : ∀ i, i < w.data.length → ∃ N, ∀ fuel, N ≤ fuel →
      ∀ j, j < (w.data.getD i []).length →
        ∃ ph, getPhases M fuel (cellCoeffs w i j) = some ph := by
    intro i _
    obtain ⟨N, hN⟩ := uniform_bound
      (fun j fuel => ∃ ph, getPhases M fuel (cellCoeffs w i j) = some ph)
      (w.data.getD i []).length (fun j _ => getPhases_terminates M (cellCoeffs w i j))
    exact ⟨N, fun fuel hfuel j hj => hN j hj fuel hfuel⟩
  obtain ⟨N, hN⟩ := uniform_bound
    (fun i fuel => ∀ j, j < (w.data.getD i []).length →
        ∃ ph, getPhases M fuel (cellCoeffs w i j) = some ph) w.data.length hcols
  refine ⟨N, fun fuel hfuel => ?_⟩
  obtain ⟨⟨c1, d1, e1⟩, hres⟩ := (gridLoop_spec M fuel w w.data.length 0 w.coeffs.a0
    w.coeffs.b0 w.data [] (Nat.zero_add _) (loopInv_init M fuel w)).2 hw
    (fun k l _ hk hl => hN k hk fuel hfuel l hl)
  unfold calculate
  simp only [List.range_eq_range']
  have hcoef : ({ w.coeffs with a0 := w.coeffs.a0, b0 := w.coeffs.b0 } : Coefficients K)
      = w.coeffs := rfl
  rw [hcoef] at hres
  rw [hres]
  exact ⟨_, rfl⟩

end Worker
namespace Worker

theorem getPhases_type_one_aux (M : Libm K) (fuel : ℕ) (c : Coefficients K)
    (out : List (PhaseInfo K)) (h : getPhases M fuel c = some out) :
    ((∃ r ∈ out, r.type = 1) ↔ 0 < c.a0) ∧
      (0 < c.a0 → ∃ rest, out = ⟨1, 0, 0, 0⟩ :: rest ∧ ∀ r ∈ rest, r.type ≠ 1) := by
  obtain ⟨l23, l4, rfl, h23, h4⟩ := getPhases_spec M fuel c out h
  have hrest : ∀ r ∈ l23 ++ l4, r.type ≠ 1 := by
    intro r hr
    rcases List.mem_append.mp hr with hr | hr
    · rcases (h23 r hr).1 with h | h <;> omega
    · have := h4 r hr
      omega
  by_cases ha : 0 < c.a0
  · rw [if_pos ha]
    refine ⟨⟨fun _ => ha, fun _ => ⟨⟨1, 0, 0, 0⟩, by simp, rfl⟩⟩, fun _ => ⟨l23 ++ l4, ?_, hrest⟩⟩
    simp
  · rw [if_neg ha]
    refine ⟨⟨?_, fun h => absurd h ha⟩, fun h => absurd h ha⟩
    rintro ⟨r, hr, hr1⟩
    rw [List.nil_append] at hr
    exact absurd hr1 (hrest r hr)

/-- C15: for every coefficient set `getPhases` returns (with enough fuel for its
root searches), and the returned list contains a record of type 1 if and only if
`a[0] > 0`; when present there is exactly one such record, it is the first
element, and it has potential 0 and order parameter `(0, 0)`. -/
theorem getPhases_type_one [Archimedean K] (M : Libm K) (c : Coefficients K) :
    (∃ N, ∀ fuel, N ≤ fuel → ∃ out, getPhases M fuel c = some out) ∧
    ∀ fuel out, getPhases M fuel c = some out →
      ((∃ r ∈ out, r.type = 1) ↔ 0 < c.a0) ∧
      (0 < c.a0 → ∃ rest, out = ⟨1, 0, 0, 0⟩ :: rest ∧ ∀ r ∈ rest, r.type ≠ 1) :=
  ⟨getPhases_terminates M c, fun fuel out h => getPhases_type_one_aux M fuel c out h⟩

theorem getPhases_type_one_witness :
    (∃ N, ∀ fuel, N ≤ fuel → ∃ out,
      getPhases ratLibm fuel (⟨1, 1, 0, 0, 2, 0, 0, 0, 0⟩ : Coefficients ℚ) = some out) ∧
    ∀ fuel out, getPhases ratLibm fuel (⟨1, 1, 0, 0, 2, 0, 0, 0, 0⟩ : Coefficients ℚ) = some out →
      ((∃ r ∈ out, r.type = 1) ↔
        0 < (⟨1, 1, 0, 0, 2, 0, 0, 0, 0⟩ : Coefficients ℚ).a0) ∧
      (0 < (⟨1, 1, 0, 0, 2, 0, 0, 0, 0⟩ : Coefficients ℚ).a0 →
        ∃ rest, out = ⟨1, 0, 0, 0⟩ :: rest ∧ ∀ r ∈ rest, r.type ≠ 1) :=
  getPhases_type_one ratLibm ⟨1, 1, 0, 0, 2, 0, 0, 0, 0⟩

end Worker
namespace Worker

/-! ## The stablest phase -/

theorem minElementLoop_spec (rest : List (PhaseInfo K)) :
    ∀ (pre : List (PhaseInfo K)) (best : ℕ), best < pre.length →
      (∀ k, k < pre.length → (pre.getD best ⟨0, 0, 0, 0⟩).phi ≤ (pre.getD k ⟨0, 0, 0, 0⟩).phi) →
      (∀ k, k < best → (pre.getD best ⟨0, 0, 0, 0⟩).phi < (pre.getD k ⟨0, 0, 0, 0⟩).phi) →
      minElementLoop rest pre.length best (pre.getD best ⟨0, 0, 0, 0⟩).phi
          < (pre ++ rest).length ∧
      (∀ k, k < (pre ++ rest).length →
        ((pre ++ rest).getD (minElementLoop rest pre.length best
            (pre.getD best ⟨0, 0, 0, 0⟩).phi) ⟨0, 0, 0, 0⟩).phi
          ≤ ((pre ++ rest).getD k ⟨0, 0, 0, 0⟩).phi) ∧
      (∀ k, k < minElementLoop rest pre.length best (pre.getD best ⟨0, 0, 0, 0⟩).phi →
        ((pre ++ rest).getD (minElementLoop rest pre.length best
            (pre.getD best ⟨0, 0, 0, 0⟩).phi) ⟨0, 0, 0, 0⟩).phi
          < ((pre ++ rest).getD k ⟨0, 0, 0, 0⟩).phi) := by
  induction rest with
  | nil =>
    intro pre best hb h1 h2
    simp only [minElementLoop, List.append_nil]
    exact ⟨hb, h1, h2⟩
  | cons a rest ih =>
    intro pre best hb h1 h2
    have hget : ∀ k, k < pre.length →
        (pre ++ [a]).getD k ⟨0, 0, 0, 0⟩ = pre.getD k ⟨0, 0, 0, 0⟩ := by
      intro k hk
      rw [List.getD_append _ _ _ _ hk]
    have hlast : (pre ++ [a]).getD pre.length ⟨0, 0, 0, 0⟩ = a := by
      rw [List.getD_append_right _ _ _ _ (le_refl _)]
      simp
    have happ : pre ++ a :: rest = (pre ++ [a]) ++ rest := by simp
    have hlen : (pre ++ [a]).length = pre.length + 1 := by simp
    unfold minElementLoop
    by_cases hlt : a.phi < (pre.getD best ⟨0, 0, 0, 0⟩).phi
    · rw [if_pos hlt, happ]
      have := ih (pre ++ [a]) pre.length (by omega)
        (by
          intro k hk
          rw [hlast]
          by_cases hkl : k = pre.length
          · rw [hkl, hlast]
          · rw [hget k (by omega)]
            exact le_of_lt (lt_of_lt_of_le hlt (h1 k (by omega))))
        (by
          intro k hk
          rw [hlast, hget k hk]
          exact lt_of_lt_of_le hlt (h1 k hk))
      rw [hlast, hlen] at this
      exact this
    · rw [if_neg hlt, happ]
      have := ih (pre ++ [a]) best (by omega)
        (by
          intro k hk
          rw [hget best hb]
          by_cases hkl : k = pre.length
          · rw [hkl, hlast]
            exact not_lt.mp hlt
          · rw [hget k (by omega)]
            exact h1 k (by omega))
        (by
          intro k hk
          rw [hget best hb, hget k (by omega)]
          exact h2 k hk)
      rw [hget best hb, hlen] at this
      exact this

/-- The value stored in `stablest` is `-1` for an empty list and otherwise the
position of the first minimum of the potential. -/
theorem stablestOf_spec (phases : List (PhaseInfo K)) :
    (stablestOf phases = -1 ↔ phases = []) ∧
    (phases ≠ [] →
      0 ≤ stablestOf phases ∧ stablestOf phases < (phases.length : ℤ) ∧
      (∀ r ∈ phases, (phases.getD (stablestOf phases).toNat ⟨0, 0, 0, 0⟩).phi ≤ r.phi) ∧
      (∀ k, k < (stablestOf phases).toNat →
        (phases.getD (stablestOf phases).toNat ⟨0, 0, 0, 0⟩).phi
          < (phases.getD k ⟨0, 0, 0, 0⟩).phi)) := by
  rcases phases with _ | ⟨a, rest⟩
  · exact ⟨⟨fun _ => rfl, fun _ => rfl⟩, fun h => absurd rfl h⟩
  · have hspec := minElementLoop_spec rest [a] 0 (by simp)
      (by
        intro k hk
        simp only [List.length_singleton] at hk
        have : k = 0 := by omega
        rw [this])
      (by intro k hk; omega)
    simp only [List.length_singleton, List.getD_cons_zero, List.singleton_append] at hspec
    obtain ⟨h1, h2, h3⟩ := hspec
    have hval : stablestOf (a :: rest) = (minElementLoop rest 1 0 a.phi : ℕ) := rfl
    refine ⟨⟨fun h => ?_, fun h => by simp at h⟩, fun _ => ?_⟩
    · rw [hval] at h
      omega
    · rw [hval, Int.toNat_ofNat]
      refine ⟨by omega, by exact_mod_cast h1, ?_, h3⟩
      intro r hr
      obtain ⟨k, hk, rfl⟩ := List.getElem_of_mem hr
      have := h2 k hk
      rw [List.getD_eq_getElem _ _ hk] at this
      exact this

end Worker
namespace Worker

/-! ## The bit sets of the transition test -/

theorem list_of_length_four (l : List Bool) (h : l.length = 4) :
    l = [l.getD 0 false, l.getD 1 false, l.getD 2 false, l.getD 3 false] := by
  rcases l with _ | ⟨a, _ | ⟨b, _ | ⟨c, _ | ⟨d, _ | ⟨e, t⟩⟩⟩⟩⟩
  all_goals simp at h
  all_goals rfl

theorem typeBits_fold (phases : List (PhaseInfo K)) :
    ∀ bs : List Bool, bs.length = 4 →
      (phases.foldl (fun bs item => bs.set (item.type - 1) true) bs).length = 4 ∧
      ∀ k, k < 4 →
        ((phases.foldl (fun bs item => bs.set (item.type - 1) true) bs).getD k false = true ↔
          bs.getD k false = true ∨ ∃ r ∈ phases, r.type - 1 = k) := by
  induction phases with
  | nil =>
    intro bs hbs
    simp [hbs]
  | cons a rest ih =>
    intro bs hbs
    obtain ⟨h1, h2⟩ := ih (bs.set (a.type - 1) true) (by rw [List.length_set]; exact hbs)
    rw [List.foldl_cons]
    refine ⟨h1, fun k hk => ?_⟩
    rw [h2 k hk, getD_set_eq]
    constructor
    · rintro (h | ⟨r, hr, hrk⟩)
      · split_ifs at h with hc
        · exact Or.inr ⟨a, by simp, hc.1.symm⟩
        · exact Or.inl h
      · exact Or.inr ⟨r, by simp [hr], hrk⟩
    · rintro (h | ⟨r, hr, hrk⟩)
      · left
        split_ifs
        · rfl
        · exact h
      · rcases List.mem_cons.mp hr with rfl | hr
        · left
          rw [if_pos ⟨hrk.symm, by omega⟩]
        · exact Or.inr ⟨r, hr, hrk⟩

/-- The bit set built from a list of records with types in `1 .. 4` has the bit
`k - 1` set exactly when the type `k` occurs. -/
theorem typeBits_eq (dp : DiagramPoint K) (ht : ∀ r ∈ dp.phases, 1 ≤ r.type ∧ r.type ≤ 4) :
    typeBits dp.phases = [decide (1 ∈ typeSet dp), decide (2 ∈ typeSet dp),
      decide (3 ∈ typeSet dp), decide (4 ∈ typeSet dp)] := by
  obtain ⟨h1, h2⟩ := typeBits_fold dp.phases [false, false, false, false] rfl
  have hmem : ∀ k, k < 4 → ((typeBits dp.phases).getD k false = decide (k + 1 ∈ typeSet dp)) := by
    intro k hk
    rw [Bool.eq_iff_iff, decide_eq_true_iff]
    unfold typeBits
    rw [h2 k hk]
    unfold typeSet
    simp only [List.mem_toFinset, List.mem_map]
    constructor
    · rintro (h | ⟨r, hr, hrk⟩)
      · exfalso
        have : k = 0 ∨ k = 1 ∨ k = 2 ∨ k = 3 := by omega
        rcases this with rfl | rfl | rfl | rfl <;> simp at h
      · exact ⟨r, hr, by have := ht r hr; omega⟩
    · rintro ⟨r, hr, hrk⟩
      exact Or.inr ⟨r, hr, by omega⟩
  rw [list_of_length_four (typeBits dp.phases) h1, hmem 0 (by omega), hmem 1 (by omega),
    hmem 2 (by omega), hmem 3 (by omega)]

theorem typeSet_subset (dp : DiagramPoint K) (ht : ∀ r ∈ dp.phases, 1 ≤ r.type ∧ r.type ≤ 4) :
    ∀ x ∈ typeSet dp, x = 1 ∨ x = 2 ∨ x = 3 ∨ x = 4 := by
  intro x hx
  unfold typeSet at hx
  simp only [List.mem_toFinset, List.mem_map] at hx
  obtain ⟨r, hr, rfl⟩ := hx
  have := ht r hr
  omega

theorem typeSet_eq_filter (T : Finset ℕ) (hT : ∀ x ∈ T, x = 1 ∨ x = 2 ∨ x = 3 ∨ x = 4) :
    T = ({1, 2, 3, 4} : Finset ℕ).filter (fun x => x ∈ T) := by
  ext x
  simp only [Finset.mem_filter, Finset.mem_insert, Finset.mem_singleton]
  exact ⟨fun h => ⟨hT x h, h⟩, fun h => h.2⟩

theorem bitCount_eq_card (T : Finset ℕ) (hT : ∀ x ∈ T, x = 1 ∨ x = 2 ∨ x = 3 ∨ x = 4) :
    bitCount [decide (1 ∈ T), decide (2 ∈ T), decide (3 ∈ T), decide (4 ∈ T)] = T.card := by
  conv_rhs => rw [typeSet_eq_filter T hT]
  unfold bitCount
  by_cases h1 : 1 ∈ T <;> by_cases h2 : 2 ∈ T <;> by_cases h3 : 3 ∈ T <;> by_cases h4 : 4 ∈ T <;>
    simp [h1, h2, h3, h4, Finset.filter_insert, Finset.filter_singleton]

theorem bits_eq_iff (T U : Finset ℕ) (hT : ∀ x ∈ T, x = 1 ∨ x = 2 ∨ x = 3 ∨ x = 4)
    (hU : ∀ x ∈ U, x = 1 ∨ x = 2 ∨ x = 3 ∨ x = 4) :
    [decide (1 ∈ T), decide (2 ∈ T), decide (3 ∈ T), decide (4 ∈ T)]
      = [decide (1 ∈ U), decide (2 ∈ U), decide (3 ∈ U), decide (4 ∈ U)] ↔ T = U := by
  constructor
  · intro h
    simp only [List.cons.injEq, decide_eq_decide, and_true] at h
    obtain ⟨h1, h2, h3, h4⟩ := h
    ext x
    constructor
    · intro hx
      rcases hT x hx with rfl | rfl | rfl | rfl
      · exact h1.mp hx
      · exact h2.mp hx
      · exact h3.mp hx
      · exact h4.mp hx
    · intro hx
      rcases hU x hx with rfl | rfl | rfl | rfl
      · exact h1.mpr hx
      · exact h2.mpr hx
      · exact h3.mpr hx
      · exact h4.mpr hx
  · rintro rfl
    rfl

/-- One disjunct of the expression assigned to `transition`, in terms of type sets. -/
theorem transition_disjunct (dp nb : DiagramPoint K)
    (hd : ∀ r ∈ dp.phases, 1 ≤ r.type ∧ r.type ≤ 4)
    (hn : ∀ r ∈ nb.phases, 1 ≤ r.type ∧ r.type ≤ 4) :
    (decide (1 < bitCount (typeBits dp.phases)) && decide (1 < bitCount (typeBits nb.phases))
      && decide (typeBits dp.phases = typeBits nb.phases)
      && decide (dp.stablest ≠ nb.stablest)) = true ↔ transitionWith dp nb := by
  rw [typeBits_eq dp hd, typeBits_eq nb hn, bitCount_eq_card _ (typeSet_subset dp hd),
    bitCount_eq_card _ (typeSet_subset nb hn)]
  unfold transitionWith
  simp only [Bool.and_eq_true, decide_eq_true_iff,
    bits_eq_iff _ _ (typeSet_subset dp hd) (typeSet_subset nb hn)]
  tauto

theorem transitionOf_iff (data : List (List (DiagramPoint K))) (i j : ℕ)
    (h0 : ∀ r ∈ (cell data i j).phases, 1 ≤ r.type ∧ r.type ≤ 4)
    (h1 : ∀ r ∈ (cell data (i - 1) j).phases, 1 ≤ r.type ∧ r.type ≤ 4)
    (h2 : ∀ r ∈ (cell data i (j - 1)).phases, 1 ≤ r.type ∧ r.type ≤ 4) :
    transitionOf data i j = true ↔
      transitionWith (cell data i j) (cell data (i - 1) j) ∨
        transitionWith (cell data i j) (cell data i (j - 1)) := by
  unfold transitionOf
  simp only
  rw [Bool.or_eq_true, transition_disjunct _ _ h0 h1, transition_disjunct _ _ h0 h2]

end Worker
namespace Worker

/-! ## The grid after `calculate()` -/

theorem cellFinal_types (M : Libm K) (fuel : ℕ) (w : Worker K)
    (data : List (List (DiagramPoint K))) (i j : ℕ) (h : CellFinal M fuel w data i j) :
    ∀ r ∈ (cell data i j).phases, 1 ≤ r.type ∧ r.type ≤ 4 :=
  getPhases_types M fuel _ _ h.2.2.1

theorem cellFinal_stablest (M : Libm K) (fuel : ℕ) (w w1 : Worker K) (i j : ℕ)
    (h : CellFinal M fuel w w1.data i j) :
    ((cell w1.data i j).stablest = -1 ↔ (cell w1.data i j).phases = []) ∧
    ((cell w1.data i j).phases ≠ [] →
      0 ≤ (cell w1.data i j).stablest ∧
      (cell w1.data i j).stablest < ((cell w1.data i j).phases.length : ℤ) ∧
      (∀ r ∈ (cell w1.data i j).phases,
        ((cell w1.data i j).phases.getD (cell w1.data i j).stablest.toNat ⟨0, 0, 0, 0⟩).phi
          ≤ r.phi) ∧
      (∀ k, k < (cell w1.data i j).stablest.toNat →
        ((cell w1.data i j).phases.getD (cell w1.data i j).stablest.toNat ⟨0, 0, 0, 0⟩).phi
          < ((cell w1.data i j).phases.getD k ⟨0, 0, 0, 0⟩).phi)) ∧
    (getStablestPhaseType w1 i j = 0 ↔ (cell w1.data i j).phases = []) ∧
    ((cell w1.data i j).phases ≠ [] →
      1 ≤ getStablestPhaseType w1 i j ∧ getStablestPhaseType w1 i j ≤ 4) := by
  have htypes := cellFinal_types M fuel w w1.data i j h
  have hs := h.2.2.2.1
  obtain ⟨h1, h2⟩ := stablestOf_spec (cell w1.data i j).phases
  rw [← hs] at h1 h2
  have htype : (cell w1.data i j).phases ≠ [] →
      1 ≤ getStablestPhaseType w1 i j ∧ getStablestPhaseType w1 i j ≤ 4 := by
    intro hne
    obtain ⟨h3, h4, _, _⟩ := h2 hne
    unfold getStablestPhaseType
    simp only
    rw [if_neg (by omega)]
    have hlt : (cell w1.data i j).stablest.toNat < (cell w1.data i j).phases.length := by omega
    rw [List.getD_eq_getElem _ _ hlt]
    exact htypes _ (List.getElem_mem _)
  refine ⟨h1, h2, ⟨fun h0 => ?_, fun he => ?_⟩, htype⟩
  · by_contra hne
    have := (htype hne).1
    omega
  · unfold getStablestPhaseType
    simp only
    rw [if_pos (h1.mpr he)]

/-- C17: `calculate()` completes on every grid whose width is not 1 (with enough
fuel for the root searches), and afterwards, for every grid cell: `stablest = -1`
if and only if the phase list is empty; otherwise `0 <= stablest < number of
phases`, `phases[stablest].phi` is at most the potential of every record of the
cell and strictly less than the potential of every record at a smaller index;
`getStablestPhaseType` returns 0 exactly for cells without stable phases and a type
in `1 .. 4` otherwise. -/
theorem calculate_stablest_first_minimum [Archimedean K] (M : Libm K) (w : Worker K)
    (hw : w.data.length ≠ 1) :
    (∃ N, ∀ fuel, N ≤ fuel → ∃ res, calculate M fuel w = Run.done res) ∧
    ∀ fuel w1 emitted, calculate M fuel w = Run.done (w1, emitted) →
      ∀ i j, i < w1.data.length → j < (w1.data.getD i []).length →
        ((cell w1.data i j).stablest = -1 ↔ (cell w1.data i j).phases = []) ∧
        ((cell w1.data i j).phases ≠ [] →
          0 ≤ (cell w1.data i j).stablest ∧
          (cell w1.data i j).stablest < ((cell w1.data i j).phases.length : ℤ) ∧
          (∀ r ∈ (cell w1.data i j).phases,
            ((cell w1.data i j).phases.getD (cell w1.data i j).stablest.toNat ⟨0, 0, 0, 0⟩).phi
              ≤ r.phi) ∧
          (∀ k, k < (cell w1.data i j).stablest.toNat →
            ((cell w1.data i j).phases.getD (cell w1.data i j).stablest.toNat ⟨0, 0, 0, 0⟩).phi
              < ((cell w1.data i j).phases.getD k ⟨0, 0, 0, 0⟩).phi)) ∧
        (getStablestPhaseType w1 i j = 0 ↔ (cell w1.data i j).phases = []) ∧
        ((cell w1.data i j).phases ≠ [] →
          1 ≤ getStablestPhaseType w1 i j ∧ getStablestPhaseType w1 i j ≤ 4) := by
  refine ⟨calculate_terminates M w hw, ?_⟩
  intro fuel w1 emitted h i j hi hj
  obtain ⟨_, _, _, hlen, hcol, hcells, _⟩ := calculate_spec M fuel w w1 emitted h
  exact cellFinal_stablest M fuel w w1 i j
    (hcells i j (by rw [← hlen]; exact hi) (by rw [← hcol]; exact hj))

theorem calculate_stablest_first_minimum_witness :
    (ofSize 1 0 (⟨1, 1, 0, 0, 2, 0, 0, 0, 0⟩ : Coefficients ℚ) 2 2).data.length ≠ 1 ∧
    calculate ratLibm 5 (ofSize 1 0 (⟨1, 1, 0, 0, 2, 0, 0, 0, 0⟩ : Coefficients ℚ) 2 2)
      = Run.done ((⟨1, 0, ⟨1, 1, 0, 0, 2, 0, 0, 0, 0⟩,
          [[⟨2, 1, false, 0, [⟨1, 0, 0, 0⟩, ⟨2, 0, -1, 0⟩]⟩,
            ⟨2, 1, false, 0, [⟨1, 0, 0, 0⟩, ⟨2, 0, -1, 0⟩]⟩],
           [⟨3, 1, false, 1, [⟨1, 0, 0, 0⟩, ⟨2, -4, -2, 0⟩]⟩,
            ⟨3, 1, true, 1, [⟨1, 0, 0, 0⟩, ⟨2, -4, -2, 0⟩]⟩]]⟩ : Worker ℚ), [0, 100]) ∧
    (getStablestPhaseType (⟨1, 0, ⟨1, 1, 0, 0, 2, 0, 0, 0, 0⟩,
          [[⟨2, 1, false, 0, [⟨1, 0, 0, 0⟩, ⟨2, 0, -1, 0⟩]⟩,
            ⟨2, 1, false, 0, [⟨1, 0, 0, 0⟩, ⟨2, 0, -1, 0⟩]⟩],
           [⟨3, 1, false, 1, [⟨1, 0, 0, 0⟩, ⟨2, -4, -2, 0⟩]⟩,
            ⟨3, 1, true, 1, [⟨1, 0, 0, 0⟩, ⟨2, -4, -2, 0⟩]⟩]]⟩ : Worker ℚ) 1 1 = 0 ↔
      (cell (⟨1, 0, ⟨1, 1, 0, 0, 2, 0, 0, 0, 0⟩,
          [[⟨2, 1, false, 0, [⟨1, 0, 0, 0⟩, ⟨2, 0, -1, 0⟩]⟩,
            ⟨2, 1, false, 0, [⟨1, 0, 0, 0⟩, ⟨2, 0, -1, 0⟩]⟩],
           [⟨3, 1, false, 1, [⟨1, 0, 0, 0⟩, ⟨2, -4, -2, 0⟩]⟩,
            ⟨3, 1, true, 1, [⟨1, 0, 0, 0⟩, ⟨2, -4, -2, 0⟩]⟩]]⟩ : Worker ℚ).data 1 1).phases = []) ∧
    1 ≤ getStablestPhaseType (⟨1, 0, ⟨1, 1, 0, 0, 2, 0, 0, 0, 0⟩,
          [[⟨2, 1, false, 0, [⟨1, 0, 0, 0⟩, ⟨2, 0, -1, 0⟩]⟩,
            ⟨2, 1, false, 0, [⟨1, 0, 0, 0⟩, ⟨2, 0, -1, 0⟩]⟩],
           [⟨3, 1, false, 1, [⟨1, 0, 0, 0⟩, ⟨2, -4, -2, 0⟩]⟩,
            ⟨3, 1, true, 1, [⟨1, 0, 0, 0⟩, ⟨2, -4, -2, 0⟩]⟩]]⟩ : Worker ℚ) 1 1 := by
  have hrun : calculate ratLibm 5 (ofSize 1 0 (⟨1, 1, 0, 0, 2, 0, 0, 0, 0⟩ : Coefficients ℚ) 2 2)
      = Run.done ((⟨1, 0, ⟨1, 1, 0, 0, 2, 0, 0, 0, 0⟩,
          [[⟨2, 1, false, 0, [⟨1, 0, 0, 0⟩, ⟨2, 0, -1, 0⟩]⟩,
            ⟨2, 1, false, 0, [⟨1, 0, 0, 0⟩, ⟨2, 0, -1, 0⟩]⟩],
           [⟨3, 1, false, 1, [⟨1, 0, 0, 0⟩, ⟨2, -4, -2, 0⟩]⟩,
            ⟨3, 1, true, 1, [⟨1, 0, 0, 0⟩, ⟨2, -4, -2, 0⟩]⟩]]⟩ : Worker ℚ), [0, 100]) := by decide!
  have h := (calculate_stablest_first_minimum ratLibm (ofSize 1 0 (⟨1, 1, 0, 0, 2, 0, 0, 0, 0⟩ : Coefficients ℚ) 2 2) (by decide)).2 5 _ _ hrun
    1 1 (by decide) (by decide)
  exact ⟨by decide, hrun, h.2.2.1, (h.2.2.2 (by decide)).1⟩

end Worker
namespace Worker

/-! ## The transition flag -/

theorem col_length_of_rect (data : List (List (DiagramPoint K))) (H : ℕ)
    (hrect : ∀ col ∈ data, col.length = H) (i : ℕ) (hi : i < data.length) :
    (data.getD i []).length = H := by
  rw [List.getD_eq_getElem _ _ hi]
  exact hrect _ (List.getElem_mem _)

/-- The transition flag of a cell after `calculate()` on a rectangular grid. -/
theorem calculate_transition (M : Libm K) (fuel : ℕ) (w w1 : Worker K) (emitted : List ℕ)
    (H : ℕ) (hrect : ∀ col ∈ w.data, col.length = H)
    (h : calculate M fuel w = Run.done (w1, emitted)) (i j : ℕ)
    (hi : i < w.data.length) (hj : j < H) :
    ((i = 0 ∨ j = 0) → (cell w1.data i j).transition = (cell w.data i j).transition) ∧
    (1 ≤ i → 1 ≤ j →
      ((cell w1.data i j).transition = true ↔
        transitionWith (cell w1.data i j) (cell w1.data (i - 1) j) ∨
          transitionWith (cell w1.data i j) (cell w1.data i (j - 1))) ∧
      i - 1 < w1.data.length ∧ j < (w1.data.getD (i - 1) []).length ∧
      j - 1 < (w1.data.getD i []).length) := by
  obtain ⟨_, _, _, hlen, hcol, hcells, _⟩ := calculate_spec M fuel w w1 emitted h
  have hH : ∀ k, k < w.data.length → (w.data.getD k []).length = H :=
    fun k hk => col_length_of_rect w.data H hrect k hk
  have hfin := hcells i j hi (by rw [hH i hi]; exact hj)
  have ht := hfin.2.2.2.2
  constructor
  · intro h0
    rw [ht, if_neg (by omega)]
  · intro h1 h2
    rw [ht, if_pos ⟨by omega, by omega⟩]
    refine ⟨?_, by omega, by rw [hcol, hH _ (by omega)]; exact hj,
      by rw [hcol, hH _ hi]; omega⟩
    apply transitionOf_iff
    · exact cellFinal_types M fuel w w1.data i j hfin
    · exact cellFinal_types M fuel w w1.data (i - 1) j
        (hcells (i - 1) j (by omega) (by rw [hH _ (by omega)]; exact hj))
    · exact cellFinal_types M fuel w w1.data i (j - 1)
        (hcells i (j - 1) hi (by rw [hH _ hi]; omega))

theorem getD_replicate_eq {α : Type} (n i : ℕ) (a d : α) :
    (List.replicate n a).getD i d = if i < n then a else d := by
  simp only [List.getD_eq_getElem?_getD, List.getElem?_replicate]
  split_ifs <;> rfl

theorem cell_ofSize (dX dY : K) (c : Coefficients K) (W H i j : ℕ) :
    cell (ofSize dX dY c W H).data i j = blankPoint := by
  unfold cell ofSize
  simp only
  rw [getD_replicate_eq]
  split_ifs
  · rw [getD_replicate_eq]
    split_ifs <;> rfl
  · rfl

theorem cell_out_of_bounds (data : List (List (DiagramPoint K))) (i j : ℕ)
    (h : data.length ≤ i ∨ (data.getD i []).length ≤ j) : cell data i j = blankPoint := by
  unfold cell
  rcases h with h | h
  · rw [List.getD_eq_default _ _ h]
    rfl
  · rw [List.getD_eq_default _ _ h]

/-- C18: `calculate()` completes on every rectangular grid whose width is not 1
(with enough fuel for the root searches). If the transition flags of column 0 and
row 0 are false before the run, as on a freshly constructed grid and after any
earlier run, then afterwards the flag of cell `(i, j)` is false whenever `i = 0`
or `j = 0`, and for `i >= 1` and `j >= 1` it is true if and only if, for the
previous-column neighbour `(i-1, j)` or for the previous-row neighbour `(i, j-1)`:
the cell and that neighbour each have more than one distinct stable phase type,
their sets of stable phase types are equal, and their stablest indices differ;
the cells read are inside the grid. -/
theorem calculate_transition_flag [Archimedean K] (M : Libm K) (w : Worker K) (H : ℕ)
    (hw : w.data.length ≠ 1) (hrect : ∀ col ∈ w.data, col.length = H)
    (hfirst : ∀ i j, i = 0 ∨ j = 0 → (cell w.data i j).transition = false) :
    (∃ N, ∀ fuel, N ≤ fuel → ∃ res, calculate M fuel w = Run.done res) ∧
    ∀ fuel w1 emitted, calculate M fuel w = Run.done (w1, emitted) →
      w1.data.length = w.data.length ∧ (∀ col ∈ w1.data, col.length = H) ∧
      (∀ i j, i = 0 ∨ j = 0 → (cell w1.data i j).transition = false) ∧
      ∀ i j, i < w1.data.length → j < H → 1 ≤ i → 1 ≤ j →
        ((cell w1.data i j).transition = true ↔
          transitionWith (cell w1.data i j) (cell w1.data (i - 1) j) ∨
            transitionWith (cell w1.data i j) (cell w1.data i (j - 1))) ∧
        i - 1 < w1.data.length ∧ j < (w1.data.getD (i - 1) []).length ∧
        j - 1 < (w1.data.getD i []).length := by
  refine ⟨calculate_terminates M w hw, ?_⟩
  intro fuel w1 emitted h
  obtain ⟨_, _, _, hlen, hcol, _, _⟩ := calculate_spec M fuel w w1 emitted h
  refine ⟨hlen, ?_, ?_, ?_⟩
  · intro col hcolmem
    obtain ⟨k, hk, rfl⟩ := List.getElem_of_mem hcolmem
    have := hcol k
    rw [List.getD_eq_getElem _ _ hk, col_length_of_rect w.data H hrect k (by omega)] at this
    exact this
  · intro i j h0
    by_cases hin : i < w.data.length ∧ j < H
    · rw [(calculate_transition M fuel w w1 emitted H hrect h i j hin.1 hin.2).1 h0]
      exact hfirst i j h0
    · rw [cell_out_of_bounds w1.data i j (by
        by_cases hi : i < w.data.length
        · right
          rw [hcol i, col_length_of_rect w.data H hrect i hi]
          omega
        · left
          omega)]
      rfl
  · intro i j hi hj
    exact (calculate_transition M fuel w w1 emitted H hrect h i j (by omega) hj).2

theorem calculate_transition_flag_witness :
    (ofSize 1 0 (⟨1, 1, 0, 0, 2, 0, 0, 0, 0⟩ : Coefficients ℚ) 2 2).data.length ≠ 1 ∧
    (∀ col ∈ (ofSize 1 0 (⟨1, 1, 0, 0, 2, 0, 0, 0, 0⟩ : Coefficients ℚ) 2 2).data,
      col.length = 2) ∧
    (∃ w1 emitted,
      calculate ratLibm 5 (ofSize 1 0 (⟨1, 1, 0, 0, 2, 0, 0, 0, 0⟩ : Coefficients ℚ) 2 2)
        = Run.done (w1, emitted) ∧
      (cell w1.data 1 0).transition = false ∧
      ((cell w1.data 1 1).transition = true ↔
        transitionWith (cell w1.data 1 1) (cell w1.data 0 1) ∨
          transitionWith (cell w1.data 1 1) (cell w1.data 1 0)) ∧
      (cell w1.data 1 1).transition = true) := by
  have hrun : calculate ratLibm 5
      (ofSize 1 0 (⟨1, 1, 0, 0, 2, 0, 0, 0, 0⟩ : Coefficients ℚ) 2 2)
      = Run.done ((⟨1, 0, ⟨1, 1, 0, 0, 2, 0, 0, 0, 0⟩,
          [[⟨2, 1, false, 0, [⟨1, 0, 0, 0⟩, ⟨2, 0, -1, 0⟩]⟩,
            ⟨2, 1, false, 0, [⟨1, 0, 0, 0⟩, ⟨2, 0, -1, 0⟩]⟩],
           [⟨3, 1, false, 1, [⟨1, 0, 0, 0⟩, ⟨2, -4, -2, 0⟩]⟩,
            ⟨3, 1, true, 1, [⟨1, 0, 0, 0⟩, ⟨2, -4, -2, 0⟩]⟩]]⟩ : Worker ℚ), [0, 100]) := by
    decide!
  have h := (calculate_transition_flag ratLibm
    (ofSize 1 0 (⟨1, 1, 0, 0, 2, 0, 0, 0, 0⟩ : Coefficients ℚ) 2 2) 2 (by decide) (by decide)
    (fun i j _ => by rw [cell_ofSize]; rfl)).2 5 _ _ hrun
  exact ⟨by decide, by decide, _, _, hrun, h.2.2.1 1 0 (Or.inr rfl),
    (h.2.2.2 1 1 (by decide) (by decide) (le_refl _) (le_refl _)).1, rfl⟩

end Worker
namespace Worker

/-- C19, as stated, fails in row 0. On the grid of 2 columns and 1 row with
`a[0] = 1`, `a[1] = 1`, `b[0] = 2`, the other coefficients zero and both steps 1,
the cells `(0, 0)` and `(1, 0)` both hold the stable phase types `1` and `2`, the
stablest index is `0` in the first and `1` in the second, and the transition flag
of `(1, 0)` is false after `calculate()`: the test is guarded by `if (i && j)`. -/
theorem transition_not_flagged_in_row_zero :
    ∃ w1 emitted,
      calculate ratLibm 5 (ofSize 1 1 (⟨1, 1, 0, 0, 2, 0, 0, 0, 0⟩ : Coefficients ℚ) 2 1)
        = Run.done (w1, emitted) ∧
      transitionWith (cell w1.data 1 0) (cell w1.data 0 0) ∧
      typeSet (cell w1.data 1 0) = {1, 2} ∧ typeSet (cell w1.data 0 0) = {1, 2} ∧
      (cell w1.data 1 0).stablest = 1 ∧ (cell w1.data 0 0).stablest = 0 ∧
      (cell w1.data 1 0).transition = false := by
  have hrun : calculate ratLibm 5
      (ofSize 1 1 (⟨1, 1, 0, 0, 2, 0, 0, 0, 0⟩ : Coefficients ℚ) 2 1)
      = Run.done ((⟨1, 1, ⟨1, 1, 0, 0, 2, 0, 0, 0, 0⟩,
        [[⟨2, 1, false, 0, [⟨1, 0, 0, 0⟩, ⟨2, 0, -1, 0⟩]⟩],
         [⟨3, 1, false, 1, [⟨1, 0, 0, 0⟩, ⟨2, -4, -2, 0⟩]⟩]]⟩ : Worker ℚ), [0, 100]) := by
    decide!
  exact ⟨_, _, hrun, by decide!, by decide!, by decide!, rfl, rfl, rfl⟩

/-- C19 (amended): `calculate()` completes on every rectangular grid whose width
is not 1 (with enough fuel for the root searches), and afterwards, for every grid
cell with column index `i >= 1` and row index `j >= 1`: if the cell and the cell
in the previous column of the same row both have more than one stable phase type
and identical type sets, and their most-stable indices differ, then the
transition flag of the cell is true. -/
theorem calculate_flags_column_transition [Archimedean K] (M : Libm K) (w : Worker K) (H : ℕ)
    (hw : w.data.length ≠ 1) (hrect : ∀ col ∈ w.data, col.length = H) :
    (∃ N, ∀ fuel, N ≤ fuel → ∃ res, calculate M fuel w = Run.done res) ∧
    ∀ fuel w1 emitted, calculate M fuel w = Run.done (w1, emitted) →
      ∀ i j, 1 ≤ i → i < w1.data.length → 1 ≤ j → j < H →
        transitionWith (cell w1.data i j) (cell w1.data (i - 1) j) →
        (cell w1.data i j).transition = true := by
  refine ⟨calculate_terminates M w hw, ?_⟩
  intro fuel w1 emitted h i j hi1 hi2 hj1 hj2 ht
  obtain ⟨_, _, _, hlen, _, _, _⟩ := calculate_spec M fuel w w1 emitted h
  exact ((calculate_transition M fuel w w1 emitted H hrect h i j (by omega) hj2).2 hi1 hj1).1.mpr
    (Or.inl ht)

theorem calculate_flags_column_transition_witness :
    (ofSize 1 0 (⟨1, 1, 0, 0, 2, 0, 0, 0, 0⟩ : Coefficients ℚ) 2 2).data.length ≠ 1 ∧
    (∀ col ∈ (ofSize 1 0 (⟨1, 1, 0, 0, 2, 0, 0, 0, 0⟩ : Coefficients ℚ) 2 2).data,
      col.length = 2) ∧
    (∃ w1 emitted,
      calculate ratLibm 5 (ofSize 1 0 (⟨1, 1, 0, 0, 2, 0, 0, 0, 0⟩ : Coefficients ℚ) 2 2)
        = Run.done (w1, emitted) ∧
      transitionWith (cell w1.data 1 1) (cell w1.data 0 1) ∧
      (cell w1.data 1 1).transition = true) := by
  have hrun : calculate ratLibm 5
      (ofSize 1 0 (⟨1, 1, 0, 0, 2, 0, 0, 0, 0⟩ : Coefficients ℚ) 2 2)
      = Run.done ((⟨1, 0, ⟨1, 1, 0, 0, 2, 0, 0, 0, 0⟩,
          [[⟨2, 1, false, 0, [⟨1, 0, 0, 0⟩, ⟨2, 0, -1, 0⟩]⟩,
            ⟨2, 1, false, 0, [⟨1, 0, 0, 0⟩, ⟨2, 0, -1, 0⟩]⟩],
           [⟨3, 1, false, 1, [⟨1, 0, 0, 0⟩, ⟨2, -4, -2, 0⟩]⟩,
            ⟨3, 1, true, 1, [⟨1, 0, 0, 0⟩, ⟨2, -4, -2, 0⟩]⟩]]⟩ : Worker ℚ), [0, 100]) := by
    decide!
  have ht : transitionWith
      (cell (⟨1, 0, ⟨1, 1, 0, 0, 2, 0, 0, 0, 0⟩,
          [[⟨2, 1, false, 0, [⟨1, 0, 0, 0⟩, ⟨2, 0, -1, 0⟩]⟩,
            ⟨2, 1, false, 0, [⟨1, 0, 0, 0⟩, ⟨2, 0, -1, 0⟩]⟩],
           [⟨3, 1, false, 1, [⟨1, 0, 0, 0⟩, ⟨2, -4, -2, 0⟩]⟩,
            ⟨3, 1, true, 1, [⟨1, 0, 0, 0⟩, ⟨2, -4, -2, 0⟩]⟩]]⟩ : Worker ℚ).data 1 1)
      (cell (⟨1, 0, ⟨1, 1, 0, 0, 2, 0, 0, 0, 0⟩,
          [[⟨2, 1, false, 0, [⟨1, 0, 0, 0⟩, ⟨2, 0, -1, 0⟩]⟩,
            ⟨2, 1, false, 0, [⟨1, 0, 0, 0⟩, ⟨2, 0, -1, 0⟩]⟩],
           [⟨3, 1, false, 1, [⟨1, 0, 0, 0⟩, ⟨2, -4, -2, 0⟩]⟩,
            ⟨3, 1, true, 1, [⟨1, 0, 0, 0⟩, ⟨2, -4, -2, 0⟩]⟩]]⟩ : Worker ℚ).data (1 - 1) 1) := by
    decide!
  exact ⟨by decide, by decide, _, _, hrun, ht,
    (calculate_flags_column_transition ratLibm
      (ofSize 1 0 (⟨1, 1, 0, 0, 2, 0, 0, 0, 0⟩ : Coefficients ℚ) 2 2) 2 (by decide)
      (by decide)).2 5 _ _ hrun 1 1 (le_refl _) (by decide) (le_refl _) (by decide) ht⟩

/-! ## Coordinates and phase lists of the cells -/

/-- C20: after `setParameters(c, stepX, stepY)`, `calculate()` completes on every
grid of `W` columns and `H` rows with `W` other than 1 (with enough fuel for the
root searches), and afterwards cell `(i, j)` stores `x = c.b[0] + i * stepX` and
`y = c.a[0] + (H - 1 - j) * stepY`, and its phase list is `getPhases` evaluated
with `b[0] = x`, `a[0] = y` and the other seven constants of `c`; hence for
positive steps `x` strictly increases with the column index, `y` strictly
decreases with the row index, and cell `(0, H - 1)` sits at the starting values. -/
theorem calculate_cell_coordinates [Archimedean K] (M : Libm K) (w0 : Worker K)
    (c : Coefficients K) (stepX stepY : K) (W H : ℕ)
    (hW : w0.data.length = W) (hrect : ∀ col ∈ w0.data, col.length = H) (hw : W ≠ 1) :
    (∃ N, ∀ fuel, N ≤ fuel →
      ∃ res, calculate M fuel (setParameters w0 c stepX stepY) = Run.done res) ∧
    ∀ fuel w1 emitted,
      calculate M fuel (setParameters w0 c stepX stepY) = Run.done (w1, emitted) →
      (∀ i j, i < W → j < H →
        (cell w1.data i j).x = c.b0 + (i : K) * stepX ∧
        (cell w1.data i j).y = c.a0 + ((H - 1 - j : ℕ) : K) * stepY ∧
        getPhases M fuel { c with b0 := (cell w1.data i j).x, a0 := (cell w1.data i j).y }
          = some (cell w1.data i j).phases) ∧
      (0 < stepX → ∀ i1 i2 j, i1 < i2 → i2 < W → j < H →
        (cell w1.data i1 j).x < (cell w1.data i2 j).x) ∧
      (0 < stepY → ∀ i j1 j2, i < W → j1 < j2 → j2 < H →
        (cell w1.data i j2).y < (cell w1.data i j1).y) ∧
      (0 < W → 0 < H →
        (cell w1.data 0 (H - 1)).x = c.b0 ∧ (cell w1.data 0 (H - 1)).y = c.a0) := by
  have hlen1 : (setParameters w0 c stepX stepY).data.length ≠ 1 := by
    rw [show (setParameters w0 c stepX stepY).data = w0.data by rfl, hW]
    exact hw
  refine ⟨calculate_terminates M _ hlen1, ?_⟩
  intro fuel w1 emitted h
  obtain ⟨_, _, _, _, _, hcells, _⟩ := calculate_spec M fuel _ w1 emitted h
  have hdata : (setParameters w0 c stepX stepY).data = w0.data := rfl
  have hxy : ∀ i j, i < W → j < H →
      (cell w1.data i j).x = c.b0 + (i : K) * stepX ∧
      (cell w1.data i j).y = c.a0 + ((H - 1 - j : ℕ) : K) * stepY ∧
      getPhases M fuel { c with b0 := (cell w1.data i j).x, a0 := (cell w1.data i j).y }
        = some (cell w1.data i j).phases := by
    intro i j hi hj
    have hcl : (w0.data.getD i []).length = H :=
      col_length_of_rect w0.data H hrect i (by omega)
    obtain ⟨hx, hy, hp, _, _⟩ := hcells i j (by rw [hdata, hW]; exact hi)
      (by rw [hdata, hcl]; exact hj)
    have hx2 : (cell w1.data i j).x = c.b0 + (i : K) * stepX := hx
    have hy2 : (cell w1.data i j).y = c.a0 + ((H - 1 - j : ℕ) : K) * stepY := by
      rw [hy]
      show c.a0 + (((w0.data.getD i []).length - 1 - j : ℕ) : K) * stepY = _
      rw [hcl]
    refine ⟨hx2, hy2, ?_⟩
    rw [← hp, hx, hy]
    rfl
  refine ⟨hxy, ?_, ?_, ?_⟩
  · intro hpos i1 i2 j h12 h2 hj
    rw [(hxy i1 j (by omega) hj).1, (hxy i2 j h2 hj).1]
    have : (i1 : K) < (i2 : K) := by exact_mod_cast h12
    nlinarith
  · intro hpos i j1 j2 hi h12 h2
    rw [(hxy i j1 hi (by omega)).2.1, (hxy i j2 hi h2).2.1]
    have : ((H - 1 - j2 : ℕ) : K) < ((H - 1 - j1 : ℕ) : K) := by
      exact_mod_cast (by omega : H - 1 - j2 < H - 1 - j1)
    nlinarith
  · intro hW0 hH0
    obtain ⟨hx, hy, _⟩ := hxy 0 (H - 1) hW0 (by omega)
    rw [hx, hy]
    simp

theorem calculate_cell_coordinates_witness :
    (ofSize 0 0 (⟨0, 0, 0, 0, 0, 0, 0, 0, 0⟩ : Coefficients ℚ) 2 2).data.length = 2 ∧
    (∀ col ∈ (ofSize 0 0 (⟨0, 0, 0, 0, 0, 0, 0, 0, 0⟩ : Coefficients ℚ) 2 2).data,
      col.length = 2) ∧
    (2 : ℕ) ≠ 1 ∧
    ∃ w1 emitted,
      calculate ratLibm 5 (setParameters (ofSize 0 0 (⟨0, 0, 0, 0, 0, 0, 0, 0, 0⟩ : Coefficients ℚ) 2 2)
        (⟨1, 0, 0, 0, 2, 0, 0, 0, 0⟩ : Coefficients ℚ) 1 1) = Run.done (w1, emitted) ∧
      (cell w1.data 1 0).x = (⟨1, 0, 0, 0, 2, 0, 0, 0, 0⟩ : Coefficients ℚ).b0 + ((1 : ℕ) : ℚ) * 1 ∧
      (cell w1.data 1 0).y
        = (⟨1, 0, 0, 0, 2, 0, 0, 0, 0⟩ : Coefficients ℚ).a0 + ((2 - 1 - 0 : ℕ) : ℚ) * 1 ∧
      getPhases ratLibm 5 { (⟨1, 0, 0, 0, 2, 0, 0, 0, 0⟩ : Coefficients ℚ) with
          b0 := (cell w1.data 1 0).x, a0 := (cell w1.data 1 0).y }
        = some (cell w1.data 1 0).phases ∧
      (cell w1.data 0 1).x = 2 ∧ (cell w1.data 0 1).y = 1 := by
  have hrun : calculate ratLibm 5 (setParameters (ofSize 0 0 (⟨0, 0, 0, 0, 0, 0, 0, 0, 0⟩ : Coefficients ℚ) 2 2)
      (⟨1, 0, 0, 0, 2, 0, 0, 0, 0⟩ : Coefficients ℚ) 1 1)
      = Run.done ((⟨1, 1, ⟨1, 0, 0, 0, 2, 0, 0, 0, 0⟩,
          [[⟨2, 2, false, 0, [⟨1, 0, 0, 0⟩]⟩, ⟨2, 1, false, 0, [⟨1, 0, 0, 0⟩]⟩],
           [⟨3, 2, false, 0, [⟨1, 0, 0, 0⟩]⟩, ⟨3, 1, false, 0, [⟨1, 0, 0, 0⟩]⟩]]⟩ : Worker ℚ), [0, 100]) := by
    decide!
  have h := ((calculate_cell_coordinates ratLibm (ofSize 0 0 (⟨0, 0, 0, 0, 0, 0, 0, 0, 0⟩ : Coefficients ℚ) 2 2)
    (⟨1, 0, 0, 0, 2, 0, 0, 0, 0⟩ : Coefficients ℚ) 1 1 2 2 (by decide) (by decide) (by decide)).2 5 _ _ hrun).1
    1 0 (by decide) (by decide)
  exact ⟨by decide, by decide, by decide, _, _, hrun, h.1, h.2.1, h.2.2, rfl, rfl⟩

end Worker
namespace Worker

/-! ## Coefficients and progress values after `calculate()` -/

/-- C21: after `setParameters(c, stepX, stepY)`, `calculate()` completes on every
grid whose width is not 1 (with enough fuel for the root searches), and afterwards
`getCoefficients()` returns exactly `c`; at the end of the scan, before `a[0]` and
`b[0]` are restored, the coefficient set differs from `c` in `a[0]` and `b[0]`
only. -/
theorem calculate_restores_coefficients [Archimedean K] (M : Libm K) (w0 : Worker K)
    (c : Coefficients K) (stepX stepY : K) (hw : w0.data.length ≠ 1) :
    (∃ N, ∀ fuel, N ≤ fuel →
      ∃ res, calculate M fuel (setParameters w0 c stepX stepY) = Run.done res) ∧
    (∀ fuel w1 emitted,
      calculate M fuel (setParameters w0 c stepX stepY) = Run.done (w1, emitted) →
      getCoefficients w1 = c) ∧
    ∀ fuel res, gridLoop M fuel c.b0 c.a0 stepX stepY (List.range w0.data.length) c w0.data []
        = Run.done res →
      ∃ a0 b0, res.1 = { c with a0 := a0, b0 := b0 } := by
  refine ⟨calculate_terminates M _ hw, ?_, ?_⟩
  · intro fuel w1 emitted h
    exact (calculate_spec M fuel _ w1 emitted h).2.2.1
  · intro fuel res h
    rw [List.range_eq_range'] at h
    exact ((gridLoop_spec M fuel (setParameters w0 c stepX stepY) w0.data.length 0 c.a0 c.b0
      w0.data [] (Nat.zero_add _) (loopInv_init M fuel _)).1 res h).2.1

theorem calculate_restores_coefficients_witness :
    (ofSize 0 0 (⟨0, 0, 0, 0, 0, 0, 0, 0, 0⟩ : Coefficients ℚ) 2 2).data.length ≠ 1 ∧
    ∃ w1 emitted,
      calculate ratLibm 5 (setParameters
        (ofSize 0 0 (⟨0, 0, 0, 0, 0, 0, 0, 0, 0⟩ : Coefficients ℚ) 2 2)
        (⟨1, 0, 0, 0, 2, 0, 0, 0, 0⟩ : Coefficients ℚ) 1 1) = Run.done (w1, emitted) ∧
      getCoefficients w1 = (⟨1, 0, 0, 0, 2, 0, 0, 0, 0⟩ : Coefficients ℚ) := by
  have hrun : calculate ratLibm 5 (setParameters
      (ofSize 0 0 (⟨0, 0, 0, 0, 0, 0, 0, 0, 0⟩ : Coefficients ℚ) 2 2)
      (⟨1, 0, 0, 0, 2, 0, 0, 0, 0⟩ : Coefficients ℚ) 1 1)
      = Run.done ((⟨1, 1, ⟨1, 0, 0, 0, 2, 0, 0, 0, 0⟩,
          [[⟨2, 2, false, 0, [⟨1, 0, 0, 0⟩]⟩, ⟨2, 1, false, 0, [⟨1, 0, 0, 0⟩]⟩],
           [⟨3, 2, false, 0, [⟨1, 0, 0, 0⟩]⟩, ⟨3, 1, false, 0, [⟨1, 0, 0, 0⟩]⟩]]⟩ : Worker ℚ),
        [0, 100]) := by
    decide!
  exact ⟨by decide, _, _, hrun,
    (calculate_restores_coefficients ratLibm
      (ofSize 0 0 (⟨0, 0, 0, 0, 0, 0, 0, 0, 0⟩ : Coefficients ℚ) 2 2)
      (⟨1, 0, 0, 0, 2, 0, 0, 0, 0⟩ : Coefficients ℚ) 1 1 (by decide)).2.1 5 _ _ hrun⟩

/-- On a grid whose width is not 1 the progress values of a completed run are
`100 * k / (W - 1)` for the columns `k = 0 .. W - 1`: one value per column, each
between 0 and 100, non-decreasing, the last one 100. -/
theorem calculate_progress_values (M : Libm K) (fuel : ℕ) (w w1 : Worker K) (emitted : List ℕ)
    (hw : w.data.length ≠ 1) (h : calculate M fuel w = Run.done (w1, emitted)) :
    emitted.length = w.data.length ∧
    (∀ k, k < emitted.length → emitted.getD k 0 = 100 * k / (w.data.length - 1) ∧
      emitted.getD k 0 ≤ 100) ∧
    (∀ k l, k ≤ l → l < emitted.length → emitted.getD k 0 ≤ emitted.getD l 0) ∧
    (emitted ≠ [] → emitted.getD (emitted.length - 1) 0 = 100) := by
  obtain ⟨_, _, _, _, _, _, he⟩ := calculate_spec M fuel w w1 emitted h
  have hlen : emitted.length = w.data.length := by rw [he]; simp
  have hval : ∀ k, k < emitted.length → emitted.getD k 0 = 100 * k / (w.data.length - 1) := by
    intro k hk
    rw [List.getD_eq_getElem _ _ hk]
    simp only [he, List.getElem_map, List.getElem_range]
  have hW : 2 ≤ w.data.length ∨ w.data.length = 0 := by omega
  refine ⟨hlen, fun k hk => ⟨hval k hk, ?_⟩, ?_, ?_⟩
  · rw [hval k hk]
    rcases hW with hW | hW
    · apply Nat.div_le_of_le_mul
      have : k ≤ w.data.length - 1 := by omega
      nlinarith
    · omega
  · intro k l hkl hl
    rw [hval k (by omega), hval l hl]
    exact Nat.div_le_div_right (by omega)
  · intro hne
    have hpos : 0 < emitted.length := List.length_pos.mpr hne
    rw [hval _ (by omega), hlen]
    rcases hW with hW | hW
    · exact Nat.mul_div_cancel _ (by omega)
    · omega

end Worker
namespace Worker

theorem gridLoop_cons_zero_divisor (M : Libm K) (fuel : ℕ) (startX startY dX dY : K) (i : ℕ)
    (is : List ℕ) (coeffs coeffs2 : Coefficients K) (data data2 : List (List (DiagramPoint K)))
    (emitted : List ℕ)
    (h : columnLoop M fuel startY dY i (List.range' 0 (data.getD i []).length)
      { coeffs with b0 := startX + (i : K) * dX } data = some (coeffs2, data2))
    (hlen : data2.length - 1 = 0) :
    gridLoop M fuel startX startY dX dY (i :: is) coeffs data emitted = Run.divisionByZero := by
  rw [gridLoop]
  simp only [List.range_eq_range', h, if_pos hlen]

/-- C22, failing input: a grid of width 1 (any height). After column 0 has been
computed, `100 * i / (data.size() - 1)` divides by zero: no progress value is
emitted and `calculate()` never reaches its completion signal. -/
theorem calculate_divides_by_zero_on_width_one [Archimedean K] (M : Libm K) (w : Worker K)
    (hw : w.data.length = 1) :
    (∀ fuel res, calculate M fuel w ≠ Run.done res) ∧
    ∃ N, ∀ fuel, N ≤ fuel → calculate M fuel w = Run.divisionByZero := by
  have hrange : List.range' 0 w.data.length = [0] := by rw [hw]; rfl
  have hcol := fun fuel => columnLoop_spec M fuel w 0 (by omega) (w.data.getD 0 []).length 0
    w.coeffs.a0 w.data (Nat.zero_add _) (loopInv_init M fuel w)
  have hcoef : ∀ a : K, ({ w.coeffs with b0 := w.coeffs.b0 + ((0 : ℕ) : K) * w.dX, a0 := a } :
      Coefficients K) = { ({ w.coeffs with a0 := a } : Coefficients K) with
        b0 := w.coeffs.b0 + ((0 : ℕ) : K) * w.dX } := fun _ => rfl
  constructor
  · intro fuel res h
    unfold calculate at h
    simp only [List.range_eq_range', hrange] at h
    rcases hg : gridLoop M fuel w.coeffs.b0 w.coeffs.a0 w.dX w.dY [0] w.coeffs w.data []
      with r | _ | _
    · obtain ⟨coeffs2, data2, hc, hlen⟩ := gridLoop_cons_done _ _ _ _ _ _ _ _ _ _ _ _ hg
      have := ((hcol fuel).1 (coeffs2, data2) hc).1.1
      simp only at this
      omega
    · rw [hg] at h
      simp at h
    · rw [hg] at h
      simp at h
  · obtain ⟨N, hN⟩ := uniform_bound
      (fun j fuel => ∃ ph, getPhases M fuel (cellCoeffs w 0 j) = some ph)
      (w.data.getD 0 []).length (fun j _ => getPhases_terminates M (cellCoeffs w 0 j))
    refine ⟨N, fun fuel hfuel => ?_⟩
    obtain ⟨⟨coeffs2, data2⟩, hc⟩ := (hcol fuel).2 (fun b _ hb => hN b (by omega) fuel hfuel)
    have hlen := ((hcol fuel).1 (coeffs2, data2) hc).1.1
    simp only at hlen
    unfold calculate
    simp only [List.range_eq_range', hrange]
    rw [gridLoop_cons_zero_divisor M fuel _ _ _ _ 0 [] w.coeffs coeffs2 w.data data2 [] hc
      (by omega)]

theorem calculate_divides_by_zero_on_width_one_witness :
    (ofSize 1 1 (⟨1, 0, 0, 0, 2, 0, 0, 0, 0⟩ : Coefficients ℚ) 1 1).data.length = 1 ∧
    calculate ratLibm 5 (ofSize 1 1 (⟨1, 0, 0, 0, 2, 0, 0, 0, 0⟩ : Coefficients ℚ) 1 1)
      = Run.divisionByZero ∧
    ∀ fuel res,
      calculate ratLibm fuel (ofSize 1 1 (⟨1, 0, 0, 0, 2, 0, 0, 0, 0⟩ : Coefficients ℚ) 1 1)
        ≠ Run.done res :=
  ⟨by decide, by decide!,
    (calculate_divides_by_zero_on_width_one ratLibm
      (ofSize 1 1 (⟨1, 0, 0, 0, 2, 0, 0, 0, 0⟩ : Coefficients ℚ) 1 1) (by decide)).1⟩

end Worker
namespace Polynomial

/-! ## Results do not depend on the fuel -/

theorem bisectLoop_mono (p : Polynomial K) (fuel : ℕ) :
    ∀ (lX lY rX rY x : K), bisectLoop p fuel lX lY rX rY = some x →
      bisectLoop p (fuel + 1) lX lY rX rY = some x := by
  induction fuel with
  | zero =>
    intro lX lY rX rY x h
    rw [bisectLoop.eq_def] at h ⊢
    simp only at h ⊢
    by_cases h1 : rootEps < |rX - lX|
    · rw [if_pos h1] at h ⊢
      by_cases h2 : |lY| < zeroEps
      · rw [if_pos h2] at h ⊢
        exact h
      · rw [if_neg h2] at h ⊢
        by_cases h3 : |rY| < zeroEps
        · rw [if_pos h3] at h ⊢
          exact h
        · rw [if_neg h3] at h
          simp at h
    · rw [if_neg h1] at h ⊢
      exact h
  | succ fuel ih =>
    intro lX lY rX rY x h
    rw [bisectLoop.eq_def] at h ⊢
    simp only at h ⊢
    by_cases h1 : rootEps < |rX - lX|
    · rw [if_pos h1] at h ⊢
      by_cases h2 : |lY| < zeroEps
      · rw [if_pos h2] at h ⊢
        exact h
      · rw [if_neg h2] at h ⊢
        by_cases h3 : |rY| < zeroEps
        · rw [if_pos h3] at h ⊢
          exact h
        · rw [if_neg h3] at h ⊢
          by_cases h4 : lY * p.eval ((lX + rX) / 2) ≤ 0
          · rw [if_pos h4] at h ⊢
            exact ih _ _ _ _ _ h
          · rw [if_neg h4] at h ⊢
            exact ih _ _ _ _ _ h
    · rw [if_neg h1] at h ⊢
      exact h

theorem searchRoots_single (p : Polynomial K) (s : List (Polynomial K)) (fuel : ℕ) (l r : K)
    (h1 : ¬ r - l < rootEps)
    (h2 : ¬ (1 : ℤ) < (signChanges (s.map fun q => q.eval l) : ℤ)
        - (signChanges (s.map fun q => q.eval r) : ℤ))
    (h3 : (signChanges (s.map fun q => q.eval l) : ℤ)
        - (signChanges (s.map fun q => q.eval r) : ℤ) = 1) :
    searchRoots p s fuel l r =
      match findRootNewton p l r (s.getD 1 empty) 20
        (if 0 < (differentiate (differentiate p)).eval ((l + r) / 2) then
          (if 0 < p.eval l then l else r) else (if p.eval l < 0 then l else r)) with
      | some x1 => some [x1]
      | none => (findRootBisection p fuel l r).map fun x2 => [x2] := by
  rw [searchRoots.eq_def]
  simp only
  rw [if_neg h1, if_neg h2, if_pos h3]

theorem searchRoots_mono (p : Polynomial K) (s : List (Polynomial K)) (fuel : ℕ) :
    ∀ (l r : K) (out : List K), searchRoots p s fuel l r = some out →
      searchRoots p s (fuel + 1) l r = some out := by
  have hsingle : ∀ (f : ℕ) (l r : K) (out : List K), ¬ r - l < rootEps →
      ¬ (1 : ℤ) < (signChanges (s.map fun q => q.eval l) : ℤ)
        - (signChanges (s.map fun q => q.eval r) : ℤ) →
      (signChanges (s.map fun q => q.eval l) : ℤ)
        - (signChanges (s.map fun q => q.eval r) : ℤ) = 1 →
      searchRoots p s f l r = some out → searchRoots p s (f + 1) l r = some out := by
    intro f l r out h1 h2 h3 h
    rw [searchRoots_single p s _ l r h1 h2 h3] at h ⊢
    generalize (if 0 < (differentiate (differentiate p)).eval ((l + r) / 2) then
        (if 0 < p.eval l then l else r) else (if p.eval l < 0 then l else r)) = x0 at h ⊢
    rcases hn : findRootNewton p l r (s.getD 1 empty) 20 x0 with _ | x1
    · rw [hn] at h
      simp only [Option.map_eq_some'] at h ⊢
      obtain ⟨x2, hx2, rfl⟩ := h
      exact ⟨x2, bisectLoop_mono p _ _ _ _ _ _ hx2, rfl⟩
    · rw [hn] at h
      exact h
  have hother : ∀ (f : ℕ) (l r : K) (out : List K),
      (r - l < rootEps ∨
        (¬ (1 : ℤ) < (signChanges (s.map fun q => q.eval l) : ℤ)
          - (signChanges (s.map fun q => q.eval r) : ℤ) ∧
        ¬ (signChanges (s.map fun q => q.eval l) : ℤ)
          - (signChanges (s.map fun q => q.eval r) : ℤ) = 1)) →
      searchRoots p s f l r = some out → searchRoots p s (f + 1) l r = some out := by
    intro f l r out hc h
    rw [searchRoots.eq_def] at h ⊢
    simp only at h ⊢
    rcases hc with h1 | ⟨h2, h3⟩
    · rw [if_pos h1] at h ⊢
      exact h
    · by_cases h1 : r - l < rootEps
      · rw [if_pos h1] at h ⊢
        exact h
      · rw [if_neg h1, if_neg h2, if_neg h3] at h ⊢
        exact h
  induction fuel with
  | zero =>
    intro l r out h
    by_cases h1 : r - l < rootEps
    · exact hother 0 l r out (Or.inl h1) h
    by_cases h2 : (1 : ℤ) < (signChanges (s.map fun q => q.eval l) : ℤ)
        - (signChanges (s.map fun q => q.eval r) : ℤ)
    · rw [searchRoots.eq_def] at h
      simp only at h
      rw [if_neg h1, if_pos h2] at h
      simp at h
    by_cases h3 : (signChanges (s.map fun q => q.eval l) : ℤ)
        - (signChanges (s.map fun q => q.eval r) : ℤ) = 1
    · exact hsingle 0 l r out h1 h2 h3 h
    · exact hother 0 l r out (Or.inr ⟨h2, h3⟩) h
  | succ fuel ih =>
    intro l r out h
    by_cases h1 : r - l < rootEps
    · exact hother _ l r out (Or.inl h1) h
    by_cases h2 : (1 : ℤ) < (signChanges (s.map fun q => q.eval l) : ℤ)
        - (signChanges (s.map fun q => q.eval r) : ℤ)
    · rw [searchRoots.eq_def] at h ⊢
      simp only at h ⊢
      rw [if_neg h1, if_pos h2] at h ⊢
      rcases ha : searchRoots p s fuel l ((l + r) / 2) with _ | a
      · rw [ha] at h
        simp at h
      · rcases hb : searchRoots p s fuel ((l + r) / 2) r with _ | b
        · rw [ha, hb] at h
          simp at h
        · rw [ha, hb] at h
          rw [ih _ _ _ ha, ih _ _ _ hb]
          exact h
    by_cases h3 : (signChanges (s.map fun q => q.eval l) : ℤ)
        - (signChanges (s.map fun q => q.eval r) : ℤ) = 1
    · exact hsingle _ l r out h1 h2 h3 h
    · exact hother _ l r out (Or.inr ⟨h2, h3⟩) h

theorem roots_mono (M : Libm K) (fuel : ℕ) (p0 : Polynomial K) (out : List K)
    (h : roots M fuel p0 = some out) : roots M (fuel + 1) p0 = some out := by
  unfold roots at h ⊢
  simp only at h ⊢
  generalize correctDegree p0 = p at h ⊢
  rcases p with ⟨c, d⟩
  rcases d with _ | _ | _ | _ | _ | d
  · exact h
  · exact h
  · exact h
  · exact h
  · exact h
  · simp only at h ⊢
    rcases hs : createSturmSystem fuel (⟨c, d + 5⟩ : Polynomial K) with _ | s
    · rw [hs] at h
      simp at h
    · rw [hs] at h
      rw [createSturmSystem_mono _ s fuel (fuel + 1) (by omega) hs]
      exact searchRoots_mono _ _ _ _ _ _ h

theorem roots_mono_le (M : Libm K) (p0 : Polynomial K) (out : List K) (n fuel : ℕ)
    (hn : n ≤ fuel) (h : roots M n p0 = some out) : roots M fuel p0 = some out := by
  induction fuel, hn using Nat.le_induction with
  | base => exact h
  | succ m _ ih => exact roots_mono M m p0 out ih

end Polynomial
namespace Worker

theorem phase4Invariants_mono (M : Libm K) (c : Coefficients K) (n fuel : ℕ) (hn : n ≤ fuel)
    (inv : List (K × K)) (h : phase4Invariants M n c = some inv) :
    phase4Invariants M fuel c = some inv := by
  unfold phase4Invariants at h ⊢
  simp only at h ⊢
  split_ifs at h ⊢ with h1 h2
  all_goals
    simp only [Option.map_eq_some'] at h ⊢
    obtain ⟨sol, hsol, rfl⟩ := h
    exact ⟨sol, Polynomial.roots_mono_le M _ sol n fuel hn hsol, rfl⟩

theorem phases4_mono (M : Libm K) (c : Coefficients K) (n fuel : ℕ) (hn : n ≤ fuel) :
    ∀ (inv : List (K × K)) (out : List (PhaseInfo K)), phases4 M n c inv = some out →
      phases4 M fuel c inv = some out := by
  intro inv
  induction inv with
  | nil =>
    intro out h
    simpa [phases4] using h
  | cons item rest ih =>
    intro out h
    rw [phases4] at h ⊢
    rcases hrest : phases4 M n c rest with _ | tl
    · rw [hrest] at h
      simp at h
    · rw [hrest] at h
      rw [ih tl hrest]
      simp only at h ⊢
      by_cases h1 : 0 < item.1
      · rw [if_pos h1] at h ⊢
        rcases hs : isPhaseStableI c item.1 item.2 with _ | f
        · rw [hs] at h
          exact h
        · rw [hs] at h
          simp only at h ⊢
          rcases hr : (Polynomial.ofList [-1 * item.2, -3 * item.1, 0, 4]).roots M n with _ | r
          · rw [hr] at h
            simp at h
          · rw [hr] at h
            rw [Polynomial.roots_mono_le M _ r n fuel hn hr]
            exact h
      · rw [if_neg h1] at h ⊢
        exact h

/-- More fuel does not change a result of `getPhases`. -/
theorem getPhases_mono (M : Libm K) (c : Coefficients K) (n fuel : ℕ) (hn : n ≤ fuel)
    (out : List (PhaseInfo K)) (h : getPhases M n c = some out) :
    getPhases M fuel c = some out := by
  unfold getPhases at h ⊢
  simp only at h ⊢
  rcases hsol : (Polynomial.ofList [2 * c.a0, 3 * c.b0, 4 * c.a1, 5 * c.d0,
    6 * (c.a2 + c.b1), 7 * c.d1, 8 * (c.a3 + c.d2)]).roots M n with _ | solution
  · rw [hsol] at h
    simp at h
  · rw [hsol] at h
    rw [Polynomial.roots_mono_le M _ solution n fuel hn hsol]
    simp only at h ⊢
    rcases hinv : phase4Invariants M n c with _ | inv
    · rw [hinv] at h
      simp at h
    · rw [hinv] at h
      rw [phase4Invariants_mono M c n fuel hn inv hinv]
      simp only at h ⊢
      rcases h4 : phases4 M n c inv with _ | info4
      · rw [h4] at h
        simp at h
      · rw [h4] at h
        rw [phases4_mono M c n fuel hn inv info4 h4]
        exact h

theorem cellStep_mono (M : Libm K) (n fuel : ℕ) (hn : n ≤ fuel) (startY dY : K) (i j : ℕ)
    (coeffs : Coefficients K) (data : List (List (DiagramPoint K)))
    (res : Coefficients K × List (List (DiagramPoint K)))
    (h : cellStep M n startY dY i j coeffs data = some res) :
    cellStep M fuel startY dY i j coeffs data = some res := by
  obtain ⟨phases, hph⟩ := cellStep_some M n startY dY i j coeffs data res h
  unfold cellStep at h ⊢
  simp only [hph, getPhases_mono M _ n fuel hn phases hph] at h ⊢
  exact h

theorem columnLoop_mono (M : Libm K) (n fuel : ℕ) (hn : n ≤ fuel) (startY dY : K) (i : ℕ)
    (js : List ℕ) :
    ∀ (coeffs : Coefficients K) (data : List (List (DiagramPoint K)))
      (res : Coefficients K × List (List (DiagramPoint K))),
      columnLoop M n startY dY i js coeffs data = some res →
      columnLoop M fuel startY dY i js coeffs data = some res := by
  induction js with
  | nil =>
    intro coeffs data res h
    simpa [columnLoop] using h
  | cons j js ih =>
    intro coeffs data res h
    rcases hc : cellStep M n startY dY i j coeffs data with _ | ⟨c1, d1⟩
    · rw [columnLoop_cons_none _ _ _ _ _ _ _ _ _ hc] at h
      simp at h
    · rw [columnLoop_cons _ _ _ _ _ _ _ _ _ _ _ hc] at h
      rw [columnLoop_cons _ _ _ _ _ _ _ _ _ _ _
        (cellStep_mono M n fuel hn _ _ _ _ _ _ _ hc)]
      exact ih _ _ _ h

theorem gridLoop_mono (M : Libm K) (n fuel : ℕ) (hn : n ≤ fuel) (startX startY dX dY : K)
    (is : List ℕ) :
    ∀ (coeffs : Coefficients K) (data : List (List (DiagramPoint K))) (emitted : List ℕ)
      (res : Coefficients K × List (List (DiagramPoint K)) × List ℕ),
      gridLoop M n startX startY dX dY is coeffs data emitted = Run.done res →
      gridLoop M fuel startX startY dX dY is coeffs data emitted = Run.done res := by
  induction is with
  | nil =>
    intro coeffs data emitted res h
    simpa [gridLoop] using h
  | cons i is ih =>
    intro coeffs data emitted res h
    obtain ⟨coeffs2, data2, hcol, hlen⟩ := gridLoop_cons_done _ _ _ _ _ _ _ _ _ _ _ _ h
    rw [gridLoop_cons _ _ _ _ _ _ _ _ _ _ _ _ _ hcol hlen] at h
    rw [gridLoop_cons _ _ _ _ _ _ _ _ _ _ _ _ _
      (columnLoop_mono M n fuel hn _ _ _ _ _ _ _ hcol) hlen]
    exact ih _ _ _ _ h

/-- More fuel does not change the result of a completed run of `calculate()`. -/
theorem calculate_mono (M : Libm K) (n fuel : ℕ) (hn : n ≤ fuel) (w : Worker K)
    (res : Worker K × List ℕ) (h : calculate M n w = Run.done res) :
    calculate M fuel w = Run.done res := by
  unfold calculate at h ⊢
  simp only at h ⊢
  rcases hg : gridLoop M n w.coeffs.b0 w.coeffs.a0 w.dX w.dY (List.range w.data.length)
      w.coeffs w.data [] with ⟨c1, d1, e1⟩ | _ | _
  · rw [hg] at h
    rw [gridLoop_mono M n fuel hn _ _ _ _ _ _ _ _ _ hg]
    exact h
  · rw [hg] at h
    simp at h
  · rw [hg] at h
    simp at h

end Worker
namespace Worker

/-! ## Repeated runs -/

theorem grid_ext (d1 d2 : List (List (DiagramPoint K))) (hlen : d2.length = d1.length)
    (hcol : ∀ k, (d2.getD k []).length = (d1.getD k []).length)
    (hcell : ∀ i j, i < d1.length → j < (d1.getD i []).length → cell d2 i j = cell d1 i j) :
    d2 = d1 := by
  apply List.ext_getElem hlen
  intro i h2 h1
  have hc := hcol i
  rw [List.getD_eq_getElem _ _ h2, List.getD_eq_getElem _ _ h1] at hc
  apply List.ext_getElem hc
  intro j hj2 hj1
  have := hcell i j h1 (by rw [List.getD_eq_getElem _ _ h1]; exact hj1)
  unfold cell at this
  rw [List.getD_eq_getElem _ _ h2, List.getD_eq_getElem _ _ h1, List.getD_eq_getElem _ _ hj2,
    List.getD_eq_getElem _ _ hj1] at this
  exact this

theorem transitionOf_congr_fields (d1 d2 : List (List (DiagramPoint K))) (i j : ℕ)
    (h : ∀ a b, (cell d1 a b).phases = (cell d2 a b).phases ∧
      (cell d1 a b).stablest = (cell d2 a b).stablest) :
    transitionOf d1 i j = transitionOf d2 i j := by
  unfold transitionOf
  simp only [(h i j).1, (h i j).2, (h (i - 1) j).1, (h (i - 1) j).2, (h i (j - 1)).1,
    (h i (j - 1)).2]

/-- A second run with the same fuel leaves the worker as the first run left it. -/
theorem calculate_twice_same_fuel (M : Libm K) (fuel : ℕ) (w w1 w2 : Worker K)
    (e1 e2 : List ℕ) (h1 : calculate M fuel w = Run.done (w1, e1))
    (h2 : calculate M fuel w1 = Run.done (w2, e2)) : w2 = w1 ∧ e2 = e1 := by
  obtain ⟨hx1, hy1, hc1, hl1, hk1, hcell1, he1⟩ := calculate_spec M fuel w w1 e1 h1
  obtain ⟨hx2, hy2, hc2, hl2, hk2, hcell2, he2⟩ := calculate_spec M fuel w1 w2 e2 h2
  have hcc : ∀ i j, cellCoeffs w1 i j = cellCoeffs w i j := by
    intro i j
    unfold cellCoeffs
    rw [hc1, hx1, hy1, hk1]
  have hfields : ∀ a b, (cell w2.data a b).phases = (cell w1.data a b).phases ∧
      (cell w2.data a b).stablest = (cell w1.data a b).stablest := by
    intro a b
    by_cases hin : a < w.data.length ∧ b < (w.data.getD a []).length
    · have f1 := hcell1 a b hin.1 hin.2
      have f2 := hcell2 a b (by rw [hl1]; exact hin.1) (by rw [hk1]; exact hin.2)
      have hp : (cell w2.data a b).phases = (cell w1.data a b).phases := by
        have e1 := f1.2.2.1
        have e2 := f2.2.2.1
        rw [hcc, e1] at e2
        exact (Option.some.inj e2).symm
      exact ⟨hp, by rw [f2.2.2.2.1, f1.2.2.2.1, hp]⟩
    · have hout1 : w1.data.length ≤ a ∨ (w1.data.getD a []).length ≤ b := by
        rw [hl1, hk1]
        by_cases ha : a < w.data.length
        · right
          by_contra hb
          exact hin ⟨ha, by omega⟩
        · left
          omega
      have hout2 : w2.data.length ≤ a ∨ (w2.data.getD a []).length ≤ b := by
        rw [hl2, hk2]
        exact hout1
      rw [cell_out_of_bounds _ _ _ hout1, cell_out_of_bounds _ _ _ hout2]
      exact ⟨rfl, rfl⟩
  have hdata : w2.data = w1.data := by
    apply grid_ext w1.data w2.data hl2 hk2
    intro i j hi hj
    have f1 := hcell1 i j (by rw [← hl1]; exact hi) (by rw [← hk1]; exact hj)
    have f2 := hcell2 i j hi hj
    have hx : (cell w2.data i j).x = (cell w1.data i j).x := by rw [f2.1, f1.1, hcc]
    have hy : (cell w2.data i j).y = (cell w1.data i j).y := by rw [f2.2.1, f1.2.1, hcc]
    have ht : (cell w2.data i j).transition = (cell w1.data i j).transition := by
      rw [f2.2.2.2.2]
      by_cases hg : i ≠ 0 ∧ j ≠ 0
      · rw [if_pos hg, f1.2.2.2.2, if_pos hg]
        exact transitionOf_congr_fields _ _ i j hfields
      · rw [if_neg hg]
    have hp := (hfields i j).1
    have hs := (hfields i j).2
    generalize cell w2.data i j = p2 at hx hy ht hp hs ⊢
    generalize cell w1.data i j = p1 at hx hy ht hp hs ⊢
    rcases p1 with ⟨x1, y1, t1, s1, ph1⟩
    rcases p2 with ⟨x2, y2, t2, s2, ph2⟩
    simp only at hx hy ht hp hs
    rw [hx, hy, ht, hp, hs]
  constructor
  · rcases w1 with ⟨a1, b1, c1, d1⟩
    rcases w2 with ⟨a2, b2, c2, d2⟩
    simp only at hx2 hy2 hc2 hdata
    rw [hx2, hy2, hc2, hdata]
  · rw [he2, he1, hl1]

/-- C23: `calculate()` completes on every grid whose width is not 1 (with enough
fuel for the root searches), and a second run after it leaves the worker exactly as
the first run left it: every cell has the same coordinates, the same phase list,
the same stablest index and the same transition flag, and the same progress values
are emitted. -/
theorem calculate_twice [Archimedean K] (M : Libm K) (w : Worker K)
    (hw : w.data.length ≠ 1) :
    (∃ N, ∀ fuel, N ≤ fuel → ∃ w1 emitted, calculate M fuel w = Run.done (w1, emitted) ∧
      calculate M fuel w1 = Run.done (w1, emitted)) ∧
    ∀ fuel1 fuel2 w1 e1 w2 e2, calculate M fuel1 w = Run.done (w1, e1) →
      calculate M fuel2 w1 = Run.done (w2, e2) →
      w2 = w1 ∧ e2 = e1 ∧
      ∀ i j, (cell w2.data i j).x = (cell w1.data i j).x ∧
        (cell w2.data i j).y = (cell w1.data i j).y ∧
        (cell w2.data i j).phases = (cell w1.data i j).phases ∧
        (cell w2.data i j).stablest = (cell w1.data i j).stablest ∧
        (cell w2.data i j).transition = (cell w1.data i j).transition := by
  have hpart : ∀ fuel1 fuel2 w1 e1 w2 e2, calculate M fuel1 w = Run.done (w1, e1) →
      calculate M fuel2 w1 = Run.done (w2, e2) → w2 = w1 ∧ e2 = e1 := by
    intro fuel1 fuel2 w1 e1 w2 e2 h1 h2
    exact calculate_twice_same_fuel M (max fuel1 fuel2) w w1 w2 e1 e2
      (calculate_mono M fuel1 _ (le_max_left _ _) w _ h1)
      (calculate_mono M fuel2 _ (le_max_right _ _) w1 _ h2)
  constructor
  · obtain ⟨N, hN⟩ := calculate_terminates M w hw
    obtain ⟨⟨w1, e1⟩, h1⟩ := hN N (le_refl _)
    have hlen1 : w1.data.length ≠ 1 := by
      rw [(calculate_spec M N w w1 e1 h1).2.2.2.1]
      exact hw
    obtain ⟨N2, hN2⟩ := calculate_terminates M w1 hlen1
    obtain ⟨⟨w2, e2⟩, h2⟩ := hN2 N2 (le_refl _)
    obtain ⟨hw2, he2⟩ := hpart N N2 w1 e1 w2 e2 h1 h2
    subst hw2 he2
    refine ⟨max N N2, fun fuel hfuel => ⟨w2, e2, ?_, ?_⟩⟩
    · exact calculate_mono M N fuel (by omega) w _ h1
    · exact calculate_mono M N2 fuel (by omega) w2 _ h2
  · intro fuel1 fuel2 w1 e1 w2 e2 h1 h2
    obtain ⟨hw2, he2⟩ := hpart fuel1 fuel2 w1 e1 w2 e2 h1 h2
    subst hw2
    exact ⟨rfl, he2, fun i j => ⟨rfl, rfl, rfl, rfl, rfl⟩⟩

theorem calculate_twice_witness :
    (ofSize 1 0 (⟨1, 1, 0, 0, 2, 0, 0, 0, 0⟩ : Coefficients ℚ) 2 2).data.length ≠ 1 ∧
    ∃ w1 emitted,
      calculate ratLibm 5 (ofSize 1 0 (⟨1, 1, 0, 0, 2, 0, 0, 0, 0⟩ : Coefficients ℚ) 2 2)
        = Run.done (w1, emitted) ∧
      ∃ w2 e2, calculate ratLibm 5 w1 = Run.done (w2, e2) ∧ w2 = w1 ∧ e2 = emitted := by
  have hrun : calculate ratLibm 5
      (ofSize 1 0 (⟨1, 1, 0, 0, 2, 0, 0, 0, 0⟩ : Coefficients ℚ) 2 2)
      = Run.done ((⟨1, 0, ⟨1, 1, 0, 0, 2, 0, 0, 0, 0⟩,
          [[⟨2, 1, false, 0, [⟨1, 0, 0, 0⟩, ⟨2, 0, -1, 0⟩]⟩,
            ⟨2, 1, false, 0, [⟨1, 0, 0, 0⟩, ⟨2, 0, -1, 0⟩]⟩],
           [⟨3, 1, false, 1, [⟨1, 0, 0, 0⟩, ⟨2, -4, -2, 0⟩]⟩,
            ⟨3, 1, true, 1, [⟨1, 0, 0, 0⟩, ⟨2, -4, -2, 0⟩]⟩]]⟩ : Worker ℚ), [0, 100]) := by
    decide!
  have hrun2 : calculate ratLibm 5 (⟨1, 0, ⟨1, 1, 0, 0, 2, 0, 0, 0, 0⟩,
          [[⟨2, 1, false, 0, [⟨1, 0, 0, 0⟩, ⟨2, 0, -1, 0⟩]⟩,
            ⟨2, 1, false, 0, [⟨1, 0, 0, 0⟩, ⟨2, 0, -1, 0⟩]⟩],
           [⟨3, 1, false, 1, [⟨1, 0, 0, 0⟩, ⟨2, -4, -2, 0⟩]⟩,
            ⟨3, 1, true, 1, [⟨1, 0, 0, 0⟩, ⟨2, -4, -2, 0⟩]⟩]]⟩ : Worker ℚ)
      = Run.done ((⟨1, 0, ⟨1, 1, 0, 0, 2, 0, 0, 0, 0⟩,
          [[⟨2, 1, false, 0, [⟨1, 0, 0, 0⟩, ⟨2, 0, -1, 0⟩]⟩,
            ⟨2, 1, false, 0, [⟨1, 0, 0, 0⟩, ⟨2, 0, -1, 0⟩]⟩],
           [⟨3, 1, false, 1, [⟨1, 0, 0, 0⟩, ⟨2, -4, -2, 0⟩]⟩,
            ⟨3, 1, true, 1, [⟨1, 0, 0, 0⟩, ⟨2, -4, -2, 0⟩]⟩]]⟩ : Worker ℚ), [0, 100]) := by
    decide!
  have h := (calculate_twice ratLibm
    (ofSize 1 0 (⟨1, 1, 0, 0, 2, 0, 0, 0, 0⟩ : Coefficients ℚ) 2 2) (by decide)).2
    5 5 _ _ _ _ hrun hrun2
  exact ⟨by decide, _, _, hrun, _, _, hrun2, h.1, h.2.1⟩

end Worker
namespace Worker

/-! ## The cell of the coordinate axes -/

theorem truncZ_abs_sub_lt [FloorRing K] (x : K) : |x - (truncZ x : K)| < 1 := by
  unfold truncZ
  split_ifs with h
  · rw [abs_of_nonneg (sub_nonneg.mpr (Int.floor_le x))]
    linarith [Int.lt_floor_add_one x]
  · rw [abs_of_nonpos (sub_nonpos.mpr (Int.le_ceil x))]
    linarith [Int.ceil_lt_add_one x]

theorem castInt_of_range [FloorRing K] (x : K) (h : -(2 : ℤ) ^ 31 ≤ truncZ x ∧ truncZ x < 2 ^ 31) :
    castInt x = some (truncZ x) := by
  unfold castInt
  rw [if_pos h]

theorem getZeroIndexes_of_range [FloorRing K] (fl : K → K) (w : Worker K) (H : ℕ)
    (hx : w.dX ≠ 0) (hy : w.dY ≠ 0) (hne : w.data ≠ []) (hH : (w.data.getD 0 []).length = H)
    (hH2 : H < 2 ^ 31)
    (hcol : -(2 : ℤ) ^ 31 ≤ truncZ (fl (-w.coeffs.b0 / w.dX)) ∧
      truncZ (fl (-w.coeffs.b0 / w.dX)) < 2 ^ 31)
    (ht : -(2 : ℤ) ^ 31 ≤ truncZ (fl (w.coeffs.a0 / w.dY)) ∧
      truncZ (fl (w.coeffs.a0 / w.dY)) < 2 ^ 31)
    (hrow : -(2 : ℤ) ^ 31 ≤ (H : ℤ) - 1 + truncZ (fl (w.coeffs.a0 / w.dY)) ∧
      (H : ℤ) - 1 + truncZ (fl (w.coeffs.a0 / w.dY)) < 2 ^ 31) :
    getZeroIndexes fl w = some (truncZ (fl (-w.coeffs.b0 / w.dX)),
      (H : ℤ) - 1 + truncZ (fl (w.coeffs.a0 / w.dY))) := by
  unfold getZeroIndexes
  rw [if_neg (by simp [hx, hy, hne]), castInt_of_range _ hcol, castInt_of_range _ ht]
  simp only
  have hmod : (((w.data.getD 0 []).length + 2 ^ 31) % 2 ^ 32 : ℕ) = H + 2 ^ 31 := by
    rw [hH]
    exact Nat.mod_eq_of_lt (by omega)
  rw [hmod]
  have hcast : (((H + 2 ^ 31 : ℕ) : ℤ)) - 2 ^ 31 = (H : ℤ) := by
    push_cast
    ring
  rw [hcast, if_pos ⟨by omega, hrow.1, hrow.2⟩]

/-- A quotient that leaves the range of `int`: with `b[0] = -3000000000` and
`stepX = 1` the truncated quotient is `3000000000`, which no 32-bit `int` holds, and
the conversion in `getZeroIndexes` has undefined behaviour. -/
theorem getZeroIndexes_leaves_int_range :
    getZeroIndexes roundDouble (setParameters
      (ofSize 0 0 (⟨0, 0, 0, 0, 0, 0, 0, 0, 0⟩ : Coefficients ℚ) 2 2)
      ⟨0, 0, 0, 0, -3000000000, 0, 0, 0, 0⟩ 1 1) = none ∧
    truncZ (roundDouble (-(-3000000000 : ℚ) / 1)) = 3000000000 ∧
    (2 : ℤ) ^ 31 ≤ 3000000000 := by
  decide!

/-- Without rounding (`fl` the identity, the arithmetic of the model of `calculate()`):
for all starting values and positive steps such that `trunc(-b[0] / stepX)`,
`trunc(a[0] / stepY)` and `H - 1 + trunc(a[0] / stepY)` lie in the range of a 32-bit
`int`, on a grid of `W >= 2` columns and `H < 2^31` rows, `getZeroIndexes()` returns
`col = trunc(-b[0] / stepX)` and `row = H - 1 + trunc(a[0] / stepY)` (truncation toward
zero), before and after `calculate()`; `calculate()` completes (with enough fuel for
the root searches), and whenever `(col, row)` is inside the grid the exact coordinates
of that cell satisfy `|x| < stepX` and `|y| < stepY`. -/
theorem getZeroIndexes_is_axes_cell [FloorRing K] (M : Libm K) (w0 : Worker K)
    (c : Coefficients K) (stepX stepY : K) (W H : ℕ)
    (hW : w0.data.length = W) (hrect : ∀ col ∈ w0.data, col.length = H) (hw : 2 ≤ W)
    (hH : H < 2 ^ 31) (hsx : 0 < stepX) (hsy : 0 < stepY)
    (hcol : -(2 : ℤ) ^ 31 ≤ truncZ (-c.b0 / stepX) ∧ truncZ (-c.b0 / stepX) < 2 ^ 31)
    (ht : -(2 : ℤ) ^ 31 ≤ truncZ (c.a0 / stepY) ∧ truncZ (c.a0 / stepY) < 2 ^ 31)
    (hrow : -(2 : ℤ) ^ 31 ≤ (H : ℤ) - 1 + truncZ (c.a0 / stepY) ∧
      (H : ℤ) - 1 + truncZ (c.a0 / stepY) < 2 ^ 31) :
    getZeroIndexes id (setParameters w0 c stepX stepY)
      = some (truncZ (-c.b0 / stepX), (H : ℤ) - 1 + truncZ (c.a0 / stepY)) ∧
    (∃ N, ∀ fuel, N ≤ fuel →
      ∃ res, calculate M fuel (setParameters w0 c stepX stepY) = Run.done res) ∧
    ∀ fuel w1 emitted,
      calculate M fuel (setParameters w0 c stepX stepY) = Run.done (w1, emitted) →
      getZeroIndexes id w1
        = some (truncZ (-c.b0 / stepX), (H : ℤ) - 1 + truncZ (c.a0 / stepY)) ∧
      ∀ col row : ℕ, (col : ℤ) = truncZ (-c.b0 / stepX) →
        (row : ℤ) = (H : ℤ) - 1 + truncZ (c.a0 / stepY) → col < W → row < H →
        |(cell w1.data col row).x| < stepX ∧ |(cell w1.data col row).y| < stepY := by
  have hcl : ∀ i, i < W → (w0.data.getD i []).length = H :=
    fun i hi => col_length_of_rect w0.data H hrect i (by omega)
  have hne : w0.data ≠ [] := by
    intro h
    rw [h] at hW
    simp at hW
    omega
  have hlen1 : (setParameters w0 c stepX stepY).data.length ≠ 1 := by
    show w0.data.length ≠ 1
    omega
  haveI : Archimedean K := inferInstance
  refine ⟨getZeroIndexes_of_range id (setParameters w0 c stepX stepY) H (ne_of_gt hsx)
    (ne_of_gt hsy) hne (hcl 0 (by omega)) hH hcol ht hrow, calculate_terminates M _ hlen1, ?_⟩
  intro fuel w1 emitted h
  obtain ⟨hdx, hdy, hco, hl, hk, hcells, _⟩ := calculate_spec M fuel _ w1 emitted h
  constructor
  · have hne1 : w1.data ≠ [] := by
      intro h0
      rw [h0] at hl
      exact hne (List.length_eq_zero.mp hl.symm)
    have := getZeroIndexes_of_range id w1 H (by rw [hdx]; exact ne_of_gt hsx)
      (by rw [hdy]; exact ne_of_gt hsy) hne1 (by rw [hk]; exact hcl 0 (by omega)) hH
      (by rw [hco, hdx]; exact hcol) (by rw [hco, hdy]; exact ht)
      (by rw [hco, hdy]; exact hrow)
    rw [hco, hdx, hdy] at this
    exact this
  · intro col row hc hr hcW hrH
    obtain ⟨hx, hy, _⟩ := hcells col row (by show col < w0.data.length; omega)
      (by show row < (w0.data.getD col []).length; rw [hcl col hcW]; exact hrH)
    have hx2 : (cell w1.data col row).x = c.b0 + (col : K) * stepX := hx
    have hy2 : (cell w1.data col row).y = c.a0 + ((H - 1 - row : ℕ) : K) * stepY := by
      rw [hy]
      show c.a0 + (((w0.data.getD col []).length - 1 - row : ℕ) : K) * stepY = _
      rw [hcl col hcW]
    constructor
    · have hq := truncZ_abs_sub_lt (-c.b0 / stepX)
      rw [← hc] at hq
      have hxe : (cell w1.data col row).x = -(stepX * (-c.b0 / stepX - ((col : ℤ) : K))) := by
        rw [hx2]
        field_simp
        ring
      rw [hxe, abs_neg, abs_mul, abs_of_pos hsx]
      calc stepX * |-c.b0 / stepX - ((col : ℤ) : K)| < stepX * 1 :=
            mul_lt_mul_of_pos_left hq hsx
        _ = stepX := mul_one _
    · have hp := truncZ_abs_sub_lt (c.a0 / stepY)
      have htz : (truncZ (c.a0 / stepY) : K) = -(((H - 1 - row : ℕ)) : K) := by
        have hz : truncZ (c.a0 / stepY) = -(((H - 1 - row : ℕ)) : ℤ) := by omega
        rw [hz]
        push_cast
        ring
      rw [htz] at hp
      have hye : (cell w1.data col row).y
          = stepY * (c.a0 / stepY - -(((H - 1 - row : ℕ)) : K)) := by
        rw [hy2]
        field_simp
        ring
      rw [hye, abs_mul, abs_of_pos hsy]
      calc stepY * |c.a0 / stepY - -(((H - 1 - row : ℕ)) : K)| < stepY * 1 :=
            mul_lt_mul_of_pos_left hp hsy
        _ = stepY := mul_one _

theorem getZeroIndexes_is_axes_cell_witness :
    (ofSize 0 0 (⟨0, 0, 0, 0, 0, 0, 0, 0, 0⟩ : Coefficients ℚ) 2 2).data.length = 2 ∧
    (0 : ℚ) < 1 ∧
    getZeroIndexes id (setParameters (ofSize 0 0 (⟨0, 0, 0, 0, 0, 0, 0, 0, 0⟩ : Coefficients ℚ) 2 2)
      (⟨1 / 2, 0, 0, 0, -1 / 2, 0, 0, 0, 0⟩ : Coefficients ℚ) 1 1) = some (0, 1) ∧
    ∃ w1 emitted,
      calculate ratLibm 5 (setParameters (ofSize 0 0 (⟨0, 0, 0, 0, 0, 0, 0, 0, 0⟩ : Coefficients ℚ) 2 2)
        (⟨1 / 2, 0, 0, 0, -1 / 2, 0, 0, 0, 0⟩ : Coefficients ℚ) 1 1) = Run.done (w1, emitted) ∧
      getZeroIndexes id w1 = some (0, 1) ∧
      |(cell w1.data 0 1).x| < 1 ∧ |(cell w1.data 0 1).y| < 1 := by
  have hrun : calculate ratLibm 5 (setParameters (ofSize 0 0 (⟨0, 0, 0, 0, 0, 0, 0, 0, 0⟩ : Coefficients ℚ) 2 2)
      (⟨1 / 2, 0, 0, 0, -1 / 2, 0, 0, 0, 0⟩ : Coefficients ℚ) 1 1)
      = Run.done ((⟨1, 1, ⟨1 / 2, 0, 0, 0, -1 / 2, 0, 0, 0, 0⟩,
        [[⟨-1 / 2, 3 / 2, false, 0, [⟨1, 0, 0, 0⟩]⟩, ⟨-1 / 2, 1 / 2, false, 0, [⟨1, 0, 0, 0⟩]⟩],
         [⟨1 / 2, 3 / 2, false, 0, [⟨1, 0, 0, 0⟩]⟩, ⟨1 / 2, 1 / 2, false, 0, [⟨1, 0, 0, 0⟩]⟩]]⟩ :
        Worker ℚ), [0, 100]) := by
    decide!
  have hq : truncZ (-(⟨1 / 2, 0, 0, 0, -1 / 2, 0, 0, 0, 0⟩ : Coefficients ℚ).b0 / 1) = 0 := by decide!
  have hp : truncZ ((⟨1 / 2, 0, 0, 0, -1 / 2, 0, 0, 0, 0⟩ : Coefficients ℚ).a0 / 1) = 0 := by decide!
  have h := getZeroIndexes_is_axes_cell ratLibm (ofSize 0 0 (⟨0, 0, 0, 0, 0, 0, 0, 0, 0⟩ : Coefficients ℚ) 2 2)
    (⟨1 / 2, 0, 0, 0, -1 / 2, 0, 0, 0, 0⟩ : Coefficients ℚ) 1 1 2 2 (by decide) (by decide) (by decide) (by decide)
    (by norm_num) (by norm_num) (by rw [hq]; decide) (by rw [hp]; decide) (by rw [hp]; decide)
  rw [hq, hp] at h
  have h2 := h.2.2 5 _ _ hrun
  exact ⟨by decide, by norm_num, h.1, _, _, hrun, h2.1, h2.2 0 1 rfl rfl (by decide) (by decide)⟩

/-- C24, failing input: the range `-4.68 .. 15.32` of `b[0]` on the grid of 500 x 500
points, with `a[0] = 0` and `stepY = 1`. As doubles, `b[0] = -658651445502935 / 2^47`
and `stepX = (15.32 - b[0]) / 500 = 5764607523034235 / 2^57` (the double nearest to
`0.04`). The quotient `-b[0] / stepX` is the double next below 117,
`8233143068786687 / 2^46`, and the conversion to `int` truncates it: `getZeroIndexes()`
returns column 116. The points of column 116 store
`x = b[0] + 116 * stepX = -45035996273705 / 2^50`, about `-0.040000000000000036`, with
`|x| > stepX`, while the points of column 117 store `x = 0`: the returned column is the
left neighbour of the column through which the axis passes. -/
theorem getZeroIndexes_misses_axes_column :
    roundDouble (-468 / 100) = -658651445502935 / 2 ^ 47 ∧
    roundDouble (roundDouble (roundDouble (1532 / 100) - -658651445502935 / 2 ^ 47) / 500)
      = 5764607523034235 / 2 ^ 57 ∧
    roundDouble (-(-658651445502935 / 2 ^ 47) / (5764607523034235 / 2 ^ 57))
      = 8233143068786687 / 2 ^ 46 ∧
    getZeroIndexes roundDouble (setParameters
      (ofSize 0 0 (⟨0, 0, 0, 0, 0, 0, 0, 0, 0⟩ : Coefficients ℚ) 500 500)
      ⟨0, 0, 0, 0, -658651445502935 / 2 ^ 47, 0, 0, 0, 0⟩ (5764607523034235 / 2 ^ 57) 1)
      = some (116, 499) ∧
    columnCoordinate roundDouble (-658651445502935 / 2 ^ 47) (5764607523034235 / 2 ^ 57) 116
      = -45035996273705 / 2 ^ 50 ∧
    (5764607523034235 / 2 ^ 57 : ℚ) < |(-45035996273705 / 2 ^ 50 : ℚ)| ∧
    columnCoordinate roundDouble (-658651445502935 / 2 ^ 47) (5764607523034235 / 2 ^ 57) 117
      = 0 := by
  decide!

end Worker
namespace Polynomial

/-! ## The Sturm sequence -/

/-- C30: `roots()` terminates on every polynomial (degree field = coefficient count
minus one) in exact arithmetic over an Archimedean field such as the reals: from
some fuel on it returns, and always the same list. -/
theorem roots_returns [Archimedean K] (M : Libm K) (p0 : Polynomial K) (hwf : WF p0) :
    ∃ N out, ∀ fuel, N ≤ fuel → roots M fuel p0 = some out := by
  obtain ⟨N, hN⟩ := roots_terminates M p0 hwf
  obtain ⟨out, hout⟩ := hN N (le_refl _)
  exact ⟨N, out, fun fuel hfuel => roots_mono_le M p0 out N fuel hfuel hout⟩

theorem roots_returns_witness :
    WF (ofList [1, -5, 0, 0, 0, 1] : Polynomial ℚ) ∧
    ∃ N out, ∀ fuel, N ≤ fuel →
      roots ratLibm fuel (ofList [1, -5, 0, 0, 0, 1] : Polynomial ℚ) = some out :=
  ⟨rfl, roots_returns ratLibm (ofList [1, -5, 0, 0, 0, 1]) rfl⟩

theorem isSturmChain_append (s : List (Polynomial K)) (a b x r : Polynomial K)
    (pre : List (Polynomial K)) (hs : s = pre ++ [a, b]) (hc : IsSturmChain s)
    (hr : ∃ N, ∀ fuel, N ≤ fuel → modLoop fuel a b = some r) (hx : x = neg r)
    (hdeg : x.deg < b.deg) : IsSturmChain (s ++ [x]) := by
  have hlen : s.length = pre.length + 2 := by rw [hs]; simp
  have ha : s.getD (s.length - 2) empty = a := by rw [hs]; exact (getD_append_two pre a b).1
  have hb : s.getD (s.length - 1) empty = b := by
    rw [hs, List.getD_eq_getElem?_getD, List.getElem?_append_right (by simp)]
    simp
  intro k hk2 hk
  rw [List.length_append, List.length_singleton] at hk
  by_cases hlast : k = s.length
  · subst hlast
    refine ⟨r, ?_, ?_, ?_⟩
    · rw [List.getD_append _ _ _ _ (by omega), List.getD_append _ _ _ _ (by omega), ha, hb]
      exact hr
    · rw [List.getD_append_right _ _ _ _ (le_refl _)]
      simpa using hx
    · rw [List.getD_append_right _ _ _ _ (le_refl _), List.getD_append _ _ _ _ (by omega), hb]
      simpa using hdeg
  · have hk' : k < s.length := by omega
    obtain ⟨r0, h1, h2, h3⟩ := hc k hk2 hk'
    refine ⟨r0, ?_, ?_, ?_⟩
    · rw [List.getD_append _ _ _ _ (by omega), List.getD_append _ _ _ _ (by omega)]
      exact h1
    · rw [List.getD_append _ _ _ _ hk']
      exact h2
    · rw [List.getD_append _ _ _ _ hk', List.getD_append _ _ _ _ (by omega)]
      exact h3

theorem sturmLoop_chain (n : ℕ) :
    ∀ (pre : List (Polynomial K)) (a b : Polynomial K), Normalized a → Normalized b →
      1 ≤ b.deg → b.deg ≤ n → IsSturmChain (pre ++ [a, b]) →
      (∀ k, k < (pre ++ [a, b]).length → ((pre ++ [a, b]).getD k empty).deg ≠ 0) →
      ∃ N S, (∀ fuel, N ≤ fuel → sturmLoop fuel (pre ++ [a, b]) = some S) ∧
        (pre ++ [a, b]) <+: S ∧ IsSturmChain S ∧
        ∀ k, k < S.length → ((S.getD k empty).deg = 0 ↔ k = S.length - 1) := by
  induction n with
  | zero => intro pre a b _ _ h1 h2; omega
  | succ n ih =>
    intro pre a b ha hb h1 h2 hchain hnz
    have hblead : zeroEps ≤ |b.coeff b.deg| := by
      rcases hb.2 with h | h
      · omega
      · exact h
    obtain ⟨r, hrwf, hrdeg, hrun⟩ := modLoop_terminates b hb.1 h1 hblead a.deg a ha.1 (le_refl _)
    have hrnorm : Normalized r :=
      modLoop_normalized b hb.1 h1 hblead (a.deg + 1) a r ha (hrun _ (by omega))
    obtain ⟨hg1, hg2⟩ := getD_append_two pre a b
    have hxdeg : (neg r).deg = r.deg := neg_deg_of_normalized r hrnorm
    have hrN : ∃ N, ∀ fuel, N ≤ fuel → modLoop fuel a b = some r :=
      ⟨a.deg + 1, fun fuel hfuel => hrun fuel (by omega)⟩
    have hchain1 : IsSturmChain ((pre ++ [a, b]) ++ [neg r]) :=
      isSturmChain_append _ a b (neg r) r pre rfl hchain hrN rfl (by omega)
    have hlen : (pre ++ [a, b]).length = pre.length + 2 := by simp
    by_cases hr0 : r.deg = 0
    · refine ⟨a.deg + 1, (pre ++ [a, b]) ++ [neg r], fun fuel hfuel => ?_,
        List.prefix_append _ _, hchain1, ?_⟩
      · obtain ⟨f, rfl⟩ : ∃ f, fuel = f + 1 := ⟨fuel - 1, by omega⟩
        rw [sturmLoop_succ f (pre ++ [a, b]) r (by rw [hg1, hg2]; exact hrun _ (by omega)),
          if_neg (by simp [hr0])]
      · intro k hk
        rw [List.length_append, List.length_singleton] at hk
        rw [List.length_append, List.length_singleton, Nat.add_sub_cancel]
        by_cases hlast : k = (pre ++ [a, b]).length
        · rw [hlast, List.getD_append_right _ _ _ _ (le_refl _)]
          simp [hxdeg, hr0]
        · rw [List.getD_append _ _ _ _ (by omega)]
          constructor
          · intro h0
            exact absurd h0 (hnz k (by omega))
          · intro h0
            exact absurd h0 hlast
    · have hsplit : (pre ++ [a, b]) ++ [neg r] = (pre ++ [a]) ++ [b, neg r] := by simp
      obtain ⟨N, S, hN, hpre, hS1, hS2⟩ := ih (pre ++ [a]) b (neg r) hb (neg_normalized r hrwf)
        (by omega) (by omega) (by rw [← hsplit]; exact hchain1)
        (by
          rw [← hsplit]
          intro k hk
          rw [List.length_append, List.length_singleton] at hk
          by_cases hlast : k = (pre ++ [a, b]).length
          · rw [hlast, List.getD_append_right _ _ _ _ (le_refl _)]
            simp [hxdeg, hr0]
          · rw [List.getD_append _ _ _ _ (by omega)]
            exact hnz k (by omega))
      refine ⟨max (a.deg + 1) (N + 1), S, fun fuel hfuel => ?_, ?_, hS1, hS2⟩
      · obtain ⟨f, rfl⟩ : ∃ f, fuel = f + 1 := ⟨fuel - 1, by omega⟩
        rw [sturmLoop_succ f (pre ++ [a, b]) r (by rw [hg1, hg2]; exact hrun _ (by omega)),
          if_pos hr0, hsplit]
        exact hN f (by omega)
      · rw [← hsplit] at hpre
        exact (List.prefix_append _ _).trans hpre

end Polynomial
namespace Polynomial

/-- C27: for every polynomial `P` (degree field = coefficient count minus one) of
degree at least 2 with a leading coefficient of absolute value at least `1e-10`,
`createSturmSystem` terminates (every fuel from some `N` on gives the same sequence
`S`), with `S[0] = P`, `S[1] = P'`, `S[k] = -(S[k-2] % S[k-1])` for every `k >= 2`,
degrees strictly decreasing from `S[1]` onwards, and the last element the only one
of degree 0. -/
theorem createSturmSystem_is_sturm_sequence (p : Polynomial K) (hwf : WF p) (hd : 2 ≤ p.deg)
    (hlead : zeroEps ≤ |p.coeff p.deg|) :
    ∃ N S, (∀ fuel, N ≤ fuel → createSturmSystem fuel p = some S) ∧
      S.getD 0 empty = p ∧ S.getD 1 empty = differentiate p ∧
      (∀ k, 2 ≤ k → k < S.length →
        ∃ r, (∃ N, ∀ fuel, N ≤ fuel →
            modLoop fuel (S.getD (k - 2) empty) (S.getD (k - 1) empty) = some r) ∧
          S.getD k empty = neg r) ∧
      (∀ k, 2 ≤ k → k < S.length → (S.getD k empty).deg < (S.getD (k - 1) empty).deg) ∧
      (∀ k, k < S.length → ((S.getD k empty).deg = 0 ↔ k = S.length - 1)) := by
  have hn : Normalized p := ⟨hwf, Or.inr hlead⟩
  obtain ⟨hdn, hdd⟩ := differentiate_normalized p hn (by omega)
  obtain ⟨N, S, hN, hpre, hchain, hzero⟩ := sturmLoop_chain (differentiate p).deg [] p
    (differentiate p) hn hdn (by omega) (le_refl _)
    (by intro k hk2 hk; simp at hk; omega)
    (by
      intro k hk
      simp only [List.nil_append, List.length_cons, List.length_nil] at hk
      have : k = 0 ∨ k = 1 := by omega
      rcases this with rfl | rfl
      · simp only [List.nil_append, List.getD_cons_zero]
        omega
      · simp only [List.nil_append, List.getD_cons_succ, List.getD_cons_zero]
        omega)
  obtain ⟨t, rfl⟩ := hpre
  refine ⟨N, _, hN, by simp, by simp, ?_, ?_, hzero⟩
  · intro k hk2 hk
    obtain ⟨r, h1, h2, _⟩ := hchain k hk2 hk
    exact ⟨r, h1, h2⟩
  · intro k hk2 hk
    obtain ⟨r, _, _, h3⟩ := hchain k hk2 hk
    exact h3

theorem createSturmSystem_is_sturm_sequence_witness :
    WF (ofList [1, -5, 0, 0, 0, 1] : Polynomial ℚ) ∧
    2 ≤ (ofList [1, -5, 0, 0, 0, 1] : Polynomial ℚ).deg ∧
    ∃ N S, (∀ fuel, N ≤ fuel →
        createSturmSystem fuel (ofList [1, -5, 0, 0, 0, 1] : Polynomial ℚ) = some S) ∧
      S.getD 0 empty = ofList [1, -5, 0, 0, 0, 1] ∧
      S.getD 1 empty = differentiate (ofList [1, -5, 0, 0, 0, 1]) ∧
      (∀ k, 2 ≤ k → k < S.length →
        ∃ r, (∃ N, ∀ fuel, N ≤ fuel →
            modLoop fuel (S.getD (k - 2) empty) (S.getD (k - 1) empty) = some r) ∧
          S.getD k empty = neg r) ∧
      (∀ k, 2 ≤ k → k < S.length → (S.getD k empty).deg < (S.getD (k - 1) empty).deg) ∧
      (∀ k, k < S.length → ((S.getD k empty).deg = 0 ↔ k = S.length - 1)) :=
  ⟨rfl, by decide,
    createSturmSystem_is_sturm_sequence (ofList [1, -5, 0, 0, 0, 1]) rfl (by decide)
      (by decide!)⟩

end Polynomial
namespace Polynomial

/-! ## Bisection -/

theorem eval_continuous (p : Polynomial ℝ) : Continuous fun x => eval p x := by
  have h : (fun x => eval p x) = fun x => sumForm p.coeffs x := by
    funext x
    rcases p with ⟨c, d⟩
    exact eval_eq_sumForm c d x
  rw [h]
  unfold sumForm
  exact continuous_finset_sum _ fun i _ => continuous_const.mul (continuous_pow i)

/-- A sign change of a real polynomial on `[a, b]` encloses a root. -/
theorem exists_root_of_sign_change (p : Polynomial ℝ) (a b : ℝ) (hab : a ≤ b)
    (h : eval p a * eval p b ≤ 0) : ∃ z, a ≤ z ∧ z ≤ b ∧ eval p z = 0 := by
  have hc : ContinuousOn (fun x => eval p x) (Set.Icc a b) := (eval_continuous p).continuousOn
  by_cases ha : eval p a ≤ 0
  · by_cases hb : 0 ≤ eval p b
    · obtain ⟨z, hz, hz0⟩ := intermediate_value_Icc hab hc ⟨ha, hb⟩
      exact ⟨z, hz.1, hz.2, hz0⟩
    · have hb' : eval p b < 0 := not_le.mp hb
      have ha0 : eval p a = 0 := by
        by_contra hne
        have : eval p a < 0 := lt_of_le_of_ne ha hne
        nlinarith
      exact ⟨a, le_refl _, hab, ha0⟩
  · have ha' : 0 < eval p a := not_le.mp ha
    have hb : eval p b ≤ 0 := by
      by_contra hb
      have : 0 < eval p b := not_le.mp hb
      nlinarith
    obtain ⟨z, hz, hz0⟩ := intermediate_value_Icc' hab hc ⟨hb, le_of_lt ha'⟩
    exact ⟨z, hz.1, hz.2, hz0⟩

theorem bisectLoop_spec (p : Polynomial ℝ) (fuel : ℕ) :
    ∀ (lX rX x : ℝ), lX ≤ rX → eval p lX * eval p rX ≤ 0 →
      bisectLoop p fuel lX (eval p lX) rX (eval p rX) = some x →
      lX ≤ x ∧ x ≤ rX ∧
        (|eval p x| < zeroEps ∨ ∃ z, eval p z = 0 ∧ x ≤ z ∧ z ≤ x + rootEps) := by
  have hend : ∀ (lX rX : ℝ), lX ≤ rX → eval p lX * eval p rX ≤ 0 → ¬ rootEps < |rX - lX| →
      lX ≤ lX ∧ lX ≤ rX ∧
        (|eval p lX| < zeroEps ∨ ∃ z, eval p z = 0 ∧ lX ≤ z ∧ z ≤ lX + rootEps) := by
    intro lX rX hle hs h1
    obtain ⟨z, hz1, hz2, hz0⟩ := exists_root_of_sign_change p lX rX hle hs
    refine ⟨le_refl _, hle, Or.inr ⟨z, hz0, hz1, ?_⟩⟩
    have := not_lt.mp h1
    rw [abs_of_nonneg (sub_nonneg.mpr hle)] at this
    linarith
  induction fuel with
  | zero =>
    intro lX rX x hle hs h
    rw [bisectLoop.eq_def] at h
    simp only at h
    by_cases h1 : rootEps < |rX - lX|
    · rw [if_pos h1] at h
      by_cases h2 : |eval p lX| < zeroEps
      · rw [if_pos h2] at h
        cases h
        exact ⟨le_refl _, hle, Or.inl h2⟩
      · rw [if_neg h2] at h
        by_cases h3 : |eval p rX| < zeroEps
        · rw [if_pos h3] at h
          cases h
          exact ⟨hle, le_refl _, Or.inl h3⟩
        · rw [if_neg h3] at h
          simp at h
    · rw [if_neg h1] at h
      cases h
      exact hend lX rX hle hs h1
  | succ fuel ih =>
    intro lX rX x hle hs h
    rw [bisectLoop.eq_def] at h
    simp only at h
    by_cases h1 : rootEps < |rX - lX|
    · rw [if_pos h1] at h
      by_cases h2 : |eval p lX| < zeroEps
      · rw [if_pos h2] at h
        cases h
        exact ⟨le_refl _, hle, Or.inl h2⟩
      · rw [if_neg h2] at h
        by_cases h3 : |eval p rX| < zeroEps
        · rw [if_pos h3] at h
          cases h
          exact ⟨hle, le_refl _, Or.inl h3⟩
        · rw [if_neg h3] at h
          have hm1 : lX ≤ (lX + rX) / 2 := by linarith
          have hm2 : (lX + rX) / 2 ≤ rX := by linarith
          by_cases h4 : eval p lX * eval p ((lX + rX) / 2) ≤ 0
          · rw [if_pos h4] at h
            obtain ⟨r1, r2, r3⟩ := ih lX ((lX + rX) / 2) x hm1 h4 h
            exact ⟨r1, le_trans r2 hm2, r3⟩
          · rw [if_neg h4] at h
            have h5 : eval p ((lX + rX) / 2) * eval p rX ≤ 0 := by
              have hpos : 0 < eval p lX * eval p ((lX + rX) / 2) := not_le.mp h4
              by_contra hcon
              have hpos2 : 0 < eval p ((lX + rX) / 2) * eval p rX := not_le.mp hcon
              have : 0 < (eval p lX * eval p rX) * (eval p ((lX + rX) / 2)) ^ 2 := by
                have := mul_pos hpos hpos2
                nlinarith
              have hsq : 0 ≤ (eval p ((lX + rX) / 2)) ^ 2 := sq_nonneg _
              nlinarith [mul_nonpos_of_nonpos_of_nonneg hs hsq]
            obtain ⟨r1, r2, r3⟩ := ih ((lX + rX) / 2) rX x hm2 h5 h
            exact ⟨le_trans hm1 r1, r2, r3⟩
    · rw [if_neg h1] at h
      cases h
      exact hend lX rX hle hs h1

theorem bisectLoop_mono_le (p : Polynomial K) (lX lY rX rY x : K) (n fuel : ℕ) (hn : n ≤ fuel)
    (h : bisectLoop p n lX lY rX rY = some x) : bisectLoop p fuel lX lY rX rY = some x := by
  induction fuel, hn using Nat.le_induction with
  | base => exact h
  | succ m _ ih => exact bisectLoop_mono p m _ _ _ _ _ ih

/-- C29, as stated, fails when the polynomial is negligible at an end of the
bracket: for `P = x^3`, `l = -1/10000`, `r = 1` the product `P(l) * P(r)` is
negative, `|P(l)| = 1e-12` is below `1e-10`, and `findRootBisection` returns `l` at
once, which is `1e-4` away from the only real root `0`. -/
theorem findRootBisection_stops_at_small_value :
    eval (ofList [0, 0, 0, 1] : Polynomial ℚ) (-1 / 10000)
      * eval (ofList [0, 0, 0, 1] : Polynomial ℚ) 1 < 0 ∧
    findRootBisection (ofList [0, 0, 0, 1] : Polynomial ℚ) 0 (-1 / 10000) 1
      = some (-1 / 10000) ∧
    ∀ z : ℚ, eval (ofList [0, 0, 0, 1] : Polynomial ℚ) z = 0 → rootEps < |-1 / 10000 - z| := by
  refine ⟨by decide!, by decide!, ?_⟩
  intro z hz
  have hz0 : z = 0 := by
    simp [eval, ofList] at hz
    exact hz
  rw [hz0]
  have habs : |(-1 : ℚ) / 10000 - 0| = 1 / 10000 := by
    rw [abs_of_neg (by norm_num)]
    norm_num
  rw [habs]
  norm_num [rootEps]

/-- C29 (amended): for every real polynomial `P` and every interval `l < r` with
`P(l) * P(r) < 0`, `findRootBisection(l, r)` terminates and returns a value `x` in
`[l, r]` such that `|P(x)| < 1e-10` or a real root of `P` lies in `[x, x + 1e-5]`. -/
theorem findRootBisection_brackets_root (p : Polynomial ℝ) (l r : ℝ) (hlr : l < r)
    (hsign : eval p l * eval p r < 0) :
    (∃ N x, ∀ fuel, N ≤ fuel → findRootBisection p fuel l r = some x) ∧
    ∀ fuel x, findRootBisection p fuel l r = some x →
      l ≤ x ∧ x ≤ r ∧
        (|eval p x| < zeroEps ∨ ∃ z, eval p z = 0 ∧ x ≤ z ∧ z ≤ x + rootEps) := by
  constructor
  · obtain ⟨N, hN⟩ := pow_unbounded_of_one_lt (|r - l| / rootEps) (one_lt_two (α := ℝ))
    have hb : |r - l| ≤ rootEps * 2 ^ N := by
      rw [div_lt_iff₀ rootEps_pos] at hN
      linarith
    obtain ⟨x, hx⟩ := bisectLoop_isSome p N l (eval p l) r (eval p r) hb
    exact ⟨N, x, fun fuel hfuel => bisectLoop_mono_le p _ _ _ _ x N fuel hfuel hx⟩
  · intro fuel x h
    exact bisectLoop_spec p fuel l r x (le_of_lt hlr) (le_of_lt hsign) h

theorem findRootBisection_brackets_root_witness :
    (0 : ℝ) < 2 ∧
    eval (ofList [-2, 0, 1] : Polynomial ℝ) 0 * eval (ofList [-2, 0, 1] : Polynomial ℝ) 2 < 0 ∧
    (∃ N x, ∀ fuel, N ≤ fuel →
      findRootBisection (ofList [-2, 0, 1] : Polynomial ℝ) fuel 0 2 = some x) ∧
    ∀ fuel x, findRootBisection (ofList [-2, 0, 1] : Polynomial ℝ) fuel 0 2 = some x →
      0 ≤ x ∧ x ≤ 2 ∧
        (|eval (ofList [-2, 0, 1] : Polynomial ℝ) x| < zeroEps ∨
          ∃ z, eval (ofList [-2, 0, 1] : Polynomial ℝ) z = 0 ∧ x ≤ z ∧ z ≤ x + rootEps) := by
  have hs : eval (ofList [-2, 0, 1] : Polynomial ℝ) 0
      * eval (ofList [-2, 0, 1] : Polynomial ℝ) 2 < 0 := by
    norm_num [eval, ofList]
  have h := findRootBisection_brackets_root (ofList [-2, 0, 1]) 0 2 (by norm_num) hs
  exact ⟨by norm_num, hs, h.1, h.2⟩

end Polynomial
namespace Polynomial

/-! ## Sign changes of the Sturm system -/

/-- C26, failing input: `P = x^5 - 5x + 1` with `l = -1`, `r = 2`.  `P` is
square-free (a combination of `P` and its derivative is the constant `1`), neither
end is a root, and `P` has two distinct real roots in `(-1, 2)`, one in `(0, 1)` and
one in `(1, 2)`.  The Sturm system built by `createSturmSystem` is
`P, 5x^4 - 5, 4x - 1, 1275/256`; at `l = -1` its values are `5, 0, -5, 1275/256`, and
because the derivative vanishes there the test `S[i-1](l) * S[i](l) < 0` of
`searchRoots` sees one sign change where the sequence `5, -5, 1275/256` has two.  At
`r = 2` the count is `0`, so the difference of the counts is `1`, not `2`. -/
theorem sturm_count_skips_change_at_zero_member :
    (∀ fuel, 5 ≤ fuel → createSturmSystem fuel (ofList [1, -5, 0, 0, 0, 1] : Polynomial ℚ)
      = some [⟨[1, -5, 0, 0, 0, 1], 5⟩, ⟨[-5, 0, 0, 0, 5], 4⟩, ⟨[-1, 4], 1⟩, ⟨[1275 / 256], 0⟩]) ∧
    (∀ x : ℚ,
      eval (ofList [1, -5, 0, 0, 0, 1]) x
          * (-(64 / 255) * (x + 1 / 4) * (x ^ 2 + 1 / 16))
        + eval (⟨[-5, 0, 0, 0, 5], 4⟩ : Polynomial ℚ) x
          * ((64 / 1275) * x * (x + 1 / 4) * (x ^ 2 + 1 / 16) - 256 / 1275) = 1) ∧
    eval (ofList [1, -5, 0, 0, 0, 1] : Polynomial ℚ) (-1) ≠ 0 ∧
    eval (ofList [1, -5, 0, 0, 0, 1] : Polynomial ℚ) 2 ≠ 0 ∧
    (signChanges (([⟨[1, -5, 0, 0, 0, 1], 5⟩, ⟨[-5, 0, 0, 0, 5], 4⟩, ⟨[-1, 4], 1⟩,
        ⟨[1275 / 256], 0⟩] : List (Polynomial ℚ)).map fun s => s.eval (-1)) : Int)
      - (signChanges (([⟨[1, -5, 0, 0, 0, 1], 5⟩, ⟨[-5, 0, 0, 0, 5], 4⟩, ⟨[-1, 4], 1⟩,
        ⟨[1275 / 256], 0⟩] : List (Polynomial ℚ)).map fun s => s.eval 2) : Int) = 1 ∧
    ∃ x y : ℝ, -1 < x ∧ x < y ∧ y < 2 ∧
      eval (ofList [1, -5, 0, 0, 0, 1] : Polynomial ℝ) x = 0 ∧
      eval (ofList [1, -5, 0, 0, 0, 1] : Polynomial ℝ) y = 0 := by
  refine ⟨fun fuel hfuel => createSturmSystem_mono _ _ 5 fuel hfuel (by decide!), ?_, by decide!,
    by decide!, by decide!, ?_⟩
  · intro x
    simp only [eval, ofList, List.isEmpty_cons, Bool.false_eq_true, if_false, List.reverse_cons,
      List.reverse_nil, List.nil_append, List.cons_append, List.foldl_cons, List.foldl_nil]
    ring
  · have hval : ∀ t : ℝ, eval (ofList [1, -5, 0, 0, 0, 1] : Polynomial ℝ) t
        = t ^ 5 - 5 * t + 1 := by
      intro t
      simp only [eval, ofList, List.isEmpty_cons, Bool.false_eq_true, if_false,
        List.reverse_cons, List.reverse_nil, List.nil_append, List.cons_append, List.foldl_cons,
        List.foldl_nil]
      ring
    obtain ⟨x, hx0, hx1, hx⟩ := exists_root_of_sign_change
      (ofList [1, -5, 0, 0, 0, 1] : Polynomial ℝ) 0 1 (by norm_num)
      (by rw [hval, hval]; norm_num)
    obtain ⟨y, hy1, hy2, hy⟩ := exists_root_of_sign_change
      (ofList [1, -5, 0, 0, 0, 1] : Polynomial ℝ) 1 2 (by norm_num)
      (by rw [hval, hval]; norm_num)
    have h1 : eval (ofList [1, -5, 0, 0, 0, 1] : Polynomial ℝ) 1 ≠ 0 := by
      rw [hval]
      norm_num
    have h2 : eval (ofList [1, -5, 0, 0, 0, 1] : Polynomial ℝ) 2 ≠ 0 := by
      rw [hval]
      norm_num
    have hxlt : x < 1 := lt_of_le_of_ne hx1 fun h => h1 (h ▸ hx)
    have hylt : 1 < y := lt_of_le_of_ne hy1 fun h => h1 (h ▸ hy)
    have hy2lt : y < 2 := lt_of_le_of_ne hy2 fun h => h2 (h ▸ hy)
    exact ⟨x, y, by linarith, by linarith, hy2lt, hx, hy⟩

end Polynomial
namespace Polynomial

/-! ## Limits of the real roots -/

/-- Lagrange's bound: a polynomial with positive leading coefficient whose negative
coefficients have index at most `m` and magnitude at most `B` is positive beyond
`1 + rho`, where `rho ^ (n - m) = B / a_n`. -/
theorem lagrange_pos (c : ℕ → K) (m k : ℕ) (B rho x : K)
    (hB : ∀ i, i ≤ m → -B ≤ c i) (hB0 : 0 ≤ B)
    (hmid : ∀ i, m < i → i < m + 1 + k → 0 ≤ c i) (han : 0 < c (m + 1 + k))
    (hrho0 : 0 ≤ rho) (hrho : rho ^ (k + 1) = B / c (m + 1 + k)) (hx : 1 + rho < x) :
    0 < ∑ i in Finset.range (m + 1 + k + 1), c i * x ^ i := by
  have hx1 : 0 < x - 1 := by linarith
  have hx0 : 0 < x := by linarith
  have hA : ∀ j, m + 1 ≤ j → j ≤ m + 1 + k →
      -B * ∑ i in Finset.range (m + 1), x ^ i ≤ ∑ i in Finset.range j, c i * x ^ i := by
    intro j hj
    induction j, hj using Nat.le_induction with
    | base =>
      intro _
      rw [Finset.mul_sum]
      apply Finset.sum_le_sum
      intro i hi
      have him : i ≤ m := by
        have := Finset.mem_range.mp hi
        omega
      exact mul_le_mul_of_nonneg_right (hB i him) (pow_nonneg hx0.le i)
    | succ j hj ih =>
      intro hle
      rw [Finset.sum_range_succ (fun i => c i * x ^ i) j]
      have h1 := ih (by omega)
      have h2 : 0 ≤ c j * x ^ j := mul_nonneg (hmid j (by omega) (by omega)) (pow_nonneg hx0.le j)
      linarith
  have hS := hA (m + 1 + k) (by omega) (le_refl _)
  rw [Finset.sum_range_succ]
  have hgeom : (∑ i in Finset.range (m + 1), x ^ i) * (x - 1) = x ^ (m + 1) - 1 :=
    geom_sum_mul x (m + 1)
  have hBeq : B = c (m + 1 + k) * rho ^ (k + 1) := by
    rw [hrho]
    field_simp
  have hpow : rho ^ (k + 1) < x ^ k * (x - 1) := by
    have h1 : rho ^ k ≤ x ^ k := pow_le_pow_left₀ hrho0 (by linarith) k
    have h2 : x ^ k * rho < x ^ k * (x - 1) :=
      mul_lt_mul_of_pos_left (by linarith) (pow_pos hx0 k)
    have h3 : rho ^ k * rho ≤ x ^ k * rho := mul_le_mul_of_nonneg_right h1 hrho0
    rw [pow_succ]
    linarith
  have hmain : 0 < (x - 1) * (c (m + 1 + k) * x ^ (m + 1 + k)) - B * x ^ (m + 1) := by
    have e : (x - 1) * (c (m + 1 + k) * x ^ (m + 1 + k)) - B * x ^ (m + 1)
        = c (m + 1 + k) * x ^ (m + 1) * (x ^ k * (x - 1) - rho ^ (k + 1)) := by
      rw [hBeq, pow_add x (m + 1) k]
      ring
    rw [e]
    exact mul_pos (mul_pos han (pow_pos hx0 _)) (by linarith)
  have hprod : 0 < (x - 1) * (∑ i in Finset.range (m + 1 + k), c i * x ^ i
      + c (m + 1 + k) * x ^ (m + 1 + k)) := by
    have h1 : (x - 1) * (-B * ∑ i in Finset.range (m + 1), x ^ i)
        ≤ (x - 1) * ∑ i in Finset.range (m + 1 + k), c i * x ^ i :=
      mul_le_mul_of_nonneg_left hS hx1.le
    have h2 : (x - 1) * (-B * ∑ i in Finset.range (m + 1), x ^ i)
        = -B * (x ^ (m + 1) - 1) := by
      rw [← hgeom]
      ring
    rw [h2] at h1
    rw [mul_add]
    nlinarith
  exact (mul_pos_iff_of_pos_left hx1).mp hprod

/-- A polynomial without negative coefficients and with positive leading coefficient
is positive at every positive argument. -/
theorem nonneg_coeffs_pos (c : ℕ → K) (n : ℕ) (x : K) (hc : ∀ i, i < n → 0 ≤ c i)
    (han : 0 < c n) (hx : 0 < x) : 0 < ∑ i in Finset.range (n + 1), c i * x ^ i := by
  rw [Finset.sum_range_succ]
  have h1 : 0 ≤ ∑ i in Finset.range n, c i * x ^ i :=
    Finset.sum_nonneg fun i hi =>
      mul_nonneg (hc i (Finset.mem_range.mp hi)) (pow_nonneg hx.le i)
  have h2 : 0 < c n * x ^ n := mul_pos han (pow_pos hx n)
  linarith

theorem eval_eq_sum_range (p : Polynomial K) (hwf : WF p) (x : K) :
    eval p x = ∑ i in Finset.range (p.deg + 1), p.coeff i * x ^ i := by
  rw [show p = ⟨p.coeffs, p.deg⟩ from rfl, eval_eq_sumForm]
  unfold sumForm coeff
  rw [hwf]

theorem foldl_min_spec (l : List K) : ∀ a : K,
    l.foldl min a ≤ a ∧ (∀ v ∈ l, l.foldl min a ≤ v) ∧ (l.foldl min a = a ∨ l.foldl min a ∈ l) := by
  induction l with
  | nil =>
    intro a
    simp
  | cons b t ih =>
    intro a
    obtain ⟨h1, h2, h3⟩ := ih (min a b)
    rw [List.foldl_cons]
    refine ⟨le_trans h1 (min_le_left a b), ?_, ?_⟩
    · intro v hv
      rcases List.mem_cons.mp hv with rfl | hv
      · exact le_trans h1 (min_le_right a v)
      · exact h2 v hv
    · rcases h3 with h3 | h3
      · rcases min_choice a b with hm | hm
        · left
          rw [h3, hm]
        · right
          rw [h3, hm]
          exact List.mem_cons_self _ _
      · right
        exact List.mem_cons_of_mem _ h3

theorem minElement_le (l : List K) (v : K) (hv : v ∈ l) : minElement l ≤ v := by
  cases l with
  | nil => simp at hv
  | cons a t =>
    show t.foldl min a ≤ v
    rcases List.mem_cons.mp hv with rfl | hv
    · exact (foldl_min_spec t v).1
    · exact (foldl_min_spec t a).2.1 v hv

theorem minElement_mem (l : List K) (hl : l ≠ []) : minElement l ∈ l := by
  cases l with
  | nil => exact absurd rfl hl
  | cons a t =>
    show t.foldl min a ∈ a :: t
    rcases (foldl_min_spec t a).2.2 with h | h
    · rw [h]
      exact List.mem_cons_self _ _
    · exact List.mem_cons_of_mem _ h

theorem reverse_getElem_coeff (p : Polynomial K) (hwf : WF p) (i : ℕ)
    (h : i < p.coeffs.reverse.length) : p.coeffs.reverse[i] = p.coeff (p.deg - i) := by
  unfold WF at hwf
  rw [List.getElem_reverse]
  unfold coeff
  have hi : i < p.coeffs.length := by simpa using h
  have e : p.coeffs.length - 1 - i = p.deg - i := by omega
  rw [List.getD_eq_getElem _ _ (show p.deg - i < p.coeffs.length by omega)]
  simp only [e]

theorem coeff_mem_of_le (p : Polynomial K) (hwf : WF p) (i : ℕ) (hi : i ≤ p.deg) :
    p.coeff i ∈ p.coeffs := by
  unfold WF at hwf
  unfold coeff
  rw [List.getD_eq_getElem _ _ (show i < p.coeffs.length by omega)]
  exact List.getElem_mem _

/-- The body of `getHighRootsLimit` after the sign normalisation. -/
theorem highLimit_core (M : Libm K) (hM : Exact M) (q : Polynomial K) (hwf : WF q)
    (hlead : 0 < q.coeff q.deg) (x : K) (hx : eval q x = 0) :
    x ≤ (match q.coeffs.reverse.findIdx? (fun v => decide (v < 0)) with
      | none => 0
      | some index => 1 + M.pow (-(minElement q.coeffs) / q.coeff q.deg) (1 / (index : K))) := by
  rw [eval_eq_sum_range q hwf] at hx
  rcases hfi : q.coeffs.reverse.findIdx? (fun v => decide (v < 0)) with _ | j
  · simp only
    rw [List.findIdx?_eq_none_iff] at hfi
    by_contra hcon
    have hpos := nonneg_coeffs_pos (fun i => q.coeff i) q.deg x
      (fun i hi => by
        have hm := coeff_mem_of_le q hwf i (le_of_lt hi)
        have := hfi (q.coeff i) (List.mem_reverse.mpr hm)
        simpa using this) hlead (not_le.mp hcon)
    simp only at hpos
    linarith
  · simp only
    rw [List.findIdx?_eq_some_iff_getElem] at hfi
    obtain ⟨hj, hneg, hfirst⟩ := hfi
    have hjlen : j < q.deg + 1 := by
      have : j < q.coeffs.length := by simpa using hj
      unfold WF at hwf
      omega
    rw [reverse_getElem_coeff q hwf j hj] at hneg
    have hneg1 : q.coeff (q.deg - j) < 0 := by simpa using hneg
    have hj0 : j ≠ 0 := by
      intro h0
      rw [h0, Nat.sub_zero] at hneg1
      linarith
    have hupper : ∀ i, q.deg - j < i → i ≤ q.deg → 0 ≤ q.coeff i := by
      intro i hi1 hi2
      have hlt : q.deg - i < j := by omega
      have hlen : q.deg - i < q.coeffs.reverse.length := lt_trans hlt hj
      have := hfirst (q.deg - i) hlt
      rw [reverse_getElem_coeff q hwf _ hlen] at this
      have e : q.deg - (q.deg - i) = i := by omega
      rw [e] at this
      simpa using this
    have hmin : minElement q.coeffs ≤ q.coeff (q.deg - j) :=
      minElement_le _ _ (coeff_mem_of_le q hwf _ (Nat.sub_le _ _))
    have hB0 : 0 ≤ -(minElement q.coeffs) := by linarith
    have hBall : ∀ i, i ≤ q.deg - j → -(-(minElement q.coeffs)) ≤ q.coeff i := by
      intro i hi
      rw [neg_neg]
      exact minElement_le _ _ (coeff_mem_of_le q hwf _ (by omega))
    obtain ⟨hr0, hr⟩ := hM.pow_root (-(minElement q.coeffs) / q.coeff q.deg) j
      (div_nonneg hB0 hlead.le) (Nat.pos_of_ne_zero hj0)
    by_contra hcon
    have hdeg : q.deg - j + 1 + (j - 1) = q.deg := by omega
    have hpos := lagrange_pos (fun i => q.coeff i) (q.deg - j) (j - 1) (-(minElement q.coeffs))
      (M.pow (-(minElement q.coeffs) / q.coeff q.deg) (1 / (j : K))) x hBall hB0
      (fun i h1 h2 => hupper i h1 (by omega)) (by simp only [hdeg]; exact hlead) hr0
      (by
        simp only [hdeg]
        rw [show j - 1 + 1 = j by omega]
        exact hr) (not_le.mp hcon)
    simp only [hdeg] at hpos
    linarith

theorem negRaw_wf (p : Polynomial K) (hwf : WF p) : WF (negRaw p) := by
  unfold WF
  rw [negRaw_length p hwf]
  exact hwf

theorem lead_ne_zero (p : Polynomial K) (hlead : zeroEps ≤ |p.coeff p.deg|) :
    p.coeff p.deg ≠ 0 := by
  intro h
  rw [h, abs_zero] at hlead
  exact absurd hlead (not_le.mpr zeroEps_pos)

/-- The sign normalisation at the head of `getHighRootsLimit`. -/
theorem signNormalised_spec (p : Polynomial K) (hwf : WF p)
    (hlead : zeroEps ≤ |p.coeff p.deg|) :
    WF (if p.coeff p.deg < 0 then neg p else p) ∧
    (if p.coeff p.deg < 0 then neg p else p).deg = p.deg ∧
    (∀ i, (if p.coeff p.deg < 0 then neg p else p).coeff i
      = (if p.coeff p.deg < 0 then -1 else 1) * p.coeff i) ∧
    (∀ x, eval (if p.coeff p.deg < 0 then neg p else p) x
      = (if p.coeff p.deg < 0 then -1 else 1) * eval p x) ∧
    0 < (if p.coeff p.deg < 0 then neg p else p).coeff p.deg := by
  by_cases hneg : p.coeff p.deg < 0
  · simp only [if_pos hneg]
    rw [neg_of_normalized p ⟨hwf, Or.inr hlead⟩]
    refine ⟨negRaw_wf p hwf, rfl, fun i => ?_, fun x => ?_, ?_⟩
    · rw [negRaw_coeff p hwf]
      ring
    · rw [eval_negRaw p hwf]
      ring
    · rw [negRaw_coeff p hwf]
      linarith
  · simp only [if_neg hneg]
    refine ⟨hwf, trivial, fun i => (one_mul _).symm, fun x => (one_mul _).symm, ?_⟩
    exact lt_of_le_of_ne (not_lt.mp hneg) (Ne.symm (lead_ne_zero p hlead))

theorem getHighRootsLimit_bound (M : Libm K) (hM : Exact M) (p : Polynomial K) (hwf : WF p)
    (hlead : zeroEps ≤ |p.coeff p.deg|) (x : K) (hx : eval p x = 0) :
    x ≤ getHighRootsLimit M p := by
  obtain ⟨h1, h2, _, h4, h5⟩ := signNormalised_spec p hwf hlead
  have hx1 : eval (if p.coeff p.deg < 0 then neg p else p) x = 0 := by
    rw [h4, hx, mul_zero]
  have h6 : 0 < (if p.coeff p.deg < 0 then neg p else p).coeff
      (if p.coeff p.deg < 0 then neg p else p).deg := by
    rw [h2]
    exact h5
  exact highLimit_core M hM _ h1 h6 x hx1

theorem flipOdd_wf (p : Polynomial K) (hwf : WF p) : WF (flipOdd p) := by
  unfold WF flipOdd
  simp only [List.length_mapIdx]
  exact hwf

theorem flipOdd_coeff (p : Polynomial K) (hwf : WF p) (i : ℕ) :
    (flipOdd p).coeff i = (-1) ^ i * p.coeff i := by
  unfold WF at hwf
  unfold coeff flipOdd
  by_cases hi : i < p.coeffs.length
  · rw [List.getD_eq_getElem _ _ (by simpa using hi), List.getD_eq_getElem _ _ hi,
      List.getElem_mapIdx]
    by_cases hodd : i % 2 = 1
    · rw [if_pos ⟨by omega, hodd⟩, Odd.neg_one_pow (Nat.odd_iff.mpr hodd)]
      ring
    · rw [if_neg (fun h => hodd h.2), Even.neg_one_pow (Nat.even_iff.mpr (by omega))]
      ring
  · rw [List.getD_eq_default _ _ (by simpa using not_lt.mp hi),
      List.getD_eq_default _ _ (not_lt.mp hi), mul_zero]

theorem eval_flipOdd (p : Polynomial K) (hwf : WF p) (x : K) :
    eval (flipOdd p) x = eval p (-x) := by
  rw [eval_eq_sum_range _ (flipOdd_wf p hwf), eval_eq_sum_range p hwf]
  apply Finset.sum_congr rfl
  intro i _
  rw [flipOdd_coeff p hwf, neg_pow x i]
  ring

theorem flipOdd_lead (p : Polynomial K) (hwf : WF p) (hlead : zeroEps ≤ |p.coeff p.deg|) :
    zeroEps ≤ |(flipOdd p).coeff (flipOdd p).deg| := by
  rw [show (flipOdd p).deg = p.deg from rfl, flipOdd_coeff p hwf, abs_mul, abs_pow, abs_neg,
    abs_one, one_pow, one_mul]
  exact hlead

theorem mem_coeffs_iff_coeff (p : Polynomial K) (v : K) (hv : v ∈ p.coeffs) :
    ∃ i, i < p.coeffs.length ∧ v = p.coeff i := by
  obtain ⟨i, hi, rfl⟩ := List.mem_iff_getElem.mp hv
  refine ⟨i, hi, ?_⟩
  unfold coeff
  rw [List.getD_eq_getElem _ _ hi]

theorem getHighRootsLimit_formula (M : Libm K) (p : Polynomial K) (hwf : WF p)
    (hlead : zeroEps ≤ |p.coeff p.deg|) (q : Polynomial K)
    (hq : q = (if p.coeff p.deg < 0 then neg p else p)) :
    ((∀ i, 0 ≤ q.coeff i) → getHighRootsLimit M p = 0) ∧
    (∀ (m : ℕ) (B : K), q.coeff m < 0 → (∀ i, m < i → 0 ≤ q.coeff i) →
      (∃ j, q.coeff j = -B) → (∀ i, -B ≤ q.coeff i) →
      getHighRootsLimit M p
        = 1 + M.pow (B / q.coeff p.deg) (1 / ((p.deg - m : ℕ) : K))) := by
  obtain ⟨h1, h2, _, _, h5⟩ := signNormalised_spec p hwf hlead
  rw [← hq] at h1 h2 h5
  have hq1 : getHighRootsLimit M p
      = (match q.coeffs.reverse.findIdx? (fun v => decide (v < 0)) with
        | none => 0
        | some index => 1 + M.pow (-(minElement q.coeffs) / q.coeff q.deg) (1 / (index : K))) := by
    rw [hq]
    rfl
  have hlen : q.coeffs.length = p.deg + 1 := by
    rw [← h2]
    exact h1
  constructor
  · intro hall
    have hnone : q.coeffs.reverse.findIdx? (fun v => decide (v < 0)) = none := by
      rw [List.findIdx?_eq_none_iff]
      intro v hv
      obtain ⟨i, _, rfl⟩ := mem_coeffs_iff_coeff q v (List.mem_reverse.mp hv)
      simpa using hall i
    rw [hq1, hnone]
  · intro m B hm hup ⟨j, hj⟩ hB
    have hmle : m < p.deg := by
      by_contra hcon
      rcases Nat.lt_or_ge p.deg m with h | h
      · have := TwoVarsPolynomial.coeff_of_le q m (by omega)
        linarith
      · have : m = p.deg := by omega
        rw [this] at hm
        linarith
    have hsome : q.coeffs.reverse.findIdx? (fun v => decide (v < 0)) = some (p.deg - m) := by
      rw [List.findIdx?_eq_some_iff_getElem]
      have hl : p.deg - m < q.coeffs.reverse.length := by
        rw [List.length_reverse]
        omega
      refine ⟨hl, ?_, ?_⟩
      · rw [reverse_getElem_coeff q h1 _ hl, h2, show p.deg - (p.deg - m) = m by omega]
        simpa using hm
      · intro i hi
        rw [reverse_getElem_coeff q h1 _ (lt_trans hi hl), h2]
        simpa using hup (p.deg - i) (by omega)
    have hmin : minElement q.coeffs = -B := by
      have hne : q.coeffs ≠ [] := by
        intro h
        rw [h] at hlen
        simp at hlen
      apply le_antisymm
      · have hBneg : -B < 0 := lt_of_le_of_lt (hB m) hm
        have hjlt : j < q.coeffs.length := by
          by_contra hcon
          have := TwoVarsPolynomial.coeff_of_le q j (not_lt.mp hcon)
          rw [this] at hj
          linarith
        rw [← hj]
        exact minElement_le _ _ (by
          unfold coeff
          rw [List.getD_eq_getElem _ _ hjlt]
          exact List.getElem_mem _)
      · obtain ⟨i, _, hi⟩ := mem_coeffs_iff_coeff q _ (minElement_mem q.coeffs hne)
        rw [hi]
        exact hB i
    rw [hq1, hsome]
    simp only [hmin, neg_neg, h2]

/-- C28: for a polynomial `P` with a leading coefficient of absolute value at least
`1e-10` (of any degree, in particular of degree at least 1), every root `x` of `P`
satisfies
`getLowRootsLimit() <= x <= getHighRootsLimit()`.  With `q` the sign-normalised
polynomial (`-P` if the leading coefficient is negative, else `P`),
`getHighRootsLimit()` is `0` if `q` has no negative coefficient, and otherwise
`1 + pow(B / a_n, 1 / k)`, where `B` is the largest magnitude of a negative
coefficient of `q`, `a_n` its leading coefficient and `k = n - m` for the highest
index `m` of a negative coefficient.  `getLowRootsLimit()` of `P` is the negated
`getHighRootsLimit()` of the polynomial with the odd coefficients negated, whose
value at `x` is `P(-x)`. -/
theorem roots_within_limits (M : Libm K) (hM : Exact M) (p : Polynomial K) (hwf : WF p)
    (hlead : zeroEps ≤ |p.coeff p.deg|) :
    (∀ x, eval p x = 0 → getLowRootsLimit M p ≤ x ∧ x ≤ getHighRootsLimit M p) ∧
    (∀ q, q = (if p.coeff p.deg < 0 then neg p else p) →
      (∀ i, q.coeff i = (if p.coeff p.deg < 0 then -1 else 1) * p.coeff i) ∧
      ((∀ i, 0 ≤ q.coeff i) → getHighRootsLimit M p = 0) ∧
      (∀ (m : ℕ) (B : K), q.coeff m < 0 → (∀ i, m < i → 0 ≤ q.coeff i) →
        (∃ j, q.coeff j = -B) → (∀ i, -B ≤ q.coeff i) →
        getHighRootsLimit M p
          = 1 + M.pow (B / q.coeff p.deg) (1 / ((p.deg - m : ℕ) : K)))) ∧
    getLowRootsLimit M p = -getHighRootsLimit M (flipOdd p) ∧
    ∀ x, eval (flipOdd p) x = eval p (-x) := by
  refine ⟨fun x hx => ⟨?_, getHighRootsLimit_bound M hM p hwf hlead x hx⟩, ?_, ?_,
    eval_flipOdd p hwf⟩
  · have h0 : eval (flipOdd p) (-x) = 0 := by
      rw [eval_flipOdd p hwf, neg_neg]
      exact hx
    have := getHighRootsLimit_bound M hM (flipOdd p) (flipOdd_wf p hwf)
      (flipOdd_lead p hwf hlead) (-x) h0
    unfold getLowRootsLimit
    linarith
  · intro q hq
    refine ⟨fun i => ?_, getHighRootsLimit_formula M p hwf hlead q hq⟩
    rw [hq]
    exact (signNormalised_spec p hwf hlead).2.2.1 i
  · unfold getLowRootsLimit
    ring

theorem roots_within_limits_witness :
    ∃ M : Libm ℝ, Exact M ∧ WF (ofList [-2, 0, 1] : Polynomial ℝ) ∧
      zeroEps ≤ |(ofList [-2, 0, 1] : Polynomial ℝ).coeff (ofList [-2, 0, 1] : Polynomial ℝ).deg| ∧
      ∀ x, eval (ofList [-2, 0, 1] : Polynomial ℝ) x = 0 →
        getLowRootsLimit M (ofList [-2, 0, 1]) ≤ x ∧ x ≤ getHighRootsLimit M (ofList [-2, 0, 1]) := by
  obtain ⟨M, hM⟩ := exists_exact_libm
  have hl : zeroEps ≤ |(ofList [-2, 0, 1] : Polynomial ℝ).coeff
      (ofList [-2, 0, 1] : Polynomial ℝ).deg| := by
    norm_num [coeff, ofList, zeroEps]
  exact ⟨M, hM, rfl, hl, (roots_within_limits M hM (ofList [-2, 0, 1]) rfl hl).1⟩

end Polynomial
namespace Polynomial

/-! ## The default constants of the table -/

/-- The first value returned by `getCubicEquationSolution` is a root of the cubic. -/
theorem cubic_head_root (M : Libm K) (hM : Exact M) (p : Polynomial K) (ha : p.coeff 3 ≠ 0) :
    p.coeff 3 * (getCubicEquationSolution M p).getD 0 0 ^ 3
      + p.coeff 2 * (getCubicEquationSolution M p).getD 0 0 ^ 2
      + p.coeff 1 * (getCubicEquationSolution M p).getD 0 0 + p.coeff 0 = 0 := by
  by_cases hdd : 0 < ((p.coeff 2 / (3 * p.coeff 3)) ^ 2 - p.coeff 1 / (3 * p.coeff 3)) ^ 3
      - ((p.coeff 2 / (3 * p.coeff 3)) ^ 3
        - (p.coeff 2 * p.coeff 1 / (3 * p.coeff 3) - p.coeff 0) / (2 * p.coeff 3)) ^ 2
  · have hy : (getCubicEquationSolution M p).getD 0 0
        = 2 * M.sqrt ((p.coeff 2 / (3 * p.coeff 3)) ^ 2 - p.coeff 1 / (3 * p.coeff 3))
            * M.cos ((M.acos (-((p.coeff 2 / (3 * p.coeff 3)) ^ 3
                - (p.coeff 2 * p.coeff 1 / (3 * p.coeff 3) - p.coeff 0) / (2 * p.coeff 3))
              / M.sqrt (((p.coeff 2 / (3 * p.coeff 3)) ^ 2 - p.coeff 1 / (3 * p.coeff 3)) ^ 3))
              + 2 * M.pi * ((0 : ℕ) : K)) / 3)
          - p.coeff 2 / (3 * p.coeff 3) := by
      simp only [getCubicEquationSolution]
      rw [if_pos hdd]
      rfl
    rw [hy, cubic_depressed _ _ _ _ _ ha,
      trig_root M hM _ _ _ hdd (cos_acos_shift M hM _ _ hdd 0 (by decide)), mul_zero]
  · have hy : (getCubicEquationSolution M p).getD 0 0
        = (M.cbrt (M.sqrt (-(((p.coeff 2 / (3 * p.coeff 3)) ^ 2
              - p.coeff 1 / (3 * p.coeff 3)) ^ 3
            - ((p.coeff 2 / (3 * p.coeff 3)) ^ 3
              - (p.coeff 2 * p.coeff 1 / (3 * p.coeff 3) - p.coeff 0) / (2 * p.coeff 3)) ^ 2))
            - ((p.coeff 2 / (3 * p.coeff 3)) ^ 3
              - (p.coeff 2 * p.coeff 1 / (3 * p.coeff 3) - p.coeff 0) / (2 * p.coeff 3)))
          - M.cbrt (((p.coeff 2 / (3 * p.coeff 3)) ^ 3
              - (p.coeff 2 * p.coeff 1 / (3 * p.coeff 3) - p.coeff 0) / (2 * p.coeff 3))
            + M.sqrt (-(((p.coeff 2 / (3 * p.coeff 3)) ^ 2
              - p.coeff 1 / (3 * p.coeff 3)) ^ 3
            - ((p.coeff 2 / (3 * p.coeff 3)) ^ 3
              - (p.coeff 2 * p.coeff 1 / (3 * p.coeff 3) - p.coeff 0) / (2 * p.coeff 3)) ^ 2))))
          - p.coeff 2 / (3 * p.coeff 3) := by
      simp only [getCubicEquationSolution]
      rw [if_neg hdd]
      rfl
    rw [hy, cubic_depressed _ _ _ _ _ ha, cardano_root M hM _ _ (not_lt.mp hdd), mul_zero]

theorem quadratic_empty (M : Libm K) (q : Polynomial K)
    (h : q.coeff 1 ^ 2 - 4 * q.coeff 2 * q.coeff 0 ≤ -zeroEps) :
    getQuadraticEquationSolution M q = [] := by
  have hpos : (0 : K) < zeroEps := zeroEps_pos
  simp only [getQuadraticEquationSolution]
  rw [if_neg, if_neg]
  · intro h0
    linarith
  · intro h0
    have := (abs_lt.mp h0).1
    linarith

/-- The resolvent cubic `y^3 - y^2/3 - 2y/3 + 167/864` has no root within `1e-10`
of `167/576`, and its only root above `167/576` exceeds `4/5`. -/
theorem default_resolvent_root (y : K)
    (hy : y ^ 3 - 1 / 3 * y ^ 2 - 2 / 3 * y + 167 / 864 = 0) :
    ¬ |y - 167 / 576| < zeroEps ∧ (167 / 576 < y → 4 / 5 < y) := by
  constructor
  · intro h
    have h1 := abs_lt.mp h
    have he : (zeroEps : K) ≤ 1 / 1000 := by norm_num [zeroEps]
    have hy1 : (7 : K) / 25 ≤ y := by linarith
    have hy2 : y ≤ 3 / 10 := by linarith
    have h2 : (49 : K) / 625 ≤ y ^ 2 := by nlinarith
    have h3 : (1 : K) / 30 ≤ 1 / 3 - y := by linarith
    have h4 : (49 : K) / 625 * (1 / 30) ≤ y ^ 2 * (1 / 3 - y) :=
      mul_le_mul h2 h3 (by norm_num) (by positivity)
    nlinarith
  · intro h
    by_contra hcon
    have h1 : y ≤ 4 / 5 := not_lt.mp hcon
    have h2 : 0 ≤ (y - 167 / 576) * (4 / 5 - y) * (y + 167 / 576 + 4 / 5 - 1 / 3) :=
      mul_nonneg (mul_nonneg (by linarith) (by linarith)) (by linarith)
    nlinarith

/-- Both quadratic factors of Ferrari's method have a negative discriminant for the
default constants. -/
theorem default_ferrari_discriminants (y s : K) (hy45 : 4 / 5 < y) (hs0 : 0 ≤ s)
    (hs2 : s ^ 2 = y - 167 / 576) :
    (5 / 12 / 2 + s) ^ 2 - 4 * 1 * (1 / 2 * (y + (5 / 12 * y / 2 - 0) / s)) ≤ -zeroEps ∧
    (5 / 12 / 2 - s) ^ 2 - 4 * 1 * (1 / 2 * (y - (5 / 12 * y / 2 - 0) / s)) ≤ -zeroEps := by
  have hs7 : 7 / 10 < s := by
    by_contra hcon
    have : s ≤ 7 / 10 := not_lt.mp hcon
    nlinarith
  have hspos : 0 < s := by linarith
  have hw : y / s = s + 167 / 576 / s := by
    have hyy : y = s ^ 2 + 167 / 576 := by linarith
    rw [hyy]
    field_simp
    ring
  have hinv : 167 / 576 / s < 167 / 576 / (7 / 10) :=
    div_lt_div_of_pos_left (by norm_num) (by norm_num) hs7
  have hinv0 : 0 < 167 / 576 / s := div_pos (by norm_num) hspos
  have hz : (zeroEps : K) ≤ 1 / 1000 := by norm_num [zeroEps]
  have he2 : (5 / 12 * y / 2 - 0) / s = 5 / 24 * (y / s) := by ring
  norm_num at hinv
  rw [he2, hw]
  constructor
  · linarith
  · linarith

theorem default_quartic_empty (M : Libm K) (hM : Exact M) :
    getQuarticEquationSolution M (⟨[2, 0, 4, 5, 12], 4⟩ : Polynomial K) = [] := by
  have hb : (⟨[2, 0, 4, 5, 12], 4⟩ : Polynomial K).coeff 3
      / (⟨[2, 0, 4, 5, 12], 4⟩ : Polynomial K).coeff 4 = 5 / 12 := by norm_num [coeff]
  have hc : (⟨[2, 0, 4, 5, 12], 4⟩ : Polynomial K).coeff 2
      / (⟨[2, 0, 4, 5, 12], 4⟩ : Polynomial K).coeff 4 = 1 / 3 := by norm_num [coeff]
  have hd : (⟨[2, 0, 4, 5, 12], 4⟩ : Polynomial K).coeff 1
      / (⟨[2, 0, 4, 5, 12], 4⟩ : Polynomial K).coeff 4 = 0 := by norm_num [coeff]
  have he : (⟨[2, 0, 4, 5, 12], 4⟩ : Polynomial K).coeff 0
      / (⟨[2, 0, 4, 5, 12], 4⟩ : Polynomial K).coeff 4 = 1 / 6 := by norm_num [coeff]
  have hres : (ofList [1 / 6 * (4 * (1 / 3) - (5 / 12) ^ 2) - 0 ^ 2, 5 / 12 * 0 - 4 * (1 / 6),
      -(1 / 3), 1] : Polynomial K) = ⟨[167 / 864, -(2 / 3), -(1 / 3), 1], 3⟩ := by
    norm_num [ofList]
  have hy : ∀ y : K,
      (⟨[167 / 864, -(2 / 3), -(1 / 3), 1], 3⟩ : Polynomial K).coeff 3 * y ^ 3
        + (⟨[167 / 864, -(2 / 3), -(1 / 3), 1], 3⟩ : Polynomial K).coeff 2 * y ^ 2
        + (⟨[167 / 864, -(2 / 3), -(1 / 3), 1], 3⟩ : Polynomial K).coeff 1 * y
        + (⟨[167 / 864, -(2 / 3), -(1 / 3), 1], 3⟩ : Polynomial K).coeff 0 = 0 →
      y ^ 3 - 1 / 3 * y ^ 2 - 2 / 3 * y + 167 / 864 = 0 := by
    intro y h
    norm_num [coeff] at h
    linarith
  have hroot := hy _ (cubic_head_root M hM
    (⟨[167 / 864, -(2 / 3), -(1 / 3), 1], 3⟩ : Polynomial K) (by norm_num [coeff]))
  simp only [getQuarticEquationSolution, hb, hc, hd, he, hres]
  clear hy hb hc hd he hres
  generalize (getCubicEquationSolution M
    (⟨[167 / 864, -(2 / 3), -(1 / 3), 1], 3⟩ : Polynomial K)).getD 0 0 = y at hroot ⊢
  obtain ⟨hn, hbig⟩ := default_resolvent_root y hroot
  have ht0 : (5 / 12 / 2 : K) ^ 2 - 1 / 3 + y = y - 167 / 576 := by ring
  rw [ht0, if_neg hn]
  by_cases hpos : 0 < y - 167 / 576
  · rw [if_pos hpos]
    have hy45 := hbig (by linarith)
    have hs0 := hM.sqrt_nonneg (y - 167 / 576)
    have hs2 := hM.sqrt_sq (y - 167 / 576) hpos.le
    generalize M.sqrt (y - 167 / 576) = s at hs0 hs2 ⊢
    obtain ⟨hd2, hd1⟩ := default_ferrari_discriminants y s hy45 hs0 hs2
    rw [quadratic_empty, quadratic_empty]
    · rfl
    · simp only [setCoeff, ofDegree, zeros, coeff, List.replicate, List.set_cons_succ,
        List.set_cons_zero, List.getD_cons_succ, List.getD_cons_zero]
      exact hd2
    · simp only [setCoeff, ofDegree, zeros, coeff, List.replicate, List.set_cons_succ,
        List.set_cons_zero, List.getD_cons_succ, List.getD_cons_zero]
      exact hd1
  · rw [if_neg hpos]

theorem default_state_equation (M : Libm K) (hM : Exact M) (fuel : ℕ) :
    roots M fuel (ofList [2 * 1, 3 * 0, 4 * 1, 5 * 1, 6 * (1 + 1), 7 * 0, 8 * (0 + 0)]) = some [] := by
  have hcd : correctDegree (ofList [2 * 1, 3 * 0, 4 * 1, 5 * 1, 6 * (1 + 1), 7 * 0,
      8 * (0 + 0)] : Polynomial K) = ⟨[2, 0, 4, 5, 12], 4⟩ := by
    norm_num [correctDegree, stripBack, ofList, decSize, zeroEps]
  unfold roots
  rw [hcd]
  show some (getQuarticEquationSolution M ⟨[2, 0, 4, 5, 12], 4⟩) = some []
  rw [default_quartic_empty M hM]

theorem default_phase4_product_left :
    mul (ofList [(1 : K), 2 * 0]) (ofList [0, 1, 0]) = ⟨[0, 1], 1⟩ := by
  have h1 : mulRaw (ofList [(1 : K), 2 * 0]) (ofList [0, 1, 0]) = ⟨[0, 1, 0, 0], 3⟩ := by
    simp [mulRaw, mulLoop, ofList, ofDegree, zeros, List.range_succ, List.replicate]
  unfold mul
  rw [h1]
  norm_num [correctDegree, stripBack, decSize, zeroEps]

theorem default_phase4_product_right :
    mul (ofList [(1 : K), 2 * 1, 3 * 1, 4 * 0]) (ofList [2 * 1]) = ⟨[2, 4, 6], 2⟩ := by
  have h1 : mulRaw (ofList [(1 : K), 2 * 1, 3 * 1, 4 * 0]) (ofList [2 * 1])
      = ⟨[2, 4, 6, 0], 3⟩ := by
    simp [mulRaw, mulLoop, ofList, ofDegree, zeros, List.range_succ, List.replicate]
    norm_num
  unfold mul
  rw [h1]
  norm_num [correctDegree, stripBack, decSize, zeroEps]

theorem default_phase4_equation :
    sub (mul (ofList [(1 : K), 2 * 0]) (ofList [0, 1, 0]))
      (mul (ofList [(1 : K), 2 * 1, 3 * 1, 4 * 0]) (ofList [2 * 1])) = ⟨[-2, -3, -6], 2⟩ := by
  have h1 : neg (⟨[2, 4, 6], 2⟩ : Polynomial K) = ⟨[-2, -4, -6], 2⟩ := by
    norm_num [neg, negRaw, ofDegree, zeros, overwrite, correctDegree, stripBack, decSize, zeroEps]
  have h2 : add (⟨[-2, -4, -6], 2⟩ : Polynomial K) ⟨[0, 1], 1⟩ = ⟨[-2, -3, -6], 2⟩ := by
    norm_num [add, ofDegree, zeros, overwrite, transformPlus, correctDegree, stripBack, decSize,
      zeroEps]
  rw [default_phase4_product_left, default_phase4_product_right]
  unfold sub
  rw [h1, h2]

theorem default_phase4_roots (M : Libm K) (fuel : ℕ) :
    roots M fuel (⟨[-2, -3, -6], 2⟩ : Polynomial K) = some [] := by
  have hcd : correctDegree (⟨[-2, -3, -6], 2⟩ : Polynomial K) = ⟨[-2, -3, -6], 2⟩ := by
    norm_num [correctDegree, stripBack, decSize, zeroEps]
  unfold roots
  rw [hcd]
  show some (getQuadraticEquationSolution M ⟨[-2, -3, -6], 2⟩) = some []
  rw [quadratic_empty]
  norm_num [coeff, zeroEps]

end Polynomial

namespace Worker

/-- C25: with the default constants of the table (`a[1] = 1`, `a[2] = 1`, `a[3] = 0`,
`b[1] = 1`, `d[0] = 1`, `d[1] = 0`, `d[2] = 0`), `a[0] = 1` and `b[0] = 0`,
`getPhases` returns, whatever the fuel, exactly one record: the record of type 1
with potential `0` and order parameter `(0, 0)`; the `<cmath>` functions are exact. -/
theorem getPhases_default_constants (M : Libm K) (hM : Polynomial.Exact M) (fuel : ℕ) :
    getPhases M fuel
      { a0 := 1, a1 := 1, a2 := 1, a3 := 0, b0 := 0, b1 := 1, d0 := 1, d1 := 0, d2 := 0 }
      = some [⟨1, 0, 0, 0⟩] := by
  have hinv : phase4Invariants M fuel
      ({ a0 := 1, a1 := 1, a2 := 1, a3 := 0, b0 := 0, b1 := 1, d0 := 1, d1 := 0, d2 := 0 } :
        Coefficients K) = some [] := by
    simp only [phase4Invariants, if_true, one_ne_zero, if_false,
      Polynomial.default_phase4_equation, Polynomial.default_phase4_roots, Option.map_some',
      List.map_nil]
  simp only [getPhases, Polynomial.default_state_equation M hM, hinv, phases4, phases23,
    zero_lt_one, if_true, List.append_nil]

theorem getPhases_default_constants_witness :
    ∃ M : Libm ℝ, Polynomial.Exact M ∧
      getPhases M 0
        { a0 := 1, a1 := 1, a2 := 1, a3 := 0, b0 := 0, b1 := 1, d0 := 1, d1 := 0, d2 := 0 }
        = some [⟨1, 0, 0, 0⟩] := by
  obtain ⟨M, hM⟩ := Polynomial.exists_exact_libm
  exact ⟨M, hM, getPhases_default_constants M hM 0⟩

end Worker
namespace Polynomial

/-! ## Division by a constant -/

/-- C39, failing input: any `p1` with a divisor `p2` of degree 0, for instance
`p2 = Polynomial{2}`. The loop condition `(d = r.degree() - p2.degree()) >= 0` of
`operator%` compares a degree, which is never negative, with 0: it holds in every
iteration, also once `r` has become the zero polynomial, so `p1 % p2` does not
return, whatever the number of iterations allowed. -/
theorem mod_by_constant_never_returns (fuel : ℕ) (p1 p2 : Polynomial K) (h : p2.deg = 0) :
    modLoop fuel p1 p2 = none := by
  induction fuel generalizing p1 with
  | zero => exact modLoop_zero p1 p2 (by omega)
  | succ fuel ih =>
    rw [modLoop_step fuel p1 p2 (by omega)]
    exact ih _

theorem mod_by_constant_never_returns_witness :
    (ofList [2] : Polynomial ℚ).deg = 0 ∧
    modLoop 100 (ofList [1, 1] : Polynomial ℚ) (ofList [2]) = none ∧
    subAssign (ofList [0] : Polynomial ℚ) (mul (ofList [2])
      ((ofDegree 0 : Polynomial ℚ).setCoeff 0
        ((ofList [0] : Polynomial ℚ).coeff 0 / (ofList [2] : Polynomial ℚ).coeff 0)))
      = ofList [0] :=
  ⟨rfl, mod_by_constant_never_returns 100 (ofList [1, 1]) (ofList [2]) rfl, by decide!⟩

end Polynomial

namespace TwoVarsPolynomial

/-! ## Differentiation beyond the outer degree -/

theorem diffXLoop_length (x : ℕ) (c : List (Polynomial K)) :
    (diffXLoop x c).length = c.length := by
  induction x generalizing c with
  | zero => rfl
  | succ x ih => rw [diffXLoop, ih, List.length_map]

theorem diffYLoop_succ_last (y : ℕ) (t : TwoVarsPolynomial K) :
    diffYLoop (y + 1) t
      = ⟨decSize (diffYLoop y t).deg, shiftDown 1 (diffYLoop y t).coeffs.tail⟩ := by
  induction y generalizing t with
  | zero => rfl
  | succ y ih =>
    rw [diffYLoop, ih]
    rfl

theorem diffYLoop_shape (y : ℕ) (t : TwoVarsPolynomial K) (hy : y ≤ t.deg) :
    (diffYLoop y t).deg = t.deg - y ∧ (diffYLoop y t).coeffs.length = t.coeffs.length - y := by
  induction y with
  | zero => exact ⟨rfl, rfl⟩
  | succ y ih =>
    obtain ⟨h1, h2⟩ := ih (by omega)
    rw [diffYLoop_succ_last]
    refine ⟨?_, ?_⟩
    · show decSize (diffYLoop y t).deg = t.deg - (y + 1)
      rw [h1]
      unfold decSize
      rw [if_neg (by omega)]
      omega
    · show (shiftDown 1 (diffYLoop y t).coeffs.tail).length = t.coeffs.length - (y + 1)
      rw [slots_shiftDown_length, List.length_tail, h2]
      omega

/-- C38, failing input: `TwoVarsPolynomial(1)` (or any object of outer degree
`n >= 1`) with `differentiate(timesX, n + 1)`. The loop `while (y--)` runs `n + 1`
times without looking at `deg`: its last pass pops the only slot that is left and
decrements `deg` from 0, so afterwards the slot vector is empty and the degree
field is `2^64 - 1`; `operator()` then indexes an empty vector. -/
theorem differentiate_past_degree_empties_slots (t : TwoVarsPolynomial K)
    (hlen : t.coeffs.length = t.deg + 1) (hd : t.deg ≠ 0) (x : ℕ) :
    (t.differentiate x (t.deg + 1)).coeffs = [] ∧
    (t.differentiate x (t.deg + 1)).deg = 2 ^ 64 - 1 := by
  have hdiff : t.differentiate x (t.deg + 1) = diffYLoop (t.deg + 1) ⟨t.deg, diffXLoop x t.coeffs⟩ := by
    unfold differentiate
    simp only
    rw [if_pos (Nat.succ_ne_zero _), if_pos hd]
  obtain ⟨h1, h2⟩ := diffYLoop_shape t.deg (⟨t.deg, diffXLoop x t.coeffs⟩ : TwoVarsPolynomial K)
    (le_refl _)
  simp only [diffXLoop_length, hlen, Nat.sub_self, Nat.add_sub_cancel_left] at h1 h2
  rw [hdiff, diffYLoop_succ_last]
  refine ⟨?_, ?_⟩
  · show shiftDown 1 (diffYLoop t.deg ⟨t.deg, diffXLoop x t.coeffs⟩).coeffs.tail = []
    apply List.eq_nil_of_length_eq_zero
    rw [slots_shiftDown_length, List.length_tail, h2]
  · show decSize (diffYLoop t.deg ⟨t.deg, diffXLoop x t.coeffs⟩).deg = 2 ^ 64 - 1
    rw [h1]
    rfl

theorem differentiate_past_degree_empties_slots_witness :
    (ofDegree 1 : TwoVarsPolynomial ℚ).coeffs.length = (ofDegree 1 : TwoVarsPolynomial ℚ).deg + 1 ∧
    (ofDegree 1 : TwoVarsPolynomial ℚ).deg ≠ 0 ∧
    ((ofDegree 1 : TwoVarsPolynomial ℚ).differentiate 0 2).coeffs = [] ∧
    ((ofDegree 1 : TwoVarsPolynomial ℚ).differentiate 0 2).deg = 2 ^ 64 - 1 :=
  ⟨rfl, by decide, differentiate_past_degree_empties_slots (ofDegree 1) rfl (by decide) 0⟩

end TwoVarsPolynomial
namespace Worker

/-! ## The two forms of the potential -/

theorem potentialI_eval (c : Coefficients K) (i1 i2 : K) :
    (potentialI c).eval i1 i2 = c.a0 * i1 + c.a1 * i1 ^ 2 + c.a2 * i1 ^ 3 + c.a3 * i1 ^ 4
      + c.b0 * i2 + c.b1 * i2 ^ 2 + c.d0 * i1 * i2 + c.d1 * i1 ^ 2 * i2 + c.d2 * i1 * i2 ^ 2 := by
  rw [TwoVarsPolynomial.eval_eq_slot_sum _ (by simp [potentialI, TwoVarsPolynomial.setSlot,
    TwoVarsPolynomial.ofDegree])]
  have hlen : (potentialI c).coeffs.length = 3 := rfl
  rw [hlen]
  simp only [Finset.sum_range_succ, Finset.sum_range_zero, potentialI, TwoVarsPolynomial.slot,
    TwoVarsPolynomial.setSlot, TwoVarsPolynomial.ofDegree, List.replicate, List.set_cons_succ,
    List.set_cons_zero, List.getD_cons_succ, List.getD_cons_zero, Polynomial.eval,
    Polynomial.ofList, List.isEmpty_cons, Bool.false_eq_true, if_false, List.reverse_cons,
    List.reverse_nil, List.nil_append, List.cons_append, List.foldl_cons, List.foldl_nil]
  ring

theorem potentialN_eval (c : Coefficients K) (x y : K) :
    (potentialN c).eval x y
      = (c.a0 * x ^ 2 + c.b0 * x ^ 3 + c.a1 * x ^ 4 + c.d0 * x ^ 5 + (c.a2 + c.b1) * x ^ 6
          + c.d1 * x ^ 7 + (c.a3 + c.d2) * x ^ 8)
        + (c.a0 + -3 * c.b0 * x + 2 * c.a1 * x ^ 2 + -2 * c.d0 * x ^ 3
          + 3 * (c.a2 - 2 * c.b1) * x ^ 4 + -c.d1 * x ^ 5 + (4 * c.a3 - 5 * c.d2) * x ^ 6) * y ^ 2
        + (c.a1 + -3 * c.d0 * x + 3 * (c.a2 + 3 * c.b1) * x ^ 2 + -5 * c.d1 * x ^ 3
          + 3 * (2 * c.a3 + c.d2) * x ^ 4) * y ^ 4
        + (c.a2 + -3 * c.d1 * x + (9 * c.d2 + 4 * c.a3) * x ^ 2) * y ^ 6
        + c.a3 * y ^ 8 := by
  rw [TwoVarsPolynomial.eval_eq_slot_sum _ (by simp [potentialN, TwoVarsPolynomial.setSlot,
    TwoVarsPolynomial.ofDegree])]
  have hlen : (potentialN c).coeffs.length = 9 := rfl
  rw [hlen]
  simp only [Finset.sum_range_succ, Finset.sum_range_zero, potentialN, TwoVarsPolynomial.slot,
    TwoVarsPolynomial.setSlot, TwoVarsPolynomial.ofDegree, List.replicate, List.set_cons_succ,
    List.set_cons_zero, List.getD_cons_succ, List.getD_cons_zero, Polynomial.eval,
    Polynomial.ofList, Polynomial.empty, zeros, List.isEmpty_cons, Bool.false_eq_true, if_false,
    List.reverse_cons, List.reverse_nil, List.nil_append, List.cons_append, List.foldl_cons,
    List.foldl_nil]
  ring

theorem potentialN_eq_potentialI (c : Coefficients K) (x y : K) :
    (potentialN c).eval x y = (potentialI c).eval (x ^ 2 + y ^ 2) (x ^ 3 - 3 * x * y ^ 2) := by
  rw [potentialN_eval, potentialI_eval]
  ring

/-- C32: for all nine model coefficients and all `x`, `y`, the potential built in
`isPhaseStableN` equals the potential built in `isPhaseStableI` evaluated at the
invariants, `potentialN(x, y) = potentialI(x^2 + y^2, x^3 - 3 x y^2)`, and
`potentialI(I1, I2) = a[0] I1 + a[1] I1^2 + a[2] I1^3 + a[3] I1^4 + b[0] I2
+ b[1] I2^2 + d[0] I1 I2 + d[1] I1^2 I2 + d[2] I1 I2^2`, the expression shown by
`showPotential` with the coefficients numbered from 1. -/
theorem potential_forms_agree (c : Coefficients K) :
    (∀ x y : K,
      (potentialN c).eval x y = (potentialI c).eval (x ^ 2 + y ^ 2) (x ^ 3 - 3 * x * y ^ 2)) ∧
    ∀ i1 i2 : K,
      (potentialI c).eval i1 i2 = c.a0 * i1 + c.a1 * i1 ^ 2 + c.a2 * i1 ^ 3 + c.a3 * i1 ^ 4
        + c.b0 * i2 + c.b1 * i2 ^ 2 + c.d0 * i1 * i2 + c.d1 * i1 ^ 2 * i2 + c.d2 * i1 * i2 ^ 2 :=
  ⟨potentialN_eq_potentialI c, potentialI_eval c⟩

/-- C33: for all model coefficients and every real `eta`, `eta * equation(eta)` is the
derivative with respect to `eta` of `potentialN(eta, 0)`, where `equation` is the
polynomial whose roots `getPhases` takes as candidates of phases 2 and 3; hence for
`eta != 0`, `equation(eta) = 0` if and only if that derivative vanishes. -/
theorem state_equation_is_equilibrium (c : Coefficients ℝ) (eta : ℝ) :
    HasDerivAt (fun t => (potentialN c).eval t 0)
      (eta * Polynomial.eval (Polynomial.ofList [2 * c.a0, 3 * c.b0, 4 * c.a1, 5 * c.d0,
        6 * (c.a2 + c.b1), 7 * c.d1, 8 * (c.a3 + c.d2)]) eta) eta ∧
    (eta ≠ 0 →
      (Polynomial.eval (Polynomial.ofList [2 * c.a0, 3 * c.b0, 4 * c.a1, 5 * c.d0,
        6 * (c.a2 + c.b1), 7 * c.d1, 8 * (c.a3 + c.d2)]) eta = 0 ↔
        deriv (fun t => (potentialN c).eval t 0) eta = 0)) := by
  have hf : (fun t => (potentialN c).eval t 0)
      = fun t : ℝ => c.a0 * t ^ 2 + c.b0 * t ^ 3 + c.a1 * t ^ 4 + c.d0 * t ^ 5
          + (c.a2 + c.b1) * t ^ 6 + c.d1 * t ^ 7 + (c.a3 + c.d2) * t ^ 8 := by
    funext t
    rw [potentialN_eval]
    ring
  have he : Polynomial.eval (Polynomial.ofList [2 * c.a0, 3 * c.b0, 4 * c.a1, 5 * c.d0,
      6 * (c.a2 + c.b1), 7 * c.d1, 8 * (c.a3 + c.d2)]) eta
      = 2 * c.a0 + 3 * c.b0 * eta + 4 * c.a1 * eta ^ 2 + 5 * c.d0 * eta ^ 3
        + 6 * (c.a2 + c.b1) * eta ^ 4 + 7 * c.d1 * eta ^ 5 + 8 * (c.a3 + c.d2) * eta ^ 6 := by
    simp only [Polynomial.eval, Polynomial.ofList, List.isEmpty_cons, Bool.false_eq_true,
      if_false, List.reverse_cons, List.reverse_nil, List.nil_append, List.cons_append,
      List.foldl_cons, List.foldl_nil]
    ring
  have hd : HasDerivAt (fun t => (potentialN c).eval t 0)
      (eta * Polynomial.eval (Polynomial.ofList [2 * c.a0, 3 * c.b0, 4 * c.a1, 5 * c.d0,
        6 * (c.a2 + c.b1), 7 * c.d1, 8 * (c.a3 + c.d2)]) eta) eta := by
    rw [hf, he]
    have h := ((((((((hasDerivAt_pow 2 eta).const_mul c.a0).add
      ((hasDerivAt_pow 3 eta).const_mul c.b0)).add
      ((hasDerivAt_pow 4 eta).const_mul c.a1)).add
      ((hasDerivAt_pow 5 eta).const_mul c.d0)).add
      ((hasDerivAt_pow 6 eta).const_mul (c.a2 + c.b1))).add
      ((hasDerivAt_pow 7 eta).const_mul c.d1)).add
      ((hasDerivAt_pow 8 eta).const_mul (c.a3 + c.d2)))
    convert h using 1
    push_cast
    ring
  refine ⟨hd, fun hne => ?_⟩
  rw [hd.deriv]
  constructor
  · intro h
    rw [h, mul_zero]
  · intro h
    rcases mul_eq_zero.mp h with h | h
    · exact absurd h hne
    · exact h

end Worker
namespace PhasesInfoDialog

/-! ## Symmetry-related domains -/

/-- C40: for every order parameter `n`, `getDomens` returns 1 entry for phase type 1,
3 entries for types 2 and 3 and 6 entries for type 4, the first entry being `n`
itself; for type 4, and for types 2 and 3 when `n[1] = 0`, every returned entry
`(x, y)` has the invariants of `n`, `x^2 + y^2 = n0^2 + n1^2` and
`x^3 - 3 x y^2 = n0^3 - 3 n0 n1^2`, hence the same potential for every coefficient
set; `sqrt` is exact. -/
theorem getDomens_same_invariants (M : Libm K) (hM : Polynomial.Exact M) (n : K × K) :
    getDomens M n 1 = [n] ∧
    (∀ ty, ty = 2 ∨ ty = 3 →
      (getDomens M n ty).length = 3 ∧ (getDomens M n ty).head? = some n ∧
      (n.2 = 0 → ∀ e ∈ getDomens M n ty,
        e.1 ^ 2 + e.2 ^ 2 = n.1 ^ 2 + n.2 ^ 2 ∧
        e.1 ^ 3 - 3 * e.1 * e.2 ^ 2 = n.1 ^ 3 - 3 * n.1 * n.2 ^ 2 ∧
        ∀ c : Coefficients K,
          (Worker.potentialN c).eval e.1 e.2 = (Worker.potentialN c).eval n.1 n.2)) ∧
    (getDomens M n 4).length = 6 ∧ (getDomens M n 4).head? = some n ∧
    ∀ e ∈ getDomens M n 4,
      e.1 ^ 2 + e.2 ^ 2 = n.1 ^ 2 + n.2 ^ 2 ∧
      e.1 ^ 3 - 3 * e.1 * e.2 ^ 2 = n.1 ^ 3 - 3 * n.1 * n.2 ^ 2 ∧
      ∀ c : Coefficients K,
        (Worker.potentialN c).eval e.1 e.2 = (Worker.potentialN c).eval n.1 n.2 := by
  have h3 : M.sqrt 3 ^ 2 = 3 := hM.sqrt_sq 3 (by norm_num)
  have hpot : ∀ e : K × K, e.1 ^ 2 + e.2 ^ 2 = n.1 ^ 2 + n.2 ^ 2 →
      e.1 ^ 3 - 3 * e.1 * e.2 ^ 2 = n.1 ^ 3 - 3 * n.1 * n.2 ^ 2 →
      ∀ c : Coefficients K,
        (Worker.potentialN c).eval e.1 e.2 = (Worker.potentialN c).eval n.1 n.2 := by
    intro e h1 h2 c
    rw [Worker.potentialN_eq_potentialI, Worker.potentialN_eq_potentialI, h1, h2]
  have hall : ∀ e : K × K, e.1 ^ 2 + e.2 ^ 2 = n.1 ^ 2 + n.2 ^ 2 →
      e.1 ^ 3 - 3 * e.1 * e.2 ^ 2 = n.1 ^ 3 - 3 * n.1 * n.2 ^ 2 →
      e.1 ^ 2 + e.2 ^ 2 = n.1 ^ 2 + n.2 ^ 2 ∧
      e.1 ^ 3 - 3 * e.1 * e.2 ^ 2 = n.1 ^ 3 - 3 * n.1 * n.2 ^ 2 ∧
      ∀ c : Coefficients K,
        (Worker.potentialN c).eval e.1 e.2 = (Worker.potentialN c).eval n.1 n.2 :=
    fun e h1 h2 => ⟨h1, h2, hpot e h1 h2⟩
  refine ⟨rfl, ?_, ?_, ?_, ?_⟩
  · intro ty hty
    have hd : getDomens M n ty = [n, (-(1 / 2) * n.1, 1 / 2 * M.sqrt 3 * n.1),
        (-(1 / 2) * n.1, -(1 / 2) * M.sqrt 3 * n.1)] := by
      unfold getDomens
      simp only [if_pos hty]
      rfl
    rw [hd]
    refine ⟨rfl, rfl, ?_⟩
    intro hn e he
    simp only [List.mem_cons, List.mem_singleton, List.not_mem_nil, or_false] at he
    rcases he with rfl | rfl | rfl
    · exact hall _ rfl rfl
    · apply hall
      · simp only [hn]
        linear_combination (1 / 4 * n.1 ^ 2) * h3
      · simp only [hn]
        linear_combination (3 / 8 * n.1 ^ 3) * h3
    · apply hall
      · simp only [hn]
        linear_combination (1 / 4 * n.1 ^ 2) * h3
      · simp only [hn]
        linear_combination (3 / 8 * n.1 ^ 3) * h3
  · rfl
  · rfl
  · intro e he
    have hd : getDomens M n 4 = [n,
        (-(1 / 2) * (n.1 - M.sqrt 3 * n.2), 1 / 2 * (n.2 + M.sqrt 3 * n.1)),
        (-(1 / 2) * (n.1 + M.sqrt 3 * n.2), 1 / 2 * (n.2 - M.sqrt 3 * n.1)),
        (n.1, -n.2),
        (-(1 / 2) * (n.1 - M.sqrt 3 * n.2), -(1 / 2 * (n.2 + M.sqrt 3 * n.1))),
        (-(1 / 2) * (n.1 + M.sqrt 3 * n.2), -(1 / 2 * (n.2 - M.sqrt 3 * n.1)))] := rfl
    rw [hd] at he
    simp only [List.mem_cons, List.mem_singleton, List.not_mem_nil, or_false] at he
    rcases he with rfl | rfl | rfl | rfl | rfl | rfl
    · exact hall _ rfl rfl
    · apply hall
      · linear_combination (1 / 4 * n.1 ^ 2 + 1 / 4 * n.2 ^ 2) * h3
      · linear_combination
          (1 / 8 * (3 * n.1 ^ 3 - 3 * M.sqrt 3 * n.1 ^ 2 * n.2 - 9 * n.1 * n.2 ^ 2
            + M.sqrt 3 * n.2 ^ 3)) * h3
    · apply hall
      · linear_combination (1 / 4 * n.1 ^ 2 + 1 / 4 * n.2 ^ 2) * h3
      · linear_combination
          (1 / 8 * (3 * n.1 ^ 3 + 3 * M.sqrt 3 * n.1 ^ 2 * n.2 - 9 * n.1 * n.2 ^ 2
            - M.sqrt 3 * n.2 ^ 3)) * h3
    · apply hall
      · dsimp only
        ring
      · dsimp only
        ring
    · apply hall
      · linear_combination (1 / 4 * n.1 ^ 2 + 1 / 4 * n.2 ^ 2) * h3
      · linear_combination
          (1 / 8 * (3 * n.1 ^ 3 - 3 * M.sqrt 3 * n.1 ^ 2 * n.2 - 9 * n.1 * n.2 ^ 2
            + M.sqrt 3 * n.2 ^ 3)) * h3
    · apply hall
      · linear_combination (1 / 4 * n.1 ^ 2 + 1 / 4 * n.2 ^ 2) * h3
      · linear_combination
          (1 / 8 * (3 * n.1 ^ 3 + 3 * M.sqrt 3 * n.1 ^ 2 * n.2 - 9 * n.1 * n.2 ^ 2
            - M.sqrt 3 * n.2 ^ 3)) * h3

theorem getDomens_same_invariants_witness :
    ∃ M : Libm ℝ, Polynomial.Exact M ∧ getDomens M ((1 : ℝ), 2) 1 = [(1, 2)] ∧
      (getDomens M ((1 : ℝ), 2) 4).length = 6 ∧
      ∀ e ∈ getDomens M ((1 : ℝ), 2) 4,
        e.1 ^ 2 + e.2 ^ 2 = (1 : ℝ) ^ 2 + 2 ^ 2 ∧
        e.1 ^ 3 - 3 * e.1 * e.2 ^ 2 = (1 : ℝ) ^ 3 - 3 * 1 * 2 ^ 2 := by
  obtain ⟨M, hM⟩ := Polynomial.exists_exact_libm
  have h := getDomens_same_invariants M hM ((1 : ℝ), 2)
  exact ⟨M, hM, h.1, h.2.2.1, fun e he => ⟨(h.2.2.2.2 e he).1, (h.2.2.2.2 e he).2.1⟩⟩

end PhasesInfoDialog
namespace Worker

/-! ## Records of type 4 -/

/-- The equation `4 x^3 - 3 I1 x - I2 = 0` of the conversion to order-parameter
components is solved by the closed formulas for degree 3. -/
theorem conversion_roots (M : Libm K) (fuel : ℕ) (i1 i2 : K) :
    Polynomial.roots M fuel (Polynomial.ofList [-1 * i2, -3 * i1, 0, 4])
      = some (Polynomial.getCubicEquationSolution M ⟨[-1 * i2, -3 * i1, 0, 4], 3⟩) := by
  have h4 : (zeroEps : K) ≤ |(Polynomial.ofList [-1 * i2, -3 * i1, 0, 4] : Polynomial K).coeff 3| := by
    have : (Polynomial.ofList [-1 * i2, -3 * i1, 0, 4] : Polynomial K).coeff 3 = 4 := rfl
    rw [this]
    norm_num [zeroEps]
  have hhigh : ∀ i, 3 < i →
      |(Polynomial.ofList [-1 * i2, -3 * i1, 0, 4] : Polynomial K).coeff i| < zeroEps := by
    intro i hi
    have : (Polynomial.ofList [-1 * i2, -3 * i1, 0, 4] : Polynomial K).coeff i = 0 :=
      List.getD_eq_default _ _ (by simpa [Polynomial.ofList] using hi)
    rw [this, abs_zero]
    exact Polynomial.zeroEps_pos
  rw [Polynomial.roots_eq_cubic M fuel (Polynomial.ofList [-1 * i2, -3 * i1, 0, 4])
    (show Polynomial.WF (Polynomial.ofList [-1 * i2, -3 * i1, 0, 4] : Polynomial K) by rfl)
    hhigh h4]
  rfl

theorem cubic_solution_ne_nil (M : Libm K) (p : Polynomial K) :
    (Polynomial.getCubicEquationSolution M p).isEmpty = false := by
  simp only [Polynomial.getCubicEquationSolution]
  split_ifs
  · rfl
  · rfl

/-- One pass of the loop `for (auto item : inv)`: a record is appended exactly when
`I1 > 0`, `isPhaseStableI` accepts the pair and `I1 - n0^2` exceeds `1e-10`, where
`n0` is the first value the cubic formulas return for `4 x^3 - 3 I1 x - I2`. -/
theorem phases4_cons (M : Libm K) (fuel : ℕ) (c : Coefficients K) (i1 i2 : K)
    (rest : List (K × K)) :
    phases4 M fuel c ((i1, i2) :: rest) =
      (phases4 M fuel c rest).map fun tl =>
        match isPhaseStableI c i1 i2 with
        | some f =>
          if 0 < i1 ∧ zeroEps < i1 - (Polynomial.getCubicEquationSolution M
              ⟨[-1 * i2, -3 * i1, 0, 4], 3⟩).getD 0 0 ^ 2 then
            ⟨4, f, (Polynomial.getCubicEquationSolution M ⟨[-1 * i2, -3 * i1, 0, 4], 3⟩).getD 0 0,
              M.sqrt (i1 - (Polynomial.getCubicEquationSolution M
                ⟨[-1 * i2, -3 * i1, 0, 4], 3⟩).getD 0 0 ^ 2)⟩ :: tl
          else tl
        | none => tl := by
  rw [phases4]
  rcases hrest : phases4 M fuel c rest with _ | tl
  · rfl
  · simp only [Option.map_some']
    by_cases h1 : 0 < i1
    · rw [if_pos h1]
      rcases hs : isPhaseStableI c i1 i2 with _ | f
      · rfl
      · simp only [conversion_roots, cubic_solution_ne_nil, Bool.false_eq_true, if_false, h1,
          true_and]
        split_ifs <;> rfl
    · rw [if_neg h1]
      rcases hs : isPhaseStableI c i1 i2 with _ | f
      · rfl
      · simp only [h1, false_and, if_false]

theorem phases4_records (M : Libm K) (fuel : ℕ) (c : Coefficients K) :
    ∀ inv out, phases4 M fuel c inv = some out → ∀ r ∈ out,
      ∃ item ∈ inv, 0 < item.1 ∧ isPhaseStableI c item.1 item.2 = some r.phi ∧ r.type = 4 ∧
        r.n0 = (Polynomial.getCubicEquationSolution M
          ⟨[-1 * item.2, -3 * item.1, 0, 4], 3⟩).getD 0 0 ∧
        zeroEps < item.1 - r.n0 ^ 2 ∧ r.n1 = M.sqrt (item.1 - r.n0 ^ 2) := by
  intro inv
  induction inv with
  | nil =>
    intro out h r hr
    simp only [phases4, Option.some.injEq] at h
    subst h
    simp at hr
  | cons item rest ih =>
    intro out h r hr
    obtain ⟨i1, i2⟩ := item
    rw [phases4_cons] at h
    rcases hrest : phases4 M fuel c rest with _ | tl
    · rw [hrest] at h
      simp at h
    · rw [hrest] at h
      simp only [Option.map_some', Option.some.injEq] at h
      have htl : r ∈ tl → ∃ item ∈ (i1, i2) :: rest, 0 < item.1 ∧
          isPhaseStableI c item.1 item.2 = some r.phi ∧ r.type = 4 ∧
          r.n0 = (Polynomial.getCubicEquationSolution M
            ⟨[-1 * item.2, -3 * item.1, 0, 4], 3⟩).getD 0 0 ∧
          zeroEps < item.1 - r.n0 ^ 2 ∧ r.n1 = M.sqrt (item.1 - r.n0 ^ 2) := by
        intro hr
        obtain ⟨item, hi, hrest⟩ := ih tl hrest r hr
        exact ⟨item, List.mem_cons_of_mem _ hi, hrest⟩
      rcases hs : isPhaseStableI c i1 i2 with _ | f
      · rw [hs] at h
        simp only at h
        subst h
        exact htl hr
      · rw [hs] at h
        simp only at h
        split_ifs at h with hc
        · subst h
          rcases List.mem_cons.mp hr with rfl | hr
          · exact ⟨(i1, i2), List.mem_cons_self _ _, hc.1, hs, rfl, rfl, hc.2, rfl⟩
          · exact htl hr
        · subst h
          exact htl hr

theorem getPhases_parts (M : Libm K) (fuel : ℕ) (c : Coefficients K) (out : List (PhaseInfo K))
    (h : getPhases M fuel c = some out) :
    ∃ sol inv l4,
      Polynomial.roots M fuel (Polynomial.ofList [2 * c.a0, 3 * c.b0, 4 * c.a1, 5 * c.d0,
        6 * (c.a2 + c.b1), 7 * c.d1, 8 * (c.a3 + c.d2)]) = some sol ∧
      phase4Invariants M fuel c = some inv ∧ phases4 M fuel c inv = some l4 ∧
      out = (if 0 < c.a0 then [⟨1, 0, 0, 0⟩] else []) ++ phases23 c sol ++ l4 := by
  unfold getPhases at h
  simp only at h
  rcases hsol : (Polynomial.ofList [2 * c.a0, 3 * c.b0, 4 * c.a1, 5 * c.d0,
    6 * (c.a2 + c.b1), 7 * c.d1, 8 * (c.a3 + c.d2)]).roots M fuel with _ | solution
  · rw [hsol] at h
    simp at h
  · rw [hsol] at h
    simp only at h
    rcases hinv : phase4Invariants M fuel c with _ | inv
    · rw [hinv] at h
      simp at h
    · rw [hinv] at h
      simp only at h
      rcases h4 : phases4 M fuel c inv with _ | info4
      · rw [h4] at h
        simp at h
      · rw [h4] at h
        simp only [Option.some.injEq] at h
        exact ⟨solution, inv, info4, rfl, rfl, h4, h.symm⟩

/-- A record of type 4 in the result of `getPhases` comes from the loop over the
invariant pairs. -/
theorem getPhases_type_four (M : Libm K) (fuel : ℕ) (c : Coefficients K)
    (out : List (PhaseInfo K)) (h : getPhases M fuel c = some out) (r : PhaseInfo K)
    (hr : r ∈ out) (h4 : r.type = 4) :
    ∃ inv, phase4Invariants M fuel c = some inv ∧ ∃ item ∈ inv, 0 < item.1 ∧
      isPhaseStableI c item.1 item.2 = some r.phi ∧
      r.n0 = (Polynomial.getCubicEquationSolution M
        ⟨[-1 * item.2, -3 * item.1, 0, 4], 3⟩).getD 0 0 ∧
      zeroEps < item.1 - r.n0 ^ 2 ∧ r.n1 = M.sqrt (item.1 - r.n0 ^ 2) := by
  obtain ⟨sol, inv, l4, _, hinv, hl4, rfl⟩ := getPhases_parts M fuel c out h
  refine ⟨inv, hinv, ?_⟩
  simp only [List.mem_append] at hr
  rcases hr with (hr | hr) | hr
  · split_ifs at hr
    · simp only [List.mem_singleton] at hr
      subst hr
      simp at h4
    · simp at hr
  · have := (phases23_spec c sol r hr).1
    omega
  · obtain ⟨item, hi, h1, h2, _, h3, h5, h6⟩ := phases4_records M fuel c inv l4 hl4 r hr
    exact ⟨item, hi, h1, h2, h3, h5, h6⟩

theorem conversion_identities (M : Libm K) (hM : Polynomial.Exact M) (i1 i2 : K)
    (hsq : zeroEps < i1 - (Polynomial.getCubicEquationSolution M
      ⟨[-1 * i2, -3 * i1, 0, 4], 3⟩).getD 0 0 ^ 2) :
    (Polynomial.getCubicEquationSolution M ⟨[-1 * i2, -3 * i1, 0, 4], 3⟩).getD 0 0 ^ 2
      + M.sqrt (i1 - (Polynomial.getCubicEquationSolution M
        ⟨[-1 * i2, -3 * i1, 0, 4], 3⟩).getD 0 0 ^ 2) ^ 2 = i1 ∧
    (Polynomial.getCubicEquationSolution M ⟨[-1 * i2, -3 * i1, 0, 4], 3⟩).getD 0 0 ^ 3
      - 3 * (Polynomial.getCubicEquationSolution M ⟨[-1 * i2, -3 * i1, 0, 4], 3⟩).getD 0 0
        * M.sqrt (i1 - (Polynomial.getCubicEquationSolution M
          ⟨[-1 * i2, -3 * i1, 0, 4], 3⟩).getD 0 0 ^ 2) ^ 2 = i2 ∧
    (1 / 10 ^ 5 : K) < M.sqrt (i1 - (Polynomial.getCubicEquationSolution M
      ⟨[-1 * i2, -3 * i1, 0, 4], 3⟩).getD 0 0 ^ 2) := by
  have hroot := Polynomial.cubic_head_root M hM
    (⟨[-1 * i2, -3 * i1, 0, 4], 3⟩ : Polynomial K)
    (by
      show (4 : K) ≠ 0
      norm_num)
  have h3 : (⟨[-1 * i2, -3 * i1, 0, 4], 3⟩ : Polynomial K).coeff 3 = 4 := rfl
  have h2 : (⟨[-1 * i2, -3 * i1, 0, 4], 3⟩ : Polynomial K).coeff 2 = 0 := rfl
  have h1 : (⟨[-1 * i2, -3 * i1, 0, 4], 3⟩ : Polynomial K).coeff 1 = -3 * i1 := rfl
  have h0 : (⟨[-1 * i2, -3 * i1, 0, 4], 3⟩ : Polynomial K).coeff 0 = -1 * i2 := rfl
  rw [h3, h2, h1, h0] at hroot
  generalize (Polynomial.getCubicEquationSolution M
    (⟨[-1 * i2, -3 * i1, 0, 4], 3⟩ : Polynomial K)).getD 0 0 = n0 at hroot hsq ⊢
  have hpos : (0 : K) < zeroEps := Polynomial.zeroEps_pos
  have hs2 := hM.sqrt_sq (i1 - n0 ^ 2) (by linarith)
  have hs0 := hM.sqrt_nonneg (i1 - n0 ^ 2)
  generalize M.sqrt (i1 - n0 ^ 2) = s at hs2 hs0 ⊢
  refine ⟨by linarith, by linear_combination hroot - 3 * n0 * hs2, ?_⟩
  by_contra hcon
  have hle : s ≤ 1 / 10 ^ 5 := not_lt.mp hcon
  have hsq2 : s ^ 2 ≤ (1 / 10 ^ 5) ^ 2 := pow_le_pow_left₀ hs0 hle 2
  have he : ((1 : K) / 10 ^ 5) ^ 2 = zeroEps := by
    unfold zeroEps
    norm_num
  rw [he, hs2] at hsq2
  linarith

/-- C34: every record of type 4 that `getPhases` returns comes from an invariant pair
`(I1, I2)` of the vector `inv` with `I1 > 0` that `isPhaseStableI` accepts, and its
order parameter reproduces both invariants: `n0^2 + n1^2 = I1` and
`n0^3 - 3 n0 n1^2 = I2`, with `n1 = sqrt(I1 - n0^2)` and `I1 - n0^2 > 1e-10`; a pair
for which `I1 - n0^2 <= 1e-10` (`n0` the first value returned for
`4 x^3 - 3 I1 x - I2`) adds no record.  The `<cmath>` functions are exact, and
`getPhases` returns for every sufficient fuel. -/
theorem phase4_record_reproduces_invariants [Archimedean K] (M : Libm K)
    (hM : Polynomial.Exact M) (c : Coefficients K) :
    (∃ N, ∀ fuel, N ≤ fuel → ∃ out, getPhases M fuel c = some out) ∧
    (∀ fuel out, getPhases M fuel c = some out → ∀ r ∈ out, r.type = 4 →
      ∃ inv, phase4Invariants M fuel c = some inv ∧ ∃ item ∈ inv,
        0 < item.1 ∧ isPhaseStableI c item.1 item.2 = some r.phi ∧
        zeroEps < item.1 - r.n0 ^ 2 ∧ r.n1 = M.sqrt (item.1 - r.n0 ^ 2) ∧
        r.n0 ^ 2 + r.n1 ^ 2 = item.1 ∧ r.n0 ^ 3 - 3 * r.n0 * r.n1 ^ 2 = item.2) ∧
    ∀ (fuel : ℕ) (i1 i2 : K) (rest : List (K × K)),
      ¬ zeroEps < i1 - (Polynomial.getCubicEquationSolution M
        ⟨[-1 * i2, -3 * i1, 0, 4], 3⟩).getD 0 0 ^ 2 →
      phases4 M fuel c ((i1, i2) :: rest) = phases4 M fuel c rest := by
  refine ⟨getPhases_terminates M c, ?_, ?_⟩
  · intro fuel out h r hr h4
    obtain ⟨inv, hinv, item, hi, h1, h2, h3, h5, h6⟩ :=
      getPhases_type_four M fuel c out h r hr h4
    rw [h3] at h5
    have hid := conversion_identities M hM item.1 item.2 h5
    rw [← h3] at h5 hid
    rw [← h6] at hid
    exact ⟨inv, hinv, item, hi, h1, h2, h5, h6, hid.1, hid.2.1⟩
  · intro fuel i1 i2 rest hsq
    rw [phases4_cons]
    rcases phases4 M fuel c rest with _ | tl
    · rfl
    · simp only [Option.map_some']
      rcases isPhaseStableI c i1 i2 with _ | f
      · rfl
      · simp only [hsq, and_false, if_false]

/-- C37: for every coefficient set, `getPhases` returns (for every sufficient fuel),
and in the returned list every record has a type in `{1, 2, 3, 4}`; the records come
in the order type 1, then types 2 and 3, then type 4; every record of type 2 or 3
has second order-parameter component exactly 0; every record of type 4 has a second
component strictly greater than `1e-5` and comes from an invariant pair of `inv`
with `I1 > 0`.  The `<cmath>` functions are exact. -/
theorem getPhases_record_invariants [Archimedean K] (M : Libm K) (hM : Polynomial.Exact M)
    (c : Coefficients K) :
    (∃ N, ∀ fuel, N ≤ fuel → ∃ out, getPhases M fuel c = some out) ∧
    ∀ fuel out, getPhases M fuel c = some out →
      (∀ r ∈ out, r.type = 1 ∨ r.type = 2 ∨ r.type = 3 ∨ r.type = 4) ∧
      (∃ l1 l23 l4, out = l1 ++ l23 ++ l4 ∧ (∀ r ∈ l1, r.type = 1) ∧
        (∀ r ∈ l23, r.type = 2 ∨ r.type = 3) ∧ ∀ r ∈ l4, r.type = 4) ∧
      (∀ r ∈ out, r.type = 2 ∨ r.type = 3 → r.n1 = 0) ∧
      ∀ r ∈ out, r.type = 4 → 1 / 10 ^ 5 < r.n1 ∧
        ∃ inv, phase4Invariants M fuel c = some inv ∧ ∃ item ∈ inv, 0 < item.1 ∧
          r.n1 = M.sqrt (item.1 - r.n0 ^ 2) := by
  refine ⟨getPhases_terminates M c, fun fuel out h => ?_⟩
  obtain ⟨l23, l4, hout, h23, h4⟩ := getPhases_spec M fuel c out h
  have h1 : ∀ r ∈ (if 0 < c.a0 then [(⟨1, 0, 0, 0⟩ : PhaseInfo K)] else []),
      r.type = 1 ∧ r.n1 = 0 := by
    intro r hr
    split_ifs at hr
    · simp only [List.mem_singleton] at hr
      subst hr
      exact ⟨rfl, rfl⟩
    · simp at hr
  refine ⟨?_, ⟨_, l23, l4, hout, fun r hr => (h1 r hr).1, fun r hr => (h23 r hr).1, h4⟩, ?_, ?_⟩
  · intro r hr
    have := getPhases_types M fuel c out h r hr
    omega
  · intro r hr _
    rw [hout] at hr
    simp only [List.mem_append] at hr
    rcases hr with (hr | hr) | hr
    · exact (h1 r hr).2
    · exact (h23 r hr).2.2
    · have := h4 r hr
      omega
  · intro r hr hty
    obtain ⟨inv, hinv, item, hi, hpos, _, h3, h5, h6⟩ :=
      getPhases_type_four M fuel c out h r hr hty
    rw [h3] at h5
    have hid := conversion_identities M hM item.1 item.2 h5
    rw [← h3] at hid
    rw [← h6] at hid
    exact ⟨hid.2.2, inv, hinv, item, hi, hpos, h6⟩

theorem getPhases_record_invariants_witness :
    ∃ M : Libm ℝ, Polynomial.Exact M ∧
      (∃ N, ∀ fuel, N ≤ fuel → ∃ out, getPhases M fuel
        ({ a0 := -1, a1 := 1, a2 := 0, a3 := 0, b0 := -1, b1 := 1, d0 := 0, d1 := 0, d2 := 0 } :
          Coefficients ℝ) = some out) ∧
      ∀ fuel out, getPhases M fuel
        ({ a0 := -1, a1 := 1, a2 := 0, a3 := 0, b0 := -1, b1 := 1, d0 := 0, d1 := 0, d2 := 0 } :
          Coefficients ℝ) = some out →
        (∀ r ∈ out, r.type = 1 ∨ r.type = 2 ∨ r.type = 3 ∨ r.type = 4) ∧
        (∀ r ∈ out, r.type = 2 ∨ r.type = 3 → r.n1 = 0) ∧
        ∀ r ∈ out, r.type = 4 → 1 / 10 ^ 5 < r.n1 := by
  obtain ⟨M, hM⟩ := Polynomial.exists_exact_libm
  have h := getPhases_record_invariants M hM
    ({ a0 := -1, a1 := 1, a2 := 0, a3 := 0, b0 := -1, b1 := 1, d0 := 0, d1 := 0, d2 := 0 } :
      Coefficients ℝ)
  refine ⟨M, hM, h.1, fun fuel out hout => ?_⟩
  obtain ⟨h1, _, h3, h4⟩ := h.2 fuel out hout
  exact ⟨h1, h3, fun r hr hty => (h4 r hr hty).1⟩

end Worker
namespace Worker

/-! ## The sign rule of the general phase-4 branch -/

/-- With `s >= 0`, `s^2 = B^2 - 4AC` and `E^2 (B^2 - 4AC) = G^2` for `G = BE - 2AF`,
the root `(-B + s) / (2A)` of `A t^2 + B t + C` solves `F + E t = 0` when
`E G >= 0`, and the root `(-B - s) / (2A)` does when `E G < 0`. -/
theorem sign_rule_branch (A B C E F s : K) (hA : A ≠ 0) (hs0 : 0 ≤ s)
    (hs2 : s ^ 2 = B ^ 2 - 4 * A * C)
    (hroot : E ^ 2 * (B ^ 2 - 4 * A * C) = (B * E - 2 * A * F) ^ 2) :
    (0 ≤ E * (B * E - 2 * A * F) →
      A * (1 / 2 * (-B + s) / A) ^ 2 + B * (1 / 2 * (-B + s) / A) + C = 0 ∧
      F + E * (1 / 2 * (-B + s) / A) = 0) ∧
    (¬ 0 ≤ E * (B * E - 2 * A * F) →
      A * (1 / 2 * (-B - s) / A) ^ 2 + B * (1 / 2 * (-B - s) / A) + C = 0 ∧
      F + E * (1 / 2 * (-B - s) / A) = 0) := by
  have hprod : (E * s - (B * E - 2 * A * F)) * (E * s + (B * E - 2 * A * F)) = 0 := by
    linear_combination E ^ 2 * hs2 + hroot
  constructor
  · intro hsign
    have hEs : E * s = B * E - 2 * A * F := by
      rcases mul_eq_zero.mp hprod with h | h
      · linarith
      · have hG : B * E - 2 * A * F = -(E * s) := by linarith
        have h1 : 0 ≤ s * (E * (B * E - 2 * A * F)) := mul_nonneg hs0 hsign
        have h2 : s * (E * (B * E - 2 * A * F)) = -(B * E - 2 * A * F) ^ 2 := by
          rw [hG]
          ring
        have h3 : (B * E - 2 * A * F) ^ 2 = 0 := by
          have := sq_nonneg (B * E - 2 * A * F)
          linarith
        have h4 : B * E - 2 * A * F = 0 := pow_eq_zero_iff (by norm_num) |>.mp h3
        linarith
    constructor
    · field_simp
      linear_combination (2 * A ^ 2) * hs2
    · field_simp
      linear_combination hEs
  · intro hsign
    have hneg : E * (B * E - 2 * A * F) < 0 := not_le.mp hsign
    have hEs : E * s = -(B * E - 2 * A * F) := by
      rcases mul_eq_zero.mp hprod with h | h
      · have hG : E * s = B * E - 2 * A * F := by linarith
        have h1 : s * (E * (B * E - 2 * A * F)) ≤ 0 :=
          mul_nonpos_of_nonneg_of_nonpos hs0 hneg.le
        have h2 : s * (E * (B * E - 2 * A * F)) = (B * E - 2 * A * F) ^ 2 := by
          rw [← hG]
          ring
        have h3 : (B * E - 2 * A * F) ^ 2 = 0 := by
          have := sq_nonneg (B * E - 2 * A * F)
          linarith
        have h4 : B * E - 2 * A * F = 0 := pow_eq_zero_iff (by norm_num) |>.mp h3
        rw [h4, mul_zero] at hneg
        exact absurd hneg (lt_irrefl _)
      · linarith
    constructor
    · field_simp
      linear_combination (2 * A ^ 2) * hs2
    · field_simp
      linear_combination -hEs

/-- C35: in the general phase-4 branch (`d[2] != 0`), with `A`, `B`, `C`, `D`, `E`, `F`,
`G` the polynomials built in `getPhases`: for every value `v` returned by `roots()`
for the equation `E^2 D - G^2` such that `D(v) >= 0`, the values of `D` and `G` at
`v` are the exact expressions `B(v)^2 - 4 A C(v)` and `B(v) E(v) - 2 A F(v)`,
`E(v)^2 D(v) = G(v)^2` and `sqrt` is exact at `D(v)`, the pair `(v, t)` is stored in
`inv` with `t` chosen by the sign rule (plus root when `E(v) G(v) >= 0`, minus root
otherwise), and `t` satisfies both `A t^2 + B(v) t + C(v) = 0` and
`F(v) + E(v) t = 0`. -/
theorem phase4_sign_rule_selects_branch (M : Libm K) (c : Coefficients K) (hd2 : c.d2 ≠ 0)
    (pA pB pC pD pE pF pG : Polynomial K)
    (hA : pA = Polynomial.ofList [c.d2]) (hB : pB = Polynomial.ofList [c.d0, 2 * c.d1])
    (hC : pC = Polynomial.ofList [c.a0, 2 * c.a1, 3 * c.a2, 4 * c.a3])
    (hD : pD = (pB.mul pB).sub ((Polynomial.smulLeft 4 pA).mul pC))
    (hE : pE = Polynomial.ofList [2 * c.b1, 2 * c.d2])
    (hF : pF = Polynomial.ofList [c.b0, c.d0, c.d1])
    (hG : pG = (pB.mul pE).sub ((Polynomial.smulLeft 2 pA).mul pF))
    (fuel : ℕ) (sol : List K)
    (hsol : Polynomial.roots M fuel (((pE.mul pE).mul pD).sub (pG.mul pG)) = some sol)
    (v : K) (hv : v ∈ sol)
    (hDv : pD.eval v = pB.eval v ^ 2 - 4 * pA.eval v * pC.eval v)
    (hGv : pG.eval v = pB.eval v * pE.eval v - 2 * pA.eval v * pF.eval v)
    (hs0 : 0 ≤ M.sqrt (pD.eval v)) (hs2 : M.sqrt (pD.eval v) ^ 2 = pD.eval v)
    (hD0 : 0 ≤ pD.eval v) (hroot : pE.eval v ^ 2 * pD.eval v = pG.eval v ^ 2) :
    ∃ inv t, phase4Invariants M fuel c = some inv ∧ (v, t) ∈ inv ∧
      t = (if 0 ≤ pE.eval v * pG.eval v
        then 1 / 2 * (-pB.eval v + M.sqrt (pD.eval v)) / pA.eval v
        else 1 / 2 * (-pB.eval v - M.sqrt (pD.eval v)) / pA.eval v) ∧
      pA.eval v * t ^ 2 + pB.eval v * t + pC.eval v = 0 ∧
      pF.eval v + pE.eval v * t = 0 := by
  have hAv : pA.eval v = c.d2 := by
    rw [hA]
    rfl
  have hA0 : pA.eval v ≠ 0 := by
    rw [hAv]
    exact hd2
  have hinv : phase4Invariants M fuel c = some (sol.filterMap fun value =>
      if 0 ≤ pD.eval value then
        if 0 ≤ pE.eval value * pG.eval value then
          some (value, 1 / 2 * (-pB.eval value + M.sqrt (pD.eval value)) / pA.eval value)
        else
          some (value, 1 / 2 * (-pB.eval value - M.sqrt (pD.eval value)) / pA.eval value)
      else none) := by
    subst hA hB hC hE hF
    subst hD hG
    unfold phase4Invariants
    simp only [if_neg hd2, hsol, Option.map_some']
  have hbr := sign_rule_branch (pA.eval v) (pB.eval v) (pC.eval v) (pE.eval v) (pF.eval v)
    (M.sqrt (pD.eval v)) hA0 hs0 (by rw [hs2, hDv]) (by rw [← hDv, ← hGv]; exact hroot)
  rw [← hGv] at hbr
  refine ⟨_, _, hinv, ?_, rfl, ?_⟩
  · rw [List.mem_filterMap]
    refine ⟨v, hv, ?_⟩
    rw [if_pos hD0]
    by_cases hsign : 0 ≤ pE.eval v * pG.eval v
    · rw [if_pos hsign, if_pos hsign]
    · rw [if_neg hsign, if_neg hsign]
  · by_cases hsign : 0 ≤ pE.eval v * pG.eval v
    · rw [if_pos hsign]
      exact hbr.1 hsign
    · rw [if_neg hsign]
      exact hbr.2 hsign

theorem phase4_sign_rule_selects_branch_witness :
    (⟨-1, 0, 0, 0, 0, 0, 0, 0, 1⟩ : Coefficients ℚ).d2 ≠ 0 ∧
    phase4Invariants ratLibm 0 (⟨-1, 0, 0, 0, 0, 0, 0, 0, 1⟩ : Coefficients ℚ) = some [(0, 1)] ∧
    ∃ inv t, phase4Invariants ratLibm 0 (⟨-1, 0, 0, 0, 0, 0, 0, 0, 1⟩ : Coefficients ℚ)
        = some inv ∧ ((0 : ℚ), t) ∈ inv ∧
      Polynomial.eval (Polynomial.ofList [(1 : ℚ)]) 0 * t ^ 2
        + Polynomial.eval (Polynomial.ofList [(0 : ℚ), 2 * 0]) 0 * t
        + Polynomial.eval (Polynomial.ofList [(-1 : ℚ), 2 * 0, 3 * 0, 4 * 0]) 0 = 0 ∧
      Polynomial.eval (Polynomial.ofList [(0 : ℚ), 0, 0]) 0
        + Polynomial.eval (Polynomial.ofList [(2 : ℚ) * 0, 2 * 1]) 0 * t = 0 := by
  have h := phase4_sign_rule_selects_branch ratLibm (⟨-1, 0, 0, 0, 0, 0, 0, 0, 1⟩ : Coefficients ℚ)
    (by decide) _ _ _ _ _ _ _ rfl rfl rfl rfl rfl rfl rfl 0 [0] (by decide!) 0 (by decide)
    (by decide!) (by decide!) (by decide!) (by decide!) (by decide!) (by decide!)
  obtain ⟨inv, t, h1, h2, _, h4, h5⟩ := h
  exact ⟨by decide, by decide!, inv, t, h1, h2, h4, h5⟩

end Worker
namespace Polynomial

/-! ## Ferrari's method -/

theorem roots_eq_quartic (M : Libm K) (fuel : Nat) (p : Polynomial K) (hwf : WF p)
    (hhigh : ∀ i, 4 < i → |p.coeff i| < zeroEps) (ha : zeroEps ≤ |p.coeff 4|) :
    roots M fuel p = some (getQuarticEquationSolution M ⟨p.coeffs.take 5, 4⟩) := by
  have hlen : 4 < p.coeffs.length := by
    by_contra h
    have : p.coeffs.getD 4 0 = 0 := List.getD_eq_default _ _ (by omega)
    simp only [coeff, this, abs_zero] at ha
    exact absurd zeroEps_pos (not_lt.mpr ha)
  unfold roots
  rw [correctDegree_eq_take p hwf 4 hlen hhigh (Or.inr ha)]
  rfl

theorem lead_ne_zero_four (p : Polynomial K) (ha : zeroEps ≤ |p.coeff 4|) : p.coeff 4 ≠ 0 := by
  intro h
  rw [h, abs_zero] at ha
  exact absurd zeroEps_pos (not_lt.mpr ha)

/-- The values `getQuadraticEquationSolution` returns for a monic quadratic
`x^2 + P x + Q`: roots, or the vertex `-P/2` when the discriminant is below `1e-10` in
absolute value. -/
theorem monic_quadratic_values (M : Libm K) (hM : Exact M) (P Q : K) (q : Polynomial K)
    (x : K) (hx : x ∈ getQuadraticEquationSolution M q)
    (h2 : q.coeff 2 = 1) (h1 : q.coeff 1 = P) (h0 : q.coeff 0 = Q) :
    x ^ 2 + P * x + Q = 0 ∨ (|P ^ 2 - 4 * Q| < zeroEps ∧ x = -P / 2) := by
  simp only [getQuadraticEquationSolution, h2, h1, h0] at hx
  have he : P ^ 2 - 4 * 1 * Q = P ^ 2 - 4 * Q := by ring
  rw [he] at hx
  by_cases hd : |P ^ 2 - 4 * Q| < zeroEps
  · rw [if_pos hd, List.mem_singleton] at hx
    right
    refine ⟨hd, ?_⟩
    rw [hx]
    ring
  · rw [if_neg hd] at hx
    by_cases hpos : 0 < P ^ 2 - 4 * Q
    · rw [if_pos hpos] at hx
      have hs := hM.sqrt_sq (P ^ 2 - 4 * Q) hpos.le
      left
      simp only [List.mem_cons, List.mem_singleton, List.mem_nil_iff, or_false] at hx
      rcases hx with rfl | rfl
      · linear_combination (1 / 4) * hs
      · linear_combination (1 / 4) * hs
    · rw [if_neg hpos] at hx
      simp at hx

/-- The two quadratics of Ferrari's method multiply to the monic quartic when `y` is a
root of the resolvent and `s^2 = b^2/4 - c + y` with `s != 0`. -/
theorem ferrari_factorization (b c d e y s : K) (hs : s ≠ 0)
    (hs2 : s ^ 2 = (b / 2) ^ 2 - c + y)
    (hy : 1 * y ^ 3 + -c * y ^ 2 + (b * d - 4 * e) * y + (e * (4 * c - b ^ 2) - d ^ 2) = 0)
    (x : K) :
    (x ^ 2 + (b / 2 - s) * x + 1 / 2 * (y - (b * y / 2 - d) / s))
        * (x ^ 2 + (b / 2 + s) * x + 1 / 2 * (y + (b * y / 2 - d) / s))
      = x ^ 4 + b * x ^ 3 + c * x ^ 2 + d * x + e := by
  have hu : (b * y / 2 - d) / s * s = b * y / 2 - d := div_mul_cancel₀ _ hs
  generalize (b * y / 2 - d) / s = u at hu ⊢
  have hq : y ^ 2 - 4 * e - u ^ 2 = 0 := by
    have h : (y ^ 2 - 4 * e - u ^ 2) * s ^ 2 = 0 := by
      linear_combination hy + (y ^ 2 - 4 * e) * hs2 - (u * s + (b * y / 2 - d)) * hu
    rcases mul_eq_zero.mp h with h | h
    · exact h
    · exact absurd (pow_eq_zero_iff (by norm_num) |>.mp h) hs
  linear_combination (-x ^ 2) * hs2 + (-x) * hu + (1 / 4) * hq

theorem sqrt_one_eq (M : Libm K) (hM : Exact M) : M.sqrt 1 = 1 := by
  have h0 := hM.sqrt_nonneg 1
  have h2 := hM.sqrt_sq 1 (by norm_num)
  have h : (M.sqrt 1 - 1) * (M.sqrt 1 + 1) = 0 := by linear_combination h2
  rcases mul_eq_zero.mp h with h | h
  · linarith
  · linarith

/-- For `(x^2 - 2x + 1 - 1e-11) (x^2 + 1)` the resolvent root taken by
`getQuarticEquationSolution` is `2 - 1e-11`: the resolvent is
`(y - (2 - 1e-11)) (y^2 + 4e-11)`. -/
theorem flat_factor_resolvent (M : Libm K) (hM : Exact M) :
    (getCubicEquationSolution M
      (⟨[-8 / 10 ^ 11 + 4 / 10 ^ 22, 4 / 10 ^ 11, -(2 - 1 / 10 ^ 11), 1], 3⟩ : Polynomial K)).getD
        0 0 = 2 - 1 / 10 ^ 11 := by
  have hroot := cubic_head_root M hM
    (⟨[-8 / 10 ^ 11 + 4 / 10 ^ 22, 4 / 10 ^ 11, -(2 - 1 / 10 ^ 11), 1], 3⟩ : Polynomial K)
    (by
      show (1 : K) ≠ 0
      exact one_ne_zero)
  have h3 : (⟨[-8 / 10 ^ 11 + 4 / 10 ^ 22, 4 / 10 ^ 11, -(2 - 1 / 10 ^ 11), 1], 3⟩ :
      Polynomial K).coeff 3 = 1 := rfl
  have h2 : (⟨[-8 / 10 ^ 11 + 4 / 10 ^ 22, 4 / 10 ^ 11, -(2 - 1 / 10 ^ 11), 1], 3⟩ :
      Polynomial K).coeff 2 = -(2 - 1 / 10 ^ 11) := rfl
  have h1 : (⟨[-8 / 10 ^ 11 + 4 / 10 ^ 22, 4 / 10 ^ 11, -(2 - 1 / 10 ^ 11), 1], 3⟩ :
      Polynomial K).coeff 1 = 4 / 10 ^ 11 := rfl
  have h0 : (⟨[-8 / 10 ^ 11 + 4 / 10 ^ 22, 4 / 10 ^ 11, -(2 - 1 / 10 ^ 11), 1], 3⟩ :
      Polynomial K).coeff 0 = -8 / 10 ^ 11 + 4 / 10 ^ 22 := rfl
  rw [h3, h2, h1, h0] at hroot
  generalize (getCubicEquationSolution M
    (⟨[-8 / 10 ^ 11 + 4 / 10 ^ 22, 4 / 10 ^ 11, -(2 - 1 / 10 ^ 11), 1], 3⟩ : Polynomial K)).getD
      0 0 = y at hroot ⊢
  have hfac : (y - (2 - 1 / 10 ^ 11)) * (y ^ 2 + 4 / 10 ^ 11) = 0 := by
    linear_combination hroot
  rcases mul_eq_zero.mp hfac with h | h
  · linarith
  · have : 0 ≤ y ^ 2 := sq_nonneg y
    have hp : (0 : K) < 4 / 10 ^ 11 := by positivity
    linarith

/-- The run of `roots()` on `(x^2 - 2x + 1 - 1e-11) (x^2 + 1)`. -/
theorem flat_factor_roots (M : Libm K) (hM : Exact M) (fuel : ℕ) :
    roots M fuel (ofList [1 - 1 / 10 ^ 11, -2, 2 - 1 / 10 ^ 11, -2, 1]) = some [1] := by
  have hhigh : ∀ i, 4 < i →
      |(ofList [1 - 1 / 10 ^ 11, -2, 2 - 1 / 10 ^ 11, -2, 1] : Polynomial K).coeff i|
        < zeroEps := by
    intro i hi
    have : (ofList [1 - 1 / 10 ^ 11, -2, 2 - 1 / 10 ^ 11, -2, 1] : Polynomial K).coeff i = 0 :=
      List.getD_eq_default _ _ (by simpa [ofList] using hi)
    rw [this, abs_zero]
    exact zeroEps_pos
  have ha : zeroEps
      ≤ |(ofList [1 - 1 / 10 ^ 11, -2, 2 - 1 / 10 ^ 11, -2, 1] : Polynomial K).coeff 4| := by
    have : (ofList [1 - 1 / 10 ^ 11, -2, 2 - 1 / 10 ^ 11, -2, 1] : Polynomial K).coeff 4 = 1 :=
      rfl
    rw [this]
    norm_num [zeroEps]
  rw [roots_eq_quartic M fuel _ (by rfl) hhigh ha]
  have hp : (⟨(ofList [1 - 1 / 10 ^ 11, -2, 2 - 1 / 10 ^ 11, -2, 1] : Polynomial K).coeffs.take 5,
      4⟩ : Polynomial K) = ⟨[1 - 1 / 10 ^ 11, -2, 2 - 1 / 10 ^ 11, -2, 1], 4⟩ := rfl
  rw [hp]
  have hb : (⟨[1 - 1 / 10 ^ 11, -2, 2 - 1 / 10 ^ 11, -2, 1], 4⟩ : Polynomial K).coeff 3
      / (⟨[1 - 1 / 10 ^ 11, -2, 2 - 1 / 10 ^ 11, -2, 1], 4⟩ : Polynomial K).coeff 4 = -2 := by
    norm_num [coeff]
  have hc : (⟨[1 - 1 / 10 ^ 11, -2, 2 - 1 / 10 ^ 11, -2, 1], 4⟩ : Polynomial K).coeff 2
      / (⟨[1 - 1 / 10 ^ 11, -2, 2 - 1 / 10 ^ 11, -2, 1], 4⟩ : Polynomial K).coeff 4
      = 2 - 1 / 10 ^ 11 := by
    norm_num [coeff]
  have hd : (⟨[1 - 1 / 10 ^ 11, -2, 2 - 1 / 10 ^ 11, -2, 1], 4⟩ : Polynomial K).coeff 1
      / (⟨[1 - 1 / 10 ^ 11, -2, 2 - 1 / 10 ^ 11, -2, 1], 4⟩ : Polynomial K).coeff 4 = -2 := by
    norm_num [coeff]
  have he : (⟨[1 - 1 / 10 ^ 11, -2, 2 - 1 / 10 ^ 11, -2, 1], 4⟩ : Polynomial K).coeff 0
      / (⟨[1 - 1 / 10 ^ 11, -2, 2 - 1 / 10 ^ 11, -2, 1], 4⟩ : Polynomial K).coeff 4
      = 1 - 1 / 10 ^ 11 := by
    norm_num [coeff]
  have hres : (ofList [(1 - 1 / 10 ^ 11) * (4 * (2 - 1 / 10 ^ 11) - (-2) ^ 2) - (-2) ^ 2,
      -2 * -2 - 4 * (1 - 1 / 10 ^ 11), -(2 - 1 / 10 ^ 11), 1] : Polynomial K)
      = ⟨[-8 / 10 ^ 11 + 4 / 10 ^ 22, 4 / 10 ^ 11, -(2 - 1 / 10 ^ 11), 1], 3⟩ := by
    have e1 : ((1 : K) - 1 / 10 ^ 11) * (4 * (2 - 1 / 10 ^ 11) - (-2) ^ 2) - (-2) ^ 2
        = -8 / 10 ^ 11 + 4 / 10 ^ 22 := by norm_num
    have e2 : (-2 : K) * -2 - 4 * (1 - 1 / 10 ^ 11) = 4 / 10 ^ 11 := by norm_num
    rw [e1, e2]
    rfl
  simp only [getQuarticEquationSolution, hb, hc, hd, he, hres, flat_factor_resolvent M hM]
  have ht0 : ((-2 : K) / 2) ^ 2 - (2 - 1 / 10 ^ 11) + (2 - 1 / 10 ^ 11) = 1 := by ring
  rw [ht0, if_neg (by norm_num [zeroEps]), if_pos one_pos, sqrt_one_eq M hM]
  have hq2 : getQuadraticEquationSolution M
      (setCoeff (setCoeff ((((ofDegree 2 : Polynomial K).setCoeff 2 1).setCoeff 1
        (-2 / 2 - 1)).setCoeff 0
          (1 / 2 * (2 - 1 / 10 ^ 11 - (-2 * (2 - 1 / 10 ^ 11) / 2 - -2) / 1))) 1 (-2 / 2 + 1)) 0
        (1 / 2 * (2 - 1 / 10 ^ 11 + (-2 * (2 - 1 / 10 ^ 11) / 2 - -2) / 1))) = [] := by
    apply quadratic_empty
    simp only [setCoeff, ofDegree, zeros, coeff, List.replicate, List.set_cons_succ,
      List.set_cons_zero, List.getD_cons_succ, List.getD_cons_zero]
    norm_num [zeroEps]
  have hq1 : getQuadraticEquationSolution M
      ((((ofDegree 2 : Polynomial K).setCoeff 2 1).setCoeff 1 (-2 / 2 - 1)).setCoeff 0
        (1 / 2 * (2 - 1 / 10 ^ 11 - (-2 * (2 - 1 / 10 ^ 11) / 2 - -2) / 1))) = [1] := by
    simp only [getQuadraticEquationSolution, setCoeff, ofDegree, zeros, coeff, List.replicate,
      List.set_cons_succ, List.set_cons_zero, List.getD_cons_succ, List.getD_cons_zero]
    have hdisc : ((-2 : K) / 2 - 1) ^ 2
        - 4 * 1 * (1 / 2 * (2 - 1 / 10 ^ 11 - (-2 * (2 - 1 / 10 ^ 11) / 2 - -2) / 1))
        = 4 / 10 ^ 11 := by
      norm_num
    have habs : |(4 : K) / 10 ^ 11| < zeroEps := by
      rw [abs_of_pos (by positivity)]
      norm_num [zeroEps]
    rw [hdisc, if_pos habs]
    norm_num
  rw [hq1, hq2]
  rfl

/-- The resolvent root in the form in which `getQuarticEquationSolution` builds the
resolvent from the coefficients of `(x^2 - 2x + 1 - 1e-11) (x^2 + 1)`. -/
theorem flat_factor_t0_root (M : Libm K) (hM : Exact M) :
    (getCubicEquationSolution M (ofList
      [(1 - 1 / 10 ^ 11) / 1 * (4 * ((2 - 1 / 10 ^ 11) / 1) - (-2 / 1) ^ 2) - (-2 / 1) ^ 2,
        -2 / 1 * (-2 / 1) - 4 * ((1 - 1 / 10 ^ 11) / 1), -((2 - 1 / 10 ^ 11) / 1),
        (1 : K)])).getD 0 0 = 2 - 1 / 10 ^ 11 := by
  have hres : (ofList
      [(1 - 1 / 10 ^ 11) / 1 * (4 * ((2 - 1 / 10 ^ 11) / 1) - (-2 / 1) ^ 2) - (-2 / 1) ^ 2,
        -2 / 1 * (-2 / 1) - 4 * ((1 - 1 / 10 ^ 11) / 1), -((2 - 1 / 10 ^ 11) / 1),
        (1 : K)] : Polynomial K)
      = ⟨[-8 / 10 ^ 11 + 4 / 10 ^ 22, 4 / 10 ^ 11, -(2 - 1 / 10 ^ 11), 1], 3⟩ := by
    have e1 : ((1 : K) - 1 / 10 ^ 11) / 1 * (4 * ((2 - 1 / 10 ^ 11) / 1) - (-2 / 1) ^ 2)
        - (-2 / 1) ^ 2 = -8 / 10 ^ 11 + 4 / 10 ^ 22 := by norm_num
    have e2 : (-2 : K) / 1 * (-2 / 1) - 4 * ((1 - 1 / 10 ^ 11) / 1) = 4 / 10 ^ 11 := by norm_num
    have e3 : -(((2 : K) - 1 / 10 ^ 11) / 1) = -(2 - 1 / 10 ^ 11) := by norm_num
    rw [e1, e2, e3]
    rfl
  rw [hres]
  exact flat_factor_resolvent M hM

/-- C31 (amended): for every polynomial of normalized degree 4 (degree field =
coefficient count minus one, coefficients above index 4 negligible, leading
coefficient at least `1e-10` in absolute value) with monic form
`x^4 + b x^3 + c x^2 + d x + e` and `y` the resolvent root taken by
`getQuarticEquationSolution`: if `b^2/4 - c + y >= 1e-10`, then with
`s = sqrt(b^2/4 - c + y)` and `t = b y / 2 - d` the two quadratics
`x^2 + (b/2 - s) x + (y - t/s) / 2` and `x^2 + (b/2 + s) x + (y + t/s) / 2` multiply
to the monic quartic, `roots()`
returns, and every returned value is a root of the quartic or is the value `-P/2`
returned for one of the two quadratics `x^2 + P x + Q` whose discriminant
`P^2 - 4Q` is below `1e-10` in absolute value; the `<cmath>` functions are exact. -/
theorem roots_quartic_ferrari (M : Libm K) (hM : Exact M) (fuel : Nat) (p : Polynomial K)
    (hwf : WF p) (hhigh : ∀ i, 4 < i → |p.coeff i| < zeroEps) (ha : zeroEps ≤ |p.coeff 4|) :
    let b := p.coeff 3 / p.coeff 4
    let c := p.coeff 2 / p.coeff 4
    let d := p.coeff 1 / p.coeff 4
    let e := p.coeff 0 / p.coeff 4
    let y := (getCubicEquationSolution M
      (ofList [e * (4 * c - b ^ 2) - d ^ 2, b * d - 4 * e, -c, 1])).getD 0 0
    let s := M.sqrt ((b / 2) ^ 2 - c + y)
    zeroEps ≤ (b / 2) ^ 2 - c + y →
      (∀ x, (x ^ 2 + (b / 2 - s) * x + 1 / 2 * (y - (b * y / 2 - d) / s))
          * (x ^ 2 + (b / 2 + s) * x + 1 / 2 * (y + (b * y / 2 - d) / s))
        = x ^ 4 + b * x ^ 3 + c * x ^ 2 + d * x + e) ∧
      ∃ out, roots M fuel p = some out ∧
        ∀ x ∈ out,
          p.coeff 4 * x ^ 4 + p.coeff 3 * x ^ 3 + p.coeff 2 * x ^ 2 + p.coeff 1 * x
            + p.coeff 0 = 0 ∨
          (|(b / 2 - s) ^ 2 - 4 * (1 / 2 * (y - (b * y / 2 - d) / s))| < zeroEps ∧
            x = -(b / 2 - s) / 2) ∨
          (|(b / 2 + s) ^ 2 - 4 * (1 / 2 * (y + (b * y / 2 - d) / s))| < zeroEps ∧
            x = -(b / 2 + s) / 2) := by
  intro b c d e y s ht0
  have hpos : (0 : K) < zeroEps := zeroEps_pos
  have ha0 : p.coeff 4 ≠ 0 := lead_ne_zero_four p ha
  have hyroot := cubic_head_root M hM
    (ofList [e * (4 * c - b ^ 2) - d ^ 2, b * d - 4 * e, -c, 1])
    (by
      show (1 : K) ≠ 0
      exact one_ne_zero)
  have hy : 1 * y ^ 3 + -c * y ^ 2 + (b * d - 4 * e) * y + (e * (4 * c - b ^ 2) - d ^ 2) = 0 :=
    hyroot
  have hs2 : s ^ 2 = (b / 2) ^ 2 - c + y := hM.sqrt_sq _ (by linarith)
  have hs0 : s ≠ 0 := by
    intro h
    rw [h] at hs2
    have : (0 : K) ^ 2 = 0 := by norm_num
    linarith
  have hfac := ferrari_factorization b c d e y s hs0 hs2 hy
  refine ⟨hfac, ?_⟩
  have h0 := coeff_take p.coeffs 4 p.deg 5 0 (by omega)
  have h1 := coeff_take p.coeffs 4 p.deg 5 1 (by omega)
  have h2 := coeff_take p.coeffs 4 p.deg 5 2 (by omega)
  have h3 := coeff_take p.coeffs 4 p.deg 5 3 (by omega)
  have h4 := coeff_take p.coeffs 4 p.deg 5 4 (by omega)
  refine ⟨_, roots_eq_quartic M fuel p hwf hhigh ha, ?_⟩
  simp only [getQuarticEquationSolution, h0, h1, h2, h3, h4]
  have hnot : ¬ |(p.coeff 3 / p.coeff 4 / 2) ^ 2 - p.coeff 2 / p.coeff 4 + y| < zeroEps := by
    rw [abs_of_pos (lt_of_lt_of_le hpos ht0)]
    exact not_lt.mpr ht0
  rw [if_neg hnot, if_pos (lt_of_lt_of_le hpos ht0)]
  have hmonic : ∀ x : K, x ^ 4 + b * x ^ 3 + c * x ^ 2 + d * x + e = 0 →
      p.coeff 4 * x ^ 4 + p.coeff 3 * x ^ 3 + p.coeff 2 * x ^ 2 + p.coeff 1 * x
        + p.coeff 0 = 0 := by
    intro x hx
    have : p.coeff 4 * (x ^ 4 + b * x ^ 3 + c * x ^ 2 + d * x + e)
        = p.coeff 4 * x ^ 4 + p.coeff 3 * x ^ 3 + p.coeff 2 * x ^ 2 + p.coeff 1 * x
          + p.coeff 0 := by
      show p.coeff 4 * (x ^ 4 + p.coeff 3 / p.coeff 4 * x ^ 3 + p.coeff 2 / p.coeff 4 * x ^ 2
        + p.coeff 1 / p.coeff 4 * x + p.coeff 0 / p.coeff 4) = _
      field_simp
      ring
    rw [← this, hx, mul_zero]
  intro x hx
  rw [List.mem_append] at hx
  rcases hx with hx | hx
  · rcases monic_quadratic_values M hM (b / 2 - s) (1 / 2 * (y - (b * y / 2 - d) / s)) _
      x hx rfl rfl rfl with h | h
    · left
      apply hmonic
      rw [← hfac x, h, zero_mul]
    · right
      left
      exact h
  · rcases monic_quadratic_values M hM (b / 2 + s) (1 / 2 * (y + (b * y / 2 - d) / s)) _
      x hx rfl rfl rfl with h | h
    · left
      apply hmonic
      rw [← hfac x, h, mul_zero]
    · right
      right
      exact h

/-- C31, as stated, fails when a quadratic factor has a discriminant below `1e-10`:
for `P = (x^2 - 2x + 1 - 1e-11) (x^2 + 1) = x^4 - 2x^3 + (2 - 1e-11) x^2 - 2x
+ 1 - 1e-11` the resolvent root is `y = 2 - 1e-11`, `b^2/4 - c + y = 1 >= 1e-10`, the
first quadratic is `x^2 - 2x + 1 - 1e-11` with discriminant `4e-11`, for which
`getQuadraticEquationSolution` returns the vertex `1`, and `roots()` returns `[1]`
although `P(1) = -2e-11` is not zero, whatever exact `<cmath>` is used. -/
theorem roots_quartic_returns_vertex_of_flat_factor :
    (∃ M : Libm ℝ, Exact M) ∧
    (∀ M : Libm ℝ, Exact M →
      let p : Polynomial ℝ := ofList [1 - 1 / 10 ^ 11, -2, 2 - 1 / 10 ^ 11, -2, 1]
      let b := p.coeff 3 / p.coeff 4
      let c := p.coeff 2 / p.coeff 4
      let d := p.coeff 1 / p.coeff 4
      let e := p.coeff 0 / p.coeff 4
      let y := (getCubicEquationSolution M
        (ofList [e * (4 * c - b ^ 2) - d ^ 2, b * d - 4 * e, -c, 1])).getD 0 0
      zeroEps ≤ (b / 2) ^ 2 - c + y ∧ roots M 0 p = some [1]) ∧
    eval (ofList [1 - 1 / 10 ^ 11, -2, 2 - 1 / 10 ^ 11, -2, 1] : Polynomial ℝ) 1 ≠ 0 ∧
    zeroEps ≤ |(ofList [1 - 1 / 10 ^ 11, -2, 2 - 1 / 10 ^ 11, -2, 1] : Polynomial ℝ).coeff 4| := by
  refine ⟨exists_exact_libm, ?_, ?_, ?_⟩
  · intro M hM p b c d e y
    refine ⟨?_, flat_factor_roots M hM 0⟩
    have hy : y = 2 - 1 / 10 ^ 11 := flat_factor_t0_root M hM
    have hb : b = -2 := by
      show (-2 : ℝ) / 1 = -2
      norm_num
    have hc : c = 2 - 1 / 10 ^ 11 := by
      show ((2 : ℝ) - 1 / 10 ^ 11) / 1 = 2 - 1 / 10 ^ 11
      norm_num
    rw [hy, hb, hc]
    norm_num [zeroEps]
  · simp only [eval, ofList, List.isEmpty_cons, Bool.false_eq_true, if_false, List.reverse_cons,
      List.reverse_nil, List.nil_append, List.cons_append, List.foldl_cons, List.foldl_nil]
    norm_num
  · have : (ofList [1 - 1 / 10 ^ 11, -2, 2 - 1 / 10 ^ 11, -2, 1] : Polynomial ℝ).coeff 4 = 1 :=
      rfl
    rw [this]
    norm_num [zeroEps]

theorem roots_quartic_ferrari_witness :
    ∃ M : Libm ℝ, Exact M ∧
      WF (ofList [1 - 1 / 10 ^ 11, -2, 2 - 1 / 10 ^ 11, -2, 1] : Polynomial ℝ) ∧
      zeroEps ≤ |(ofList [1 - 1 / 10 ^ 11, -2, 2 - 1 / 10 ^ 11, -2, 1] : Polynomial ℝ).coeff 4| ∧
      ∃ out, roots M 0 (ofList [1 - 1 / 10 ^ 11, -2, 2 - 1 / 10 ^ 11, -2, 1]) = some out ∧
        ∀ x ∈ out,
          (1 : ℝ) * x ^ 4 + -2 * x ^ 3 + (2 - 1 / 10 ^ 11) * x ^ 2 + -2 * x
            + (1 - 1 / 10 ^ 11) = 0 ∨ x = 1 := by
  obtain ⟨M, hM⟩ := exists_exact_libm
  have hhigh : ∀ i, 4 < i →
      |(ofList [1 - 1 / 10 ^ 11, -2, 2 - 1 / 10 ^ 11, -2, 1] : Polynomial ℝ).coeff i|
        < zeroEps := by
    intro i hi
    have : (ofList [1 - 1 / 10 ^ 11, -2, 2 - 1 / 10 ^ 11, -2, 1] : Polynomial ℝ).coeff i = 0 :=
      List.getD_eq_default _ _ (by simpa [ofList] using hi)
    rw [this, abs_zero]
    exact zeroEps_pos
  have ha : zeroEps
      ≤ |(ofList [1 - 1 / 10 ^ 11, -2, 2 - 1 / 10 ^ 11, -2, 1] : Polynomial ℝ).coeff 4| := by
    have : (ofList [1 - 1 / 10 ^ 11, -2, 2 - 1 / 10 ^ 11, -2, 1] : Polynomial ℝ).coeff 4 = 1 :=
      rfl
    rw [this]
    norm_num [zeroEps]
  have hy : (getCubicEquationSolution M (ofList
      [(1 - 1 / 10 ^ 11) / 1 * (4 * ((2 - 1 / 10 ^ 11) / 1) - (-2 / 1) ^ 2) - (-2 / 1) ^ 2,
        -2 / 1 * (-2 / 1) - 4 * ((1 - 1 / 10 ^ 11) / 1), -((2 - 1 / 10 ^ 11) / 1),
        (1 : ℝ)])).getD 0 0 = 2 - 1 / 10 ^ 11 := flat_factor_t0_root M hM
  have h := roots_quartic_ferrari M hM 0
    (ofList [1 - 1 / 10 ^ 11, -2, 2 - 1 / 10 ^ 11, -2, 1]) rfl hhigh ha
    (by
      change zeroEps ≤ ((-2 : ℝ) / 1 / 2) ^ 2 - (2 - 1 / 10 ^ 11) / 1
        + (getCubicEquationSolution M (ofList
          [(1 - 1 / 10 ^ 11) / 1 * (4 * ((2 - 1 / 10 ^ 11) / 1) - (-2 / 1) ^ 2) - (-2 / 1) ^ 2,
            -2 / 1 * (-2 / 1) - 4 * ((1 - 1 / 10 ^ 11) / 1), -((2 - 1 / 10 ^ 11) / 1),
            (1 : ℝ)])).getD 0 0
      rw [hy]
      norm_num [zeroEps])
  obtain ⟨out, hout, hall⟩ := h.2
  refine ⟨M, hM, rfl, ha, out, hout, ?_⟩
  rw [flat_factor_roots M hM 0] at hout
  cases hout
  intro x hx
  rw [List.mem_singleton] at hx
  exact Or.inr hx

end Polynomial
namespace Polynomial

/-! ## Ferrari's method on a quartic with four known roots -/

theorem sqrt_of_sq (M : Libm K) (hM : Exact M) (x : K) (hx : 0 ≤ x) : M.sqrt (x ^ 2) = x := by
  have h0 := hM.sqrt_nonneg (x ^ 2)
  have h2 := hM.sqrt_sq (x ^ 2) (sq_nonneg x)
  have h : (M.sqrt (x ^ 2) - x) * (M.sqrt (x ^ 2) + x) = 0 := by linear_combination h2
  rcases mul_eq_zero.mp h with h | h
  · linarith
  · linarith

/-- The values `getQuadraticEquationSolution` returns for `(x - lo) (x - hi)`. -/
theorem quadratic_of_roots (M : Libm K) (hM : Exact M) (q : Polynomial K) (lo hi : K)
    (h2 : q.coeff 2 = 1) (h1 : q.coeff 1 = -(lo + hi)) (h0 : q.coeff 0 = lo * hi)
    (hgap : 1 ≤ hi - lo) : getQuadraticEquationSolution M q = [hi, lo] := by
  have hd : (-(lo + hi)) ^ 2 - 4 * 1 * (lo * hi) = (hi - lo) ^ 2 := by ring
  have hge : (1 : K) ≤ (hi - lo) ^ 2 := by nlinarith
  have heps : (zeroEps : K) < 1 := by norm_num [zeroEps]
  simp only [getQuadraticEquationSolution, h2, h1, h0, hd]
  rw [if_neg (by rw [abs_of_pos (by linarith)]; linarith), if_pos (by linarith),
    sqrt_of_sq M hM (hi - lo) (by linarith)]
  congr 1
  · ring
  · congr 1
    ring

/-- Ferrari's method when the resolvent root taken is the sum of the products of the
pairs `lo1, hi1` and `lo2, hi2` of roots, the first pair having the larger sum. -/
theorem ferrari_with_pairing (M : Libm K) (hM : Exact M) (p : Polynomial K) (b c d e y : K)
    (hpb : p.coeff 3 / p.coeff 4 = b) (hpc : p.coeff 2 / p.coeff 4 = c)
    (hpd : p.coeff 1 / p.coeff 4 = d) (hpe : p.coeff 0 / p.coeff 4 = e)
    (hy : (getCubicEquationSolution M
      (ofList [e * (4 * c - b ^ 2) - d ^ 2, b * d - 4 * e, -c, 1])).getD 0 0 = y)
    (lo1 hi1 lo2 hi2 : K)
    (hb : b = -(lo1 + hi1 + lo2 + hi2))
    (hc : c = lo1 * hi1 + lo2 * hi2 + (lo1 + hi1) * (lo2 + hi2))
    (hd : d = -(lo1 * hi1 * (lo2 + hi2) + lo2 * hi2 * (lo1 + hi1)))
    (he : e = lo1 * hi1 * (lo2 * hi2))
    (hyv : y = lo1 * hi1 + lo2 * hi2)
    (h1 : 1 ≤ hi1 - lo1) (h2 : 1 ≤ hi2 - lo2)
    (hsum : (lo1 + hi1 = lo2 + hi2 ∧ lo1 * hi1 ≤ lo2 * hi2) ∨ 1 ≤ lo1 + hi1 - (lo2 + hi2)) :
    getQuarticEquationSolution M p = [hi1, lo1, hi2, lo2] := by
  have heps : (zeroEps : K) < 1 / 4 := by norm_num [zeroEps]
  have hpos : (0 : K) < zeroEps := zeroEps_pos
  have ht0 : (b / 2) ^ 2 - c + y = ((lo1 + hi1 - (lo2 + hi2)) / 2) ^ 2 := by
    rw [hb, hc, hyv]
    ring
  have hsplit : [hi1, lo1, hi2, lo2] = [hi1, lo1] ++ [hi2, lo2] := rfl
  simp only [getQuarticEquationSolution, hpb, hpc, hpd, hpe, hy]
  rcases hsum with ⟨hs, hprod⟩ | hs
  · have hz : (b / 2) ^ 2 - c + y = 0 := by
      rw [ht0]
      have : lo1 + hi1 - (lo2 + hi2) = 0 := by linarith
      rw [this]
      norm_num
    rw [if_pos (by rw [hz, abs_zero]; exact hpos)]
    have hsq : M.sqrt ((y / 2) ^ 2 - e) = (lo2 * hi2 - lo1 * hi1) / 2 := by
      have : (y / 2) ^ 2 - e = ((lo2 * hi2 - lo1 * hi1) / 2) ^ 2 := by
        rw [hyv, he]
        ring
      rw [this]
      exact sqrt_of_sq M hM _ (by linarith)
    rw [hsq, hsplit]
    congr 1
    · refine quadratic_of_roots M hM _ lo1 hi1 rfl ?_ ?_ h1
      · show b / 2 = -(lo1 + hi1)
        rw [hb]
        linear_combination (1 / 2) * hs
      · show y / 2 - (lo2 * hi2 - lo1 * hi1) / 2 = lo1 * hi1
        rw [hyv]
        ring
    · refine quadratic_of_roots M hM _ lo2 hi2 rfl ?_ ?_ h2
      · show b / 2 = -(lo2 + hi2)
        rw [hb]
        linear_combination (-1 / 2) * hs
      · show y / 2 + (lo2 * hi2 - lo1 * hi1) / 2 = lo2 * hi2
        rw [hyv]
        ring
  · have hD : (0 : K) < (lo1 + hi1 - (lo2 + hi2)) / 2 := by linarith
    have hge : (1 : K) / 4 ≤ (b / 2) ^ 2 - c + y := by
      rw [ht0]
      nlinarith
    rw [if_neg (by rw [abs_of_pos (by linarith)]; linarith), if_pos (by linarith)]
    have hsq : M.sqrt ((b / 2) ^ 2 - c + y) = (lo1 + hi1 - (lo2 + hi2)) / 2 := by
      rw [ht0]
      exact sqrt_of_sq M hM _ hD.le
    have ht1 : (b * y / 2 - d) / ((lo1 + hi1 - (lo2 + hi2)) / 2) = lo2 * hi2 - lo1 * hi1 := by
      rw [div_eq_iff hD.ne', hb, hyv, hd]
      ring
    rw [hsq, ht1, hsplit]
    congr 1
    · refine quadratic_of_roots M hM _ lo1 hi1 rfl ?_ ?_ h1
      · show b / 2 - (lo1 + hi1 - (lo2 + hi2)) / 2 = -(lo1 + hi1)
        rw [hb]
        ring
      · show 1 / 2 * (y - (lo2 * hi2 - lo1 * hi1)) = lo1 * hi1
        rw [hyv]
        ring
    · refine quadratic_of_roots M hM _ lo2 hi2 rfl ?_ ?_ h2
      · show b / 2 + (lo1 + hi1 - (lo2 + hi2)) / 2 = -(lo2 + hi2)
        rw [hb]
        ring
      · show 1 / 2 * (y + (lo2 * hi2 - lo1 * hi1)) = lo2 * hi2
        rw [hyv]
        ring

/-- The list `getQuarticEquationSolution` returns for the monic quartic with the roots
`r1 < r2 < r3 < r4`, each gap at least 1, and `r1 + r4 >= r2 + r3`: whichever root of
the resolvent the cubic solver puts first, `r4` comes first and precedes `r2`. -/
theorem quartic_of_roots (M : Libm K) (hM : Exact M) (p : Polynomial K) (r1 r2 r3 r4 : K)
    (h12 : 1 ≤ r2 - r1) (h23 : 1 ≤ r3 - r2) (h34 : 1 ≤ r4 - r3)
    (hsym : r1 + r4 = r2 + r3 ∨ 1 ≤ r1 + r4 - (r2 + r3))
    (hc4 : p.coeff 4 = 1) (hc3 : p.coeff 3 = -(r1 + r2 + r3 + r4))
    (hc2 : p.coeff 2 = r1 * r2 + r1 * r3 + r1 * r4 + r2 * r3 + r2 * r4 + r3 * r4)
    (hc1 : p.coeff 1 = -(r1 * r2 * r3 + r1 * r2 * r4 + r1 * r3 * r4 + r2 * r3 * r4))
    (hc0 : p.coeff 0 = r1 * r2 * r3 * r4) :
    getQuarticEquationSolution M p = [r4, r3, r2, r1] ∨
    getQuarticEquationSolution M p = [r4, r2, r3, r1] ∨
    getQuarticEquationSolution M p = [r4, r1, r3, r2] := by
  obtain ⟨b, hb⟩ : ∃ b : K, b = -(r1 + r2 + r3 + r4) := ⟨_, rfl⟩
  obtain ⟨c, hc⟩ : ∃ c : K, c = r1 * r2 + r1 * r3 + r1 * r4 + r2 * r3 + r2 * r4 + r3 * r4 :=
    ⟨_, rfl⟩
  obtain ⟨d, hd⟩ : ∃ d : K, d = -(r1 * r2 * r3 + r1 * r2 * r4 + r1 * r3 * r4 + r2 * r3 * r4) :=
    ⟨_, rfl⟩
  obtain ⟨e, he⟩ : ∃ e : K, e = r1 * r2 * r3 * r4 := ⟨_, rfl⟩
  have hpb : p.coeff 3 / p.coeff 4 = b := by rw [hc3, hc4, div_one, hb]
  have hpc : p.coeff 2 / p.coeff 4 = c := by rw [hc2, hc4, div_one, hc]
  have hpd : p.coeff 1 / p.coeff 4 = d := by rw [hc1, hc4, div_one, hd]
  have hpe : p.coeff 0 / p.coeff 4 = e := by rw [hc0, hc4, div_one, he]
  obtain ⟨y, hy⟩ : ∃ y : K, (getCubicEquationSolution M
      (ofList [e * (4 * c - b ^ 2) - d ^ 2, b * d - 4 * e, -c, 1])).getD 0 0 = y := ⟨_, rfl⟩
  have hyroot := cubic_head_root M hM
    (ofList [e * (4 * c - b ^ 2) - d ^ 2, b * d - 4 * e, -c, 1])
    (by
      show (1 : K) ≠ 0
      exact one_ne_zero)
  rw [hy] at hyroot
  have hyr : 1 * y ^ 3 + -c * y ^ 2 + (b * d - 4 * e) * y + (e * (4 * c - b ^ 2) - d ^ 2) = 0 :=
    hyroot
  have hfac : (y - (r1 * r2 + r3 * r4)) * ((y - (r1 * r3 + r2 * r4))
      * (y - (r1 * r4 + r2 * r3))) = 0 := by
    rw [hb, hc, hd, he] at hyr
    linear_combination hyr
  rcases mul_eq_zero.mp hfac with h | h
  · left
    exact ferrari_with_pairing M hM p b c d e y hpb hpc hpd hpe hy r3 r4 r1 r2
      (by rw [hb]; ring) (by rw [hc]; ring) (by rw [hd]; ring) (by rw [he]; ring)
      (by linear_combination h) h34 h12 (Or.inr (by linarith))
  · rcases mul_eq_zero.mp h with h | h
    · right
      left
      exact ferrari_with_pairing M hM p b c d e y hpb hpc hpd hpe hy r2 r4 r1 r3
        (by rw [hb]; ring) (by rw [hc]; ring) (by rw [hd]; ring) (by rw [he]; ring)
        (by linear_combination h) (by linarith) (by linarith) (Or.inr (by linarith))
    · right
      right
      refine ferrari_with_pairing M hM p b c d e y hpb hpc hpd hpe hy r1 r4 r2 r3
        (by rw [hb]; ring) (by rw [hc]; ring) (by rw [hd]; ring) (by rw [he]; ring)
        (by linear_combination h) (by linarith) h23 ?_
      rcases hsym with hs | hs
      · left
        refine ⟨hs, ?_⟩
        have : r2 * r3 - r1 * r4 = (r2 - r1) * (r3 - r1) := by linear_combination (-r1) * hs
        have hnn : 0 ≤ (r2 - r1) * (r3 - r1) := mul_nonneg (by linarith) (by linarith)
        linarith
      · right
        exact hs

end Polynomial
namespace Worker

/-! ## The stability test on the axis `n[1] = 0` -/

theorem potentialN_xx_axis (c : Coefficients K) (x : K) :
    (potentialN c).mixedPartial 2 0 x 0
      = 2 * c.a0 + 6 * c.b0 * x + 12 * c.a1 * x ^ 2 + 20 * c.d0 * x ^ 3
        + 30 * (c.a2 + c.b1) * x ^ 4 + 42 * c.d1 * x ^ 5 + 56 * (c.a3 + c.d2) * x ^ 6 := by
  unfold TwoVarsPolynomial.mixedPartial
  have hlen : (potentialN c).coeffs.length = 9 := rfl
  rw [hlen]
  simp only [Finset.sum_range_succ, Finset.sum_range_zero, potentialN, TwoVarsPolynomial.slot,
    TwoVarsPolynomial.setSlot, TwoVarsPolynomial.ofDegree, List.replicate, List.set_cons_succ,
    List.set_cons_zero, List.getD_cons_succ, List.getD_cons_zero, Polynomial.coeff,
    Polynomial.ofList, Polynomial.empty, zeros, List.isEmpty_cons, Bool.false_eq_true,
    if_false, List.length_cons, List.length_nil, List.length_singleton]
  norm_num [Nat.descFactorial]

theorem potentialN_yy_axis (c : Coefficients K) (x : K) :
    (potentialN c).mixedPartial 0 2 x 0
      = 2 * (c.a0 + -3 * c.b0 * x + 2 * c.a1 * x ^ 2 + -2 * c.d0 * x ^ 3
        + 3 * (c.a2 - 2 * c.b1) * x ^ 4 + -c.d1 * x ^ 5 + (4 * c.a3 - 5 * c.d2) * x ^ 6) := by
  unfold TwoVarsPolynomial.mixedPartial
  have hlen : (potentialN c).coeffs.length = 9 := rfl
  rw [hlen]
  simp only [Finset.sum_range_succ, Finset.sum_range_zero, potentialN, TwoVarsPolynomial.slot,
    TwoVarsPolynomial.setSlot, TwoVarsPolynomial.ofDegree, List.replicate, List.set_cons_succ,
    List.set_cons_zero, List.getD_cons_succ, List.getD_cons_zero, Polynomial.coeff,
    Polynomial.ofList, Polynomial.empty, zeros, List.isEmpty_cons, Bool.false_eq_true,
    if_false, List.length_cons, List.length_nil, List.length_singleton]
  norm_num [Nat.descFactorial]
  ring

theorem potentialN_xy_axis (c : Coefficients K) (x : K) :
    (potentialN c).mixedPartial 1 1 x 0 = 0 := by
  unfold TwoVarsPolynomial.mixedPartial
  have hlen : (potentialN c).coeffs.length = 9 := rfl
  rw [hlen]
  simp only [Finset.sum_range_succ, Finset.sum_range_zero, potentialN, TwoVarsPolynomial.slot,
    TwoVarsPolynomial.setSlot, TwoVarsPolynomial.ofDegree, List.replicate, List.set_cons_succ,
    List.set_cons_zero, List.getD_cons_succ, List.getD_cons_zero, Polynomial.coeff,
    Polynomial.ofList, Polynomial.empty, zeros, List.isEmpty_cons, Bool.false_eq_true,
    if_false, List.length_cons, List.length_nil, List.length_singleton]
  norm_num [Nat.descFactorial]

theorem potentialI_yy (c : Coefficients K) (i1 i2 : K) :
    (potentialI c).mixedPartial 0 2 i1 i2 = 2 * (c.b1 + c.d2 * i1) := by
  unfold TwoVarsPolynomial.mixedPartial
  have hlen : (potentialI c).coeffs.length = 3 := rfl
  rw [hlen]
  simp only [Finset.sum_range_succ, Finset.sum_range_zero, potentialI, TwoVarsPolynomial.slot,
    TwoVarsPolynomial.setSlot, TwoVarsPolynomial.ofDegree, List.replicate, List.set_cons_succ,
    List.set_cons_zero, List.getD_cons_succ, List.getD_cons_zero, Polynomial.coeff,
    Polynomial.ofList, Polynomial.empty, zeros, List.isEmpty_cons, Bool.false_eq_true,
    if_false, List.length_cons, List.length_nil, List.length_singleton]
  norm_num [Nat.descFactorial]
  ring

theorem potentialN_value_axis (c : Coefficients K) (x : K) :
    (potentialN c).mixedPartial 0 0 x 0
      = c.a0 * x ^ 2 + c.b0 * x ^ 3 + c.a1 * x ^ 4 + c.d0 * x ^ 5 + (c.a2 + c.b1) * x ^ 6
        + c.d1 * x ^ 7 + (c.a3 + c.d2) * x ^ 8 := by
  unfold TwoVarsPolynomial.mixedPartial
  have hlen : (potentialN c).coeffs.length = 9 := rfl
  rw [hlen]
  simp only [Finset.sum_range_succ, Finset.sum_range_zero, potentialN, TwoVarsPolynomial.slot,
    TwoVarsPolynomial.setSlot, TwoVarsPolynomial.ofDegree, List.replicate, List.set_cons_succ,
    List.set_cons_zero, List.getD_cons_succ, List.getD_cons_zero, Polynomial.coeff,
    Polynomial.ofList, Polynomial.empty, zeros, List.isEmpty_cons, Bool.false_eq_true,
    if_false, List.length_cons, List.length_nil, List.length_singleton]
  norm_num [Nat.descFactorial]

theorem scaled_nonnegligible (k v : K) (hk : 1 ≤ |k|) (hv : v = 0 ∨ zeroEps ≤ |v|) :
    k * v = 0 ∨ zeroEps ≤ |k * v| := by
  rcases hv with hv | hv
  · left
    rw [hv, mul_zero]
  · right
    rw [abs_mul]
    nlinarith [abs_nonneg v, abs_nonneg k]

/-- With `b[1] = d[1] = a[3] = d[2] = 0` the slots of `potentialN` hold multiples of the
model coefficients by nonzero integers. -/
theorem potentialN_clean_of (c : Coefficients K) (hnn : c.NonNegligible)
    (hb1 : c.b1 = 0) (hd1 : c.d1 = 0) (ha3 : c.a3 = 0) (hd2 : c.d2 = 0) :
    (potentialN c).Clean := by
  obtain ⟨a0, a1, a2, a3, b0, b1, d0, d1, d2⟩ := c
  simp only at hb1 hd1 ha3 hd2
  subst hb1 hd1 ha3 hd2
  have h_a0 : a0 = 0 ∨ zeroEps ≤ |a0| := hnn a0 (by simp)
  have h_a1 : a1 = 0 ∨ zeroEps ≤ |a1| := hnn a1 (by simp)
  have h_a2 : a2 = 0 ∨ zeroEps ≤ |a2| := hnn a2 (by simp)
  have h_b0 : b0 = 0 ∨ zeroEps ≤ |b0| := hnn b0 (by simp)
  have h_d0 : d0 = 0 ∨ zeroEps ≤ |d0| := hnn d0 (by simp)
  have k2 : (1 : K) ≤ |2| := by rw [le_abs]; norm_num
  have k3 : (1 : K) ≤ |3| := by rw [le_abs]; norm_num
  have km2 : (1 : K) ≤ |-2| := by rw [le_abs]; norm_num
  have km3 : (1 : K) ≤ |-3| := by rw [le_abs]; norm_num
  intro p hp
  simp only [potentialN, TwoVarsPolynomial.setSlot, TwoVarsPolynomial.ofDegree,
    List.replicate, List.set_cons_succ, List.set_cons_zero, List.mem_cons, List.mem_singleton,
    List.not_mem_nil, or_false] at hp
  rcases hp with rfl | rfl | rfl | rfl | rfl | rfl | rfl | rfl | rfl <;> intro a ha <;>
    simp only [Polynomial.ofList, Polynomial.empty, zeros, List.replicate, List.isEmpty_cons,
      Bool.false_eq_true, if_false, List.mem_cons, List.mem_singleton, List.not_mem_nil,
      or_false, mul_zero, sub_zero, add_zero, zero_add, neg_zero] at ha
  all_goals
    rcases ha with rfl | rfl | rfl | rfl | rfl | rfl | rfl | rfl | rfl
  all_goals
    first
      | exact Or.inl rfl
      | exact h_a0
      | exact h_a1
      | exact h_a2
      | exact h_b0
      | exact h_d0
      | exact scaled_nonnegligible _ _ k2 h_a1
      | exact scaled_nonnegligible _ _ k3 h_a2
      | exact scaled_nonnegligible _ _ km2 h_d0
      | exact scaled_nonnegligible _ _ km3 h_b0
      | exact scaled_nonnegligible _ _ km3 h_d0

theorem isPhaseStableI_flat (c : Coefficients K) (hnn : c.NonNegligible)
    (hb1 : c.b1 = 0) (hd2 : c.d2 = 0) (i1 i2 : K) : isPhaseStableI c i1 i2 = none := by
  unfold isPhaseStableI
  rw [stableTest_spec (potentialI c) (potentialI_wf c) (potentialI_clean c hnn) (le_refl 2),
    potentialI_yy, hb1, hd2]
  rw [if_pos]
  right
  nlinarith [sq_nonneg ((potentialI c).mixedPartial 1 1 i1 i2)]

theorem isPhaseStableN_axis (c : Coefficients K) (hc : (potentialN c).Clean) (x : K) :
    isPhaseStableN c x 0 =
      if 2 * c.a0 + 6 * c.b0 * x + 12 * c.a1 * x ^ 2 + 20 * c.d0 * x ^ 3
            + 30 * (c.a2 + c.b1) * x ^ 4 + 42 * c.d1 * x ^ 5 + 56 * (c.a3 + c.d2) * x ^ 6 ≤ 0 ∨
          (2 * c.a0 + 6 * c.b0 * x + 12 * c.a1 * x ^ 2 + 20 * c.d0 * x ^ 3
            + 30 * (c.a2 + c.b1) * x ^ 4 + 42 * c.d1 * x ^ 5 + 56 * (c.a3 + c.d2) * x ^ 6)
            * (2 * (c.a0 + -3 * c.b0 * x + 2 * c.a1 * x ^ 2 + -2 * c.d0 * x ^ 3
              + 3 * (c.a2 - 2 * c.b1) * x ^ 4 + -c.d1 * x ^ 5 + (4 * c.a3 - 5 * c.d2) * x ^ 6))
            - 0 ^ 2 ≤ 0
      then none
      else some (c.a0 * x ^ 2 + c.b0 * x ^ 3 + c.a1 * x ^ 4 + c.d0 * x ^ 5
        + (c.a2 + c.b1) * x ^ 6 + c.d1 * x ^ 7 + (c.a3 + c.d2) * x ^ 8) := by
  unfold isPhaseStableN
  rw [stableTest_spec (potentialN c) (potentialN_wf c) hc (show 2 ≤ 8 by decide),
    potentialN_xx_axis, potentialN_yy_axis, potentialN_xy_axis, potentialN_value_axis]

end Worker
namespace Worker

theorem axis_xx_identity (a0 a1 a2 a3 b0 b1 d0 d1 d2 r1 r2 r3 r4 x : K)
    (hb1 : b1 = 0) (hd1 : d1 = 0) (ha3 : a3 = 0) (hd2 : d2 = 0)
    (ha2 : 6 * a2 = 1) (hd0 : 5 * d0 = -(r1 + r2 + r3 + r4))
    (ha1 : 4 * a1 = r1 * r2 + r1 * r3 + r1 * r4 + r2 * r3 + r2 * r4 + r3 * r4)
    (hb0 : 3 * b0 = -(r1 * r2 * r3 + r1 * r2 * r4 + r1 * r3 * r4 + r2 * r3 * r4))
    (ha0 : 2 * a0 = r1 * r2 * r3 * r4) :
    2 * a0 + 6 * b0 * x + 12 * a1 * x ^ 2 + 20 * d0 * x ^ 3 + 30 * (a2 + b1) * x ^ 4
        + 42 * d1 * x ^ 5 + 56 * (a3 + d2) * x ^ 6
      = (x - r1) * (x - r2) * (x - r3) * (x - r4)
        + x * ((x - r2) * (x - r3) * (x - r4) + (x - r1) * (x - r3) * (x - r4)
          + (x - r1) * (x - r2) * (x - r4) + (x - r1) * (x - r2) * (x - r3)) := by
  linear_combination ha0 + 2 * x * hb0 + 3 * x ^ 2 * ha1 + 4 * x ^ 3 * hd0 + 5 * x ^ 4 * ha2
    + 30 * x ^ 4 * hb1 + 42 * x ^ 5 * hd1 + 56 * x ^ 6 * ha3 + 56 * x ^ 6 * hd2

theorem axis_yy_identity (a0 a1 a2 a3 b0 b1 d0 d1 d2 r1 r2 r3 r4 x : K)
    (hb1 : b1 = 0) (hd1 : d1 = 0) (ha3 : a3 = 0) (hd2 : d2 = 0)
    (ha2 : 6 * a2 = 1) (hd0 : 5 * d0 = -(r1 + r2 + r3 + r4))
    (ha1 : 4 * a1 = r1 * r2 + r1 * r3 + r1 * r4 + r2 * r3 + r2 * r4 + r3 * r4)
    (hb0 : 3 * b0 = -(r1 * r2 * r3 + r1 * r2 * r4 + r1 * r3 * r4 + r2 * r3 * r4))
    (ha0 : 2 * a0 = r1 * r2 * r3 * r4) :
    2 * (a0 + -3 * b0 * x + 2 * a1 * x ^ 2 + -2 * d0 * x ^ 3 + 3 * (a2 - 2 * b1) * x ^ 4
        + -d1 * x ^ 5 + (4 * a3 - 5 * d2) * x ^ 6)
      = r1 * r2 * r3 * r4
        + 2 * (r1 * r2 * r3 + r1 * r2 * r4 + r1 * r3 * r4 + r2 * r3 * r4) * x
        + (r1 * r2 + r1 * r3 + r1 * r4 + r2 * r3 + r2 * r4 + r3 * r4) * x ^ 2
        + 4 / 5 * (r1 + r2 + r3 + r4) * x ^ 3 + x ^ 4 := by
  linear_combination ha0 - 2 * x * hb0 + x ^ 2 * ha1 - 4 / 5 * x ^ 3 * hd0 + x ^ 4 * ha2
    - 12 * x ^ 4 * hb1 - 2 * x ^ 5 * hd1 + 8 * x ^ 6 * ha3 - 10 * x ^ 6 * hd2

/-- The model coefficients of a quartic equation of state with four roots that are at
least 1 are not negligible. -/
theorem nonNegligible_of_four_roots (c : Coefficients K) (r1 r2 r3 r4 : K)
    (h1 : 1 ≤ r1) (h12 : 1 ≤ r2 - r1) (h23 : 1 ≤ r3 - r2) (h34 : 1 ≤ r4 - r3)
    (hb1 : c.b1 = 0) (hd1 : c.d1 = 0) (ha3 : c.a3 = 0) (hd2 : c.d2 = 0)
    (ha2 : 6 * c.a2 = 1) (hd0 : 5 * c.d0 = -(r1 + r2 + r3 + r4))
    (ha1 : 4 * c.a1 = r1 * r2 + r1 * r3 + r1 * r4 + r2 * r3 + r2 * r4 + r3 * r4)
    (hb0 : 3 * c.b0 = -(r1 * r2 * r3 + r1 * r2 * r4 + r1 * r3 * r4 + r2 * r3 * r4))
    (ha0 : 2 * c.a0 = r1 * r2 * r3 * r4) : c.NonNegligible := by
  have h0 : 0 < r1 := by linarith
  have hr2 : 0 < r2 := by linarith
  have hr3 : 0 < r3 := by linarith
  have hr4 : 0 < r4 := by linarith
  have he : (zeroEps : K) ≤ 1 / 6 := by norm_num [zeroEps]
  have hp12 : 1 ≤ r1 * r2 := by nlinarith
  have hp123 : 1 ≤ r1 * r2 * r3 := by nlinarith
  have hp1234 : 1 ≤ r1 * r2 * r3 * r4 := by nlinarith
  have hq13 : 0 < r1 * r3 := mul_pos h0 hr3
  have hq14 : 0 < r1 * r4 := mul_pos h0 hr4
  have hq23 : 0 < r2 * r3 := mul_pos hr2 hr3
  have hq24 : 0 < r2 * r4 := mul_pos hr2 hr4
  have hq34 : 0 < r3 * r4 := mul_pos hr3 hr4
  have hq124 : 0 < r1 * r2 * r4 := mul_pos (mul_pos h0 hr2) hr4
  have hq134 : 0 < r1 * r3 * r4 := mul_pos (mul_pos h0 hr3) hr4
  have hq234 : 0 < r2 * r3 * r4 := mul_pos (mul_pos hr2 hr3) hr4
  have he4 : 0 < r1 * r2 * r3 * r4 := mul_pos (mul_pos (mul_pos h0 hr2) hr3) hr4
  have he3 : 0 < r1 * r2 * r3 + r1 * r2 * r4 + r1 * r3 * r4 + r2 * r3 * r4 :=
    add_pos (add_pos (add_pos (mul_pos (mul_pos h0 hr2) hr3) hq124) hq134) hq234
  have he2 : 0 < r1 * r2 + r1 * r3 + r1 * r4 + r2 * r3 + r2 * r4 + r3 * r4 :=
    add_pos (add_pos (add_pos (add_pos (add_pos (mul_pos h0 hr2) hq13) hq14) hq23) hq24) hq34
  have he1 : 0 < r1 + r2 + r3 + r4 := add_pos (add_pos (add_pos h0 hr2) hr3) hr4
  intro a ha
  simp only [List.mem_cons, List.mem_singleton, List.not_mem_nil, or_false] at ha
  rcases ha with rfl | rfl | rfl | rfl | rfl | rfl | rfl | rfl | rfl
  · right
    rw [le_abs]
    left
    linarith
  · right
    rw [le_abs]
    left
    linarith
  · right
    rw [le_abs]
    left
    linarith
  · exact Or.inl ha3
  · right
    rw [le_abs]
    right
    linarith
  · exact Or.inl hb1
  · right
    rw [le_abs]
    right
    linarith
  · exact Or.inl hd1
  · exact Or.inl hd2

/-- The phase list of a coefficient set with `b[1] = d[1] = a[3] = d[2] = 0` and
`6 a[2] = 1` whose equation of state is `(x - r1) (x - r2) (x - r3) (x - r4)` with
`1 <= r1 < r2 < r3 < r4`, gaps of at least 1 and `r1 + r4 >= r2 + r3`: phase 1, then
the minimum at `r4`, then the minimum at `r2`, whatever exact `<cmath>` is used. -/
theorem getPhases_of_four_roots (M : Libm K) (hM : Polynomial.Exact M) (fuel : ℕ)
    (c : Coefficients K) (r1 r2 r3 r4 : K)
    (h1 : 1 ≤ r1) (h12 : 1 ≤ r2 - r1) (h23 : 1 ≤ r3 - r2) (h34 : 1 ≤ r4 - r3)
    (hsym : r1 + r4 = r2 + r3 ∨ 1 ≤ r1 + r4 - (r2 + r3))
    (hb1 : c.b1 = 0) (hd1 : c.d1 = 0) (ha3 : c.a3 = 0) (hd2 : c.d2 = 0)
    (ha2 : 6 * c.a2 = 1) (hd0 : 5 * c.d0 = -(r1 + r2 + r3 + r4))
    (ha1 : 4 * c.a1 = r1 * r2 + r1 * r3 + r1 * r4 + r2 * r3 + r2 * r4 + r3 * r4)
    (hb0 : 3 * c.b0 = -(r1 * r2 * r3 + r1 * r2 * r4 + r1 * r3 * r4 + r2 * r3 * r4))
    (ha0 : 2 * c.a0 = r1 * r2 * r3 * r4)
    (out : List (PhaseInfo K)) (h : getPhases M fuel c = some out) :
    out = [⟨1, 0, 0, 0⟩,
      ⟨3, c.a0 * r4 ^ 2 + c.b0 * r4 ^ 3 + c.a1 * r4 ^ 4 + c.d0 * r4 ^ 5 + c.a2 * r4 ^ 6, r4, 0⟩,
      ⟨3, c.a0 * r2 ^ 2 + c.b0 * r2 ^ 3 + c.a1 * r2 ^ 4 + c.d0 * r2 ^ 5 + c.a2 * r2 ^ 6,
        r2, 0⟩] := by
  have h0 : 0 < r1 := by linarith
  have hr2 : 0 < r2 := by linarith
  have hr3 : 0 < r3 := by linarith
  have hr4 : 0 < r4 := by linarith
  have hq13 : 0 < r1 * r3 := mul_pos h0 hr3
  have hq14 : 0 < r1 * r4 := mul_pos h0 hr4
  have hq23 : 0 < r2 * r3 := mul_pos hr2 hr3
  have hq24 : 0 < r2 * r4 := mul_pos hr2 hr4
  have hq34 : 0 < r3 * r4 := mul_pos hr3 hr4
  have hq124 : 0 < r1 * r2 * r4 := mul_pos (mul_pos h0 hr2) hr4
  have hq134 : 0 < r1 * r3 * r4 := mul_pos (mul_pos h0 hr3) hr4
  have hq234 : 0 < r2 * r3 * r4 := mul_pos (mul_pos hr2 hr3) hr4
  have he4 : 0 < r1 * r2 * r3 * r4 := mul_pos (mul_pos (mul_pos h0 hr2) hr3) hr4
  have he3 : 0 < r1 * r2 * r3 + r1 * r2 * r4 + r1 * r3 * r4 + r2 * r3 * r4 :=
    add_pos (add_pos (add_pos (mul_pos (mul_pos h0 hr2) hr3) hq124) hq134) hq234
  have he2 : 0 < r1 * r2 + r1 * r3 + r1 * r4 + r2 * r3 + r2 * r4 + r3 * r4 :=
    add_pos (add_pos (add_pos (add_pos (add_pos (mul_pos h0 hr2) hq13) hq14) hq23) hq24) hq34
  have he1 : 0 < r1 + r2 + r3 + r4 := add_pos (add_pos (add_pos h0 hr2) hr3) hr4
  have hnn := nonNegligible_of_four_roots c r1 r2 r3 r4 h1 h12 h23 h34 hb1 hd1 ha3 hd2 ha2 hd0
    ha1 hb0 ha0
  have hclean := potentialN_clean_of c hnn hb1 hd1 ha3 hd2
  obtain ⟨Fxx, hFxx⟩ : ∃ f : K → K, ∀ x, f x = 2 * c.a0 + 6 * c.b0 * x + 12 * c.a1 * x ^ 2
      + 20 * c.d0 * x ^ 3 + 30 * (c.a2 + c.b1) * x ^ 4 + 42 * c.d1 * x ^ 5
      + 56 * (c.a3 + c.d2) * x ^ 6 := ⟨fun x => _, fun _ => rfl⟩
  obtain ⟨Fyy, hFyy⟩ : ∃ f : K → K, ∀ x, f x = 2 * (c.a0 + -3 * c.b0 * x + 2 * c.a1 * x ^ 2
      + -2 * c.d0 * x ^ 3 + 3 * (c.a2 - 2 * c.b1) * x ^ 4 + -c.d1 * x ^ 5
      + (4 * c.a3 - 5 * c.d2) * x ^ 6) := ⟨fun x => _, fun _ => rfl⟩
  obtain ⟨Phi, hPhi⟩ : ∃ f : K → K, ∀ x, f x = c.a0 * x ^ 2 + c.b0 * x ^ 3 + c.a1 * x ^ 4
      + c.d0 * x ^ 5 + (c.a2 + c.b1) * x ^ 6 + c.d1 * x ^ 7 + (c.a3 + c.d2) * x ^ 8 :=
    ⟨fun x => _, fun _ => rfl⟩
  have hst : ∀ x, isPhaseStableN c x 0 =
      if Fxx x ≤ 0 ∨ Fxx x * Fyy x - 0 ^ 2 ≤ 0 then none else some (Phi x) := by
    intro x
    rw [isPhaseStableN_axis c hclean, hFxx, hFyy, hPhi]
  have hxx : ∀ x, Fxx x = (x - r1) * (x - r2) * (x - r3) * (x - r4)
      + x * ((x - r2) * (x - r3) * (x - r4) + (x - r1) * (x - r3) * (x - r4)
        + (x - r1) * (x - r2) * (x - r4) + (x - r1) * (x - r2) * (x - r3)) := by
    intro x
    rw [hFxx]
    exact axis_xx_identity c.a0 c.a1 c.a2 c.a3 c.b0 c.b1 c.d0 c.d1 c.d2 r1 r2 r3 r4 x
      hb1 hd1 ha3 hd2 ha2 hd0 ha1 hb0 ha0
  have hyy : ∀ x, Fyy x = r1 * r2 * r3 * r4
      + 2 * (r1 * r2 * r3 + r1 * r2 * r4 + r1 * r3 * r4 + r2 * r3 * r4) * x
      + (r1 * r2 + r1 * r3 + r1 * r4 + r2 * r3 + r2 * r4 + r3 * r4) * x ^ 2
      + 4 / 5 * (r1 + r2 + r3 + r4) * x ^ 3 + x ^ 4 := by
    intro x
    rw [hFyy]
    exact axis_yy_identity c.a0 c.a1 c.a2 c.a3 c.b0 c.b1 c.d0 c.d1 c.d2 r1 r2 r3 r4 x
      hb1 hd1 ha3 hd2 ha2 hd0 ha1 hb0 ha0
  have hyypos : ∀ x, 0 < x → 0 < Fyy x := by
    intro x hx
    rw [hyy]
    have t3 := mul_pos he3 hx
    have t2 := mul_pos he2 (pow_pos hx 2)
    have t1 := mul_pos he1 (pow_pos hx 3)
    have t0 := pow_pos hx 4
    linarith only [t0, t1, t2, t3, he4]
  have hmin : ∀ x, 0 < x → 0 < Fxx x → isPhaseStableN c x 0 = some (Phi x) := by
    intro x hx hA
    rw [hst, if_neg]
    rw [not_or, not_le, not_le]
    refine ⟨hA, ?_⟩
    have := mul_pos hA (hyypos x hx)
    have h0 : (0 : K) ^ 2 = 0 := by norm_num
    rw [h0, sub_zero]
    exact this
  have hmax : ∀ x, Fxx x < 0 → isPhaseStableN c x 0 = none := by
    intro x hA
    rw [hst, if_pos (Or.inl hA.le)]
  have hs1 : isPhaseStableN c r1 0 = none := by
    apply hmax
    have : Fxx r1 = -(r1 * ((r2 - r1) * (r3 - r1) * (r4 - r1))) := by
      rw [hxx]
      ring
    rw [this]
    have : 0 < r1 * ((r2 - r1) * (r3 - r1) * (r4 - r1)) :=
      mul_pos h0 (mul_pos (mul_pos (by linarith) (by linarith)) (by linarith))
    linarith
  have hs2 : isPhaseStableN c r2 0 = some (Phi r2) := by
    apply hmin r2 hr2
    have : Fxx r2 = r2 * ((r2 - r1) * (r3 - r2) * (r4 - r2)) := by
      rw [hxx]
      ring
    rw [this]
    exact mul_pos hr2 (mul_pos (mul_pos (by linarith) (by linarith)) (by linarith))
  have hs3 : isPhaseStableN c r3 0 = none := by
    apply hmax
    have : Fxx r3 = -(r3 * ((r3 - r1) * (r3 - r2) * (r4 - r3))) := by
      rw [hxx]
      ring
    rw [this]
    have : 0 < r3 * ((r3 - r1) * (r3 - r2) * (r4 - r3)) :=
      mul_pos hr3 (mul_pos (mul_pos (by linarith) (by linarith)) (by linarith))
    linarith
  have hs4 : isPhaseStableN c r4 0 = some (Phi r4) := by
    apply hmin r4 hr4
    have : Fxx r4 = r4 * ((r4 - r1) * (r4 - r2) * (r4 - r3)) := by
      rw [hxx]
      ring
    rw [this]
    exact mul_pos hr4 (mul_pos (mul_pos (by linarith) (by linarith)) (by linarith))
  have hphi : ∀ x, Phi x = c.a0 * x ^ 2 + c.b0 * x ^ 3 + c.a1 * x ^ 4 + c.d0 * x ^ 5
      + c.a2 * x ^ 6 := by
    intro x
    rw [hPhi, hb1, hd1, ha3, hd2]
    ring
  obtain ⟨sol, inv, l4, hsol, _, hl4, rfl⟩ := getPhases_parts M fuel c out h
  have hl4nil : l4 = [] := by
    apply List.eq_nil_iff_forall_not_mem.mpr
    intro r hr
    obtain ⟨item, _, _, hI, _⟩ := phases4_records M fuel c inv l4 hl4 r hr
    rw [isPhaseStableI_flat c hnn hb1 hd2] at hI
    simp at hI
  have ha0pos : 0 < c.a0 := by
    linarith
  have hlead : (6 : K) * (c.a2 + c.b1) = 1 := by
    rw [hb1, add_zero]
    exact ha2
  have hq := Polynomial.roots_eq_quartic M fuel
    (Polynomial.ofList [2 * c.a0, 3 * c.b0, 4 * c.a1, 5 * c.d0, 6 * (c.a2 + c.b1), 7 * c.d1,
      8 * (c.a3 + c.d2)]) (ofList_wf _)
    (by
      intro i hi
      have hz : (Polynomial.ofList [2 * c.a0, 3 * c.b0, 4 * c.a1, 5 * c.d0, 6 * (c.a2 + c.b1),
          7 * c.d1, 8 * (c.a3 + c.d2)]).coeff i = 0 := by
        rcases i with _ | _ | _ | _ | _ | _ | _ | i
        · omega
        · omega
        · omega
        · omega
        · omega
        · show 7 * c.d1 = 0
          rw [hd1, mul_zero]
        · show 8 * (c.a3 + c.d2) = 0
          rw [ha3, hd2, add_zero, mul_zero]
        · rfl
      rw [hz, abs_zero]
      exact Polynomial.zeroEps_pos)
    (by
      show zeroEps ≤ |6 * (c.a2 + c.b1)|
      rw [hlead, abs_one]
      norm_num [zeroEps])
  rw [hq] at hsol
  have hsol2 := (Option.some.inj hsol).symm
  have hcases := Polynomial.quartic_of_roots M hM
    ⟨(Polynomial.ofList [2 * c.a0, 3 * c.b0, 4 * c.a1, 5 * c.d0, 6 * (c.a2 + c.b1), 7 * c.d1,
      8 * (c.a3 + c.d2)]).coeffs.take 5, 4⟩ r1 r2 r3 r4 h12 h23 h34 hsym hlead
    (show 5 * c.d0 = _ from hd0) (show 4 * c.a1 = _ from ha1) (show 3 * c.b0 = _ from hb0)
    (show 2 * c.a0 = _ from ha0)
  rw [hl4nil, if_pos ha0pos, hsol2]
  have hn1 : ¬ r2 < 0 := not_lt.mpr hr2.le
  have hn4 : ¬ r4 < 0 := not_lt.mpr hr4.le
  rcases hcases with hc | hc | hc <;> rw [hc] <;>
    simp only [phases23, hs1, hs2, hs3, hs4, if_neg hn1, if_neg hn4, hphi, List.append_nil,
      List.singleton_append, List.cons_append, List.nil_append]

end Worker
namespace Worker

theorem switch_grid_cell_11 (M : Libm ℝ) (hM : Polynomial.Exact M) (fuel : ℕ)
    (out : List (PhaseInfo ℝ))
    (h : getPhases M fuel (cellCoeffs (ofSize 14444220 821470320
      (⟨17805006780, 2002481 / 4, 1 / 6, 0, -571588246 / 3, 0, -2516 / 5, 0, 0⟩ :
        Coefficients ℝ) 2 2) 1 1) = some out) :
    out = [⟨1, 0, 0, 0⟩, ⟨3, 70841551310271872 / 15, 1156, 0⟩,
      ⟨3, -4140148561375397 / 20, 323, 0⟩] := by
  have hc : cellCoeffs (ofSize 14444220 821470320
      (⟨17805006780, 2002481 / 4, 1 / 6, 0, -571588246 / 3, 0, -2516 / 5, 0, 0⟩ :
        Coefficients ℝ) 2 2) 1 1
      = ⟨17805006780, 2002481 / 4, 1 / 6, 0, -528255586 / 3, 0, -2516 / 5, 0, 0⟩ := by
    simp [cellCoeffs, ofSize]
    norm_num
  rw [hc] at h
  have := getPhases_of_four_roots M hM fuel _ 102 323 935 1156 (by norm_num) (by norm_num)
    (by norm_num) (by norm_num) (Or.inl (by norm_num)) rfl rfl rfl rfl (by norm_num)
    (by norm_num) (by norm_num) (by norm_num) (by norm_num) out h
  rw [this]
  norm_num

theorem switch_grid_cell_01 (M : Libm ℝ) (hM : Polynomial.Exact M) (fuel : ℕ)
    (out : List (PhaseInfo ℝ))
    (h : getPhases M fuel (cellCoeffs (ofSize 14444220 821470320
      (⟨17805006780, 2002481 / 4, 1 / 6, 0, -571588246 / 3, 0, -2516 / 5, 0, 0⟩ :
        Coefficients ℝ) 2 2) 0 1) = some out) :
    out = [⟨1, 0, 0, 0⟩, ⟨3, -112930180169428352 / 5, 1292, 0⟩,
      ⟨3, -24310933251469029 / 20, 561, 0⟩] := by
  have hc : cellCoeffs (ofSize 14444220 821470320
      (⟨17805006780, 2002481 / 4, 1 / 6, 0, -571588246 / 3, 0, -2516 / 5, 0, 0⟩ :
        Coefficients ℝ) 2 2) 0 1
      = ⟨17805006780, 2002481 / 4, 1 / 6, 0, -571588246 / 3, 0, -2516 / 5, 0, 0⟩ := by
    simp [cellCoeffs, ofSize]
  rw [hc] at h
  have := getPhases_of_four_roots M hM fuel _ 85 561 578 1292 (by norm_num) (by norm_num)
    (by norm_num) (by norm_num) (Or.inr (by norm_num)) rfl rfl rfl rfl (by norm_num)
    (by norm_num) (by norm_num) (by norm_num) (by norm_num) out h
  rw [this]
  norm_num

theorem switch_grid_cell_10 (M : Libm ℝ) (hM : Polynomial.Exact M) (fuel : ℕ)
    (out : List (PhaseInfo ℝ))
    (h : getPhases M fuel (cellCoeffs (ofSize 14444220 821470320
      (⟨17805006780, 2002481 / 4, 1 / 6, 0, -571588246 / 3, 0, -2516 / 5, 0, 0⟩ :
        Coefficients ℝ) 2 2) 1 0) = some out) :
    out = [⟨1, 0, 0, 0⟩, ⟨3, 348730996348958801 / 60, 1147, 0⟩,
      ⟨3, -625919569751168 / 5, 308, 0⟩] := by
  have hc : cellCoeffs (ofSize 14444220 821470320
      (⟨17805006780, 2002481 / 4, 1 / 6, 0, -571588246 / 3, 0, -2516 / 5, 0, 0⟩ :
        Coefficients ℝ) 2 2) 1 0
      = ⟨18626477100, 2002481 / 4, 1 / 6, 0, -528255586 / 3, 0, -2516 / 5, 0, 0⟩ := by
    simp [cellCoeffs, ofSize]
    norm_num
  rw [hc] at h
  have := getPhases_of_four_roots M hM fuel _ 111 308 950 1147 (by norm_num) (by norm_num)
    (by norm_num) (by norm_num) (Or.inl (by norm_num)) rfl rfl rfl rfl (by norm_num)
    (by norm_num) (by norm_num) (by norm_num) (by norm_num) out h
  rw [this]
  norm_num

/-- C36, as stated, fails on the 2 x 2 grid with `a[1] = 2002481/4`, `a[2] = 1/6`,
`d[0] = -2516/5`, start values `a[0] = 17805006780`, `b[0] = -571588246/3` and the
positive steps `stepX = 14444220`, `stepY = 821470320`, whatever exact `<cmath>` is
used. The equation of state of cell `(1, 1)` is `(x - 102)(x - 323)(x - 935)(x - 1156)`,
that of cell `(0, 1)` is `(x - 85)(x - 561)(x - 578)(x - 1292)` and that of cell `(1, 0)`
is `(x - 111)(x - 308)(x - 950)(x - 1147)`; each of the three phase lists is phase 1
followed by two records of type 3. The most stable record of cell `(1, 1)` is the
second type-3 record (index 2), that of cell `(0, 1)` is the first one (index 1): the
type sets agree, the indices differ and the flag of cell `(1, 1)` is set, although the
most stable record has type 3 in the cell and in both predecessor cells. -/
theorem transition_flag_between_records_of_one_type :
    (∃ M : Libm ℝ, Polynomial.Exact M) ∧
    ∀ M : Libm ℝ, Polynomial.Exact M →
      ∃ N, ∀ fuel, N ≤ fuel → ∃ w1 emitted,
        calculate M fuel (ofSize 14444220 821470320
          (⟨17805006780, 2002481 / 4, 1 / 6, 0, -571588246 / 3, 0, -2516 / 5, 0, 0⟩ :
            Coefficients ℝ) 2 2) = Run.done (w1, emitted) ∧
        (cell w1.data 1 1).transition = true ∧
        (cell w1.data 1 1).stablest = 2 ∧ (cell w1.data 0 1).stablest = 1 ∧
        (cell w1.data 1 0).stablest = 2 ∧
        getStablestPhaseType w1 1 1 = 3 ∧ getStablestPhaseType w1 0 1 = 3 ∧
        getStablestPhaseType w1 1 0 = 3 := by
  refine ⟨Polynomial.exists_exact_libm, fun M hM => ?_⟩
  obtain ⟨N, hN⟩ := calculate_terminates M (ofSize 14444220 821470320
    (⟨17805006780, 2002481 / 4, 1 / 6, 0, -571588246 / 3, 0, -2516 / 5, 0, 0⟩ :
      Coefficients ℝ) 2 2) (by simp [ofSize])
  refine ⟨N, fun fuel hfuel => ?_⟩
  obtain ⟨⟨w1, emitted⟩, hres⟩ := hN fuel hfuel
  refine ⟨w1, emitted, hres, ?_⟩
  obtain ⟨_, _, _, _, _, hcells, _⟩ := calculate_spec M fuel _ w1 emitted hres
  obtain ⟨_, _, hp11, hs11, ht11⟩ := hcells 1 1 (by simp [ofSize]) (by simp [ofSize])
  obtain ⟨_, _, hp01, hs01, _⟩ := hcells 0 1 (by simp [ofSize]) (by simp [ofSize])
  obtain ⟨_, _, hp10, hs10, _⟩ := hcells 1 0 (by simp [ofSize]) (by simp [ofSize])
  have e11 := switch_grid_cell_11 M hM fuel _ hp11
  have e01 := switch_grid_cell_01 M hM fuel _ hp01
  have e10 := switch_grid_cell_10 M hM fuel _ hp10
  have s11 : (cell w1.data 1 1).stablest = 2 := by
    rw [hs11, e11]
    norm_num [stablestOf, minElementLoop]
  have s01 : (cell w1.data 0 1).stablest = 1 := by
    rw [hs01, e01]
    norm_num [stablestOf, minElementLoop]
  have s10 : (cell w1.data 1 0).stablest = 2 := by
    rw [hs10, e10]
    norm_num [stablestOf, minElementLoop]
  refine ⟨?_, s11, s01, s10, ?_, ?_, ?_⟩
  · rw [ht11, if_pos ⟨by decide, by decide⟩]
    unfold transitionOf
    simp only [Nat.sub_self, e11, e01, e10, s11, s01, s10]
    simp [typeBits, bitCount]
  · unfold getStablestPhaseType
    simp only [s11, e11]
    simp
  · unfold getStablestPhaseType
    simp only [s01, e01]
    simp
  · unfold getStablestPhaseType
    simp only [s10, e10]
    simp

end Worker
namespace Worker

/-! ## What a set transition flag says about the most stable records -/

theorem stablest_type_ne (l1 l2 : List (PhaseInfo K)) (s1 s2 : ℕ) (h1 : s1 < l1.length)
    (h2 : s2 < l2.length) (hmap : l1.map PhaseInfo.type = l2.map PhaseInfo.type)
    (hnd : (l1.map PhaseInfo.type).Nodup) (hne : s1 ≠ s2) :
    (l1.getD s1 ⟨0, 0, 0, 0⟩).type ≠ (l2.getD s2 ⟨0, 0, 0, 0⟩).type := by
  intro heq
  rw [List.getD_eq_getElem _ _ h1, List.getD_eq_getElem _ _ h2] at heq
  have e1 : (l1.map PhaseInfo.type)[s1]? = some (l1[s1].type) := by
    rw [List.getElem?_map, List.getElem?_eq_getElem h1]
    rfl
  have e2 : (l1.map PhaseInfo.type)[s2]? = some (l2[s2].type) := by
    rw [hmap, List.getElem?_map, List.getElem?_eq_getElem h2]
    rfl
  have hlen : (l1.map PhaseInfo.type).length = l1.length := List.length_map _ _
  have hlen2 : l1.length = l2.length := by
    have := congrArg List.length hmap
    simpa using this
  rw [List.nodup_iff_getElem?_ne_getElem?] at hnd
  rcases lt_or_gt_of_ne hne with hlt | hgt
  · exact hnd s1 s2 hlt (by omega) (by rw [e1, e2, heq])
  · exact hnd s2 s1 hgt (by omega) (by rw [e1, e2, heq])

theorem transitionWith_types (M : Libm K) (fuel : ℕ) (w w1 : Worker K) (i j a b : ℕ)
    (hc : CellFinal M fuel w w1.data i j) (hn : CellFinal M fuel w w1.data a b)
    (ht : transitionWith (cell w1.data i j) (cell w1.data a b))
    (hseq : (cell w1.data i j).phases.map PhaseInfo.type
        = (cell w1.data a b).phases.map PhaseInfo.type)
    (hnd : ((cell w1.data i j).phases.map PhaseInfo.type).Nodup) :
    getStablestPhaseType w1 i j ≠ getStablestPhaseType w1 a b := by
  obtain ⟨hc1, hc2, hset, hne⟩ := ht
  have hne1 : (cell w1.data i j).phases ≠ [] := by
    intro h
    simp [typeSet, h] at hc1
  have hne2 : (cell w1.data a b).phases ≠ [] := by
    intro h
    simp [typeSet, h] at hc2
  obtain ⟨_, hr1, _, _⟩ := cellFinal_stablest M fuel w w1 i j hc
  obtain ⟨_, hr2, _, _⟩ := cellFinal_stablest M fuel w w1 a b hn
  obtain ⟨p1, p2, _, _⟩ := hr1 hne1
  obtain ⟨q1, q2, _, _⟩ := hr2 hne2
  unfold getStablestPhaseType
  simp only
  rw [if_neg (by omega), if_neg (by omega)]
  exact stablest_type_ne _ _ _ _ (by omega) (by omega) hseq hnd (by omega)

/-- C36, amended: `calculate()` completes on every rectangular grid whose width is not
1 (with enough fuel for the root searches), and if the flags of column 0 and row 0 are
false before the run, then every cell `(i, j)` whose transition flag is true afterwards
has `i >= 1` and `j >= 1`, and for at least one of its two predecessor cells
(previous column or previous row): the cell and the predecessor have the same set of
more than one phase type and the indices of their most stable records differ; if in
addition the two phase lists show the same sequence of types and no type twice, the
phase types of the two most stable records differ. -/
theorem calculate_flag_means_index_switch [Archimedean K] (M : Libm K) (w : Worker K) (H : ℕ)
    (hw : w.data.length ≠ 1) (hrect : ∀ col ∈ w.data, col.length = H)
    (hfirst : ∀ i j, i = 0 ∨ j = 0 → (cell w.data i j).transition = false) :
    (∃ N, ∀ fuel, N ≤ fuel → ∃ res, calculate M fuel w = Run.done res) ∧
    ∀ fuel w1 emitted, calculate M fuel w = Run.done (w1, emitted) →
      ∀ i j, i < w.data.length → j < H → (cell w1.data i j).transition = true →
        1 ≤ i ∧ 1 ≤ j ∧
        ∃ nb : ℕ × ℕ, (nb = (i - 1, j) ∨ nb = (i, j - 1)) ∧
          transitionWith (cell w1.data i j) (cell w1.data nb.1 nb.2) ∧
          ((cell w1.data i j).phases.map PhaseInfo.type
                = (cell w1.data nb.1 nb.2).phases.map PhaseInfo.type →
            ((cell w1.data i j).phases.map PhaseInfo.type).Nodup →
            getStablestPhaseType w1 i j ≠ getStablestPhaseType w1 nb.1 nb.2) := by
  refine ⟨calculate_terminates M w hw, ?_⟩
  intro fuel w1 emitted h i j hi hj hflag
  obtain ⟨_, _, _, _, _, hcells, _⟩ := calculate_spec M fuel w w1 emitted h
  have hH : ∀ k, k < w.data.length → (w.data.getD k []).length = H :=
    fun k hk => col_length_of_rect w.data H hrect k hk
  obtain ⟨hzero, hpos⟩ := calculate_transition M fuel w w1 emitted H hrect h i j hi hj
  have hij : 1 ≤ i ∧ 1 ≤ j := by
    by_contra hcon
    have h0 : i = 0 ∨ j = 0 := by omega
    rw [hzero h0, hfirst i j h0] at hflag
    exact absurd hflag (by decide)
  refine ⟨hij.1, hij.2, ?_⟩
  have hc := hcells i j hi (by rw [hH i hi]; exact hj)
  rcases (hpos hij.1 hij.2).1.mp hflag with ht | ht
  · have hn := hcells (i - 1) j (by omega) (by rw [hH _ (by omega)]; exact hj)
    exact ⟨(i - 1, j), Or.inl rfl, ht, fun hseq hnd =>
      transitionWith_types M fuel w w1 i j (i - 1) j hc hn ht hseq hnd⟩
  · have hn := hcells i (j - 1) hi (by rw [hH _ hi]; omega)
    exact ⟨(i, j - 1), Or.inr rfl, ht, fun hseq hnd =>
      transitionWith_types M fuel w w1 i j i (j - 1) hc hn ht hseq hnd⟩

theorem calculate_flag_means_index_switch_witness :
    (ofSize 1 0 (⟨1, 1, 0, 0, 2, 0, 0, 0, 0⟩ : Coefficients ℚ) 2 2).data.length ≠ 1 ∧
    (∀ col ∈ (ofSize 1 0 (⟨1, 1, 0, 0, 2, 0, 0, 0, 0⟩ : Coefficients ℚ) 2 2).data,
      col.length = 2) ∧
    (∃ w1 emitted,
      calculate ratLibm 5 (ofSize 1 0 (⟨1, 1, 0, 0, 2, 0, 0, 0, 0⟩ : Coefficients ℚ) 2 2)
        = Run.done (w1, emitted) ∧
      (cell w1.data 1 1).transition = true ∧
      ∃ nb : ℕ × ℕ, (nb = (1 - 1, 1) ∨ nb = (1, 1 - 1)) ∧
        transitionWith (cell w1.data 1 1) (cell w1.data nb.1 nb.2) ∧
        ((cell w1.data 1 1).phases.map PhaseInfo.type
              = (cell w1.data nb.1 nb.2).phases.map PhaseInfo.type →
          ((cell w1.data 1 1).phases.map PhaseInfo.type).Nodup →
          getStablestPhaseType w1 1 1 ≠ getStablestPhaseType w1 nb.1 nb.2)) := by
  have hrun : calculate ratLibm 5
      (ofSize 1 0 (⟨1, 1, 0, 0, 2, 0, 0, 0, 0⟩ : Coefficients ℚ) 2 2)
      = Run.done ((⟨1, 0, ⟨1, 1, 0, 0, 2, 0, 0, 0, 0⟩,
          [[⟨2, 1, false, 0, [⟨1, 0, 0, 0⟩, ⟨2, 0, -1, 0⟩]⟩,
            ⟨2, 1, false, 0, [⟨1, 0, 0, 0⟩, ⟨2, 0, -1, 0⟩]⟩],
           [⟨3, 1, false, 1, [⟨1, 0, 0, 0⟩, ⟨2, -4, -2, 0⟩]⟩,
            ⟨3, 1, true, 1, [⟨1, 0, 0, 0⟩, ⟨2, -4, -2, 0⟩]⟩]]⟩ : Worker ℚ), [0, 100]) := by
    decide!
  have h := (calculate_flag_means_index_switch ratLibm
    (ofSize 1 0 (⟨1, 1, 0, 0, 2, 0, 0, 0, 0⟩ : Coefficients ℚ) 2 2) 2 (by decide) (by decide)
    (fun i j _ => by rw [cell_ofSize]; rfl)).2 5 _ _ hrun 1 1 (by decide) (by decide) rfl
  exact ⟨by decide, by decide, _, _, hrun, rfl, h.2.2⟩

end Worker
namespace Worker

theorem state_equation_is_equilibrium_witness :
    (1 : ℝ) ≠ 0 ∧
    HasDerivAt (fun t => (potentialN (⟨-2, 1, 0, 0, 0, 0, 0, 0, 0⟩ : Coefficients ℝ)).eval t 0)
      (1 * Polynomial.eval (Polynomial.ofList [2 * -2, 3 * 0, 4 * 1, 5 * 0, 6 * (0 + 0), 7 * 0,
        8 * (0 + 0)]) 1) 1 ∧
    (Polynomial.eval (Polynomial.ofList [2 * -2, 3 * 0, 4 * 1, 5 * 0, 6 * (0 + 0), 7 * 0,
        8 * (0 + 0)]) (1 : ℝ) = 0 ↔
      deriv (fun t => (potentialN (⟨-2, 1, 0, 0, 0, 0, 0, 0, 0⟩ : Coefficients ℝ)).eval t 0) 1
        = 0) :=
  ⟨one_ne_zero, (state_equation_is_equilibrium ⟨-2, 1, 0, 0, 0, 0, 0, 0, 0⟩ 1).1,
    (state_equation_is_equilibrium ⟨-2, 1, 0, 0, 0, 0, 0, 0, 0⟩ 1).2 one_ne_zero⟩

end Worker
namespace Worker

/-! ## A coefficient set with a phase of type 4 -/

theorem potentialI_xx (c : Coefficients K) (i1 i2 : K) :
    (potentialI c).mixedPartial 2 0 i1 i2
      = 2 * c.a1 + 6 * c.a2 * i1 + 12 * c.a3 * i1 ^ 2 + 2 * c.d1 * i2 := by
  unfold TwoVarsPolynomial.mixedPartial
  have hlen : (potentialI c).coeffs.length = 3 := rfl
  rw [hlen]
  simp only [Finset.sum_range_succ, Finset.sum_range_zero, potentialI, TwoVarsPolynomial.slot,
    TwoVarsPolynomial.setSlot, TwoVarsPolynomial.ofDegree, List.replicate, List.set_cons_succ,
    List.set_cons_zero, List.getD_cons_succ, List.getD_cons_zero, Polynomial.coeff,
    Polynomial.ofList, Polynomial.empty, zeros, List.isEmpty_cons, Bool.false_eq_true,
    if_false, List.length_cons, List.length_nil, List.length_singleton]
  norm_num [Nat.descFactorial]

theorem potentialI_xy (c : Coefficients K) (i1 i2 : K) :
    (potentialI c).mixedPartial 1 1 i1 i2 = c.d0 + 2 * c.d1 * i1 + 2 * c.d2 * i2 := by
  unfold TwoVarsPolynomial.mixedPartial
  have hlen : (potentialI c).coeffs.length = 3 := rfl
  rw [hlen]
  simp only [Finset.sum_range_succ, Finset.sum_range_zero, potentialI, TwoVarsPolynomial.slot,
    TwoVarsPolynomial.setSlot, TwoVarsPolynomial.ofDegree, List.replicate, List.set_cons_succ,
    List.set_cons_zero, List.getD_cons_succ, List.getD_cons_zero, Polynomial.coeff,
    Polynomial.ofList, Polynomial.empty, zeros, List.isEmpty_cons, Bool.false_eq_true,
    if_false, List.length_cons, List.length_nil, List.length_singleton]
  norm_num [Nat.descFactorial]

theorem potentialI_value (c : Coefficients K) (i1 i2 : K) :
    (potentialI c).mixedPartial 0 0 i1 i2
      = c.a0 * i1 + c.a1 * i1 ^ 2 + c.a2 * i1 ^ 3 + c.a3 * i1 ^ 4 + c.b0 * i2 + c.b1 * i2 ^ 2
        + c.d0 * i1 * i2 + c.d1 * i1 ^ 2 * i2 + c.d2 * i1 * i2 ^ 2 := by
  unfold TwoVarsPolynomial.mixedPartial
  have hlen : (potentialI c).coeffs.length = 3 := rfl
  rw [hlen]
  simp only [Finset.sum_range_succ, Finset.sum_range_zero, potentialI, TwoVarsPolynomial.slot,
    TwoVarsPolynomial.setSlot, TwoVarsPolynomial.ofDegree, List.replicate, List.set_cons_succ,
    List.set_cons_zero, List.getD_cons_succ, List.getD_cons_zero, Polynomial.coeff,
    Polynomial.ofList, Polynomial.empty, zeros, List.isEmpty_cons, Bool.false_eq_true,
    if_false, List.length_cons, List.length_nil, List.length_singleton]
  norm_num [Nat.descFactorial]
  ring

end Worker
namespace Polynomial

theorem type4_example_equation :
    sub (mul (ofList [(0 : K), 2 * 0]) (ofList [0, 0, 0]))
      (mul (ofList [(-2 : K), 2 * 1, 3 * 0, 4 * 0]) (ofList [2 * 1])) = ⟨[4, -4], 1⟩ := by
  have hl : mul (ofList [(0 : K), 2 * 0]) (ofList [0, 0, 0]) = ⟨[0], 0⟩ := by
    have h1 : mulRaw (ofList [(0 : K), 2 * 0]) (ofList [0, 0, 0]) = ⟨[0, 0, 0, 0], 3⟩ := by
      simp [mulRaw, mulLoop, ofList, ofDegree, zeros, List.range_succ, List.replicate]
    unfold mul
    rw [h1]
    norm_num [correctDegree, stripBack, decSize, zeroEps]
  have hr : mul (ofList [(-2 : K), 2 * 1, 3 * 0, 4 * 0]) (ofList [2 * 1]) = ⟨[-4, 4], 1⟩ := by
    have h1 : mulRaw (ofList [(-2 : K), 2 * 1, 3 * 0, 4 * 0]) (ofList [2 * 1])
        = ⟨[-4, 4, 0, 0], 3⟩ := by
      simp [mulRaw, mulLoop, ofList, ofDegree, zeros, List.range_succ, List.replicate]
      norm_num
    unfold mul
    rw [h1]
    norm_num [correctDegree, stripBack, decSize, zeroEps]
  have hn : neg (⟨[-4, 4], 1⟩ : Polynomial K) = ⟨[4, -4], 1⟩ := by
    norm_num [neg, negRaw, ofDegree, zeros, overwrite, correctDegree, stripBack, decSize, zeroEps]
  have ha : add (⟨[4, -4], 1⟩ : Polynomial K) ⟨[0], 0⟩ = ⟨[4, -4], 1⟩ := by
    norm_num [add, ofDegree, zeros, overwrite, transformPlus, correctDegree, stripBack, decSize,
      zeroEps]
  rw [hl, hr]
  unfold sub
  rw [hn, ha]

theorem type4_example_roots (M : Libm K) (fuel : ℕ) :
    roots M fuel (⟨[4, -4], 1⟩ : Polynomial K) = some [1] := by
  have hcd : correctDegree (⟨[4, -4], 1⟩ : Polynomial K) = ⟨[4, -4], 1⟩ := by
    norm_num [correctDegree, stripBack, decSize, zeroEps]
  unfold roots
  rw [hcd]
  show some (getLinearEquationSolution ⟨[4, -4], 1⟩) = some [1]
  norm_num [getLinearEquationSolution, coeff]

end Polynomial
namespace Worker

/-- For `a[0] = -2`, `a[1] = 1`, `b[1] = 1` and the other coefficients zero the phase-4
equation is `4 - 4 x` and the vector `inv` holds the one pair `(1, 0)`. -/
theorem type4_example_invariants (M : Libm K) (fuel : ℕ) :
    phase4Invariants M fuel (⟨-2, 1, 0, 0, 0, 1, 0, 0, 0⟩ : Coefficients K) = some [(1, 0)] := by
  simp only [phase4Invariants, if_true, one_ne_zero, if_false,
    Polynomial.type4_example_equation, Polynomial.type4_example_roots, Option.map_some',
    List.map_cons, List.map_nil]
  norm_num [Polynomial.eval, Polynomial.ofList]

theorem type4_example_stable :
    isPhaseStableI (⟨-2, 1, 0, 0, 0, 1, 0, 0, 0⟩ : Coefficients K) 1 0 = some (-1) := by
  have hnn : (⟨-2, 1, 0, 0, 0, 1, 0, 0, 0⟩ : Coefficients K).NonNegligible := by
    intro a ha
    simp only [List.mem_cons, List.mem_singleton, List.not_mem_nil, or_false] at ha
    rcases ha with rfl | rfl | rfl | rfl | rfl | rfl | rfl | rfl | rfl
    all_goals
      first
        | exact Or.inl rfl
        | exact Or.inr (by rw [le_abs]; norm_num [zeroEps])
  unfold isPhaseStableI
  rw [stableTest_spec _ (potentialI_wf _) (potentialI_clean _ hnn) (le_refl 2), potentialI_xx,
    potentialI_yy, potentialI_xy, potentialI_value]
  norm_num

/-- The pair `(1, 0)` yields a record of type 4 with potential `-1` for every exact
`<cmath>`: the first value `u` returned for `4 x^3 - 3 x` satisfies `u = 0` or
`u^2 = 3/4`, so that `1 - u^2 > 1e-10`. -/
theorem type4_example_record (M : Libm K) (hM : Polynomial.Exact M) (fuel : ℕ) :
    ∃ u : K, zeroEps < 1 - u ^ 2 ∧
      phases4 M fuel (⟨-2, 1, 0, 0, 0, 1, 0, 0, 0⟩ : Coefficients K) [(1, 0)]
        = some [⟨4, -1, u, M.sqrt (1 - u ^ 2)⟩] := by
  have hroot := Polynomial.cubic_head_root M hM (⟨[-1 * 0, -3 * 1, 0, 4], 3⟩ : Polynomial K)
    (by
      show (4 : K) ≠ 0
      norm_num)
  have hroot2 : (4 : K) * (Polynomial.getCubicEquationSolution M
      ⟨[-1 * 0, -3 * 1, 0, 4], 3⟩).getD 0 0 ^ 3
      + 0 * (Polynomial.getCubicEquationSolution M ⟨[-1 * 0, -3 * 1, 0, 4], 3⟩).getD 0 0 ^ 2
      + -3 * 1 * (Polynomial.getCubicEquationSolution M ⟨[-1 * 0, -3 * 1, 0, 4], 3⟩).getD 0 0
      + -1 * 0 = 0 := hroot
  have hsq : zeroEps < 1 - (Polynomial.getCubicEquationSolution M
      (⟨[-1 * 0, -3 * 1, 0, 4], 3⟩ : Polynomial K)).getD 0 0 ^ 2 := by
    generalize (Polynomial.getCubicEquationSolution M
      (⟨[-1 * 0, -3 * 1, 0, 4], 3⟩ : Polynomial K)).getD 0 0 = u at hroot2 ⊢
    have h : u * (4 * u ^ 2 - 3) = 0 := by linear_combination hroot2
    rcases mul_eq_zero.mp h with h | h
    · rw [h]
      norm_num [zeroEps]
    · have h2 : u ^ 2 = 3 / 4 := by linarith
      rw [h2]
      norm_num [zeroEps]
  refine ⟨_, hsq, ?_⟩
  rw [phases4_cons, type4_example_stable]
  simp only [phases4, Option.map_some', zero_lt_one, true_and, hsq, if_true]

/-- With `a[0] = -2`, `a[1] = 1`, `b[1] = 1` the result of `getPhases` ends with a record
of type 4. -/
theorem type4_example_phases (M : Libm K) (hM : Polynomial.Exact M) (fuel : ℕ)
    (out : List (PhaseInfo K))
    (h : getPhases M fuel (⟨-2, 1, 0, 0, 0, 1, 0, 0, 0⟩ : Coefficients K) = some out) :
    ∃ u : K, zeroEps < 1 - u ^ 2 ∧
      (⟨4, -1, u, M.sqrt (1 - u ^ 2)⟩ : PhaseInfo K) ∈ out := by
  obtain ⟨sol, inv, l4, _, hinv, hl4, rfl⟩ := getPhases_parts M fuel _ out h
  rw [type4_example_invariants] at hinv
  obtain ⟨u, hu, hrec⟩ := type4_example_record M hM fuel
  rw [← Option.some.inj hinv, hrec] at hl4
  refine ⟨u, hu, ?_⟩
  rw [← Option.some.inj hl4]
  simp

theorem phase4_record_reproduces_invariants_witness :
    ∃ M : Libm ℝ, Polynomial.Exact M ∧
      ∃ N, ∀ fuel, N ≤ fuel → ∃ out r,
        getPhases M fuel (⟨-2, 1, 0, 0, 0, 1, 0, 0, 0⟩ : Coefficients ℝ) = some out ∧
        r ∈ out ∧ r.type = 4 ∧ r.phi = -1 ∧
        phase4Invariants M fuel (⟨-2, 1, 0, 0, 0, 1, 0, 0, 0⟩ : Coefficients ℝ)
          = some [(1, 0)] ∧
        zeroEps < 1 - r.n0 ^ 2 ∧ r.n1 = M.sqrt (1 - r.n0 ^ 2) ∧
        r.n0 ^ 2 + r.n1 ^ 2 = 1 ∧ r.n0 ^ 3 - 3 * r.n0 * r.n1 ^ 2 = 0 := by
  obtain ⟨M, hM⟩ := Polynomial.exists_exact_libm
  have h := phase4_record_reproduces_invariants M hM
    (⟨-2, 1, 0, 0, 0, 1, 0, 0, 0⟩ : Coefficients ℝ)
  obtain ⟨N, hN⟩ := h.1
  refine ⟨M, hM, N, fun fuel hfuel => ?_⟩
  obtain ⟨out, hout⟩ := hN fuel hfuel
  obtain ⟨u, _, hmem⟩ := type4_example_phases M hM fuel out hout
  obtain ⟨inv, hinv, item, hitem, _, _, h3, h4, h5, h6⟩ :=
    h.2.1 fuel out hout _ hmem rfl
  rw [type4_example_invariants] at hinv
  rw [← Option.some.inj hinv, List.mem_singleton] at hitem
  rw [hitem] at h3 h4 h5 h6
  exact ⟨out, _, hout, hmem, rfl, rfl, type4_example_invariants M fuel, h3, h4, h5, h6⟩

end Worker
end PhaseDiagram
